import Mathlib

/-!
UnorderedMap: a hash table over one singly linked entry list

A verification development for `src/unordered_map.h`.

The C++ class keeps every entry in one intrusive singly linked list
(`ForwardList`, headed by the embedded sentinel `fake_node`) and a vector
`block_start_` that stores, per bucket, a pointer to the node *preceding* the
first node of that bucket's run (or `nullptr` when the bucket has no entry).

The embedding is pointer-level:

* `Ptr` is a pointer value: `nullptr`, the address of the sentinel embedded in
  the table object living at address `t`, or the address of a heap node.
* `Heap` is the memory: the allocated nodes, the `next` field of every
  sentinel, and the allocator's bump counter.
* every member function is a Lean function on `Heap × UnorderedMap` returning
  an `Option`; `none` stands for an execution without a result (undefined
  behaviour such as dereferencing `nullptr` or a freed node, indexing a vector
  out of range, dividing by zero, or a loop that never ends).

Idealisations, stated once: `size_t` is `Nat` (no wrap-around); allocation
and the hash/equality functors never throw, and the allocator never hands out
an address twice.  A `float` is the rational number it holds; every
conversion to `float` and every `float` operation rounds its exact result
with `to_float` (IEEE 754 binary32: 24 significant bits, round to nearest,
ties to even), the exponent range being taken as unbounded (no overflow to
infinity, no subnormal numbers).  `Hash` and `Equal` are
stateless functors, so they are parameters `hash_` and `equal_` of the model.
Loops that walk pointers run on a fuel of `fresh + 1` steps, where `fresh` is
the number of nodes ever allocated: a walk longer than that has revisited a
node and would never end.
-/

set_option autoImplicit false

/-! ## Memory -/

/-- Pointer values of type `BaseNode*`. -/
inductive Ptr where
  | null : Ptr
  | fake (t : Nat) : Ptr
  | node (a : Nat) : Ptr
deriving DecidableEq, Repr

/-- The struct `Node : BaseNode`: link, key and value of `key_value`, and the
stored bucket id `hash`. -/
structure Node (K V : Type) where
  next : Ptr
  key : K
  value : V
  hash : Nat
deriving DecidableEq

/-- The memory: heap nodes by address, the `next` field of the sentinel of
each table object by the object's address, and the allocator's counter. -/
structure Heap (K V : Type) where
  nodes : Nat → Option (Node K V)
  fake : Nat → Ptr
  fresh : Nat

section Model

variable {K V : Type}

/-- The memory in which nothing has been allocated. -/
def Heap.empty : Heap K V :=
  { nodes := fun _ => none, fake := fun _ => Ptr.null, fresh := 0 }

/-- Reads `p->next`. -/
def Heap.next (h : Heap K V) : Ptr → Option Ptr
  | Ptr.null => none
  | Ptr.fake t => some (h.fake t)
  | Ptr.node a => (h.nodes a).map (fun n => n.next)

/-- Performs `p->next = q`. -/
def Heap.setNext (h : Heap K V) (p q : Ptr) : Option (Heap K V) :=
  match p with
  | Ptr.null => none
  | Ptr.fake t => some { h with fake := Function.update h.fake t q }
  | Ptr.node a =>
    match h.nodes a with
    | none => none
    | some n => some { h with nodes := Function.update h.nodes a (some { n with next := q }) }

/-- Reads `*static_cast<Node*>(p)`. -/
def Heap.node? (h : Heap K V) : Ptr → Option (Node K V)
  | Ptr.node a => h.nodes a
  | _ => none

/-- Reads the stored bucket id, `base_iterator::get_hash`. -/
def Heap.get_hash (h : Heap K V) (p : Ptr) : Option Nat :=
  (h.node? p).map (fun n => n.hash)

/-- Performs `static_cast<Node*>(p)->hash = b`. -/
def Heap.setHash (h : Heap K V) (p : Ptr) (b : Nat) : Option (Heap K V) :=
  match p with
  | Ptr.node a =>
    match h.nodes a with
    | none => none
    | some n => some { h with nodes := Function.update h.nodes a (some { n with hash := b }) }
  | _ => none

/-- Performs `p->second = v` through a cursor. -/
def Heap.setValue (h : Heap K V) (p : Ptr) (v : V) : Option (Heap K V) :=
  match p with
  | Ptr.node a =>
    match h.nodes a with
    | none => none
    | some n => some { h with nodes := Function.update h.nodes a (some { n with value := v }) }
  | _ => none

/-- Allocates one node and constructs it, `AllocTraits::allocate` followed by
`construct`; the address is the allocator's counter. -/
def Heap.allocate (h : Heap K V) (n : Node K V) : Heap K V × Nat :=
  ({ h with nodes := Function.update h.nodes h.fresh (some n), fresh := h.fresh + 1 }, h.fresh)

/-- Destroys and releases one node, `AllocTraits::destroy` and `deallocate`. -/
def Heap.deallocate (h : Heap K V) (a : Nat) : Option (Heap K V) :=
  match h.nodes a with
  | none => none
  | some _ => some { h with nodes := Function.update h.nodes a none }

/-- The bound on pointer walks. -/
def Heap.fuel (h : Heap K V) : Nat := h.fresh + 1

/-! ## The type `float` -/

/-- The loop that counts how often a number can be halved before it drops
below 2. -/
def log2_loop : Nat → Nat → Nat
  | 0, _ => 0
  | f + 1, n => if n < 2 then 0 else log2_loop f (n / 2) + 1

/-- The position of the leading bit of a positive number. -/
def ilog2 (n : Nat) : Nat := log2_loop n n

/-- The power `2 ^ e` for an integer exponent. -/
def pow2 (e : Int) : ℚ :=
  match e with
  | Int.ofNat n => ((2 ^ n : Nat) : ℚ)
  | Int.negSucc n => 1 / ((2 ^ (n + 1) : Nat) : ℚ)

/-- Rounding to the nearest integer, a tie going to the even one. -/
def round_half_even (x : ℚ) : Int :=
  if x - (⌊x⌋ : ℚ) < 1 / 2 then ⌊x⌋
  else if 1 / 2 < x - (⌊x⌋ : ℚ) then ⌊x⌋ + 1
  else if ⌊x⌋ % 2 = 0 then ⌊x⌋ else ⌊x⌋ + 1

/-- The binary exponent of a positive number `x`: the `e` with
`2 ^ e ≤ x < 2 ^ (e + 1)`. -/
def float_exponent (x : ℚ) : Int :=
  if pow2 ((ilog2 x.num.natAbs : Int) - (ilog2 x.den : Int)) ≤ x
  then (ilog2 x.num.natAbs : Int) - (ilog2 x.den : Int)
  else (ilog2 x.num.natAbs : Int) - (ilog2 x.den : Int) - 1

/-- Rounding of a positive number to 24 significant bits. -/
def round_pos (x : ℚ) : ℚ :=
  (round_half_even (x / pow2 (float_exponent x - 23)) : ℚ) * pow2 (float_exponent x - 23)

/-- The `float` nearest to `x`: the result of a conversion to `float` or of
a `float` operation whose exact result is `x`. -/
def to_float (x : ℚ) : ℚ :=
  if x = 0 then 0 else if 0 < x then round_pos x else - round_pos (-x)

/-! ## ForwardList -/

/-- The class `ForwardList`: `fake_node` is the address of the object (its
sentinel), whose `next` field lives in the memory; `sz` is the counter. -/
structure ForwardList where
  fake_node : Nat
  sz : Nat
deriving DecidableEq, Repr

/-- The iterator `ForwardList::begin`, `iterator(fake_node.next)`. -/
def ForwardList.begin (l : ForwardList) (h : Heap K V) : Ptr := h.fake l.fake_node

/-- The iterator `ForwardList::fake_iterator`, `&fake_node`. -/
def ForwardList.fake_iterator (l : ForwardList) : Ptr := Ptr.fake l.fake_node

/-- Links a node after `place`: `ForwardList::insert(BaseNode*, Node*)`. -/
def ForwardList.insert (l : ForwardList) (h : Heap K V) (place : Ptr) (new_node : Nat) :
    Option (Heap K V × ForwardList) := do
  let nx ← h.next place
  let h1 ← h.setNext (Ptr.node new_node) nx
  let h2 ← h1.setNext place (Ptr.node new_node)
  pure (h2, { l with sz := l.sz + 1 })

/-- Links a node after the sentinel: `ForwardList::push_front`. -/
def ForwardList.push_front (l : ForwardList) (h : Heap K V) (new_node : Nat) :
    Option (Heap K V × ForwardList) :=
  l.insert h l.fake_iterator new_node

/-- Copies a node after `place`: the template `ForwardList::insert(BaseNode*, T&&)`
called with a `Node&`. -/
def ForwardList.insert_copy (l : ForwardList) (h : Heap K V) (place : Ptr) (src : Node K V) :
    Option (Heap K V × ForwardList) :=
  let (h0, a) := h.allocate src
  l.insert h0 place a

/-- Releases a node and decrements the counter: `ForwardList::erase`. -/
def ForwardList.erase (l : ForwardList) (h : Heap K V) (place : Ptr) :
    Option (Heap K V × ForwardList) :=
  match place with
  | Ptr.node a => do
    let h1 ← h.deallocate a
    pure (h1, { l with sz := l.sz - 1 })
  | _ => none

/-- The loop `for (i = 0; i < sz; ++i, ++start) iterators.push(start)`; the
result lists the pushed iterators bottom first. -/
def ForwardList.collect_n (h : Heap K V) : Nat → Ptr → Option (List Ptr)
  | 0, _ => some []
  | n + 1, p => do
    let q ← h.next p
    let r ← ForwardList.collect_n h n q
    pure (p :: r)

/-- The loop `while (!iterators.empty()) { erase(iterators.top()); pop }`. -/
def ForwardList.erase_all (l : ForwardList) (h : Heap K V) :
    List Ptr → Option (Heap K V × ForwardList)
  | [] => some (h, l)
  | p :: ps => do
    let (h1, l1) ← l.erase h p
    ForwardList.erase_all l1 h1 ps

/-- Frees every node and resets the head: `ForwardList::clear_list`. -/
def ForwardList.clear_list (l : ForwardList) (h : Heap K V) :
    Option (Heap K V × ForwardList) := do
  let iterators ← ForwardList.collect_n h l.sz (l.begin h)
  let (h1, l1) ← l.erase_all h iterators.reverse
  let h2 ← h1.setNext l1.fake_iterator Ptr.null
  pure (h2, l1)

/-- The loop `while (!iterators.empty()) { insert(&fake_node, top().get_node()); pop }`. -/
def ForwardList.copy_all (l : ForwardList) (h : Heap K V) :
    List Ptr → Option (Heap K V × ForwardList)
  | [] => some (h, l)
  | p :: ps => do
    let src ← h.node? p
    let (h1, l1) ← l.insert_copy h l.fake_iterator src
    ForwardList.copy_all l1 h1 ps

/-- The copy constructor `ForwardList(const ForwardList&)`, building the new
object at address `this_`. -/
def ForwardList.copy_construct (h : Heap K V) (other : ForwardList) (this_ : Nat) :
    Option (Heap K V × ForwardList) := do
  let l0 : ForwardList := { fake_node := this_, sz := 0 }
  let h0 ← h.setNext l0.fake_iterator Ptr.null
  let iterators ← ForwardList.collect_n h0 other.sz (other.begin h0)
  l0.copy_all h0 iterators.reverse

/-- Exchanges counter and head link: `ForwardList::swap`. -/
def ForwardList.swap (l other : ForwardList) (h : Heap K V) :
    Heap K V × ForwardList × ForwardList :=
  let a := h.fake l.fake_node
  let b := h.fake other.fake_node
  ({ h with fake := Function.update (Function.update h.fake l.fake_node b) other.fake_node a },
   { l with sz := other.sz }, { other with sz := l.sz })

/-- Copy assignment `ForwardList::operator=(const ForwardList&)`; the local
`helper` lives at address `tmp` and is destroyed on return. -/
def ForwardList.copy_assign (l : ForwardList) (h : Heap K V) (other : ForwardList) (tmp : Nat) :
    Option (Heap K V × ForwardList) :=
  if l.fake_node = other.fake_node then some (h, l) else do
    let (h1, helper) ← ForwardList.copy_construct h other tmp
    let (h2, l2, helper2) := l.swap helper h1
    let (h3, _) ← helper2.clear_list h2
    pure (h3, l2)

/-! ## UnorderedMap -/

/-- The data members of `UnorderedMap`; `nodes_list_.fake_node` is the address
of the table object. -/
structure UnorderedMap where
  capacity_ : Nat
  max_load_factor_ : ℚ
  nodes_list_ : ForwardList
  block_start_ : List Ptr

/-- The constant `kStartCapacity`. -/
def kStartCapacity : Nat := 15

/-- The member `size()`. -/
def UnorderedMap.size (t : UnorderedMap) : Nat := t.nodes_list_.sz

/-- The member `begin()`. -/
def UnorderedMap.begin (t : UnorderedMap) (h : Heap K V) : Ptr := t.nodes_list_.begin h

/-- The member `load_factor()`: `(float)size() / (float)capacity_`. -/
def UnorderedMap.load_factor (t : UnorderedMap) : ℚ :=
  if t.capacity_ = 0 then 0
  else to_float (to_float (t.size : ℚ) / to_float (t.capacity_ : ℚ))

/-- Performs `block_start_[i] = p`. -/
def setSlot (bs : List Ptr) (i : Nat) (p : Ptr) : Option (List Ptr) :=
  if i < bs.length then some (bs.set i p) else none

/-- The default constructor, building the table object at address `this_`. -/
def UnorderedMap.new (h : Heap K V) (this_ : Nat) : Heap K V × UnorderedMap :=
  ({ h with fake := Function.update h.fake this_ Ptr.null },
   { capacity_ := kStartCapacity, max_load_factor_ := 1,
     nodes_list_ := { fake_node := this_, sz := 0 },
     block_start_ := List.replicate kStartCapacity Ptr.null })

variable (hash_ : K → Nat) (equal_ : K → K → Bool)

/-- The loop of `find_with_hash`, entered with `start` already advanced. -/
def UnorderedMap.find_loop (h : Heap K V) (key : K) (key_hash : Nat) : Nat → Ptr → Option Ptr
  | _, Ptr.null => some Ptr.null
  | 0, _ => none
  | f + 1, start => do
    let n ← h.node? start
    if n.hash = key_hash then
      if equal_ n.key key then some start
      else UnorderedMap.find_loop h key key_hash f n.next
    else some Ptr.null

/-- The member `find_with_hash`. -/
def UnorderedMap.find_with_hash (h : Heap K V) (t : UnorderedMap) (key : K) (key_hash : Nat) :
    Option Ptr := do
  let start ← t.block_start_[key_hash]?
  if start = Ptr.null then some Ptr.null else do
    let start1 ← h.next start
    UnorderedMap.find_loop equal_ h key key_hash h.fuel start1

/-- The member `find`. -/
def UnorderedMap.find (h : Heap K V) (t : UnorderedMap) (key : K) : Option Ptr :=
  if t.capacity_ = 0 then none
  else UnorderedMap.find_with_hash equal_ h t key (hash_ key % t.capacity_)

/-- The member `last_with_hash`. -/
def UnorderedMap.last_with_hash (h : Heap K V) (place : Ptr) : Option Bool := do
  let next_element ← h.next place
  if next_element = Ptr.null then some true else do
    let a ← h.get_hash next_element
    let b ← h.get_hash place
    pure (decide (a ≠ b))

/-- The loop of `find_previous_node`. -/
def UnorderedMap.find_previous_loop (h : Heap K V) (place : Ptr) : Nat → Ptr → Option Ptr
  | 0, _ => none
  | f + 1, ans => do
    let nx ← h.next ans
    if nx = place then some ans
    else UnorderedMap.find_previous_loop h place f nx

/-- The member `find_previous_node`. -/
def UnorderedMap.find_previous_node (h : Heap K V) (t : UnorderedMap) (place : Ptr) :
    Option Ptr := do
  let b ← h.get_hash place
  let ans ← t.block_start_[b]?
  UnorderedMap.find_previous_loop h place h.fuel ans

/-- The member `insert_node`. -/
def UnorderedMap.insert_node (h : Heap K V) (t : UnorderedMap) (place : Ptr) :
    Option (Heap K V × UnorderedMap) := do
  let new_node ← h.node? place
  if t.capacity_ = 0 then none else do
    let hash := hash_ new_node.key % t.capacity_
    let h1 ← h.setHash place hash
    let start ← t.block_start_[hash]?
    if start = Ptr.null then do
      let other_hash ← (if 0 < t.size then (h1.get_hash (t.begin h1)).map some else some none)
      let a ← (match place with | Ptr.node a => some a | _ => none)
      let (h2, nl) ← t.nodes_list_.push_front h1 a
      let t2 := { t with nodes_list_ := nl }
      let bs ← (if 1 < t2.size then
          other_hash.bind (fun oh => setSlot t2.block_start_ oh (t2.begin h2))
        else some t2.block_start_)
      let bs2 ← setSlot bs hash t2.nodes_list_.fake_iterator
      pure (h2, { t2 with block_start_ := bs2 })
    else do
      let a ← (match place with | Ptr.node a => some a | _ => none)
      let (h2, nl) ← t.nodes_list_.insert h1 start a
      pure (h2, { t with nodes_list_ := nl })

/-- The loop `while (start) iterators.push_back(start++)` of `rehash`. -/
def UnorderedMap.collect (h : Heap K V) : Nat → Ptr → Option (List Ptr)
  | _, Ptr.null => some []
  | 0, _ => none
  | f + 1, p => do
    let q ← h.next p
    let r ← UnorderedMap.collect h f q
    pure (p :: r)

/-- The loop `for (auto it : iterators) insert_node(it)` of `rehash`. -/
def UnorderedMap.insert_nodes (h : Heap K V) (t : UnorderedMap) :
    List Ptr → Option (Heap K V × UnorderedMap)
  | [] => some (h, t)
  | p :: ps => do
    let (h1, t1) ← UnorderedMap.insert_node hash_ h t p
    UnorderedMap.insert_nodes h1 t1 ps

/-- The member `rehash`. -/
def UnorderedMap.rehash (h : Heap K V) (t : UnorderedMap) (new_capacity_ : Nat) :
    Option (Heap K V × UnorderedMap) :=
  if new_capacity_ ≤ t.capacity_ then some (h, t) else do
    let new_capacity_ :=
      if new_capacity_ < t.capacity_ * 2 + 1 then t.capacity_ * 2 + 1 else new_capacity_
    let t1 := { t with capacity_ := new_capacity_,
                       block_start_ := List.replicate new_capacity_ Ptr.null }
    let iterators ← UnorderedMap.collect h h.fuel (t1.begin h)
    let h1 ← h.setNext t1.nodes_list_.fake_iterator Ptr.null
    let t2 := { t1 with nodes_list_ := { t1.nodes_list_ with sz := 0 } }
    UnorderedMap.insert_nodes hash_ h1 t2 iterators

/-- The member `emplace`, called with a key and a value. -/
def UnorderedMap.emplace (h : Heap K V) (t : UnorderedMap) (k : K) (v : V) :
    Option (Heap K V × UnorderedMap × Ptr × Bool) :=
  let (h0, a) := h.allocate { next := Ptr.null, key := k, value := v, hash := hash_ k }
  let hash := hash_ k
  if t.capacity_ = 0 then none else do
    let h1 ← h0.setHash (Ptr.node a) (hash % t.capacity_)
    let start ← t.block_start_[hash % t.capacity_]?
    if start = Ptr.null then do
      let other_hash ← (if 0 < t.size then (h1.get_hash (t.begin h1)).map some else some none)
      let (h2, nl) ← t.nodes_list_.push_front h1 a
      let t2 := { t with nodes_list_ := nl }
      let bs ← (if 1 < t2.size then
          other_hash.bind (fun oh => setSlot t2.block_start_ oh (t2.begin h2))
        else some t2.block_start_)
      let bs2 ← setSlot bs (hash % t2.capacity_) t2.nodes_list_.fake_iterator
      let t3 := { t2 with block_start_ := bs2 }
      if t3.load_factor > t3.max_load_factor_ then do
        let (h4, t4) ← UnorderedMap.rehash hash_ h2 t3 (t3.capacity_ * 2 + 1)
        pure (h4, t4, Ptr.node a, true)
      else pure (h2, t3, Ptr.node a, true)
    else do
      let place ← UnorderedMap.find_with_hash equal_ h1 t k (hash % t.capacity_)
      if place = Ptr.null then do
        let start2 ← t.block_start_[hash % t.capacity_]?
        let (h2, nl) ← t.nodes_list_.insert h1 start2 a
        let t2 := { t with nodes_list_ := nl }
        if t2.load_factor > t2.max_load_factor_ then do
          let (h4, t4) ← UnorderedMap.rehash hash_ h2 t2 (t2.capacity_ * 2 + 1)
          pure (h4, t4, Ptr.node a, true)
        else pure (h2, t2, Ptr.node a, true)
      else do
        let nl1 : ForwardList := { t.nodes_list_ with sz := t.nodes_list_.sz + 1 }
        let (h2, nl) ← nl1.erase h1 (Ptr.node a)
        pure (h2, { t with nodes_list_ := nl }, place, false)

/-- The member `insert`, which forwards the pair to `emplace`. -/
def UnorderedMap.insert (h : Heap K V) (t : UnorderedMap) (key_value : K × V) :
    Option (Heap K V × UnorderedMap × Ptr × Bool) :=
  UnorderedMap.emplace hash_ equal_ h t key_value.1 key_value.2

/-- The member `erase(const_iterator)`. -/
def UnorderedMap.erase (h : Heap K V) (t : UnorderedMap) (place : Ptr) :
    Option (Heap K V × UnorderedMap) := do
  let previous_node ← UnorderedMap.find_previous_node h t place
  let hash ← h.get_hash place
  let place_next ← h.next place
  let last ← UnorderedMap.last_with_hash h place
  if !last then do
    let h1 ← h.setNext previous_node place_next
    let (h2, nl) ← t.nodes_list_.erase h1 place
    pure (h2, { t with nodes_list_ := nl })
  else do
    let slot ← t.block_start_[hash]?
    if place_next = Ptr.null ∧ slot ≠ previous_node then do
      let h1 ← h.setNext previous_node place_next
      let (h2, nl) ← t.nodes_list_.erase h1 place
      pure (h2, { t with nodes_list_ := nl })
    else do
      let bs ← (if slot = previous_node then setSlot t.block_start_ hash Ptr.null
                else some t.block_start_)
      let bs2 ← (if place_next ≠ Ptr.null then do
          let nh ← h.get_hash place_next
          setSlot bs nh previous_node
        else some bs)
      let h1 ← h.setNext previous_node place_next
      let (h2, nl) ← t.nodes_list_.erase h1 place
      pure (h2, { t with nodes_list_ := nl, block_start_ := bs2 })

/-- The loop of `erase(const_iterator, const_iterator)`. -/
def UnorderedMap.erase_range_loop (last_safe finish : Ptr) :
    Nat → Heap K V → UnorderedMap → Option (Heap K V × UnorderedMap)
  | 0, _, _ => none
  | f + 1, h, t => do
    let nx ← h.next last_safe
    if nx = finish then some (h, t) else do
      let (h1, t1) ← UnorderedMap.erase h t nx
      UnorderedMap.erase_range_loop last_safe finish f h1 t1

/-- The member `erase(const_iterator, const_iterator)`. -/
def UnorderedMap.erase_range (h : Heap K V) (t : UnorderedMap) (start_place finish_place : Ptr) :
    Option (Heap K V × UnorderedMap) := do
  let last_safe ← UnorderedMap.find_previous_node h t start_place
  UnorderedMap.erase_range_loop last_safe finish_place h.fuel h t

/-- The member `operator[]`; `dflt` is `Value()`.  The result is the cursor
whose `second` the C++ code returns by reference. -/
def UnorderedMap.index (h : Heap K V) (t : UnorderedMap) (key : K) (dflt : V) :
    Option (Heap K V × UnorderedMap × Ptr) := do
  let it ← UnorderedMap.find hash_ equal_ h t key
  if it ≠ Ptr.null then some (h, t, it) else do
    let (h1, t1, p, _) ← UnorderedMap.emplace hash_ equal_ h t key dflt
    pure (h1, t1, p)

/-- The setter `max_load_factor(float)`.  The argument of `rehash` is the
conversion of `ceil((float)size() / max_load_factor_)` to `size_t`, which has
no result when the quotient is infinite or at most `-1`. -/
def UnorderedMap.set_max_load_factor (h : Heap K V) (t : UnorderedMap) (x : ℚ) :
    Option (Heap K V × UnorderedMap) :=
  let t1 := { t with max_load_factor_ := x }
  if t1.load_factor > x then
    if x = 0 ∨ to_float (to_float (t1.size : ℚ) / x) ≤ -1 then none
    else UnorderedMap.rehash hash_ h t1 ⌈to_float (to_float (t1.size : ℚ) / x)⌉₊
  else some (h, t1)

/-- The loop of `reserve`, with the test
`(float)new_capacity_ * max_load_factor() < count`, in which `count` is
converted to `float`. -/
def UnorderedMap.reserve_loop (mlf : ℚ) (count : Nat) : Nat → Nat → Option Nat
  | 0, _ => none
  | f + 1, new_capacity_ =>
    if to_float (to_float (new_capacity_ : ℚ) * mlf) < to_float (count : ℚ) then
      UnorderedMap.reserve_loop mlf count f (new_capacity_ * 2 + 1)
    else some new_capacity_

/-- The member `reserve`; the loop runs on a fuel of `⌈(2 count + 2) / mlf⌉ + 1`
steps, which it cannot use up unless it never ends. -/
def UnorderedMap.reserve (h : Heap K V) (t : UnorderedMap) (count : Nat) :
    Option (Heap K V × UnorderedMap) := do
  let new_capacity_ ← UnorderedMap.reserve_loop t.max_load_factor_ count
    (⌈(2 * (count : ℚ) + 2) / t.max_load_factor_⌉₊ + 1) t.capacity_
  UnorderedMap.rehash hash_ h t new_capacity_

/-- The loop shared by the copy constructor and copy assignment, which
records an anchor wherever the bucket id changes. -/
def UnorderedMap.anchor_loop (h : Heap K V) (begin_ : Ptr) :
    Nat → List Ptr → Ptr → Ptr → Nat → Option (List Ptr)
  | 0, bs, _, _, _ => some bs
  | n + 1, bs, prev, current, previous_hash => do
    let current_hash ← h.get_hash current
    let bs1 ← (if current = begin_ ∨ previous_hash ≠ current_hash then
        setSlot bs current_hash prev else some bs)
    let prev1 ← h.next prev
    let current1 ← h.next current
    UnorderedMap.anchor_loop h begin_ n bs1 prev1 current1 current_hash

/-- The copy constructor, building the new table object at address `this_`. -/
def UnorderedMap.copy_construct (h : Heap K V) (other : UnorderedMap) (this_ : Nat) :
    Option (Heap K V × UnorderedMap) := do
  let (h1, nl) ← ForwardList.copy_construct h other.nodes_list_ this_
  let t : UnorderedMap := { capacity_ := other.capacity_,
                            max_load_factor_ := other.max_load_factor_,
                            nodes_list_ := nl,
                            block_start_ := List.replicate other.capacity_ Ptr.null }
  let bs ← UnorderedMap.anchor_loop h1 (t.begin h1) t.size t.block_start_
    t.nodes_list_.fake_iterator (t.begin h1) 0
  pure (h1, { t with block_start_ := bs })

/-- The call `std::vector::resize(n, v)`. -/
def resize (bs : List Ptr) (n : Nat) (v : Ptr) : List Ptr :=
  bs.take n ++ List.replicate (n - bs.length) v

/-- Copy assignment `operator=(const UnorderedMap&)`; `tmp` is the address of
the temporary list made by `ForwardList::operator=`. -/
def UnorderedMap.copy_assign (h : Heap K V) (t other : UnorderedMap) (tmp : Nat) :
    Option (Heap K V × UnorderedMap) :=
  if t.nodes_list_.fake_node = other.nodes_list_.fake_node then some (h, t) else do
    let (h1, nl) ← t.nodes_list_.copy_assign h other.nodes_list_ tmp
    let t1 : UnorderedMap := { capacity_ := other.capacity_,
                               max_load_factor_ := other.max_load_factor_,
                               nodes_list_ := nl,
                               block_start_ := resize t.block_start_ other.capacity_ Ptr.null }
    let bs ← UnorderedMap.anchor_loop h1 (t1.begin h1) t1.size t1.block_start_
      t1.nodes_list_.fake_iterator (t1.begin h1) 0
    pure (h1, { t1 with block_start_ := bs })

/-- The member `swap`. -/
def UnorderedMap.swap (h : Heap K V) (t other : UnorderedMap) :
    Heap K V × UnorderedMap × UnorderedMap :=
  let (h1, nl, onl) := t.nodes_list_.swap other.nodes_list_ h
  (h1,
   { capacity_ := other.capacity_, max_load_factor_ := other.max_load_factor_,
     nodes_list_ := nl, block_start_ := other.block_start_ },
   { capacity_ := t.capacity_, max_load_factor_ := t.max_load_factor_,
     nodes_list_ := onl, block_start_ := t.block_start_ })

end Model

/-! ## Abstraction: the entry list as a sequence -/

/-- A live entry as seen by iteration: its address, key, value and stored
bucket id. -/
structure Entry (K V : Type) where
  addr : Nat
  key : K
  value : V
  hash : Nat
deriving DecidableEq

section Abstraction

variable {K V : Type}

/-- The pointer to the first entry of `es`, or `q` when there is none. -/
def headD (es : List (Entry K V)) (q : Ptr) : Ptr :=
  match es with
  | [] => q
  | e :: _ => Ptr.node e.addr

/-- The pointer to the last entry of `pre`, or `prev` when there is none. -/
def predFrom (prev : Ptr) : List (Entry K V) → Ptr
  | [] => prev
  | e :: es => predFrom (Ptr.node e.addr) es

/-- The addresses of the entries. -/
def addrs (es : List (Entry K V)) : List Nat := es.map (fun e => e.addr)

/-- The nodes of `es` are allocated, carry the entries' data and are linked
in order, the last one to `q`. -/
def Seg (h : Heap K V) : List (Entry K V) → Ptr → Prop
  | [], _ => True
  | e :: es, q =>
    h.nodes e.addr = some { next := headD es q, key := e.key, value := e.value, hash := e.hash }
      ∧ Seg h es q

/-- The list whose sentinel lives at address `f` holds exactly the entries
`es`, in this order: iterating from `begin()` to `end()` visits them. -/
def IsList (h : Heap K V) (f : Nat) (es : List (Entry K V)) : Prop :=
  h.fake f = headD es Ptr.null ∧ Seg h es Ptr.null ∧ (addrs es).Nodup

/-- The iteration sequence of table `t` in memory `h` is `es`. -/
def Entries (h : Heap K V) (t : UnorderedMap) (es : List (Entry K V)) : Prop :=
  IsList h t.nodes_list_.fake_node es

/-- The cursor `p` designates a live entry of `t`. -/
def Live (h : Heap K V) (t : UnorderedMap) (p : Ptr) : Prop :=
  ∃ es, Entries h t es ∧ ∃ e ∈ es, p = Ptr.node e.addr

/-- The cursors `first` and `last` delimit a range of the iteration sequence
of `t` and `first` designates a live entry; `last` may be `end()`. -/
def ValidRange (h : Heap K V) (t : UnorderedMap) (first last : Ptr) : Prop :=
  ∃ l1 l2 l3, Entries h t (l1 ++ l2 ++ l3) ∧ first = headD (l2 ++ l3) Ptr.null
    ∧ last = headD l3 Ptr.null ∧ first ≠ Ptr.null

/-- The anchor that bucket `b` must have: the predecessor of the first entry
whose bucket id is `b` (`prev` being the predecessor of the head), and
`nullptr` when no entry has bucket id `b`. -/
def anchorOf (prev : Ptr) : List (Entry K V) → Nat → Ptr
  | [], _ => Ptr.null
  | e :: es, b => if e.hash = b then prev else anchorOf (Ptr.node e.addr) es b

/-- The entry has bucket id `b`. -/
def Entry.inBucket (b : Nat) (e : Entry K V) : Bool := decide (e.hash = b)

/-- The entry has a bucket id other than `b`. -/
def Entry.offBucket (b : Nat) (e : Entry K V) : Bool := !decide (e.hash = b)

/-- Grouping: once the scan has left the run of an entry, the bucket id of
that entry never shows up again. -/
def Grouped : List (Entry K V) → Prop
  | [] => True
  | e :: es => (∀ x ∈ es.dropWhile (Entry.inBucket e.hash), x.hash ≠ e.hash) ∧ Grouped es

/-- No node lives at an address the allocator has not handed out yet. -/
def Heap.Consistent (h : Heap K V) : Prop := ∀ a, h.fresh ≤ a → h.nodes a = none

/-- Well-formedness of table `t` in memory `h`, with iteration sequence `es`. -/
structure TableInv (hash_ : K → Nat) (h : Heap K V) (t : UnorderedMap) (es : List (Entry K V)) :
    Prop where
  list : Entries h t es
  sz : t.size = es.length
  cap_pos : 0 < t.capacity_
  bs_len : t.block_start_.length = t.capacity_
  hash_ok : ∀ e ∈ es, e.hash = hash_ e.key % t.capacity_
  grouped : Grouped es
  anchors : ∀ b, b < t.capacity_ →
    t.block_start_[b]? = some (anchorOf (Ptr.fake t.nodes_list_.fake_node) es b)
  consistent : h.Consistent

/-- Key uniqueness: no two entries compare equal, in either order. -/
def Uniq (equal_ : K → K → Bool) (es : List (Entry K V)) : Prop :=
  es.Pairwise (fun x y => equal_ x.key y.key = false ∧ equal_ y.key x.key = false)

/-- The table is well formed: it satisfies the structural invariants and key
uniqueness for some iteration sequence. -/
def WellFormed (hash_ : K → Nat) (equal_ : K → K → Bool) (h : Heap K V) (t : UnorderedMap) :
    Prop :=
  ∃ es, TableInv hash_ h t es ∧ Uniq equal_ es

/-- The part of the functor contract that key uniqueness rests on: `equal_`
is symmetric and equal keys have equal hashes. -/
structure FunctorsOK (hash_ : K → Nat) (equal_ : K → K → Bool) : Prop where
  symm : ∀ a b, equal_ a b = true → equal_ b a = true
  hash_eq : ∀ a b, equal_ a b = true → hash_ a = hash_ b

/-- The contract of the functors: `equal_` is an equivalence and equal keys
have equal hashes. -/
structure EqOK (hash_ : K → Nat) (equal_ : K → K → Bool) : Prop where
  refl : ∀ a, equal_ a a = true
  symm : ∀ a b, equal_ a b = true → equal_ b a = true
  trans : ∀ a b c, equal_ a b = true → equal_ b c = true → equal_ a c = true
  hash_eq : ∀ a b, equal_ a b = true → hash_ a = hash_ b

/-- The statements that the empty-bucket branches of `emplace` and
`insert_node` have in common, from reading `other_hash` to storing the new
anchors. -/
def UnorderedMap.link_front (h1 : Heap K V) (t : UnorderedMap) (a : Nat) (hash : Nat) :
    Option (Heap K V × UnorderedMap) := do
  let other_hash ← (if 0 < t.size then (h1.get_hash (t.begin h1)).map some else some none)
  let (h2, nl) ← t.nodes_list_.push_front h1 a
  let t2 := { t with nodes_list_ := nl }
  let bs ← (if 1 < t2.size then
      other_hash.bind (fun oh => setSlot t2.block_start_ oh (t2.begin h2))
    else some t2.block_start_)
  let bs2 ← setSlot bs hash t2.nodes_list_.fake_iterator
  pure (h2, { t2 with block_start_ := bs2 })

/-- Everything outside the footprint of the table at `f` (its sentinel and
the nodes `own`) is left as it was, and nothing is handed back to the
allocator's unused range. -/
def Frame (h h2 : Heap K V) (f : Nat) (own : List Nat) : Prop :=
  h.fresh ≤ h2.fresh ∧ (∀ j, j ≠ f → h2.fake j = h.fake j) ∧
    (∀ x, x < h.fresh → x ∉ own → h2.nodes x = h.nodes x)

/-- The identity and content of an entry: address, key and value. -/
def Entry.core (e : Entry K V) : Nat × K × V := (e.addr, e.key, e.value)

/-- The content of an entry: key, value and stored bucket id. -/
def Entry.content (e : Entry K V) : K × V × Nat := (e.key, e.value, e.hash)

/-- The sequence `es2` holds the same entries as `es` (same identities, keys
and values), possibly in another order and with other bucket ids. -/
def SameEntries (es es2 : List (Entry K V)) : Prop :=
  (es2.map Entry.core).Perm (es.map Entry.core)

/-- The position at which linking puts a new entry: at the front when its
bucket has no entry yet, directly before the first entry of its run
otherwise. -/
def linkList (es : List (Entry K V)) (e0 : Entry K V) : List (Entry K V) :=
  if es.all (Entry.offBucket e0.hash) then e0 :: es
  else es.takeWhile (Entry.offBucket e0.hash) ++ e0 :: es.dropWhile (Entry.offBucket e0.hash)

/-- The entry with its bucket id recomputed for capacity `cap`. -/
def Entry.rebucket (hash_ : K → Nat) (cap : Nat) (e : Entry K V) : Entry K V :=
  { e with hash := hash_ e.key % cap }

/-- The iteration sequence after relinking the entries one at a time, in
their old order, under capacity `cap`. -/
def relinked (hash_ : K → Nat) (cap : Nat) (es : List (Entry K V)) : List (Entry K V) :=
  es.foldl (fun acc e => linkList acc (e.rebucket hash_ cap)) []

/-- The cursor on an entry found by a scan, `end()` when none was found. -/
def cursorOf : Option (Entry K V) → Ptr
  | some e => Ptr.node e.addr
  | none => Ptr.null

/-- The run of bucket `b`: the entries from the first one with bucket id `b`
up to the first one after it with another bucket id. -/
def bucketRun (es : List (Entry K V)) (b : Nat) : List (Entry K V) :=
  (es.dropWhile (Entry.offBucket b)).takeWhile (Entry.inBucket b)

/-- A naive scan of the entry list for the first key that compares equal. -/
def naive_scan (equal_ : K → K → Bool) (h : Heap K V) (key : K) : Nat → Ptr → Option Ptr
  | _, Ptr.null => some Ptr.null
  | 0, _ => none
  | f + 1, p => do
    let n ← h.node? p
    if equal_ n.key key then some p else naive_scan equal_ h key f n.next

/-- The naive lookup that `find` is compared with: scan the whole list from
`begin()`. -/
def naive_find (equal_ : K → K → Bool) (h : Heap K V) (t : UnorderedMap) (key : K) :
    Option Ptr :=
  naive_scan equal_ h key h.fuel (t.begin h)

/-- The states reachable from a default-constructed table by the public
mutating operations. -/
inductive Reachable (hash_ : K → Nat) (equal_ : K → K → Bool) :
    Heap K V → UnorderedMap → Prop
  | init (h : Heap K V) (this_ : Nat) (hc : h.Consistent) :
      Reachable hash_ equal_ (UnorderedMap.new h this_).1 (UnorderedMap.new h this_).2
  | emplace {h h2 : Heap K V} {t t2 : UnorderedMap} (k : K) (v : V) (p : Ptr) (b : Bool) :
      Reachable hash_ equal_ h t →
      UnorderedMap.emplace hash_ equal_ h t k v = some (h2, t2, p, b) →
      Reachable hash_ equal_ h2 t2
  | insert {h h2 : Heap K V} {t t2 : UnorderedMap} (kv : K × V) (p : Ptr) (b : Bool) :
      Reachable hash_ equal_ h t →
      UnorderedMap.insert hash_ equal_ h t kv = some (h2, t2, p, b) →
      Reachable hash_ equal_ h2 t2
  | index {h h2 : Heap K V} {t t2 : UnorderedMap} (k : K) (dflt : V) (p : Ptr) :
      Reachable hash_ equal_ h t →
      UnorderedMap.index hash_ equal_ h t k dflt = some (h2, t2, p) →
      Reachable hash_ equal_ h2 t2
  | erase {h h2 : Heap K V} {t t2 : UnorderedMap} (p : Ptr) :
      Reachable hash_ equal_ h t → Live h t p →
      UnorderedMap.erase h t p = some (h2, t2) →
      Reachable hash_ equal_ h2 t2
  | erase_range {h h2 : Heap K V} {t t2 : UnorderedMap} (first last : Ptr) :
      Reachable hash_ equal_ h t → ValidRange h t first last →
      UnorderedMap.erase_range h t first last = some (h2, t2) →
      Reachable hash_ equal_ h2 t2
  | reserve {h h2 : Heap K V} {t t2 : UnorderedMap} (count : Nat) :
      Reachable hash_ equal_ h t →
      UnorderedMap.reserve hash_ h t count = some (h2, t2) →
      Reachable hash_ equal_ h2 t2
  | max_load_factor {h h2 : Heap K V} {t t2 : UnorderedMap} (x : ℚ) :
      Reachable hash_ equal_ h t →
      UnorderedMap.set_max_load_factor hash_ h t x = some (h2, t2) →
      Reachable hash_ equal_ h2 t2

/-- The states that table `x` and the memory reach from `(h, x)` by calls of
`emplace` and `erase` on `x` and by assignments to the value of a live entry
of `x` through a cursor. -/
inductive TableSteps (hash_ : K → Nat) (equal_ : K → K → Bool) (h : Heap K V)
    (x : UnorderedMap) : Heap K V → UnorderedMap → Prop
  | refl : TableSteps hash_ equal_ h x h x
  | emplace {h1 h2 : Heap K V} {x1 x2 : UnorderedMap} (k : K) (v : V) (p : Ptr) (b : Bool) :
      TableSteps hash_ equal_ h x h1 x1 →
      UnorderedMap.emplace hash_ equal_ h1 x1 k v = some (h2, x2, p, b) →
      TableSteps hash_ equal_ h x h2 x2
  | erase {h1 h2 : Heap K V} {x1 x2 : UnorderedMap} (p : Ptr) :
      TableSteps hash_ equal_ h x h1 x1 → Live h1 x1 p →
      UnorderedMap.erase h1 x1 p = some (h2, x2) →
      TableSteps hash_ equal_ h x h2 x2
  | set_value {h1 h2 : Heap K V} {x1 : UnorderedMap} (p : Ptr) (v : V) :
      TableSteps hash_ equal_ h x h1 x1 → Live h1 x1 p →
      h1.setValue p v = some h2 →
      TableSteps hash_ equal_ h x h2 x1

end Abstraction

/-! ## Example tables -/

/-- The hash functor of the examples: the identity on numbers. -/
def natHash : Nat → Nat := fun k => k

/-- The equality functor of the examples. -/
def natEqual : Nat → Nat → Bool := fun a b => a == b

/-- The state type of the examples: a memory and one table. -/
abbrev DemoState : Type := Heap Nat Nat × UnorderedMap

/-- A default-constructed table at address `0` in the empty memory. -/
def demo0 : DemoState := UnorderedMap.new Heap.empty 0

/-- The state after one more call of `emplace`. -/
def demoStep (s : DemoState) (k v : Nat) : DemoState :=
  match UnorderedMap.emplace natHash natEqual s.1 s.2 k v with
  | some r => (r.1, r.2.1)
  | none => s

/-- The table holding the keys 1, 16 and 3, inserted in this order; the keys
1 and 16 share bucket 1. -/
def demo3 : DemoState := demoStep (demoStep (demoStep demo0 1 10) 16 20) 3 30

/-- The iteration sequence of `demo3`. -/
def demo3Entries : List (Entry Nat Nat) :=
  [{ addr := 2, key := 3, value := 30, hash := 3 },
   { addr := 1, key := 16, value := 20, hash := 1 },
   { addr := 0, key := 1, value := 10, hash := 1 }]

/-- The state type of the examples with two tables `a` and `b` in one
memory. -/
abbrev DemoPair : Type := Heap Nat Nat × UnorderedMap × UnorderedMap

/-- Table `a` at address `0` holding the key 1, and a default-constructed
table `b` at address `1`. -/
def swapInput : DemoPair :=
  let a := demoStep demo0 1 10
  let b := UnorderedMap.new a.1 1
  (b.1, a.2, b.2)

/-- The state after `a.swap(b)` on `swapInput`. -/
def swapOutput : DemoPair :=
  UnorderedMap.swap swapInput.1 swapInput.2.1 swapInput.2.2

/-- Table `a` at address `0` holding the keys 1 and 2, inserted in this
order, and a default-constructed table `b` at address `1`. -/
def assignInput : DemoPair :=
  let a := demoStep (demoStep demo0 1 10) 2 20
  let b := UnorderedMap.new a.1 1
  (b.1, a.2, b.2)

/-- The result of `a = b` on `assignInput`, the temporary list living at
address `2`. -/
def assignResult : Option DemoState :=
  UnorderedMap.copy_assign assignInput.1 assignInput.2.1 assignInput.2.2 2

/-- The state after `a = b` on `assignInput`. -/
def assignOutput : DemoState :=
  match assignResult with
  | some r => r
  | none => (assignInput.1, assignInput.2.1)

/-! ## Move operations, `clear`, `at` and range insertion -/

section Model2

variable {K V : Type}

/-- The move constructor `ForwardList(ForwardList&&)`, building the new
object at address `this_`: the head link and the counter are taken over and
the source is reset.  The result lists the memory, the new list and the
source. -/
def ForwardList.move_construct (h : Heap K V) (other : ForwardList) (this_ : Nat) :
    Heap K V × ForwardList × ForwardList :=
  let h1 : Heap K V := { h with fake := Function.update h.fake this_ (h.fake other.fake_node) }
  let h2 : Heap K V := { h1 with fake := Function.update h1.fake other.fake_node Ptr.null }
  (h2, { fake_node := this_, sz := other.sz }, { other with sz := 0 })

/-- Move assignment `ForwardList::operator=(ForwardList&&)`.  The argument
`propagate` is the compile-time condition
`propagate_on_container_move_assignment::value || is_always_equal::value` of
the allocator type (true for `std::allocator`); in the other branch the local
`helper` lives at address `tmp` and is destroyed on return.  The result lists
the memory, the assigned-to list and the source. -/
def ForwardList.move_assign (propagate : Bool) (l : ForwardList) (h : Heap K V)
    (other : ForwardList) (tmp : Nat) : Option (Heap K V × ForwardList × ForwardList) :=
  if l.fake_node = other.fake_node then some (h, l, other)
  else if propagate then do
    let (h1, l1) ← l.clear_list h
    let h2 : Heap K V :=
      { h1 with fake := Function.update h1.fake l1.fake_node (h1.fake other.fake_node) }
    let l2 : ForwardList := { l1 with sz := other.sz }
    let h3 : Heap K V := { h2 with fake := Function.update h2.fake other.fake_node Ptr.null }
    pure (h3, l2, { other with sz := 0 })
  else if other.sz = 0 then do
    let (h1, l1) ← l.clear_list h
    pure (h1, l1, other)
  else do
    let helper0 : ForwardList := { fake_node := tmp, sz := 0 }
    let h0 ← h.setNext helper0.fake_iterator Ptr.null
    let iterators ← ForwardList.collect_n h0 other.sz (other.begin h0)
    let (h1, helper) ← helper0.copy_all h0 iterators.reverse
    let (h2, l1) ← l.clear_list h1
    let (h3, l2, helper2) := l1.swap helper h2
    let (h4, _) ← helper2.clear_list h3
    pure (h4, l2, other)

/-- The statements of the move constructor and of move assignment after the
members have been taken over: `if (size() != 0) block_start_[begin().get_hash()]
= fake_iterator()`. -/
def UnorderedMap.patch_first (h : Heap K V) (t : UnorderedMap) : Option UnorderedMap :=
  if t.size ≠ 0 then do
    let b ← h.get_hash (t.begin h)
    let bs ← setSlot t.block_start_ b t.nodes_list_.fake_iterator
    pure { t with block_start_ := bs }
  else some t

/-- The move constructor `UnorderedMap(UnorderedMap&&)`, building the new
table object at address `this_`; the moved-from vector is left empty.  The
result lists the memory, the new table and the source. -/
def UnorderedMap.move_construct (h : Heap K V) (other : UnorderedMap) (this_ : Nat) :
    Option (Heap K V × UnorderedMap × UnorderedMap) := do
  let (h1, nl, onl) := ForwardList.move_construct h other.nodes_list_ this_
  let t : UnorderedMap := { capacity_ := other.capacity_,
                            max_load_factor_ := other.max_load_factor_,
                            nodes_list_ := nl,
                            block_start_ := other.block_start_ }
  let o : UnorderedMap := { other with nodes_list_ := onl, block_start_ := [], capacity_ := 0 }
  let t2 ← UnorderedMap.patch_first h1 t
  pure (h1, t2, o)

/-- The member `clear()`. -/
def UnorderedMap.clear (h : Heap K V) (t : UnorderedMap) : Option (Heap K V × UnorderedMap) := do
  let (h1, nl) ← t.nodes_list_.clear_list h
  pure (h1, { t with nodes_list_ := nl, capacity_ := 0 })

/-- Move assignment `operator=(UnorderedMap&&)`; the moved-from vector is
left empty.  The result lists the memory, the assigned-to table and the
source. -/
def UnorderedMap.move_assign (propagate : Bool) (h : Heap K V) (t other : UnorderedMap)
    (tmp : Nat) : Option (Heap K V × UnorderedMap × UnorderedMap) :=
  if t.nodes_list_.fake_node = other.nodes_list_.fake_node then some (h, t, other) else do
    let (h1, t1) ← t.clear h
    let t2 : UnorderedMap := { t1 with capacity_ := other.capacity_,
                                       max_load_factor_ := other.max_load_factor_,
                                       block_start_ := other.block_start_ }
    let o1 : UnorderedMap := { other with block_start_ := [] }
    let (h2, nl, onl) ← t2.nodes_list_.move_assign propagate h1 o1.nodes_list_ tmp
    let t3 : UnorderedMap := { t2 with nodes_list_ := nl }
    let t4 ← UnorderedMap.patch_first h2 t3
    pure (h2, t4, { o1 with nodes_list_ := onl })

variable (hash_ : K → Nat) (equal_ : K → K → Bool)

/-- The member `at`: the cursor whose `second` the C++ code returns by
reference, or the error thrown as `std::runtime_error`. -/
def UnorderedMap.at_ (h : Heap K V) (t : UnorderedMap) (key : K) :
    Option (Except String Ptr) :=
  if t.capacity_ = 0 then none else do
    let key_place ← UnorderedMap.find_with_hash equal_ h t key (hash_ key % t.capacity_)
    if key_place = Ptr.null then pure (Except.error "Bad key")
    else pure (Except.ok key_place)

/-- The member `insert(InputIt, InputIt)`, called on the pairs of a list. -/
def UnorderedMap.insert_range (h : Heap K V) (t : UnorderedMap) :
    List (K × V) → Option (Heap K V × UnorderedMap)
  | [] => some (h, t)
  | kv :: rest => do
    let (h1, t1, _, _) ← UnorderedMap.insert hash_ equal_ h t kv
    UnorderedMap.insert_range h1 t1 rest

end Model2

/-! ## More example tables -/

/-- The result of `b = std::move(a)` on `assignInput` for an allocator type
that neither propagates on move assignment nor is always equal, the temporary
list living at address `2`. -/
def moveResult : Option DemoPair :=
  UnorderedMap.move_assign false assignInput.1 assignInput.2.2 assignInput.2.1 2

/-- The state after that move assignment: the memory, `b` and `a`. -/
def moveOutput : DemoPair :=
  match moveResult with
  | some r => r
  | none => (assignInput.1, assignInput.2.2, assignInput.2.1)

/-- A default-constructed table after `max_load_factor(1/32)`. -/
def loadInput : DemoState :=
  match UnorderedMap.set_max_load_factor natHash demo0.1 demo0.2 (1 / 32) with
  | some r => r
  | none => demo0

/-- The state after `emplace(1, 10)` on `loadInput`. -/
def loadOutput : DemoState := demoStep loadInput 1 10

/-! ## Example tables for `clear` -/

/-- The table at address `0` holding the keys 1 and 2, inserted in this
order. -/
def clearInput : DemoState := demoStep (demoStep demo0 1 10) 2 20

/-- The result of `clear()` on `clearInput`. -/
def clearResult : Option DemoState := UnorderedMap.clear clearInput.1 clearInput.2

/-- The state after `clear()` on `clearInput`. -/
def clearOutput : DemoState :=
  match clearResult with
  | some r => r
  | none => clearInput

/-! ## An example table beyond the sizes that `float` holds exactly -/

/-- The keys `0, 1, ..., 2 ^ 25 - 2`, each with the value 0. -/
def growthKeys : List (Nat × Nat) := (List.range 33554431).map (fun i => (i, 0))

/-- The default-constructed table at address `0` after `reserve(2 ^ 25)` and
the insertion of `growthKeys`. -/
def growthInput : Option DemoState :=
  (UnorderedMap.reserve natHash demo0.1 demo0.2 33554432).bind
    (fun r => UnorderedMap.insert_range natHash natEqual r.1 r.2 growthKeys)

/-! ## Rounding to `float` -/

section FloatLemmas

theorem log2_loop_spec : ∀ (f n : Nat), n ≤ f → 0 < n →
    2 ^ log2_loop f n ≤ n ∧ n < 2 ^ (log2_loop f n + 1) := by
  intro f
  induction f with
  | zero =>
    intro n hn hpos
    omega
  | succ f ih =>
    intro n hn hpos
    by_cases h2 : n < 2
    · simp only [log2_loop, if_pos h2]
      omega
    · simp only [log2_loop, if_neg h2]
      obtain ⟨h1, h3⟩ := ih (n / 2) (by omega) (by omega)
      constructor
      · rw [Nat.pow_succ]
        omega
      · rw [Nat.pow_succ]
        omega

theorem ilog2_spec {n : Nat} (hn : 0 < n) : 2 ^ ilog2 n ≤ n ∧ n < 2 ^ (ilog2 n + 1) :=
  log2_loop_spec n n (le_refl _) hn

theorem pow2_eq (e : Int) : pow2 e = (2 : ℚ) ^ e := by
  cases e with
  | ofNat n =>
    simp only [pow2, Int.ofNat_eq_coe, zpow_natCast]
    push_cast
    rfl
  | negSucc n =>
    simp only [pow2, zpow_negSucc]
    push_cast
    rw [one_div]

theorem pow2_pos (e : Int) : 0 < pow2 e := by
  rw [pow2_eq]
  exact zpow_pos (by norm_num) e

theorem pow2_le_iff (a b : Int) : pow2 a ≤ pow2 b ↔ a ≤ b := by
  rw [pow2_eq, pow2_eq]
  exact zpow_le_zpow_iff_right₀ (by norm_num)

theorem pow2_lt_iff (a b : Int) : pow2 a < pow2 b ↔ a < b := by
  rw [pow2_eq, pow2_eq]
  exact zpow_lt_zpow_iff_right₀ (by norm_num)

theorem pow2_add (a b : Int) : pow2 (a + b) = pow2 a * pow2 b := by
  rw [pow2_eq, pow2_eq, pow2_eq]
  exact zpow_add₀ (by norm_num) a b

theorem pow2_zero : pow2 0 = 1 := rfl

theorem pow2_one : pow2 1 = 2 := by
  rw [pow2_eq]
  norm_num

theorem pow2_natCast (n : Nat) : pow2 (n : Int) = ((2 ^ n : Nat) : ℚ) := rfl

/-- The exponent that `float_exponent` computes is the binary exponent. -/
theorem float_exponent_spec {x : ℚ} (hx : 0 < x) :
    pow2 (float_exponent x) ≤ x ∧ x < pow2 (float_exponent x + 1) := by
  have hnum : 0 < x.num := Rat.num_pos.2 hx
  have hp : 0 < x.num.natAbs := Int.natAbs_pos.2 (ne_of_gt hnum)
  have hq : 0 < x.den := x.den_pos
  obtain ⟨hp1, hp2⟩ := ilog2_spec hp
  obtain ⟨hq1, hq2⟩ := ilog2_spec hq
  have hxeq : x = (x.num.natAbs : ℚ) / (x.den : ℚ) := by
    have h0 : ((x.num.natAbs : Nat) : Int) = x.num := Int.natAbs_of_nonneg (le_of_lt hnum)
    have h2 : ((x.num.natAbs : Nat) : ℚ) = (x.num : ℚ) :=
      calc ((x.num.natAbs : Nat) : ℚ) = (((x.num.natAbs : Nat) : Int) : ℚ) :=
            (Int.cast_natCast _).symm
        _ = (x.num : ℚ) := by rw [h0]
    rw [h2]
    exact (Rat.num_div_den x).symm
  have hqpos : (0 : ℚ) < (x.den : ℚ) := by exact_mod_cast hq
  have hP1 : pow2 (ilog2 x.num.natAbs : Int) ≤ (x.num.natAbs : ℚ) := by
    rw [pow2_natCast]
    exact_mod_cast hp1
  have hP2 : (x.num.natAbs : ℚ) < pow2 ((ilog2 x.num.natAbs : Int) + 1) := by
    have : ((ilog2 x.num.natAbs : Int) + 1) = ((ilog2 x.num.natAbs + 1 : Nat) : Int) := by
      push_cast
      rfl
    rw [this, pow2_natCast]
    exact_mod_cast hp2
  have hQ1 : pow2 (ilog2 x.den : Int) ≤ (x.den : ℚ) := by
    rw [pow2_natCast]
    exact_mod_cast hq1
  have hQ2 : (x.den : ℚ) < pow2 ((ilog2 x.den : Int) + 1) := by
    have : ((ilog2 x.den : Int) + 1) = ((ilog2 x.den + 1 : Nat) : Int) := by
      push_cast
      rfl
    rw [this, pow2_natCast]
    exact_mod_cast hq2
  -- x lies strictly between 2 ^ (e0 - 1) and 2 ^ (e0 + 1)
  have hlow : pow2 ((ilog2 x.num.natAbs : Int) - (ilog2 x.den : Int) - 1) < x := by
    have h1 : pow2 ((ilog2 x.num.natAbs : Int) - (ilog2 x.den : Int) - 1)
        * pow2 ((ilog2 x.den : Int) + 1) = pow2 (ilog2 x.num.natAbs : Int) := by
      rw [← pow2_add]
      congr 1
      ring
    refine lt_of_lt_of_eq ?_ hxeq.symm
    rw [lt_div_iff₀ hqpos]
    calc pow2 ((ilog2 x.num.natAbs : Int) - (ilog2 x.den : Int) - 1) * (x.den : ℚ)
        < pow2 ((ilog2 x.num.natAbs : Int) - (ilog2 x.den : Int) - 1)
            * pow2 ((ilog2 x.den : Int) + 1) :=
          mul_lt_mul_of_pos_left hQ2 (pow2_pos _)
      _ = pow2 (ilog2 x.num.natAbs : Int) := h1
      _ ≤ (x.num.natAbs : ℚ) := hP1
  have hhigh : x < pow2 ((ilog2 x.num.natAbs : Int) - (ilog2 x.den : Int) + 1) := by
    have h1 : pow2 ((ilog2 x.num.natAbs : Int) - (ilog2 x.den : Int) + 1)
        * pow2 (ilog2 x.den : Int) = pow2 ((ilog2 x.num.natAbs : Int) + 1) := by
      rw [← pow2_add]
      congr 1
      ring
    refine lt_of_eq_of_lt hxeq ?_
    rw [div_lt_iff₀ hqpos]
    calc (x.num.natAbs : ℚ) < pow2 ((ilog2 x.num.natAbs : Int) + 1) := hP2
      _ = pow2 ((ilog2 x.num.natAbs : Int) - (ilog2 x.den : Int) + 1)
            * pow2 (ilog2 x.den : Int) := h1.symm
      _ ≤ pow2 ((ilog2 x.num.natAbs : Int) - (ilog2 x.den : Int) + 1) * (x.den : ℚ) :=
          mul_le_mul_of_nonneg_left hQ1 (le_of_lt (pow2_pos _))
  unfold float_exponent
  by_cases hc : pow2 ((ilog2 x.num.natAbs : Int) - (ilog2 x.den : Int)) ≤ x
  · rw [if_pos hc]
    exact ⟨hc, hhigh⟩
  · rw [if_neg hc]
    refine ⟨le_of_lt hlow, ?_⟩
    rw [sub_add_cancel]
    exact not_le.1 hc

/-- The binary exponent is determined by its defining inequalities. -/
theorem float_exponent_eq {x : ℚ} {k : Int} (h1 : pow2 k ≤ x) (h2 : x < pow2 (k + 1)) :
    float_exponent x = k := by
  have hx : 0 < x := lt_of_lt_of_le (pow2_pos k) h1
  obtain ⟨h3, h4⟩ := float_exponent_spec hx
  have ha : k < float_exponent x + 1 := (pow2_lt_iff _ _).1 (lt_of_le_of_lt h1 h4)
  have hb : float_exponent x < k + 1 := (pow2_lt_iff _ _).1 (lt_of_le_of_lt h3 h2)
  omega

end FloatLemmas

section FloatRounding

theorem round_half_even_cases (x : ℚ) :
    round_half_even x = ⌊x⌋ ∨ round_half_even x = ⌊x⌋ + 1 := by
  unfold round_half_even
  split
  · exact Or.inl rfl
  · split
    · exact Or.inr rfl
    · split
      · exact Or.inl rfl
      · exact Or.inr rfl

theorem round_half_even_int (z : Int) : round_half_even (z : ℚ) = z := by
  unfold round_half_even
  rw [Int.floor_intCast, sub_self, if_pos (by norm_num)]

/-- An integer below `x` is not above the rounded `x`. -/
theorem le_round_half_even {x : ℚ} {z : Int} (h : (z : ℚ) ≤ x) : z ≤ round_half_even x := by
  have hf : z ≤ ⌊x⌋ := Int.le_floor.2 h
  rcases round_half_even_cases x with h1 | h1 <;> rw [h1] <;> omega

/-- An integer above `x` is not below the rounded `x`. -/
theorem round_half_even_le {x : ℚ} {z : Int} (h : x ≤ (z : ℚ)) : round_half_even x ≤ z := by
  by_cases hlt : ⌊x⌋ < z
  · rcases round_half_even_cases x with h1 | h1 <;> rw [h1] <;> omega
  · have hle : ⌊x⌋ ≤ z := Int.cast_le.1 (le_trans (Int.floor_le x) h)
    have heq : ⌊x⌋ = z := by omega
    have hx : x = (z : ℚ) := by
      apply le_antisymm h
      rw [← heq]
      exact Int.floor_le x
    rw [hx, round_half_even_int]

/-- More than half a unit above an integer rounds to at least the next
integer. -/
theorem succ_le_round_half_even {x : ℚ} {z : Int} (h : (z : ℚ) + 1 / 2 < x) :
    z + 1 ≤ round_half_even x := by
  have hf : z ≤ ⌊x⌋ := Int.le_floor.2 (by linarith)
  by_cases hlt : z < ⌊x⌋
  · rcases round_half_even_cases x with h1 | h1 <;> rw [h1] <;> omega
  · have heq : ⌊x⌋ = z := by omega
    unfold round_half_even
    rw [heq, if_neg (by linarith), if_pos (by linarith)]

theorem round_pos_eq (x : ℚ) : round_pos x
    = (round_half_even (x / pow2 (float_exponent x - 23)) : ℚ) * pow2 (float_exponent x - 23) :=
  rfl

theorem to_float_zero : to_float 0 = 0 := rfl

theorem to_float_of_pos {x : ℚ} (hx : 0 < x) : to_float x = round_pos x := by
  unfold to_float
  rw [if_neg (ne_of_gt hx), if_pos hx]

theorem pow2_split (e : Int) : pow2 e = pow2 23 * pow2 (e - 23) := by
  rw [← pow2_add]
  congr 1
  ring

theorem pow2_23 : pow2 23 = 8388608 := by
  rw [pow2_eq]
  norm_num

theorem pow2_24 : pow2 24 = 16777216 := by
  rw [pow2_eq]
  norm_num

/-- Rounding a positive number keeps it in the closure of its binade. -/
theorem round_pos_bounds {x : ℚ} (hx : 0 < x) :
    pow2 (float_exponent x) ≤ round_pos x ∧ round_pos x ≤ pow2 (float_exponent x + 1) := by
  obtain ⟨h1, h2⟩ := float_exponent_spec hx
  have hu := pow2_pos (float_exponent x - 23)
  have hlo : ((8388608 : Int) : ℚ) ≤ x / pow2 (float_exponent x - 23) := by
    rw [le_div_iff₀ hu]
    have := pow2_split (float_exponent x)
    rw [pow2_23] at this
    push_cast
    rw [← this]
    exact h1
  have hhi : x / pow2 (float_exponent x - 23) ≤ ((16777216 : Int) : ℚ) := by
    rw [div_le_iff₀ hu]
    have h3 : pow2 (float_exponent x + 1) = pow2 24 * pow2 (float_exponent x - 23) := by
      rw [← pow2_add]
      congr 1
      ring
    rw [pow2_24] at h3
    push_cast
    rw [← h3]
    exact le_of_lt h2
  have hr1 := le_round_half_even hlo
  have hr2 := round_half_even_le hhi
  rw [round_pos_eq]
  constructor
  · have := pow2_split (float_exponent x)
    rw [pow2_23] at this
    rw [this]
    apply mul_le_mul_of_nonneg_right _ (le_of_lt hu)
    exact_mod_cast hr1
  · have h3 : pow2 (float_exponent x + 1) = pow2 24 * pow2 (float_exponent x - 23) := by
      rw [← pow2_add]
      congr 1
      ring
    rw [h3, pow2_24]
    apply mul_le_mul_of_nonneg_right _ (le_of_lt hu)
    exact_mod_cast hr2

/-- A number whose quotient by the unit of its binade is an integer is a
`float`. -/
theorem to_float_exact {x : ℚ} (hx : 0 < x) (z : Int)
    (hz : x = (z : ℚ) * pow2 (float_exponent x - 23)) : to_float x = x := by
  have hu := pow2_pos (float_exponent x - 23)
  have hq : x / pow2 (float_exponent x - 23) = (z : ℚ) := by
    rw [div_eq_iff (ne_of_gt hu)]
    exact hz
  rw [to_float_of_pos hx, round_pos_eq, hq, round_half_even_int]
  exact hz.symm

theorem to_float_pow2 (k : Int) : to_float (pow2 k) = pow2 k := by
  have he : float_exponent (pow2 k) = k :=
    float_exponent_eq (le_refl _) ((pow2_lt_iff _ _).2 (by omega))
  apply to_float_exact (pow2_pos k) 8388608
  rw [he]
  have := pow2_split k
  rw [pow2_23] at this
  push_cast
  exact this

theorem to_float_nonneg {x : ℚ} (hx : 0 ≤ x) : 0 ≤ to_float x := by
  rcases eq_or_lt_of_le hx with h0 | hpos
  · rw [← h0, to_float_zero]
  · rw [to_float_of_pos hpos]
    exact le_trans (le_of_lt (pow2_pos _)) (round_pos_bounds hpos).1

/-- Rounding does not cross a power of two from above. -/
theorem pow2_le_to_float {x : ℚ} {k : Int} (h : pow2 k ≤ x) : pow2 k ≤ to_float x := by
  have hx : 0 < x := lt_of_lt_of_le (pow2_pos k) h
  obtain ⟨_, h2⟩ := float_exponent_spec hx
  have hk : k ≤ float_exponent x := by
    have := (pow2_lt_iff _ _).1 (lt_of_le_of_lt h h2)
    omega
  rw [to_float_of_pos hx]
  exact le_trans ((pow2_le_iff _ _).2 hk) (round_pos_bounds hx).1

/-- Rounding does not cross a power of two from below. -/
theorem to_float_le_pow2 {x : ℚ} {k : Int} (h0 : 0 ≤ x) (h : x ≤ pow2 k) :
    to_float x ≤ pow2 k := by
  rcases eq_or_lt_of_le h0 with hz | hx
  · rw [← hz, to_float_zero]
    exact le_of_lt (pow2_pos k)
  · rcases eq_or_lt_of_le h with heq | hlt
    · rw [heq, to_float_pow2]
    · obtain ⟨h1, _⟩ := float_exponent_spec hx
      have hk : float_exponent x + 1 ≤ k := by
        have := (pow2_lt_iff _ _).1 (lt_of_le_of_lt h1 hlt)
        omega
      rw [to_float_of_pos hx]
      exact le_trans (round_pos_bounds hx).2 ((pow2_le_iff _ _).2 hk)

/-- The numbers below `2 ^ 24` are `float`s. -/
theorem to_float_natCast {n : Nat} (hn : n < 16777216) : to_float (n : ℚ) = (n : ℚ) := by
  rcases Nat.eq_zero_or_pos n with h0 | hpos
  · rw [h0]
    exact to_float_zero
  · have hx : (0 : ℚ) < (n : ℚ) := by exact_mod_cast hpos
    obtain ⟨h1, h2⟩ := float_exponent_spec hx
    have hlt : float_exponent (n : ℚ) < 24 := by
      apply (pow2_lt_iff _ _).1
      rw [pow2_24]
      refine lt_of_le_of_lt h1 ?_
      exact_mod_cast hn
    obtain ⟨m, hm⟩ : ∃ m : Nat, (m : Int) = 23 - float_exponent (n : ℚ) :=
      ⟨(23 - float_exponent (n : ℚ)).toNat, Int.toNat_of_nonneg (by omega)⟩
    apply to_float_exact hx ((n : Int) * (2 ^ m : Nat))
    have hmul : pow2 (m : Int) * pow2 (float_exponent (n : ℚ) - 23) = 1 := by
      rw [← pow2_add, hm]
      have : (23 - float_exponent (n : ℚ) + (float_exponent (n : ℚ) - 23)) = 0 := by ring
      rw [this]
      rfl
    rw [pow2_natCast] at hmul
    push_cast at hmul ⊢
    rw [mul_assoc, hmul, mul_one]

theorem to_float_one : to_float 1 = 1 := by
  have := to_float_pow2 0
  rwa [pow2_zero] at this

/-- A number that exceeds 1 by more than half a unit in the last place
rounds to a `float` above 1. -/
theorem one_lt_to_float {x : ℚ} (h : 1 + 1 / 16777216 < x) : 1 < to_float x := by
  by_cases h2 : 2 ≤ x
  · have := @pow2_le_to_float x 1 (by rw [pow2_one]; exact h2)
    rw [pow2_one] at this
    linarith
  · have hx : 0 < x := by linarith
    have he : float_exponent x = 0 :=
      float_exponent_eq (by rw [pow2_zero]; linarith)
        (by rw [zero_add, pow2_one]; exact not_le.1 h2)
    have hu : pow2 (float_exponent x - 23) = 1 / 8388608 := by
      rw [he, pow2_eq]
      norm_num
    have hr : (8388608 : Int) + 1 ≤ round_half_even (x / pow2 (float_exponent x - 23)) := by
      apply succ_le_round_half_even
      rw [hu]
      push_cast
      rw [div_div_eq_mul_div, div_one]
      linarith
    rw [to_float_of_pos hx, round_pos_eq, hu]
    have hr2 : ((8388608 : ℚ) + 1) ≤ (round_half_even (x / (1 / 8388608)) : ℚ) := by
      rw [hu] at hr
      exact_mod_cast hr
    have : ((8388608 : ℚ) + 1) * (1 / 8388608)
        ≤ (round_half_even (x / (1 / 8388608)) : ℚ) * (1 / 8388608) :=
      mul_le_mul_of_nonneg_right hr2 (by norm_num)
    refine lt_of_lt_of_le ?_ this
    norm_num

end FloatRounding

section FloatRatio

/-- Below `2 ^ 24` the test `(float)n / (float)c > 1` decides `n > c`. -/
theorem float_ratio_gt_one_iff (n c : Nat) (hc : 0 < c) (hc24 : c < 16777216) :
    1 < to_float (to_float (n : ℚ) / to_float (c : ℚ)) ↔ c < n := by
  have hcq : (0 : ℚ) < (c : ℚ) := by exact_mod_cast hc
  have hc24q : (c : ℚ) ≤ 16777215 := by exact_mod_cast (by omega : c ≤ 16777215)
  rw [to_float_natCast hc24]
  constructor
  · intro h
    by_contra hle
    have hnc : n ≤ c := by omega
    rw [to_float_natCast (by omega)] at h
    have h1 : (n : ℚ) / (c : ℚ) ≤ pow2 0 := by
      rw [pow2_zero, div_le_one hcq]
      exact_mod_cast hnc
    have h2 := to_float_le_pow2 (div_nonneg (Nat.cast_nonneg n) (le_of_lt hcq)) h1
    rw [pow2_zero] at h2
    exact absurd h (not_lt.2 h2)
  · intro h
    apply one_lt_to_float
    rw [lt_div_iff₀ hcq]
    by_cases hn : n < 16777216
    · rw [to_float_natCast hn]
      have : (c : ℚ) + 1 ≤ (n : ℚ) := by exact_mod_cast h
      linarith
    · have h24 : pow2 24 ≤ (n : ℚ) := by
        rw [pow2_24]
        exact_mod_cast (by omega : 16777216 ≤ n)
      have := pow2_le_to_float h24
      rw [pow2_24] at this
      linarith

/-- When the rounded size does not exceed the rounded capacity, the test
`(float)n / (float)c > 1` fails. -/
theorem float_ratio_le_one (n : Nat) {c : ℚ} (hc : 0 < c) (h : to_float (n : ℚ) ≤ c) :
    ¬ (1 < to_float (to_float (n : ℚ) / c)) := by
  have h0 : 0 ≤ to_float (n : ℚ) := to_float_nonneg (Nat.cast_nonneg n)
  have h1 : to_float (n : ℚ) / c ≤ pow2 0 := by
    rw [pow2_zero, div_le_one hc]
    exact h
  have h2 := to_float_le_pow2 (div_nonneg h0 (le_of_lt hc)) h1
  rw [pow2_zero] at h2
  exact not_lt.2 h2

end FloatRatio

section FloatMonotone

theorem round_half_even_mono {a b : ℚ} (h : a ≤ b) :
    round_half_even a ≤ round_half_even b := by
  by_cases hf : ⌊a⌋ < ⌊b⌋
  · have h1 : round_half_even a ≤ ⌊a⌋ + 1 := by
      rcases round_half_even_cases a with h1 | h1 <;> rw [h1] <;> omega
    have h2 : ⌊b⌋ ≤ round_half_even b := by
      rcases round_half_even_cases b with h1 | h1 <;> rw [h1] <;> omega
    omega
  · have hfe : ⌊a⌋ = ⌊b⌋ := le_antisymm (Int.floor_le_floor h) (not_lt.1 hf)
    unfold round_half_even
    rw [hfe]
    split_ifs <;> first | omega | (exfalso; linarith)

/-- Rounding to `float` is monotone on the nonnegative numbers. -/
theorem to_float_mono {x y : ℚ} (h0 : 0 ≤ x) (h : x ≤ y) : to_float x ≤ to_float y := by
  rcases eq_or_lt_of_le h0 with hz | hx
  · rw [← hz, to_float_zero]
    exact to_float_nonneg (le_trans h0 h)
  · have hy : 0 < y := lt_of_lt_of_le hx h
    obtain ⟨hx1, hx2⟩ := float_exponent_spec hx
    obtain ⟨hy1, hy2⟩ := float_exponent_spec hy
    have hle : float_exponent x ≤ float_exponent y := by
      have := (pow2_lt_iff _ _).1 (lt_of_le_of_lt (le_trans hx1 h) hy2)
      omega
    rcases eq_or_lt_of_le hle with heq | hlt
    · rw [to_float_of_pos hx, to_float_of_pos hy, round_pos_eq, round_pos_eq, heq]
      apply mul_le_mul_of_nonneg_right _ (le_of_lt (pow2_pos _))
      exact Int.cast_le.2
        (round_half_even_mono (div_le_div_of_nonneg_right h (le_of_lt (pow2_pos _))))
    · exact le_trans (to_float_le_pow2 h0 (le_of_lt hx2))
        (pow2_le_to_float (le_trans ((pow2_le_iff _ _).2 (by omega)) hy1))

theorem to_float_natCast_pos {c : Nat} (hc : 0 < c) : 0 < to_float (c : ℚ) := by
  have h1 : pow2 0 ≤ (c : ℚ) := by
    rw [pow2_zero]
    exact_mod_cast hc
  exact lt_of_lt_of_le (pow2_pos 0) (pow2_le_to_float h1)

/-- A size that does not exceed the capacity never makes the test
`(float)n / (float)c > 1` hold. -/
theorem float_ratio_le_one_of_le (n c : Nat) (hc : 0 < c) (h : n ≤ c) :
    ¬ (1 < to_float (to_float (n : ℚ) / to_float (c : ℚ))) :=
  float_ratio_le_one n (to_float_natCast_pos hc)
    (to_float_mono (Nat.cast_nonneg n) (Nat.cast_le.2 h))

end FloatMonotone

/-! ## Lists in memory -/

section Abstraction

variable {K V : Type}

@[simp] theorem headD_nil (q : Ptr) : headD ([] : List (Entry K V)) q = q := rfl

@[simp] theorem headD_cons (e : Entry K V) (es : List (Entry K V)) (q : Ptr) :
    headD (e :: es) q = Ptr.node e.addr := rfl

theorem headD_append (l1 l2 : List (Entry K V)) (q : Ptr) :
    headD (l1 ++ l2) q = headD l1 (headD l2 q) := by
  cases l1 <;> rfl

@[simp] theorem predFrom_nil (p : Ptr) : predFrom p ([] : List (Entry K V)) = p := rfl

@[simp] theorem predFrom_cons (p : Ptr) (e : Entry K V) (es : List (Entry K V)) :
    predFrom p (e :: es) = predFrom (Ptr.node e.addr) es := rfl

theorem predFrom_append (p : Ptr) (l1 l2 : List (Entry K V)) :
    predFrom p (l1 ++ l2) = predFrom (predFrom p l1) l2 := by
  induction l1 generalizing p with
  | nil => rfl
  | cons e l1 ih => simp [ih]

theorem predFrom_concat (p : Ptr) (l : List (Entry K V)) (x : Entry K V) :
    predFrom p (l ++ [x]) = Ptr.node x.addr := by
  simp [predFrom_append]

theorem predFrom_cases (p : Ptr) (l : List (Entry K V)) :
    (l = [] ∧ predFrom p l = p) ∨ ∃ l0 x, l = l0 ++ [x] ∧ predFrom p l = Ptr.node x.addr := by
  rcases List.eq_nil_or_concat l with h | ⟨l0, x, h⟩
  · left; subst h; exact ⟨rfl, rfl⟩
  · right; subst h; exact ⟨l0, x, by simp, by simp [predFrom_append]⟩

@[simp] theorem addrs_nil : addrs ([] : List (Entry K V)) = [] := rfl

@[simp] theorem addrs_cons (e : Entry K V) (es : List (Entry K V)) :
    addrs (e :: es) = e.addr :: addrs es := rfl

@[simp] theorem addrs_append (l1 l2 : List (Entry K V)) :
    addrs (l1 ++ l2) = addrs l1 ++ addrs l2 := by
  simp [addrs]

theorem mem_addrs {es : List (Entry K V)} {e : Entry K V} (he : e ∈ es) : e.addr ∈ addrs es :=
  List.mem_map_of_mem _ he

@[simp] theorem Seg_nil (h : Heap K V) (q : Ptr) : Seg h [] q = True := rfl

theorem Seg_cons (h : Heap K V) (e : Entry K V) (es : List (Entry K V)) (q : Ptr) :
    Seg h (e :: es) q ↔
      (h.nodes e.addr = some { next := headD es q, key := e.key, value := e.value, hash := e.hash }
        ∧ Seg h es q) := Iff.rfl

theorem Seg_append (h : Heap K V) (l1 l2 : List (Entry K V)) (q : Ptr) :
    Seg h (l1 ++ l2) q ↔ (Seg h l1 (headD l2 q) ∧ Seg h l2 q) := by
  induction l1 with
  | nil => simp
  | cons e l1 ih =>
    simp only [List.cons_append, Seg_cons, ih, headD_append, and_assoc]

/-- A segment only depends on the nodes it is made of. -/
theorem Seg_congr {h h2 : Heap K V} {es : List (Entry K V)} {q : Ptr}
    (hs : Seg h es q) (heq : ∀ a ∈ addrs es, h2.nodes a = h.nodes a) : Seg h2 es q := by
  induction es with
  | nil => trivial
  | cons e es ih =>
    rw [Seg_cons] at hs ⊢
    refine ⟨?_, ih hs.2 (fun a ha => heq a (by simp [ha]))⟩
    rw [heq e.addr (by simp)]
    exact hs.1

theorem Seg_node {h : Heap K V} {es : List (Entry K V)} {q : Ptr} (hs : Seg h es q)
    {e : Entry K V} (he : e ∈ es) : ∃ nx, h.nodes e.addr
      = some { next := nx, key := e.key, value := e.value, hash := e.hash } := by
  induction es with
  | nil => cases he
  | cons x es ih =>
    rw [Seg_cons] at hs
    rcases List.mem_cons.1 he with rfl | hm
    · exact ⟨_, hs.1⟩
    · exact ih hs.2 hm

theorem Seg_alloc {h : Heap K V} {es : List (Entry K V)} {q : Ptr} (hs : Seg h es q)
    {a : Nat} (ha : a ∈ addrs es) : ∃ n, h.nodes a = some n := by
  obtain ⟨e, he, rfl⟩ := List.mem_map.1 ha
  obtain ⟨nx, hn⟩ := Seg_node hs he
  exact ⟨_, hn⟩

/-- The node at a split point is linked to the head of what follows. -/
theorem Seg_split {h : Heap K V} {pre post : List (Entry K V)} {e : Entry K V} {q : Ptr}
    (hs : Seg h (pre ++ e :: post) q) :
    h.nodes e.addr
      = some { next := headD post q, key := e.key, value := e.value, hash := e.hash } := by
  rw [Seg_append, Seg_cons] at hs
  exact hs.2.1

/-- Entries at equal addresses of one list are the same entry (they carry the
data of the same node). -/
theorem Seg_entry_eq {h : Heap K V} {es : List (Entry K V)} {q : Ptr} (hs : Seg h es q)
    {x y : Entry K V} (hx : x ∈ es) (hy : y ∈ es) (hxy : x.addr = y.addr) : x = y := by
  obtain ⟨n1, h1⟩ := Seg_node hs hx
  obtain ⟨n2, h2⟩ := Seg_node hs hy
  rw [hxy, h2] at h1
  cases x; cases y
  simp only [Option.some.injEq, Node.mk.injEq] at h1
  simp_all

/-- Reading the link of the predecessor of a split point. -/
theorem next_predFrom {h : Heap K V} {prev : Ptr} {pre post : List (Entry K V)} {q : Ptr}
    (hp : h.next prev = some (headD (pre ++ post) q)) (hs : Seg h (pre ++ post) q) :
    h.next (predFrom prev pre) = some (headD post q) := by
  induction pre generalizing prev with
  | nil => simpa using hp
  | cons e pre ih =>
    simp only [List.cons_append, Seg_cons] at hs
    apply ih _ hs.2
    simp [Heap.next, hs.1]

theorem IsList.next_pred {h : Heap K V} {f : Nat} {pre post : List (Entry K V)}
    (hl : IsList h f (pre ++ post)) :
    h.next (predFrom (Ptr.fake f) pre) = some (headD post Ptr.null) :=
  next_predFrom (by simp [Heap.next, hl.1]) hl.2.1

end Abstraction

section HeapSteps

variable {K V : Type}

theorem Heap.setNext_node {h : Heap K V} {a : Nat} {n : Node K V} (hn : h.nodes a = some n)
    (q : Ptr) : h.setNext (Ptr.node a) q
      = some { h with nodes := Function.update h.nodes a (some { n with next := q }) } := by
  simp [Heap.setNext, hn]

theorem Heap.setNext_fake (h : Heap K V) (f : Nat) (q : Ptr) :
    h.setNext (Ptr.fake f) q = some { h with fake := Function.update h.fake f q } := rfl

/-- Linking an allocated node that is not in the list after the predecessor
of a split point inserts its entry at the split point. -/
theorem ForwardList.insert_spec {h : Heap K V} {l : ForwardList} (pre post : List (Entry K V))
    {a : Nat} {n : Node K V}
    (hl : IsList h l.fake_node (pre ++ post)) (hn : h.nodes a = some n)
    (ha : a ∉ addrs (pre ++ post)) :
    ∃ h2, l.insert h (predFrom (Ptr.fake l.fake_node) pre) a
        = some (h2, { l with sz := l.sz + 1 }) ∧
      IsList h2 l.fake_node
        (pre ++ { addr := a, key := n.key, value := n.value, hash := n.hash } :: post) ∧
      h2.fresh = h.fresh ∧ (∀ j, j ≠ l.fake_node → h2.fake j = h.fake j) ∧
      (∀ x, x ≠ a → x ∉ addrs pre → h2.nodes x = h.nodes x) := by
  obtain ⟨hhead, hseg, hnd⟩ := hl
  have hnx : h.next (predFrom (Ptr.fake l.fake_node) pre) = some (headD post Ptr.null) :=
    IsList.next_pred ⟨hhead, hseg, hnd⟩
  rw [addrs_append, List.mem_append, not_or] at ha
  rw [addrs_append, List.nodup_append] at hnd
  rw [Seg_append] at hseg
  rcases predFrom_cases (Ptr.fake l.fake_node) pre with ⟨hpre, hp⟩ | ⟨l0, x, hpre, hp⟩
  · subst hpre
    rw [hp] at hnx ⊢
    refine ⟨{ h with
        nodes := Function.update h.nodes a (some { n with next := headD post Ptr.null }),
        fake := Function.update h.fake l.fake_node (Ptr.node a) }, ?_, ?_, rfl, ?_, ?_⟩
    · simp only [ForwardList.insert, hnx, Heap.setNext_node hn, Heap.setNext_fake,
        Option.bind_eq_bind, Option.some_bind, Option.pure_def]
    · refine ⟨by simp, ?_, ?_⟩
      · simp only [List.nil_append, Seg_cons]
        refine ⟨by simp, Seg_congr hseg.2 ?_⟩
        intro b hb
        have : b ≠ a := fun hba => ha.2 (hba ▸ hb)
        simp [Function.update_noteq this]
      · simpa using ⟨ha.2, hnd.2.1⟩
    · intro j hj
      simp [Function.update_noteq hj]
    · intro b hb _
      simp [Function.update_noteq hb]
  · subst hpre
    rw [hp] at hnx ⊢
    have hxa : x.addr ≠ a := by
      rintro rfl
      exact ha.1 (by simp)
    have hxn := Seg_split hseg.1
    simp only [headD_nil] at hxn
    have hnd0 : (addrs l0).Nodup ∧ x.addr ∉ addrs l0 := by
      have := hnd.1
      simp only [addrs_append, addrs_cons, addrs_nil] at this
      rw [List.nodup_append] at this
      refine ⟨this.1, ?_⟩
      intro hm
      exact this.2.2 hm (by simp)
    have hxpost : x.addr ∉ addrs post := fun hm => hnd.2.2 (by simp) hm
    refine ⟨{ h with
        nodes := Function.update
          (Function.update h.nodes a (some { n with next := headD post Ptr.null })) x.addr
          (some { next := Ptr.node a, key := x.key, value := x.value, hash := x.hash }) },
      ?_, ?_, rfl, ?_, ?_⟩
    · have h1 : (Function.update h.nodes a (some { n with next := headD post Ptr.null })) x.addr
          = some { next := headD post Ptr.null, key := x.key, value := x.value, hash := x.hash } := by
        rw [Function.update_noteq hxa]; exact hxn
      simp only [ForwardList.insert, hnx, Heap.setNext_node hn, Option.bind_eq_bind,
        Option.some_bind, Option.pure_def]
      rw [Heap.setNext_node h1]
      rfl
    · refine ⟨?_, ?_, ?_⟩
      · simp only [List.append_assoc, List.singleton_append, headD_append, headD_cons]
        exact (by simpa [headD_append] using hhead)
      · simp only [List.append_assoc, List.singleton_append]
        rw [Seg_append, Seg_cons, Seg_cons]
        rw [Seg_append] at hseg
        refine ⟨Seg_congr hseg.1.1 ?_, by simp, ?_, Seg_congr hseg.2 ?_⟩
        · intro b hb
          have hb1 : b ≠ x.addr := fun e => hnd0.2 (e ▸ hb)
          have hb2 : b ≠ a := fun e => ha.1 (by simp [← e, hb])
          simp [Function.update_noteq hb1, Function.update_noteq hb2]
        · simp [Function.update_noteq hxa.symm]
        · intro b hb
          have hb1 : b ≠ x.addr := fun e => hxpost (e ▸ hb)
          have hb2 : b ≠ a := fun e => ha.2 (e ▸ hb)
          simp [Function.update_noteq hb1, Function.update_noteq hb2]
      · simp only [addrs_append, addrs_cons, addrs_nil, List.append_assoc, List.singleton_append]
        have := hnd
        simp only [addrs_append, addrs_cons, addrs_nil] at this ha
        rw [List.nodup_append] at this ⊢
        refine ⟨hnd0.1, ?_, ?_⟩
        · simp only [List.nodup_cons, List.mem_cons, not_or]
          exact ⟨⟨hxa, hxpost⟩, ha.2, hnd.2.1⟩
        · intro b hb1 hb2
          simp only [List.mem_cons] at hb2
          rcases hb2 with rfl | rfl | hb2
          · exact hnd0.2 hb1
          · exact ha.1 (by simp [hb1])
          · exact hnd.2.2 (by simp [hb1]) hb2
    · intro j _
      rfl
    · intro b hb hb2
      have hb1 : b ≠ x.addr := fun e => hb2 (by simp [e])
      simp [Function.update_noteq hb1, Function.update_noteq hb]

end HeapSteps

section HeapSteps2

variable {K V : Type}

/-- Redirecting the predecessor of an entry to its successor and releasing
its node removes the entry from the list. -/
theorem ForwardList.unlink_spec {h : Heap K V} {l : ForwardList} {pre post : List (Entry K V)}
    {e : Entry K V} (hl : IsList h l.fake_node (pre ++ e :: post)) :
    ∃ h1 h2, h.setNext (predFrom (Ptr.fake l.fake_node) pre) (headD post Ptr.null) = some h1 ∧
      l.erase h1 (Ptr.node e.addr) = some (h2, { l with sz := l.sz - 1 }) ∧
      IsList h2 l.fake_node (pre ++ post) ∧
      h2.fresh = h.fresh ∧ (∀ j, j ≠ l.fake_node → h2.fake j = h.fake j) ∧
      (∀ x, x ≠ e.addr → x ∉ addrs pre → h2.nodes x = h.nodes x) ∧
      h2.nodes e.addr = none := by
  obtain ⟨hhead, hseg, hnd⟩ := hl
  have hen := Seg_split hseg
  rw [addrs_append, List.nodup_append] at hnd
  rw [Seg_append, Seg_cons] at hseg
  have hepost : e.addr ∉ addrs post := by
    have := hnd.2.1
    simp only [addrs_cons, List.nodup_cons] at this
    exact this.1
  have hpost_nd : (addrs post).Nodup := by
    have := hnd.2.1
    simp only [addrs_cons, List.nodup_cons] at this
    exact this.2
  have hepre : e.addr ∉ addrs pre := fun hm => hnd.2.2 hm (by simp)
  rcases predFrom_cases (Ptr.fake l.fake_node) pre with ⟨hpre, hp⟩ | ⟨l0, x, hpre, hp⟩
  · subst hpre
    rw [hp]
    refine ⟨{ h with fake := Function.update h.fake l.fake_node (headD post Ptr.null) },
      { h with fake := Function.update h.fake l.fake_node (headD post Ptr.null),
               nodes := Function.update h.nodes e.addr none }, rfl, ?_, ?_, rfl, ?_, ?_, ?_⟩
    · simp [ForwardList.erase, Heap.deallocate, hen]
    · refine ⟨by simp, Seg_congr hseg.2.2 ?_, by simpa using hpost_nd⟩
      intro b hb
      have : b ≠ e.addr := fun hbe => hepost (hbe ▸ hb)
      simp [Function.update_noteq this]
    · intro j hj
      simp [Function.update_noteq hj]
    · intro b hb _
      simp [Function.update_noteq hb]
    · simp
  · subst hpre
    rw [hp]
    have hxe : x.addr ≠ e.addr := by
      intro hxe
      exact hepre (by simp [← hxe])
    have hxn := Seg_split hseg.1
    simp only [headD_nil, headD_cons] at hxn
    have hnd0 : (addrs l0).Nodup ∧ x.addr ∉ addrs l0 := by
      have := hnd.1
      simp only [addrs_append, addrs_cons, addrs_nil] at this
      rw [List.nodup_append] at this
      exact ⟨this.1, fun hm => this.2.2 hm (by simp)⟩
    have hxpost : x.addr ∉ addrs post := fun hm =>
      hnd.2.2 (show x.addr ∈ addrs (l0 ++ [x]) by simp)
        (show x.addr ∈ addrs (e :: post) by simp [hm])
    refine ⟨{ h with
        nodes := Function.update h.nodes x.addr
          (some { next := headD post Ptr.null, key := x.key, value := x.value, hash := x.hash }) },
      { h with
        nodes := Function.update (Function.update h.nodes x.addr
          (some { next := headD post Ptr.null, key := x.key, value := x.value, hash := x.hash }))
          e.addr none }, ?_, ?_, ?_, rfl, ?_, ?_, ?_⟩
    · rw [Heap.setNext_node hxn]
    · simp [ForwardList.erase, Heap.deallocate, Function.update_noteq hxe.symm, hen]
    · refine ⟨?_, ?_, ?_⟩
      · simpa [headD_append] using hhead
      · rw [Seg_append] at hseg ⊢
        refine ⟨?_, Seg_congr hseg.2.2 ?_⟩
        · rw [Seg_append]
          refine ⟨Seg_congr hseg.1.1 ?_, ?_⟩
          · intro b hb
            have hb1 : b ≠ x.addr := fun e1 => hnd0.2 (e1 ▸ hb)
            have hb2 : b ≠ e.addr := fun e1 => hepre (by simp [← e1, hb])
            simp [Function.update_noteq hb1, Function.update_noteq hb2]
          · simp [Seg_cons, Function.update_noteq hxe]
        · intro b hb
          have hb1 : b ≠ x.addr := fun e1 => hxpost (e1 ▸ hb)
          have hb2 : b ≠ e.addr := fun e1 => hepost (e1 ▸ hb)
          simp [Function.update_noteq hb1, Function.update_noteq hb2]
      · rw [addrs_append, List.nodup_append]
        refine ⟨hnd.1, hpost_nd, ?_⟩
        intro b hb1 hb2
        exact hnd.2.2 hb1 (by simp [hb2])
    · intro j _
      rfl
    · intro b hb hb2
      have hb1 : b ≠ x.addr := fun e1 => hb2 (by simp [e1])
      simp [Function.update_noteq hb1, Function.update_noteq hb]
    · simp

end HeapSteps2

/-! ## Grouping and anchors on sequences -/

section Sequences

variable {K V : Type}

@[simp] theorem Entry.inBucket_iff (b : Nat) (e : Entry K V) :
    e.inBucket b = true ↔ e.hash = b := by
  simp [Entry.inBucket]

@[simp] theorem Entry.inBucket_false (b : Nat) (e : Entry K V) :
    e.inBucket b = false ↔ e.hash ≠ b := by
  simp [Entry.inBucket]

@[simp] theorem Entry.offBucket_iff (b : Nat) (e : Entry K V) :
    e.offBucket b = true ↔ e.hash ≠ b := by
  simp [Entry.offBucket]

@[simp] theorem Entry.offBucket_false (b : Nat) (e : Entry K V) :
    e.offBucket b = false ↔ e.hash = b := by
  simp [Entry.offBucket]

theorem Grouped_cons (e : Entry K V) (es : List (Entry K V)) :
    Grouped (e :: es) ↔
      ((∀ x ∈ es.dropWhile (Entry.inBucket e.hash), x.hash ≠ e.hash) ∧ Grouped es) := Iff.rfl

theorem mem_dropWhile_of_pair {q : Entry K V → Bool} {l : List (Entry K V)} {y z : Entry K V}
    (hs : List.Sublist [y, z] l) (hy : q y = false) : z ∈ l.dropWhile q := by
  induction l with
  | nil => cases hs
  | cons r l ih =>
    by_cases hr : q r = true
    · rw [List.dropWhile_cons_of_pos hr]
      rcases List.sublist_cons_iff.1 hs with h1 | ⟨l2, h2, h3⟩
      · exact ih h1
      · cases h2
        rw [hy] at hr
        cases hr
    · rw [List.dropWhile_cons_of_neg hr]
      exact hs.subset (by simp)

theorem pair_of_mem_dropWhile {q : Entry K V → Bool} {l : List (Entry K V)} {z : Entry K V}
    (hz : z ∈ l.dropWhile q) : q z = false ∨ ∃ y, q y = false ∧ List.Sublist [y, z] l := by
  induction l with
  | nil => simp at hz
  | cons r l ih =>
    by_cases hr : q r = true
    · rw [List.dropWhile_cons_of_pos hr] at hz
      rcases ih hz with h1 | ⟨y, hy, hs⟩
      · exact Or.inl h1
      · exact Or.inr ⟨y, hy, hs.trans (List.sublist_cons_self _ _)⟩
    · rw [List.dropWhile_cons_of_neg hr] at hz
      have hr2 : q r = false := by simpa using hr
      rcases List.mem_cons.1 hz with rfl | hm
      · exact Or.inl hr2
      · exact Or.inr ⟨r, hr2, by simpa using hm⟩

/-- Grouping in words: whenever three entries occur in this order and the
outer two share a bucket id, the middle one has it too. -/
theorem Grouped.triple {es : List (Entry K V)} (hg : Grouped es) :
    ∀ x y z, List.Sublist [x, y, z] es → x.hash = z.hash → y.hash = x.hash := by
  induction es with
  | nil => intro x y z hs; cases hs
  | cons e es ih =>
    intro x y z hs hxz
    rcases List.sublist_cons_iff.1 hs with h1 | ⟨l2, h2, h3⟩
    · exact ih hg.2 x y z h1 hxz
    · obtain ⟨rfl, rfl⟩ : x = e ∧ [y, z] = l2 := by simpa using h2
      by_contra hne
      have hz : z ∈ es.dropWhile (Entry.inBucket x.hash) :=
        mem_dropWhile_of_pair h3 (by simpa using hne)
      exact hg.1 z hz hxz.symm

theorem Grouped.of_triple {es : List (Entry K V)}
    (ht : ∀ x y z, List.Sublist [x, y, z] es → x.hash = z.hash → y.hash = x.hash) : Grouped es := by
  induction es with
  | nil => trivial
  | cons e es ih =>
    refine ⟨?_, ih (fun x y z hs => ht x y z (hs.trans (List.sublist_cons_self _ _)))⟩
    intro z hz hze
    rcases pair_of_mem_dropWhile hz with h1 | ⟨y, hy, hs⟩
    · simp [hze] at h1
    · have := ht e y z (by simpa using hs) hze.symm
      simp [this] at hy

theorem Grouped.of_sublist {l l2 : List (Entry K V)} (hs : List.Sublist l2 l) (hg : Grouped l) :
    Grouped l2 :=
  Grouped.of_triple (fun x y z h3 => hg.triple x y z (h3.trans hs))

theorem Grouped.cons_new {es : List (Entry K V)} {e0 : Entry K V} (hg : Grouped es)
    (hnew : ∀ x ∈ es, x.hash ≠ e0.hash) : Grouped (e0 :: es) :=
  ⟨fun x hx => hnew x (List.dropWhile_subset _ hx), hg⟩

theorem Grouped.insert_run {pre post : List (Entry K V)} {e0 x0 : Entry K V}
    (hg : Grouped (pre ++ x0 :: post)) (hx : x0.hash = e0.hash)
    (hpre : ∀ y ∈ pre, y.hash ≠ e0.hash) : Grouped (pre ++ e0 :: x0 :: post) := by
  induction pre with
  | nil =>
    refine ⟨?_, hg⟩
    intro z hz
    have hq : x0.inBucket e0.hash = true := by simp [hx]
    rw [List.dropWhile_cons_of_pos hq] at hz
    have := hg.1 z (by simpa [hx] using hz)
    simpa [hx] using this
  | cons p pre ih =>
    have hp : p.hash ≠ e0.hash := hpre p (by simp)
    rw [List.cons_append, Grouped_cons] at hg ⊢
    refine ⟨?_, ih hg.2 (fun y hy => hpre y (by simp [hy]))⟩
    intro z hz
    have h1 := hg.1
    rw [List.dropWhile_append] at hz h1
    have hq0 : ¬ e0.inBucket p.hash = true := by simpa using fun h => hp h.symm
    have hqx : ¬ x0.inBucket p.hash = true := by simpa [hx] using fun h => hp h.symm
    rw [List.dropWhile_cons_of_neg hq0] at hz
    rw [List.dropWhile_cons_of_neg hqx] at h1
    split at hz
    · rename_i hemp
      rw [if_pos hemp] at h1
      rcases List.mem_cons.1 hz with rfl | hm
      · exact fun h => hp h.symm
      · exact h1 z hm
    · rename_i hemp
      rw [if_neg hemp] at h1
      rcases List.mem_append.1 hz with hm | hm
      · exact h1 z (List.mem_append_left _ hm)
      · rcases List.mem_cons.1 hm with rfl | hm2
        · exact fun h => hp h.symm
        · exact h1 z (List.mem_append_right _ hm2)

/-- A list with an entry of bucket `b` splits at the first such entry. -/
theorem split_at_bucket {es : List (Entry K V)} {b : Nat} (h : ∃ x ∈ es, x.hash = b) :
    ∃ pre x0 post, es = pre ++ x0 :: post ∧ x0.hash = b ∧ (∀ y ∈ pre, y.hash ≠ b) ∧
      es.takeWhile (Entry.offBucket b) = pre ∧
      es.dropWhile (Entry.offBucket b) = x0 :: post := by
  induction es with
  | nil => simp at h
  | cons e es ih =>
    by_cases he : e.hash = b
    · exact ⟨[], e, es, rfl, he, by simp, by simp [List.takeWhile_cons, he],
        by simp [List.dropWhile_cons, he]⟩
    · have h2 : ∃ x ∈ es, x.hash = b := by
        obtain ⟨x, hx, hxb⟩ := h
        rcases List.mem_cons.1 hx with rfl | hm
        · exact absurd hxb he
        · exact ⟨x, hm, hxb⟩
      obtain ⟨pre, x0, post, hes, hx, hpre, htw, hdw⟩ := ih h2
      refine ⟨e :: pre, x0, post, by simp [hes], hx, ?_, ?_, ?_⟩
      · intro y hy
        rcases List.mem_cons.1 hy with rfl | hm
        · exact he
        · exact hpre y hm
      · simp [List.takeWhile_cons, he, htw]
      · simp [List.dropWhile_cons, he, hdw]

theorem linkList_of_absent {es : List (Entry K V)} {e0 : Entry K V}
    (h : ∀ x ∈ es, x.hash ≠ e0.hash) : linkList es e0 = e0 :: es := by
  unfold linkList
  rw [if_pos]
  simpa using h

theorem linkList_of_present {es : List (Entry K V)} (e0 : Entry K V)
    (h : ∃ x ∈ es, x.hash = e0.hash) :
    ∃ pre x0 post, es = pre ++ x0 :: post ∧ x0.hash = e0.hash ∧ (∀ y ∈ pre, y.hash ≠ e0.hash) ∧
      linkList es e0 = pre ++ e0 :: x0 :: post := by
  have hnall : ¬ (es.all (Entry.offBucket e0.hash) = true) := by
    simpa using h
  obtain ⟨pre, x0, post, hes, hx, hpre, htw, hdw⟩ := split_at_bucket h
  refine ⟨pre, x0, post, hes, hx, hpre, ?_⟩
  unfold linkList
  rw [if_neg hnall, htw, hdw]

theorem linkList_perm (es : List (Entry K V)) (e0 : Entry K V) :
    (linkList es e0).Perm (e0 :: es) := by
  by_cases h : ∃ x ∈ es, x.hash = e0.hash
  · obtain ⟨pre, x0, post, hes, _, _, hl⟩ := linkList_of_present e0 h
    rw [hl, hes]
    exact List.perm_middle
  · rw [linkList_of_absent (by simpa using h)]

theorem Grouped.linkList {es : List (Entry K V)} (hg : Grouped es) (e0 : Entry K V) :
    Grouped (linkList es e0) := by
  by_cases h : ∃ x ∈ es, x.hash = e0.hash
  · obtain ⟨pre, x0, post, hes, hx, hpre, hl⟩ := linkList_of_present e0 h
    rw [hl]
    exact Grouped.insert_run (hes ▸ hg) hx hpre
  · have h2 : ∀ x ∈ es, x.hash ≠ e0.hash := by simpa using h
    rw [linkList_of_absent h2]
    exact hg.cons_new h2

/-! ### Anchors -/

theorem anchorOf_absent {es : List (Entry K V)} {b : Nat} (prev : Ptr)
    (h : ∀ x ∈ es, x.hash ≠ b) : anchorOf prev es b = Ptr.null := by
  induction es generalizing prev with
  | nil => rfl
  | cons e es ih =>
    simp only [anchorOf]
    rw [if_neg (h e (by simp))]
    exact ih _ (fun x hx => h x (by simp [hx]))

theorem anchorOf_split {pre post : List (Entry K V)} {e : Entry K V} {b : Nat} (prev : Ptr)
    (he : e.hash = b) (hpre : ∀ x ∈ pre, x.hash ≠ b) :
    anchorOf prev (pre ++ e :: post) b = predFrom prev pre := by
  induction pre generalizing prev with
  | nil => simp [anchorOf, he]
  | cons p pre ih =>
    simp only [List.cons_append, anchorOf, predFrom_cons]
    rw [if_neg (hpre p (by simp))]
    exact ih _ (fun x hx => hpre x (by simp [hx]))

theorem anchorOf_append_of_absent {pre rest : List (Entry K V)} {b : Nat} (prev : Ptr)
    (hpre : ∀ x ∈ pre, x.hash ≠ b) :
    anchorOf prev (pre ++ rest) b = anchorOf (predFrom prev pre) rest b := by
  induction pre generalizing prev with
  | nil => rfl
  | cons p pre ih =>
    simp only [List.cons_append, anchorOf, predFrom_cons]
    rw [if_neg (hpre p (by simp))]
    exact ih _ (fun x hx => hpre x (by simp [hx]))

theorem anchorOf_append_of_present {pre : List (Entry K V)} {b : Nat} (prev : Ptr)
    (rest1 rest2 : List (Entry K V)) (hpre : ∃ x ∈ pre, x.hash = b) :
    anchorOf prev (pre ++ rest1) b = anchorOf prev (pre ++ rest2) b := by
  induction pre generalizing prev with
  | nil => simp at hpre
  | cons p pre ih =>
    simp only [List.cons_append, anchorOf]
    by_cases hp : p.hash = b
    · simp [hp]
    · rw [if_neg hp, if_neg hp]
      apply ih
      obtain ⟨x, hx, hxb⟩ := hpre
      rcases List.mem_cons.1 hx with rfl | hm
      · exact absurd hxb hp
      · exact ⟨x, hm, hxb⟩

theorem anchorOf_ne_null {es : List (Entry K V)} {b : Nat} {prev : Ptr}
    (hprev : prev ≠ Ptr.null) (h : ∃ x ∈ es, x.hash = b) : anchorOf prev es b ≠ Ptr.null := by
  induction es generalizing prev with
  | nil => simp at h
  | cons e es ih =>
    simp only [anchorOf]
    by_cases he : e.hash = b
    · simpa [he] using hprev
    · rw [if_neg he]
      apply ih (by simp)
      obtain ⟨x, hx, hxb⟩ := h
      rcases List.mem_cons.1 hx with rfl | hm
      · exact absurd hxb he
      · exact ⟨x, hm, hxb⟩

/-- The anchor of a bucket that does not start the list ignores what
precedes the list. -/
theorem anchorOf_prev_irrel {es : List (Entry K V)} {b : Nat} (p1 p2 : Ptr)
    (h : ∀ e rest, es = e :: rest → e.hash ≠ b) : anchorOf p1 es b = anchorOf p2 es b := by
  cases es with
  | nil => rfl
  | cons e rest =>
    simp only [anchorOf]
    rw [if_neg (h e rest rfl), if_neg (h e rest rfl)]

/-- Inserting directly before the first entry of a run changes no anchor. -/
theorem anchorOf_insert_run {pre post : List (Entry K V)} {e0 x0 : Entry K V} (prev : Ptr)
    (hx : x0.hash = e0.hash) (b : Nat) :
    anchorOf prev (pre ++ e0 :: x0 :: post) b = anchorOf prev (pre ++ x0 :: post) b := by
  by_cases hpre : ∃ x ∈ pre, x.hash = b
  · exact anchorOf_append_of_present prev _ _ hpre
  · have h2 : ∀ x ∈ pre, x.hash ≠ b := by simpa using hpre
    rw [anchorOf_append_of_absent prev h2, anchorOf_append_of_absent prev h2]
    simp only [anchorOf]
    by_cases hb : e0.hash = b
    · simp [hb, hx]
    · have hxb : x0.hash ≠ b := hx ▸ hb
      simp [hb, hxb]

end Sequences

/-! ## Lookup -/

section Lookup

variable {K V : Type}

theorem Seg_addr_lt {h : Heap K V} {es : List (Entry K V)} {q : Ptr} (hs : Seg h es q)
    (hc : h.Consistent) : ∀ a ∈ addrs es, a < h.fresh := by
  intro a ha
  obtain ⟨n, hn⟩ := Seg_alloc hs ha
  by_contra hlt
  rw [hc a (Nat.le_of_not_lt hlt)] at hn
  cases hn

theorem nodup_bounded_length {l : List Nat} {n : Nat} (hnd : l.Nodup) (hb : ∀ a ∈ l, a < n) :
    l.length ≤ n := by
  have h1 : l.toFinset ⊆ Finset.range n := by
    intro a ha
    simpa using hb a (by simpa using ha)
  have h2 := Finset.card_le_card h1
  rw [List.toFinset_card_of_nodup hnd] at h2
  simpa using h2

theorem IsList.length_le {h : Heap K V} {f : Nat} {es : List (Entry K V)}
    (hl : IsList h f es) (hc : h.Consistent) : es.length ≤ h.fresh := by
  have := nodup_bounded_length hl.2.2 (Seg_addr_lt hl.2.1 hc)
  simpa [addrs] using this

variable (equal_ : K → K → Bool)

theorem find_loop_spec {h : Heap K V} (key : K) (b : Nat) {es : List (Entry K V)}
    (hs : Seg h es Ptr.null) (fuel : Nat) (hf : es.length < fuel) :
    UnorderedMap.find_loop equal_ h key b fuel (headD es Ptr.null)
      = some (cursorOf ((es.takeWhile (Entry.inBucket b)).find? (fun e => equal_ e.key key))) := by
  induction es generalizing fuel with
  | nil => cases fuel <;> rfl
  | cons e es ih =>
    cases fuel with
    | zero => simp at hf
    | succ fuel =>
      rw [Seg_cons] at hs
      simp only [headD_cons, UnorderedMap.find_loop, Heap.node?, hs.1, Option.bind_eq_bind,
        Option.some_bind]
      by_cases hb : e.hash = b
      · have hq : e.inBucket b = true := by simpa using hb
        rw [if_pos hb, List.takeWhile_cons_of_pos hq]
        by_cases hk : equal_ e.key key = true
        · rw [if_pos hk, List.find?_cons_of_pos _ (by simpa using hk)]
          rfl
        · rw [if_neg hk, List.find?_cons_of_neg _ (by simpa using hk)]
          exact ih hs.2 fuel (by simpa using hf)
      · have hq : ¬ e.inBucket b = true := by simpa using hb
        rw [if_neg hb, List.takeWhile_cons_of_neg hq]
        rfl

theorem naive_scan_spec {h : Heap K V} (key : K) {es : List (Entry K V)}
    (hs : Seg h es Ptr.null) (fuel : Nat) (hf : es.length < fuel) :
    naive_scan equal_ h key fuel (headD es Ptr.null)
      = some (cursorOf (es.find? (fun e => equal_ e.key key))) := by
  induction es generalizing fuel with
  | nil => cases fuel <;> rfl
  | cons e es ih =>
    cases fuel with
    | zero => simp at hf
    | succ fuel =>
      rw [Seg_cons] at hs
      simp only [headD_cons, naive_scan, Heap.node?, hs.1, Option.bind_eq_bind,
        Option.some_bind]
      by_cases hk : equal_ e.key key = true
      · rw [if_pos hk, List.find?_cons_of_pos _ (by simpa using hk)]
        rfl
      · rw [if_neg hk, List.find?_cons_of_neg _ (by simpa using hk)]
        exact ih hs.2 fuel (by simpa using hf)

theorem bucketRun_of_absent {es : List (Entry K V)} {b : Nat} (h : ∀ x ∈ es, x.hash ≠ b) :
    bucketRun es b = [] := by
  have : es.dropWhile (Entry.offBucket b) = [] := by
    rw [List.dropWhile_eq_nil_iff]
    intro x hx
    simpa using h x hx
  simp [bucketRun, this]

variable (hash_ : K → Nat)

/-- The bucket-local scan of `find_with_hash` looks at exactly the run of
the bucket. -/
theorem find_with_hash_run {h : Heap K V} {t : UnorderedMap} {es : List (Entry K V)}
    (hi : TableInv hash_ h t es) (key : K) {b : Nat} (hb : b < t.capacity_) :
    UnorderedMap.find_with_hash equal_ h t key b
      = some (cursorOf ((bucketRun es b).find? (fun e => equal_ e.key key))) := by
  unfold UnorderedMap.find_with_hash
  rw [hi.anchors b hb]
  simp only [Option.bind_eq_bind, Option.some_bind]
  by_cases hp : ∃ x ∈ es, x.hash = b
  · obtain ⟨pre, x0, post, hes, hx, hpre, htw, hdw⟩ := split_at_bucket hp
    have hne : anchorOf (Ptr.fake t.nodes_list_.fake_node) es b ≠ Ptr.null :=
      anchorOf_ne_null (by simp) hp
    rw [if_neg hne]
    have hl := hi.list
    unfold Entries at hl
    rw [hes] at hl
    rw [hes, anchorOf_split _ hx hpre, hl.next_pred]
    simp only [Option.some_bind]
    have hseg := hl.2.1
    rw [Seg_append] at hseg
    have hlen := hl.length_le hi.consistent
    rw [find_loop_spec equal_ key b hseg.2 h.fuel
      (by simp only [Heap.fuel]; simp at hlen ⊢; omega)]
    rw [← hes, bucketRun, hdw]
  · have h2 : ∀ x ∈ es, x.hash ≠ b := by simpa using hp
    rw [anchorOf_absent _ h2, bucketRun_of_absent h2]
    simp [cursorOf]

/-- Under grouping, every entry of bucket `b` lies in the run of `b`. -/
theorem find?_bucketRun {es : List (Entry K V)} (hg : Grouped es) (P : Entry K V → Bool)
    (b : Nat) (hP : ∀ e ∈ es, P e = true → e.hash = b) :
    (bucketRun es b).find? P = es.find? P := by
  induction es with
  | nil => rfl
  | cons e es ih =>
    rw [Grouped_cons] at hg
    by_cases he : e.hash = b
    · have hq : ¬ e.offBucket b = true := by simpa using he
      have hq2 : e.inBucket b = true := by simpa using he
      rw [bucketRun, List.dropWhile_cons_of_neg hq, List.takeWhile_cons_of_pos hq2]
      by_cases hpe : P e = true
      · rw [List.find?_cons_of_pos _ hpe, List.find?_cons_of_pos _ hpe]
      · rw [List.find?_cons_of_neg _ hpe, List.find?_cons_of_neg _ hpe]
        conv_rhs => rw [← List.takeWhile_append_dropWhile (Entry.inBucket b) es]
        rw [List.find?_append]
        have : (es.dropWhile (Entry.inBucket b)).find? P = none := by
          rw [List.find?_eq_none]
          intro x hx hpx
          have h1 := hg.1 x (he ▸ hx)
          exact h1 ((hP x (by simp [List.dropWhile_subset _ hx]) hpx).trans he.symm)
        rw [this, Option.or_none]
    · have hq : e.offBucket b = true := by simpa using he
      have hpe : ¬ P e = true := fun hpe => he (hP e (by simp) hpe)
      rw [bucketRun, List.dropWhile_cons_of_pos hq, List.find?_cons_of_neg _ hpe]
      exact ih hg.2 (fun x hx => hP x (by simp [hx]))

/-- The function `find` returns the cursor on the first entry, in iteration
order, whose key compares equal, and `end()` when there is none. -/
theorem find_spec (hheq : ∀ a b, equal_ a b = true → hash_ a = hash_ b)
    {h : Heap K V} {t : UnorderedMap} {es : List (Entry K V)}
    (hi : TableInv hash_ h t es) (key : K) :
    UnorderedMap.find hash_ equal_ h t key
      = some (cursorOf (es.find? (fun e => equal_ e.key key))) := by
  unfold UnorderedMap.find
  rw [if_neg (Nat.pos_iff_ne_zero.1 hi.cap_pos),
    find_with_hash_run equal_ hash_ hi key (Nat.mod_lt _ hi.cap_pos),
    find?_bucketRun hi.grouped]
  intro e he hk
  rw [hi.hash_ok e he, hheq _ _ hk]

theorem naive_find_spec {h : Heap K V} {t : UnorderedMap} {es : List (Entry K V)}
    (hi : TableInv hash_ h t es) (key : K) :
    naive_find equal_ h t key = some (cursorOf (es.find? (fun e => equal_ e.key key))) := by
  unfold naive_find UnorderedMap.begin ForwardList.begin
  have hl := hi.list
  rw [hl.1]
  have hlen := hl.length_le hi.consistent
  exact naive_scan_spec equal_ key hl.2.1 h.fuel (by simp only [Heap.fuel]; omega)

end Lookup

/-! ## Linking a node into the table -/

section Linking

variable {K V : Type} (hash_ : K → Nat)

theorem setSlot_eq {bs : List Ptr} {i : Nat} (hi : i < bs.length) (p : Ptr) :
    setSlot bs i p = some (bs.set i p) := by
  simp [setSlot, hi]

/-- A well-formed table stays well formed when memory changes outside its
list. -/
theorem TableInv.frame {h h2 : Heap K V} {t : UnorderedMap} {es : List (Entry K V)}
    (hi : TableInv hash_ h t es) (hn : ∀ a ∈ addrs es, h2.nodes a = h.nodes a)
    (hf : h2.fake t.nodes_list_.fake_node = h.fake t.nodes_list_.fake_node)
    (hc : h2.Consistent) : TableInv hash_ h2 t es :=
  { list := ⟨hf.trans hi.list.1, Seg_congr hi.list.2.1 hn, hi.list.2.2⟩
    sz := hi.sz
    cap_pos := hi.cap_pos
    bs_len := hi.bs_len
    hash_ok := hi.hash_ok
    grouped := hi.grouped
    anchors := hi.anchors
    consistent := hc }

theorem TableInv.addr_lt {h : Heap K V} {t : UnorderedMap} {es : List (Entry K V)}
    (hi : TableInv hash_ h t es) : ∀ a ∈ addrs es, a < h.fresh :=
  Seg_addr_lt hi.list.2.1 hi.consistent

theorem tableInv_link_after {h h2 : Heap K V} {t : UnorderedMap}
    {pre post : List (Entry K V)} {e0 x0 : Entry K V}
    (hi : TableInv hash_ h t (pre ++ x0 :: post))
    (hl : IsList h2 t.nodes_list_.fake_node (pre ++ e0 :: x0 :: post)) (hc : h2.Consistent)
    (hx : x0.hash = e0.hash) (hpre : ∀ y ∈ pre, y.hash ≠ e0.hash)
    (he : e0.hash = hash_ e0.key % t.capacity_) :
    TableInv hash_ h2
      { t with nodes_list_ := { t.nodes_list_ with sz := t.nodes_list_.sz + 1 } }
      (pre ++ e0 :: x0 :: post) :=
  { list := hl
    sz := by
      have := hi.sz
      simp only [UnorderedMap.size, List.length_append, List.length_cons] at this ⊢
      omega
    cap_pos := hi.cap_pos
    bs_len := hi.bs_len
    hash_ok := by
      intro e hm
      simp only [List.mem_append, List.mem_cons] at hm
      rcases hm with hm | rfl | rfl | hm
      · exact hi.hash_ok e (by simp [hm])
      · exact he
      · exact hi.hash_ok e (by simp)
      · exact hi.hash_ok e (by simp [hm])
    grouped := hi.grouped.insert_run hx hpre
    anchors := by
      intro b hb
      rw [anchorOf_insert_run _ hx]
      exact hi.anchors b hb
    consistent := hc }

theorem tableInv_link_front {h h2 : Heap K V} {t : UnorderedMap}
    {es : List (Entry K V)} {e0 : Entry K V}
    (hi : TableInv hash_ h t es)
    (hl : IsList h2 t.nodes_list_.fake_node (e0 :: es)) (hc : h2.Consistent)
    (habs : ∀ y ∈ es, y.hash ≠ e0.hash)
    (he : e0.hash = hash_ e0.key % t.capacity_) :
    TableInv hash_ h2
      { t with nodes_list_ := { t.nodes_list_ with sz := t.nodes_list_.sz + 1 },
               block_start_ := ((match es with
                  | [] => t.block_start_
                  | x :: _ => t.block_start_.set x.hash (Ptr.node e0.addr)).set e0.hash
                    (Ptr.fake t.nodes_list_.fake_node)) }
      (e0 :: es) :=
  { list := hl
    sz := by
      have := hi.sz
      simp only [UnorderedMap.size, List.length_cons] at this ⊢
      omega
    cap_pos := hi.cap_pos
    bs_len := by
      cases es <;> simp [hi.bs_len]
    hash_ok := by
      intro e hm
      rcases List.mem_cons.1 hm with rfl | hm
      · exact he
      · exact hi.hash_ok e hm
    grouped := hi.grouped.cons_new habs
    anchors := by
      intro b hb
      have hcap : t.capacity_ = t.block_start_.length := hi.bs_len.symm
      have he0 : e0.hash < t.capacity_ := he ▸ Nat.mod_lt _ hi.cap_pos
      simp only [anchorOf]
      by_cases hbe : e0.hash = b
      · subst hbe
        rw [if_pos rfl, List.getElem?_set_self]
        cases es <;> simpa [← hcap] using he0
      · rw [if_neg hbe, List.getElem?_set_ne hbe]
        cases es with
        | nil => simpa [anchorOf] using hi.anchors b hb
        | cons x rest =>
          simp only [anchorOf]
          by_cases hxb : x.hash = b
          · subst hxb
            rw [if_pos rfl, List.getElem?_set_self (by rw [← hcap]; exact hb)]
          · rw [if_neg hxb, List.getElem?_set_ne hxb]
            simpa [anchorOf, hxb] using hi.anchors b hb
    consistent := hc }

theorem link_front_spec {h1 : Heap K V} {t : UnorderedMap} {es : List (Entry K V)} {a : Nat}
    {n : Node K V} (hi : TableInv hash_ h1 t es) (hn : h1.nodes a = some n)
    (ha : a ∉ addrs es) (hb : n.hash = hash_ n.key % t.capacity_)
    (habs : ∀ x ∈ es, x.hash ≠ n.hash) :
    ∃ h2 t2, UnorderedMap.link_front h1 t a n.hash = some (h2, t2) ∧
      TableInv hash_ h2 t2 ({ addr := a, key := n.key, value := n.value, hash := n.hash } :: es) ∧
      t2.capacity_ = t.capacity_ ∧ t2.max_load_factor_ = t.max_load_factor_ ∧
      t2.nodes_list_.fake_node = t.nodes_list_.fake_node ∧
      h2.fresh = h1.fresh ∧ (∀ j, j ≠ t.nodes_list_.fake_node → h2.fake j = h1.fake j) ∧
      (∀ x, x ≠ a → h2.nodes x = h1.nodes x) := by
  have hl := hi.list
  obtain ⟨h2, hins, hl2, hfr, hfk, hnodes⟩ :=
    ForwardList.insert_spec (l := t.nodes_list_) [] es hl hn ha
  simp only [predFrom_nil, List.nil_append] at hins hl2
  have hc2 : h2.Consistent := by
    intro x hx
    have hxa : x ≠ a := by
      rintro rfl
      rw [hi.consistent _ (hfr ▸ hx)] at hn
      cases hn
    rw [hnodes x hxa (by simp)]
    exact hi.consistent x (hfr ▸ hx)
  have hinv := tableInv_link_front hash_ hi hl2 hc2 habs hb
  have hcap : t.capacity_ = t.block_start_.length := hi.bs_len.symm
  have hbl : n.hash < t.block_start_.length := by
    rw [← hcap, hb]; exact Nat.mod_lt _ hi.cap_pos
  refine ⟨h2, _, ?_, hinv, rfl, rfl, rfl, hfr, hfk, fun x hx => hnodes x hx (by simp)⟩
  unfold UnorderedMap.link_front
  have hsz : t.nodes_list_.sz = es.length := hi.sz
  cases es with
  | nil =>
    simp only [List.length_nil] at hsz
    simp only [ForwardList.push_front, ForwardList.fake_iterator, hins, hsz, UnorderedMap.size,
      lt_irrefl, if_false, Option.bind_eq_bind, Option.some_bind, Option.pure_def, zero_add]
    rw [setSlot_eq hbl]
    rfl
  | cons x rest =>
    have hxh : x.hash < t.block_start_.length := by
      rw [← hcap, hi.hash_ok x (by simp)]; exact Nat.mod_lt _ hi.cap_pos
    have hgh : h1.get_hash (h1.fake t.nodes_list_.fake_node) = some x.hash := by
      simp only [hl.1, headD_cons, Heap.get_hash, Heap.node?]
      rw [(Seg_cons _ _ _ _).1 hl.2.1 |>.1]
      rfl
    have hbeg : h2.fake t.nodes_list_.fake_node = Ptr.node a := hl2.1
    simp only [List.length_cons] at hsz
    simp only [ForwardList.push_front, ForwardList.fake_iterator, hins, UnorderedMap.size,
      UnorderedMap.begin, ForwardList.begin, hsz, hgh, hbeg, Option.map_some',
      Option.bind_eq_bind, Option.some_bind, Option.pure_def,
      show 0 < rest.length + 1 by omega, show 1 < rest.length + 1 + 1 by omega, if_true]
    rw [setSlot_eq hxh]
    simp only [Option.some_bind]
    rw [setSlot_eq (by simpa using hbl)]
    rfl

end Linking

/-! ## insert_node and rehash -/

section Rehash

variable {K V : Type} (hash_ : K → Nat)

theorem link_after_spec {h1 : Heap K V} {t : UnorderedMap} {es : List (Entry K V)} {a : Nat}
    {n : Node K V} (hi : TableInv hash_ h1 t es) (hn : h1.nodes a = some n)
    (ha : a ∉ addrs es) (hb : n.hash = hash_ n.key % t.capacity_)
    (hpres : ∃ x ∈ es, x.hash = n.hash) :
    ∃ start h2, t.block_start_[n.hash]? = some start ∧ start ≠ Ptr.null ∧
      t.nodes_list_.insert h1 start a
        = some (h2, { t.nodes_list_ with sz := t.nodes_list_.sz + 1 }) ∧
      TableInv hash_ h2
        { t with nodes_list_ := { t.nodes_list_ with sz := t.nodes_list_.sz + 1 } }
        (linkList es { addr := a, key := n.key, value := n.value, hash := n.hash }) ∧
      h2.fresh = h1.fresh ∧ (∀ j, j ≠ t.nodes_list_.fake_node → h2.fake j = h1.fake j) ∧
      (∀ x, x ≠ a → x ∉ addrs es → h2.nodes x = h1.nodes x) := by
  obtain ⟨pre, x0, post, hes, hx, hpre, hlink⟩ :=
    linkList_of_present { addr := a, key := n.key, value := n.value, hash := n.hash } hpres
  have hbn : n.hash < t.capacity_ := hb ▸ Nat.mod_lt _ hi.cap_pos
  subst hes
  have hl := hi.list
  obtain ⟨h2, hins, hl2, hfr, hfk, hnodes⟩ :=
    ForwardList.insert_spec (l := t.nodes_list_) pre (x0 :: post) hl hn ha
  have hc2 : h2.Consistent := by
    intro x hx2
    have hxa : x ≠ a := by
      rintro rfl
      rw [hi.consistent _ (hfr ▸ hx2)] at hn
      cases hn
    have hxp : x ∉ addrs pre := by
      intro hm
      have := hi.addr_lt hash_ x (by simp [hm])
      rw [hfr] at hx2
      omega
    rw [hnodes x hxa hxp]
    exact hi.consistent x (hfr ▸ hx2)
  refine ⟨predFrom (Ptr.fake t.nodes_list_.fake_node) pre, h2, ?_, ?_, hins, ?_, hfr, hfk, ?_⟩
  · rw [hi.anchors _ hbn, anchorOf_split _ hx hpre]
  · rcases predFrom_cases (Ptr.fake t.nodes_list_.fake_node) pre with ⟨_, hp⟩ | ⟨_, _, _, hp⟩ <;>
      rw [hp] <;> simp
  · rw [hlink]
    exact tableInv_link_after hash_ hi hl2 hc2 hx hpre hb
  · intro x hxa hxn
    exact hnodes x hxa (fun hm => hxn (by simp [hm]))

theorem setHash_node {h : Heap K V} {a : Nat} {n : Node K V} (hn : h.nodes a = some n)
    (b : Nat) : h.setHash (Ptr.node a) b
      = some { h with nodes := Function.update h.nodes a (some { n with hash := b }) } := by
  simp [Heap.setHash, hn]

theorem insert_node_spec {h : Heap K V} {t : UnorderedMap} {es : List (Entry K V)} {a : Nat}
    {n : Node K V} (hi : TableInv hash_ h t es) (hn : h.nodes a = some n)
    (ha : a ∉ addrs es) :
    ∃ h2 t2, UnorderedMap.insert_node hash_ h t (Ptr.node a) = some (h2, t2) ∧
      TableInv hash_ h2 t2 (linkList es
        { addr := a, key := n.key, value := n.value, hash := hash_ n.key % t.capacity_ }) ∧
      t2.capacity_ = t.capacity_ ∧ t2.max_load_factor_ = t.max_load_factor_ ∧
      t2.nodes_list_.fake_node = t.nodes_list_.fake_node ∧
      h2.fresh = h.fresh ∧ (∀ j, j ≠ t.nodes_list_.fake_node → h2.fake j = h.fake j) ∧
      (∀ x, x ≠ a → x ∉ addrs es → h2.nodes x = h.nodes x) := by
  have hc : t.capacity_ ≠ 0 := Nat.pos_iff_ne_zero.1 hi.cap_pos
  have hbn : hash_ n.key % t.capacity_ < t.capacity_ := Nat.mod_lt _ hi.cap_pos
  have halt : a < h.fresh := by
    by_contra hlt
    rw [hi.consistent a (Nat.le_of_not_lt hlt)] at hn
    cases hn
  -- the memory after storing the bucket id
  have hex : ∃ h1 : Heap K V, h1 = { h with
      nodes := Function.update h.nodes a (some { n with hash := hash_ n.key % t.capacity_ }) } :=
    ⟨_, rfl⟩
  obtain ⟨h1, hh1⟩ := hex
  have hn1 : h1.nodes a = some { n with hash := hash_ n.key % t.capacity_ } := by
    rw [hh1]; simp
  have hother : ∀ x, x ≠ a → h1.nodes x = h.nodes x := by
    intro x hx; rw [hh1]; simp [Function.update_noteq hx]
  have hi1 : TableInv hash_ h1 t es := by
    refine hi.frame hash_ (fun x hx => hother x (fun e => ha (e ▸ hx))) (by rw [hh1]) ?_
    intro x hx
    have : h1.fresh = h.fresh := by rw [hh1]
    rw [this] at hx
    rw [hother x (by omega)]
    exact hi.consistent x hx
  have hfr1 : h1.fresh = h.fresh := by rw [hh1]
  have hfk1 : h1.fake = h.fake := by rw [hh1]
  have heq : UnorderedMap.insert_node hash_ h t (Ptr.node a) =
      (t.block_start_[hash_ n.key % t.capacity_]?).bind (fun start =>
        if start = Ptr.null then UnorderedMap.link_front h1 t a (hash_ n.key % t.capacity_)
        else (t.nodes_list_.insert h1 start a).bind
          (fun r => some (r.1, { t with nodes_list_ := r.2 }))) := by
    simp only [UnorderedMap.insert_node, Heap.node?, hn, if_neg hc, UnorderedMap.link_front,
      Option.bind_eq_bind, Option.some_bind, Option.pure_def, setHash_node hn, ← hh1]
  rw [heq]
  by_cases hpres : ∃ x ∈ es, x.hash = hash_ n.key % t.capacity_
  · obtain ⟨start, h2, hs, hsn, hins, hinv, hfr, hfk, hnodes⟩ :=
      link_after_spec hash_ hi1 hn1 ha rfl hpres
    refine ⟨h2, _, ?_, hinv, rfl, rfl, rfl, hfr.trans hfr1, ?_, ?_⟩
    · simp only at hs
      rw [hs]
      simp only [Option.some_bind, if_neg hsn, hins]
    · intro j hj; rw [hfk j hj, hfk1]
    · intro x hxa hxn; rw [hnodes x hxa hxn, hother x hxa]
  · have habs : ∀ x ∈ es, x.hash ≠ hash_ n.key % t.capacity_ := by simpa using hpres
    obtain ⟨h2, t2, hlf, hinv, hcap, hmlf, hfn, hfr, hfk, hnodes⟩ :=
      link_front_spec hash_ hi1 hn1 ha rfl habs
    refine ⟨h2, t2, ?_, ?_, hcap, hmlf, hfn, hfr.trans hfr1, ?_, ?_⟩
    · rw [hi.anchors _ hbn, anchorOf_absent _ habs]
      simp only [Option.some_bind, if_true]
      exact hlf
    · rw [linkList_of_absent habs]
      exact hinv
    · intro j hj; rw [hfk j hj, hfk1]
    · intro x hxa _; rw [hnodes x hxa, hother x hxa]

end Rehash

section Rehash2

variable {K V : Type} (hash_ : K → Nat)

theorem collect_spec {h : Heap K V} {es : List (Entry K V)} (hs : Seg h es Ptr.null)
    (fuel : Nat) (hf : es.length < fuel) :
    UnorderedMap.collect h fuel (headD es Ptr.null)
      = some (es.map (fun e => Ptr.node e.addr)) := by
  induction es generalizing fuel with
  | nil => cases fuel <;> rfl
  | cons e es ih =>
    cases fuel with
    | zero => simp at hf
    | succ fuel =>
      rw [Seg_cons] at hs
      simp only [headD_cons, UnorderedMap.collect, Heap.next, hs.1, Option.map_some',
        Option.bind_eq_bind, Option.some_bind, Option.pure_def, List.map_cons]
      rw [ih hs.2 fuel (by simpa using hf)]
      rfl

theorem addrs_linkList (es : List (Entry K V)) (e0 : Entry K V) :
    (addrs (linkList es e0)).Perm (e0.addr :: addrs es) :=
  (linkList_perm es e0).map _

theorem mem_addrs_linkList {es : List (Entry K V)} {e0 : Entry K V} {x : Nat} :
    x ∈ addrs (linkList es e0) ↔ x = e0.addr ∨ x ∈ addrs es := by
  rw [(addrs_linkList es e0).mem_iff]
  simp

/-- The relinking loop of `rehash`: every node still to be linked is
allocated and outside the list built so far. -/
theorem insert_nodes_spec (rest : List (Entry K V)) :
    ∀ {h : Heap K V} {t : UnorderedMap} {cur : List (Entry K V)},
    TableInv hash_ h t cur →
    (∀ e ∈ rest, ∃ nx hs, h.nodes e.addr
      = some { next := nx, key := e.key, value := e.value, hash := hs }) →
    (addrs rest).Nodup → (∀ x ∈ addrs rest, x ∉ addrs cur) →
    ∃ h2 t2, UnorderedMap.insert_nodes hash_ h t (rest.map (fun e => Ptr.node e.addr))
        = some (h2, t2) ∧
      TableInv hash_ h2 t2
        (rest.foldl (fun acc e => linkList acc (e.rebucket hash_ t.capacity_)) cur) ∧
      t2.capacity_ = t.capacity_ ∧ t2.max_load_factor_ = t.max_load_factor_ ∧
      t2.nodes_list_.fake_node = t.nodes_list_.fake_node ∧
      h2.fresh = h.fresh ∧ (∀ j, j ≠ t.nodes_list_.fake_node → h2.fake j = h.fake j) ∧
      (∀ x, x ∉ addrs cur → x ∉ addrs rest → h2.nodes x = h.nodes x) := by
  induction rest with
  | nil =>
    intro h t cur hi _ _ _
    exact ⟨h, t, rfl, hi, rfl, rfl, rfl, rfl, fun _ _ => rfl, fun _ _ _ => rfl⟩
  | cons e rest ih =>
    intro h t cur hi hall hnd hdis
    obtain ⟨nx, hs, hn⟩ := hall e (by simp)
    have ha : e.addr ∉ addrs cur := hdis e.addr (by simp)
    obtain ⟨h1, t1, hin, hinv1, hcap1, hmlf1, hfn1, hfr1, hfk1, hnodes1⟩ :=
      insert_node_spec hash_ hi hn ha
    simp only [addrs_cons, List.nodup_cons] at hnd
    have hall1 : ∀ e2 ∈ rest, ∃ nx hs, h1.nodes e2.addr
        = some { next := nx, key := e2.key, value := e2.value, hash := hs } := by
      intro e2 he2
      have hne : e2.addr ≠ e.addr := fun heq => hnd.1 (heq ▸ mem_addrs he2)
      rw [hnodes1 e2.addr hne (hdis e2.addr (by simp [mem_addrs he2]))]
      exact hall e2 (by simp [he2])
    have hdis1 : ∀ x ∈ addrs rest, x ∉ addrs (linkList cur
        { addr := e.addr, key := e.key, value := e.value, hash := hash_ e.key % t.capacity_ }) := by
      intro x hx hm
      rw [mem_addrs_linkList] at hm
      rcases hm with rfl | hm
      · exact hnd.1 hx
      · exact hdis x (by simp [hx]) hm
    obtain ⟨h2, t2, hins, hinv2, hcap2, hmlf2, hfn2, hfr2, hfk2, hnodes2⟩ :=
      ih hinv1 hall1 hnd.2 hdis1
    refine ⟨h2, t2, ?_, ?_, hcap2.trans hcap1, hmlf2.trans hmlf1, hfn2.trans hfn1,
      hfr2.trans hfr1, ?_, ?_⟩
    · simp only [List.map_cons, UnorderedMap.insert_nodes, hin, Option.bind_eq_bind,
        Option.some_bind]
      exact hins
    · simp only [List.foldl_cons]
      rw [hcap1] at hinv2
      exact hinv2
    · intro j hj
      rw [hfk2 j (hfn1 ▸ hj), hfk1 j hj]
    · intro x hx1 hx2
      simp only [addrs_cons, List.mem_cons, not_or] at hx2
      rw [hnodes2 x (by rw [mem_addrs_linkList]; simp [hx1, hx2.1]) hx2.2,
        hnodes1 x hx2.1 hx1]

theorem foldl_linkList_perm (f : Entry K V → Entry K V) (rest cur : List (Entry K V)) :
    (rest.foldl (fun acc e => linkList acc (f e)) cur).Perm (rest.map f ++ cur) := by
  induction rest generalizing cur with
  | nil => simp
  | cons e rest ih =>
    simp only [List.foldl_cons, List.map_cons, List.cons_append]
    refine (ih _).trans ?_
    refine (List.Perm.append_left _ (linkList_perm cur (f e))).trans ?_
    exact List.perm_middle

/-- Relinking keeps every entry, with its bucket id recomputed. -/
theorem relinked_perm (cap : Nat) (es : List (Entry K V)) :
    (relinked hash_ cap es).Perm (es.map (Entry.rebucket hash_ cap)) := by
  simpa using foldl_linkList_perm (Entry.rebucket hash_ cap) es []

theorem tableInv_empty {h : Heap K V} {f : Nat} (hf : h.fake f = Ptr.null)
    (hc : h.Consistent) (cap : Nat) (hcap : 0 < cap) (mlf : ℚ) :
    TableInv hash_ h
      { capacity_ := cap, max_load_factor_ := mlf, nodes_list_ := { fake_node := f, sz := 0 },
        block_start_ := List.replicate cap Ptr.null } ([] : List (Entry K V)) :=
  { list := ⟨hf, trivial, List.nodup_nil⟩
    sz := rfl
    cap_pos := hcap
    bs_len := by simp
    hash_ok := by simp
    grouped := trivial
    anchors := by
      intro b hb
      simp [anchorOf, List.getElem?_replicate, hb]
    consistent := hc }

theorem rehash_noop (h : Heap K V) (t : UnorderedMap) {new_capacity_ : Nat}
    (hle : new_capacity_ ≤ t.capacity_) :
    UnorderedMap.rehash hash_ h t new_capacity_ = some (h, t) := by
  simp [UnorderedMap.rehash, hle]

theorem rehash_spec {h : Heap K V} {t : UnorderedMap} {es : List (Entry K V)}
    (hi : TableInv hash_ h t es) {new_capacity_ : Nat} (hlt : t.capacity_ < new_capacity_) :
    ∃ h2 t2, UnorderedMap.rehash hash_ h t new_capacity_ = some (h2, t2) ∧
      TableInv hash_ h2 t2 (relinked hash_ (max new_capacity_ (t.capacity_ * 2 + 1)) es) ∧
      t2.capacity_ = max new_capacity_ (t.capacity_ * 2 + 1) ∧
      t2.max_load_factor_ = t.max_load_factor_ ∧
      t2.nodes_list_.fake_node = t.nodes_list_.fake_node ∧
      h2.fresh = h.fresh ∧ (∀ j, j ≠ t.nodes_list_.fake_node → h2.fake j = h.fake j) ∧
      (∀ x, x ∉ addrs es → h2.nodes x = h.nodes x) := by
  have hl := hi.list
  have hlen := hl.length_le hi.consistent
  have hcapeq : (if new_capacity_ < t.capacity_ * 2 + 1 then t.capacity_ * 2 + 1
      else new_capacity_) = max new_capacity_ (t.capacity_ * 2 + 1) := by
    split <;> omega
  have hcoll := collect_spec hl.2.1 h.fuel (by simp only [Heap.fuel]; omega)
  rw [← hl.1] at hcoll
  -- the state in which the relinking loop starts
  have hex : ∃ h1 : Heap K V, h1 = { h with
      fake := Function.update h.fake t.nodes_list_.fake_node Ptr.null } := ⟨_, rfl⟩
  obtain ⟨h1, hh1⟩ := hex
  have hi1 := tableInv_empty hash_ (h := h1) (f := t.nodes_list_.fake_node)
    (by rw [hh1]; simp) (by rw [hh1]; exact hi.consistent)
    (max new_capacity_ (t.capacity_ * 2 + 1)) (by omega) t.max_load_factor_
  have hall : ∀ e ∈ es, ∃ nx hs, h1.nodes e.addr
      = some { next := nx, key := e.key, value := e.value, hash := hs } := by
    intro e he
    obtain ⟨nx, hn⟩ := Seg_node hl.2.1 he
    exact ⟨nx, e.hash, by rw [hh1]; exact hn⟩
  obtain ⟨h2, t2, hins, hinv2, hcap2, hmlf2, hfn2, hfr2, hfk2, hnodes2⟩ :=
    insert_nodes_spec hash_ es hi1 hall hl.2.2 (by simp)
  refine ⟨h2, t2, ?_, hinv2, hcap2, hmlf2, hfn2, ?_, ?_, ?_⟩
  · simp only [UnorderedMap.rehash, if_neg (Nat.not_le.2 hlt), hcapeq, UnorderedMap.begin,
      ForwardList.begin, hcoll, ForwardList.fake_iterator, Heap.setNext_fake, ← hh1,
      Option.bind_eq_bind, Option.some_bind]
    exact hins
  · rw [hfr2, hh1]
  · intro j hj
    rw [hfk2 j hj, hh1]
    simp [Function.update_noteq hj]
  · intro x hx
    rw [hnodes2 x (by simp) hx, hh1]

end Rehash2

/-! ## emplace -/

section Emplace

variable {K V : Type} (hash_ : K → Nat) (equal_ : K → K → Bool)

/-- The memory after `emplace` has allocated and filled the new node. -/
theorem emplace_alloc {h : Heap K V} {t : UnorderedMap} {es : List (Entry K V)}
    (hi : TableInv hash_ h t es) (k : K) (v : V) :
    ∃ h1 : Heap K V,
      ((h.allocate { next := Ptr.null, key := k, value := v, hash := hash_ k }).1.setHash
        (Ptr.node h.fresh) (hash_ k % t.capacity_)) = some h1 ∧
      h1.nodes h.fresh
        = some { next := Ptr.null, key := k, value := v, hash := hash_ k % t.capacity_ } ∧
      (∀ x, x ≠ h.fresh → h1.nodes x = h.nodes x) ∧ h1.fake = h.fake ∧
      h1.fresh = h.fresh + 1 ∧ TableInv hash_ h1 t es ∧ h.fresh ∉ addrs es := by
  have hfresh : h.fresh ∉ addrs es := fun hm => lt_irrefl _ (hi.addr_lt hash_ _ hm)
  have hother : ∀ x, x ≠ h.fresh →
      Function.update (Function.update h.nodes h.fresh
        (some { next := Ptr.null, key := k, value := v, hash := hash_ k })) h.fresh
        (some { next := Ptr.null, key := k, value := v, hash := hash_ k % t.capacity_ }) x
        = h.nodes x := by
    intro x hx
    simp [Function.update_noteq hx]
  refine ⟨{
      nodes := Function.update (Function.update h.nodes h.fresh
          (some { next := Ptr.null, key := k, value := v, hash := hash_ k })) h.fresh
          (some { next := Ptr.null, key := k, value := v, hash := hash_ k % t.capacity_ }),
      fake := h.fake, fresh := h.fresh + 1 }, ?_, by simp, hother, rfl, rfl, ?_, hfresh⟩
  · simp [Heap.allocate, Heap.setHash]
  · refine hi.frame hash_ (fun x hx => hother x (fun e => hfresh (e ▸ hx))) rfl ?_
    intro x hx
    have hx2 : h.fresh + 1 ≤ x := hx
    exact (hother x (by omega)).trans (hi.consistent x (by omega))

theorem emplace_eq (h : Heap K V) (t : UnorderedMap) (k : K) (v : V) (hc : t.capacity_ ≠ 0) :
    UnorderedMap.emplace hash_ equal_ h t k v =
      ((h.allocate { next := Ptr.null, key := k, value := v, hash := hash_ k }).1.setHash
          (Ptr.node h.fresh) (hash_ k % t.capacity_)).bind (fun h1 =>
        (t.block_start_[hash_ k % t.capacity_]?).bind (fun start =>
          if start = Ptr.null then
            (UnorderedMap.link_front h1 t h.fresh (hash_ k % t.capacity_)).bind (fun r =>
              if r.2.load_factor > r.2.max_load_factor_ then
                (UnorderedMap.rehash hash_ r.1 r.2 (r.2.capacity_ * 2 + 1)).bind
                  (fun r4 => some (r4.1, r4.2, Ptr.node h.fresh, true))
              else some (r.1, r.2, Ptr.node h.fresh, true))
          else
            (UnorderedMap.find_with_hash equal_ h1 t k (hash_ k % t.capacity_)).bind (fun place =>
              if place = Ptr.null then
                (t.block_start_[hash_ k % t.capacity_]?).bind (fun start2 =>
                (t.nodes_list_.insert h1 start2 h.fresh).bind (fun r =>
                  if ({ t with nodes_list_ := r.2 } : UnorderedMap).load_factor
                      > t.max_load_factor_ then
                    (UnorderedMap.rehash hash_ r.1 { t with nodes_list_ := r.2 }
                      (t.capacity_ * 2 + 1)).bind
                      (fun r4 => some (r4.1, r4.2, Ptr.node h.fresh, true))
                  else some (r.1, { t with nodes_list_ := r.2 }, Ptr.node h.fresh, true)))
              else
                (ForwardList.erase { t.nodes_list_ with sz := t.nodes_list_.sz + 1 } h1
                  (Ptr.node h.fresh)).bind
                  (fun r => some (r.1, { t with nodes_list_ := r.2 }, place, false))))) := by
  simp only [UnorderedMap.emplace, Heap.allocate, if_neg hc, UnorderedMap.link_front,
    Option.bind_eq_bind, Option.some_bind, Option.pure_def, Option.bind_assoc]

/-- The outcome of `emplace` when the scan of the bucket finds an equal key:
the new node is released again and the table record is returned as it was. -/
theorem emplace_present {h : Heap K V} {t : UnorderedMap} {es : List (Entry K V)}
    (hi : TableInv hash_ h t es) (k : K) (v : V) {e : Entry K V}
    (hfind : (bucketRun es (hash_ k % t.capacity_)).find? (fun e => equal_ e.key k) = some e) :
    ∃ h2, UnorderedMap.emplace hash_ equal_ h t k v = some (h2, t, Ptr.node e.addr, false) ∧
      TableInv hash_ h2 t es ∧ h2.fresh = h.fresh + 1 ∧ h2.fake = h.fake ∧
      (∀ x, x ≠ h.fresh → h2.nodes x = h.nodes x) ∧ h2.nodes h.fresh = none := by
  have hc : t.capacity_ ≠ 0 := Nat.pos_iff_ne_zero.1 hi.cap_pos
  have hbn : hash_ k % t.capacity_ < t.capacity_ := Nat.mod_lt _ hi.cap_pos
  obtain ⟨h1, hset, hn1, hother, hfk1, hfr1, hi1, hfresh⟩ := emplace_alloc hash_ hi k v
  have hmem : e ∈ bucketRun es (hash_ k % t.capacity_) := List.mem_of_find?_eq_some hfind
  have hpres : ∃ x ∈ es, x.hash = hash_ k % t.capacity_ := by
    refine ⟨e, ?_, ?_⟩
    · exact List.dropWhile_subset _ (List.takeWhile_subset _ hmem)
    · simpa using List.mem_takeWhile_imp hmem
  have hne : anchorOf (Ptr.fake t.nodes_list_.fake_node) es (hash_ k % t.capacity_)
      ≠ Ptr.null := anchorOf_ne_null (by simp) hpres
  have hex : ∃ h2 : Heap K V, h2 = { h1 with nodes := Function.update h1.nodes h.fresh none } :=
    ⟨_, rfl⟩
  obtain ⟨h2, hh2⟩ := hex
  have hother2 : ∀ x, x ≠ h.fresh → h2.nodes x = h.nodes x := by
    intro x hx
    rw [hh2]
    simp only [Function.update_noteq hx]
    exact hother x hx
  refine ⟨h2, ?_, ?_, by rw [hh2]; exact hfr1, by rw [hh2]; exact hfk1, hother2,
    by rw [hh2]; simp⟩
  · rw [emplace_eq hash_ equal_ h t k v hc, hset]
    simp only [Option.some_bind, hi.anchors _ hbn, if_neg hne,
      find_with_hash_run equal_ hash_ hi1 k hbn, hfind, cursorOf]
    simp only [ForwardList.erase, Heap.deallocate, hn1, Option.bind_eq_bind, Option.some_bind,
      Option.pure_def, ← hh2, Nat.add_sub_cancel]
    rw [if_neg (by simp)]
  · refine hi.frame hash_ (fun x hx => hother2 x (fun e => hfresh (e ▸ hx)))
      (by rw [hh2]; exact congrFun hfk1 _) ?_
    intro x hx
    have hx2 : h.fresh + 1 ≤ x := by rw [hh2] at hx; exact hfr1 ▸ hx
    exact (hother2 x (by omega)).trans (hi.consistent x (by omega))

/-- The outcome of `emplace` when the scan of the bucket finds no equal key:
the new node is linked, and a rehash follows if the load factor now exceeds
the maximum. -/
theorem emplace_link {h : Heap K V} {t : UnorderedMap} {es : List (Entry K V)}
    (hi : TableInv hash_ h t es) (k : K) (v : V)
    (hfind : (bucketRun es (hash_ k % t.capacity_)).find? (fun e => equal_ e.key k) = none) :
    ∃ h2 t2, TableInv hash_ h2 t2 (linkList es
        { addr := h.fresh, key := k, value := v, hash := hash_ k % t.capacity_ }) ∧
      t2.capacity_ = t.capacity_ ∧ t2.max_load_factor_ = t.max_load_factor_ ∧
      t2.nodes_list_.fake_node = t.nodes_list_.fake_node ∧
      h2.fresh = h.fresh + 1 ∧ (∀ j, j ≠ t.nodes_list_.fake_node → h2.fake j = h.fake j) ∧
      (∀ x, x ≠ h.fresh → x ∉ addrs es → h2.nodes x = h.nodes x) ∧
      UnorderedMap.emplace hash_ equal_ h t k v =
        (if t2.load_factor > t2.max_load_factor_ then
          (UnorderedMap.rehash hash_ h2 t2 (t2.capacity_ * 2 + 1)).bind
            (fun r4 => some (r4.1, r4.2, Ptr.node h.fresh, true))
         else some (h2, t2, Ptr.node h.fresh, true)) := by
  have hc : t.capacity_ ≠ 0 := Nat.pos_iff_ne_zero.1 hi.cap_pos
  have hbn : hash_ k % t.capacity_ < t.capacity_ := Nat.mod_lt _ hi.cap_pos
  obtain ⟨h1, hset, hn1, hother, hfk1, hfr1, hi1, hfresh⟩ := emplace_alloc hash_ hi k v
  by_cases hpres : ∃ x ∈ es, x.hash = hash_ k % t.capacity_
  · obtain ⟨start, h2, hs, hsn, hins, hinv, hfr, hfk, hnodes⟩ :=
      link_after_spec hash_ hi1 hn1 hfresh rfl hpres
    simp only at hs
    refine ⟨h2, _, hinv, rfl, rfl, rfl, hfr.trans hfr1, ?_, ?_, ?_⟩
    · intro j hj; rw [hfk j hj, hfk1]
    · intro x hxa hxn; rw [hnodes x hxa hxn, hother x hxa]
    · rw [emplace_eq hash_ equal_ h t k v hc, hset]
      simp only [Option.some_bind, hs, if_neg hsn,
        find_with_hash_run equal_ hash_ hi1 k hbn, hfind, cursorOf, if_true, hins]
  · have habs : ∀ x ∈ es, x.hash ≠ hash_ k % t.capacity_ := by simpa using hpres
    obtain ⟨h2, t2, hlf, hinv, hcap, hmlf, hfn, hfr, hfk, hnodes⟩ :=
      link_front_spec hash_ hi1 hn1 hfresh rfl habs
    simp only at hlf
    refine ⟨h2, t2, ?_, hcap, hmlf, hfn, hfr.trans hfr1, ?_, ?_, ?_⟩
    · rw [linkList_of_absent habs]; exact hinv
    · intro j hj; rw [hfk j hj, hfk1]
    · intro x hxa _; rw [hnodes x hxa, hother x hxa]
    · rw [emplace_eq hash_ equal_ h t k v hc, hset]
      simp only [Option.some_bind, hi.anchors _ hbn, anchorOf_absent _ habs, if_true, hlf]

end Emplace

/-! ## erase -/

section Erase

variable {K V : Type} (hash_ : K → Nat)

theorem find_previous_walk {h : Heap K V} {f : Nat} (mid : List (Entry K V)) :
    ∀ (l1 post : List (Entry K V)) {e : Entry K V} (fuel : Nat),
    IsList h f (l1 ++ mid ++ e :: post) → mid.length < fuel →
    UnorderedMap.find_previous_loop h (Ptr.node e.addr) fuel (predFrom (Ptr.fake f) l1)
      = some (predFrom (Ptr.fake f) (l1 ++ mid)) := by
  induction mid with
  | nil =>
    intro l1 post e fuel hl hf
    cases fuel with
    | zero => simp at hf
    | succ fuel =>
      simp only [List.append_nil] at hl ⊢
      simp only [UnorderedMap.find_previous_loop, hl.next_pred, headD_cons, Option.bind_eq_bind,
        Option.some_bind, if_true]
  | cons m mid ih =>
    intro l1 post e fuel hl hf
    cases fuel with
    | zero => simp at hf
    | succ fuel =>
      have hl2 : IsList h f (l1 ++ (m :: (mid ++ e :: post))) := by simpa using hl
      have hl3 : IsList h f ((l1 ++ [m]) ++ mid ++ e :: post) := by simpa using hl
      have hne : m.addr ≠ e.addr := by
        have hnd := hl3.2.2
        simp only [addrs_append, addrs_cons, addrs_nil, List.append_assoc] at hnd
        have h2 := (List.nodup_append.1 hnd).2.1
        simp only [List.singleton_append, List.nodup_cons, List.mem_append, List.mem_cons,
          not_or] at h2
        exact h2.1.2.1
      simp only [UnorderedMap.find_previous_loop, hl2.next_pred, headD_cons,
        Option.bind_eq_bind, Option.some_bind]
      rw [if_neg (by simpa using hne)]
      have := ih (l1 ++ [m]) post fuel hl3 (by simpa using hf)
      rw [predFrom_concat] at this
      rw [this]
      simp

theorem predFrom_ne_of_nodup {f : Nat} (l1 mid : List (Entry K V))
    (hnd : (addrs (l1 ++ mid)).Nodup) (hmid : mid ≠ []) :
    predFrom (Ptr.fake f) l1 ≠ predFrom (Ptr.fake f) (l1 ++ mid) := by
  obtain ⟨m0, x, rfl⟩ : ∃ m0 x, mid = m0 ++ [x] := by
    rcases List.eq_nil_or_concat mid with h | ⟨m0, x, h⟩
    · exact absurd h hmid
    · exact ⟨m0, x, by simpa using h⟩
  rw [← List.append_assoc, predFrom_concat]
  rcases predFrom_cases (Ptr.fake f) l1 with ⟨_, hp⟩ | ⟨l0, y, hl, hp⟩
  · rw [hp]; simp
  · rw [hp]
    intro heq
    have hxy : y.addr = x.addr := by simpa using heq
    subst hl
    simp only [addrs_append, addrs_cons, addrs_nil, List.append_assoc] at hnd
    have h1 := (List.nodup_append.1 hnd).2.1
    simp only [List.singleton_append, List.nodup_cons, List.mem_append, List.mem_singleton,
      not_or] at h1
    exact h1.1.2 hxy

/-- Removing an entry changes no anchor of a bucket other than its own and
other than the one of its successor. -/
theorem anchorOf_remove {pre post : List (Entry K V)} {e : Entry K V} (prev : Ptr) {b : Nat}
    (hb : e.hash ≠ b) (hpost : ∀ y rest, post = y :: rest → y.hash ≠ b) :
    anchorOf prev (pre ++ e :: post) b = anchorOf prev (pre ++ post) b := by
  by_cases hpre : ∃ x ∈ pre, x.hash = b
  · exact anchorOf_append_of_present prev _ _ hpre
  · have h2 : ∀ x ∈ pre, x.hash ≠ b := by simpa using hpre
    rw [anchorOf_append_of_absent prev h2, anchorOf_append_of_absent prev h2]
    simp only [anchorOf, if_neg hb]
    exact anchorOf_prev_irrel _ _ hpost

theorem tableInv_erase {h h2 : Heap K V} {t : UnorderedMap} {pre post : List (Entry K V)}
    {e : Entry K V} (hi : TableInv hash_ h t (pre ++ e :: post))
    (hl : IsList h2 t.nodes_list_.fake_node (pre ++ post)) (hc : h2.Consistent)
    {bs2 : List Ptr} (hlen : bs2.length = t.capacity_)
    (hanch : ∀ b, b < t.capacity_ →
      bs2[b]? = some (anchorOf (Ptr.fake t.nodes_list_.fake_node) (pre ++ post) b)) :
    TableInv hash_ h2
      { t with nodes_list_ := { t.nodes_list_ with sz := t.nodes_list_.sz - 1 },
               block_start_ := bs2 } (pre ++ post) :=
  { list := hl
    sz := by
      have := hi.sz
      simp only [UnorderedMap.size, List.length_append, List.length_cons] at this ⊢
      omega
    cap_pos := hi.cap_pos
    bs_len := hlen
    hash_ok := by
      intro x hx
      apply hi.hash_ok
      simp only [List.mem_append, List.mem_cons] at hx ⊢
      tauto
    grouped := hi.grouped.of_sublist (by simp)
    anchors := hanch
    consistent := hc }

/-- The new anchors after erasing an entry, as `erase` computes them. -/
theorem erase_anchors {t : UnorderedMap} {h : Heap K V} {pre post : List (Entry K V)}
    {e : Entry K V} (hi : TableInv hash_ h t (pre ++ e :: post)) :
    ∃ bs2, bs2.length = t.capacity_ ∧
      (∀ b, b < t.capacity_ →
        bs2[b]? = some (anchorOf (Ptr.fake t.nodes_list_.fake_node) (pre ++ post) b)) ∧
      ((∃ y rest, post = y :: rest ∧ y.hash = e.hash) ∧ bs2 = t.block_start_ ∨
       (post = [] ∧ anchorOf (Ptr.fake t.nodes_list_.fake_node) (pre ++ e :: post) e.hash
          ≠ predFrom (Ptr.fake t.nodes_list_.fake_node) pre) ∧ bs2 = t.block_start_ ∨
       ((post = [] ∨ ∃ y rest, post = y :: rest ∧ y.hash ≠ e.hash) ∧
        ¬ (post = [] ∧ anchorOf (Ptr.fake t.nodes_list_.fake_node) (pre ++ e :: post) e.hash
          ≠ predFrom (Ptr.fake t.nodes_list_.fake_node) pre) ∧
        ∃ bs1, (if anchorOf (Ptr.fake t.nodes_list_.fake_node) (pre ++ e :: post) e.hash
              = predFrom (Ptr.fake t.nodes_list_.fake_node) pre
            then setSlot t.block_start_ e.hash Ptr.null else some t.block_start_) = some bs1 ∧
          (match post.head? with
            | none => some bs1
            | some y => setSlot bs1 y.hash (predFrom (Ptr.fake t.nodes_list_.fake_node) pre))
            = some bs2)) := by
  have hcap : t.capacity_ = t.block_start_.length := hi.bs_len.symm
  have heh : e.hash < t.capacity_ := by
    rw [hi.hash_ok e (by simp)]; exact Nat.mod_lt _ hi.cap_pos
  have hnd : (addrs (pre ++ e :: post)).Nodup := hi.list.2.2
  have hslot_iff : anchorOf (Ptr.fake t.nodes_list_.fake_node) (pre ++ e :: post) e.hash
      = predFrom (Ptr.fake t.nodes_list_.fake_node) pre ↔ ∀ x ∈ pre, x.hash ≠ e.hash := by
    constructor
    · intro heq x hx hxe
      obtain ⟨l1, x0, mid, hpre, hx0, hl1, _, _⟩ := split_at_bucket ⟨x, hx, hxe⟩
      rw [hpre, List.append_assoc, List.cons_append, anchorOf_split _ hx0 hl1] at heq
      refine predFrom_ne_of_nodup l1 (x0 :: mid) ?_ (by simp) heq
      rw [hpre] at hnd
      simp only [addrs_append, addrs_cons, List.append_assoc, List.cons_append] at hnd ⊢
      exact hnd.sublist ((List.Sublist.refl _).append
        (List.Sublist.cons₂ _ (List.sublist_append_left _ _)))
    · intro hfirst
      exact anchorOf_split _ rfl hfirst
  have hg := hi.grouped
  cases post with
  | nil =>
    by_cases hfirst : ∀ x ∈ pre, x.hash ≠ e.hash
    · refine ⟨t.block_start_.set e.hash Ptr.null, by simp [hi.bs_len], ?_, Or.inr (Or.inr ?_)⟩
      · intro b hb
        by_cases hbe : e.hash = b
        · subst hbe
          rw [List.getElem?_set_self (hcap ▸ hb), List.append_nil, anchorOf_absent _ hfirst]
        · rw [List.getElem?_set_ne hbe, hi.anchors b hb]
          rw [anchorOf_remove _ hbe (by simp)]
      · refine ⟨Or.inl rfl, ?_, t.block_start_.set e.hash Ptr.null, ?_, rfl⟩
        · simp [hslot_iff.2 hfirst]
        · rw [if_pos (hslot_iff.2 hfirst), setSlot_eq (hcap ▸ heh)]
    · refine ⟨t.block_start_, hi.bs_len, ?_, Or.inr (Or.inl ⟨⟨rfl, ?_⟩, rfl⟩)⟩
      · intro b hb
        rw [hi.anchors b hb]
        by_cases hbe : e.hash = b
        · subst hbe
          exact congrArg some (anchorOf_append_of_present _ _ _ (by simpa using hfirst))
        · rw [anchorOf_remove _ hbe (by simp)]
      · exact fun heq => hfirst (hslot_iff.1 heq)
  | cons y rest =>
    have hyh : y.hash < t.capacity_ := by
      rw [hi.hash_ok y (by simp)]; exact Nat.mod_lt _ hi.cap_pos
    by_cases hye : y.hash = e.hash
    · refine ⟨t.block_start_, hi.bs_len, ?_, Or.inl ⟨⟨y, rest, rfl, hye⟩, rfl⟩⟩
      intro b hb
      rw [hi.anchors b hb, anchorOf_insert_run _ hye]
    · have hypre : ∀ x ∈ pre, x.hash ≠ y.hash := by
        intro x hx hxy
        have hsub : List.Sublist [x, e, y] (pre ++ e :: y :: rest) := by
          have h1 : List.Sublist [x] pre := List.singleton_sublist.2 hx
          have h2 : List.Sublist [e, y] (e :: y :: rest) := by simp
          simpa using h1.append h2
        exact hye ((hg.triple x e y hsub hxy).trans hxy).symm
      have hpost_e : ∀ z ∈ y :: rest, z.hash ≠ e.hash := by
        intro z hz hze
        rcases List.mem_cons.1 hz with rfl | hz
        · exact hye hze
        · have hsub : List.Sublist [e, y, z] (pre ++ e :: y :: rest) := by
            have h2 : List.Sublist [e, y, z] (e :: y :: rest) := by
              simpa using List.singleton_sublist.2 hz
            exact h2.trans (List.sublist_append_right _ _)
          exact hye (hg.triple e y z hsub hze.symm)
      by_cases hfirst : ∀ x ∈ pre, x.hash ≠ e.hash
      · refine ⟨(t.block_start_.set e.hash Ptr.null).set y.hash
          (predFrom (Ptr.fake t.nodes_list_.fake_node) pre), by simp [hi.bs_len], ?_,
          Or.inr (Or.inr ?_)⟩
        · intro b hb
          by_cases hby : y.hash = b
          · subst hby
            rw [List.getElem?_set_self (by simpa [← hcap] using hb), anchorOf_split _ rfl hypre]
          · rw [List.getElem?_set_ne hby]
            by_cases hbe : e.hash = b
            · subst hbe
              rw [List.getElem?_set_self (hcap ▸ hb), anchorOf_absent]
              intro x hx
              rcases List.mem_append.1 hx with hx | hx
              · exact hfirst x hx
              · exact hpost_e x hx
            · rw [List.getElem?_set_ne hbe, hi.anchors b hb,
                anchorOf_remove _ hbe (by
                  intro y2 r2 h2
                  simp only [List.cons.injEq] at h2
                  rw [← h2.1]; exact hby)]
        · refine ⟨Or.inr ⟨y, rest, rfl, hye⟩, by simp, t.block_start_.set e.hash Ptr.null,
            ?_, ?_⟩
          · rw [if_pos (hslot_iff.2 hfirst), setSlot_eq (hcap ▸ heh)]
          · simp only [List.head?_cons]
            rw [setSlot_eq (by simpa [← hcap] using hyh)]
      · refine ⟨t.block_start_.set y.hash (predFrom (Ptr.fake t.nodes_list_.fake_node) pre),
          by simp [hi.bs_len], ?_, Or.inr (Or.inr ?_)⟩
        · intro b hb
          by_cases hby : y.hash = b
          · subst hby
            rw [List.getElem?_set_self (by simpa [← hcap] using hb), anchorOf_split _ rfl hypre]
          · rw [List.getElem?_set_ne hby, hi.anchors b hb]
            by_cases hbe : e.hash = b
            · subst hbe
              exact congrArg some (anchorOf_append_of_present _ _ _ (by simpa using hfirst))
            · rw [anchorOf_remove _ hbe (by
                  intro y2 r2 h2
                  simp only [List.cons.injEq] at h2
                  rw [← h2.1]; exact hby)]
        · refine ⟨Or.inr ⟨y, rest, rfl, hye⟩, by simp, t.block_start_, ?_, ?_⟩
          · rw [if_neg (fun heq => hfirst (hslot_iff.1 heq))]
          · simp only [List.head?_cons]
            rw [setSlot_eq (by simpa [← hcap] using hyh)]

end Erase

section Erase2

variable {K V : Type} (hash_ : K → Nat)

theorem find_previous_node_spec {h : Heap K V} {t : UnorderedMap}
    {pre post : List (Entry K V)} {e : Entry K V}
    (hi : TableInv hash_ h t (pre ++ e :: post)) :
    UnorderedMap.find_previous_node h t (Ptr.node e.addr)
      = some (predFrom (Ptr.fake t.nodes_list_.fake_node) pre) := by
  have hl := hi.list
  have hlen := hl.length_le hi.consistent
  simp only [List.length_append, List.length_cons] at hlen
  have hen := Seg_split hl.2.1
  have heh : e.hash < t.capacity_ := by
    rw [hi.hash_ok e (by simp)]; exact Nat.mod_lt _ hi.cap_pos
  simp only [UnorderedMap.find_previous_node, Heap.get_hash, Heap.node?, hen, Option.map_some',
    Option.bind_eq_bind, Option.some_bind, hi.anchors _ heh]
  by_cases hfirst : ∀ x ∈ pre, x.hash ≠ e.hash
  · rw [anchorOf_split _ rfl hfirst]
    have := find_previous_walk (h := h) (f := t.nodes_list_.fake_node) [] pre post (e := e)
      h.fuel (by simpa using hl) (by simp [Heap.fuel])
    simpa using this
  · obtain ⟨l1, x0, mid, hpre, hx0, hl1, _, _⟩ :=
      split_at_bucket (show ∃ x ∈ pre, x.hash = e.hash by simpa using hfirst)
    subst hpre
    rw [List.append_assoc, List.cons_append, anchorOf_split _ hx0 hl1]
    have := find_previous_walk (h := h) (f := t.nodes_list_.fake_node) (x0 :: mid) l1 post
      (e := e) h.fuel (by simpa using hl)
      (by simp only [Heap.fuel, List.length_append, List.length_cons] at hlen ⊢; omega)
    exact this

/-- The function `erase` on a cursor to a live entry removes exactly that
entry and keeps the table well formed. -/
theorem erase_spec {h : Heap K V} {t : UnorderedMap} {pre post : List (Entry K V)}
    {e : Entry K V} (hi : TableInv hash_ h t (pre ++ e :: post)) :
    ∃ h2 t2, UnorderedMap.erase h t (Ptr.node e.addr) = some (h2, t2) ∧
      TableInv hash_ h2 t2 (pre ++ post) ∧
      t2.capacity_ = t.capacity_ ∧ t2.max_load_factor_ = t.max_load_factor_ ∧
      t2.nodes_list_.fake_node = t.nodes_list_.fake_node ∧
      h2.fresh = h.fresh ∧ (∀ j, j ≠ t.nodes_list_.fake_node → h2.fake j = h.fake j) ∧
      (∀ x, x ≠ e.addr → x ∉ addrs pre → h2.nodes x = h.nodes x) ∧
      h2.nodes e.addr = none := by
  have hl := hi.list
  have hen := Seg_split hl.2.1
  have heh : e.hash < t.capacity_ := by
    rw [hi.hash_ok e (by simp)]; exact Nat.mod_lt _ hi.cap_pos
  obtain ⟨h1, h2, hset, hers, hl2, hfr, hfk, hnodes, hfree⟩ :=
    ForwardList.unlink_spec (l := t.nodes_list_) hl
  have hc2 : h2.Consistent := by
    intro x hx
    rw [hfr] at hx
    have hxe : x ≠ e.addr := by
      intro heq
      have := hi.addr_lt hash_ e.addr (by simp)
      omega
    have hxp : x ∉ addrs pre := by
      intro hm
      have := hi.addr_lt hash_ x (by simp [hm])
      omega
    rw [hnodes x hxe hxp]
    exact hi.consistent x hx
  obtain ⟨bs2, hlen2, hanch2, hcases⟩ := erase_anchors hash_ hi
  have hinv := tableInv_erase hash_ hi hl2 hc2 hlen2 hanch2
  refine ⟨h2, _, ?_, hinv, rfl, rfl, rfl, hfr, hfk, hnodes, hfree⟩
  have hprev := find_previous_node_spec hash_ hi
  have hgh : h.get_hash (Ptr.node e.addr) = some e.hash := by
    simp [Heap.get_hash, Heap.node?, hen]
  have hnx : h.next (Ptr.node e.addr) = some (headD post Ptr.null) := by
    simp [Heap.next, hen]
  have hslot := hi.anchors _ heh
  simp only [UnorderedMap.erase, hprev, hgh, hnx, Option.bind_eq_bind, Option.some_bind,
    UnorderedMap.last_with_hash, hslot]
  cases post with
  | nil =>
    simp only [headD_nil, if_true, Option.some_bind, Bool.not_true, Bool.false_eq_true,
      if_false, true_and, ne_eq, not_true_eq_false]
    simp only [headD_nil] at hset
    rcases hcases with ⟨⟨y, rest, hp, _⟩, _⟩ | ⟨⟨_, hne⟩, hbs⟩ | ⟨_, hnot, bs1, hbs1, hbs2⟩
    · cases hp
    · rw [if_pos hne, hset]
      simp only [Option.some_bind, hers, Option.pure_def, hbs]
    · have heq : anchorOf (Ptr.fake t.nodes_list_.fake_node) (pre ++ [e]) e.hash
          = predFrom (Ptr.fake t.nodes_list_.fake_node) pre := by
        by_contra hne
        exact hnot ⟨rfl, hne⟩
      rw [if_neg (by simpa using heq)]
      rw [heq] at hbs1
      simp only [if_true] at hbs1
      simp only [List.head?_nil, Option.some.injEq] at hbs2
      simp only [heq, if_true, hbs1, Option.some_bind, hset, hers, Option.pure_def, hbs2]
  | cons y rest =>
    have hyn : h.nodes y.addr = some
        { next := headD rest Ptr.null, key := y.key, value := y.value, hash := y.hash } :=
      Seg_split (show Seg h ((pre ++ [e]) ++ y :: rest) Ptr.null by simpa using hl.2.1)
    have hghy : h.get_hash (Ptr.node y.addr) = some y.hash := by
      simp [Heap.get_hash, Heap.node?, hyn]
    simp only [headD_cons] at hset
    simp only [headD_cons, hghy, hgh, Option.some_bind, Option.pure_def,
      show (Ptr.node y.addr = Ptr.null) = False by simp, if_false, ne_eq, false_and,
      not_false_eq_true, if_true]
    rcases hcases with ⟨⟨y2, rest2, hp, hye⟩, hbs⟩ | ⟨⟨hp, _⟩, _⟩ | ⟨hlast, _, bs1, hbs1, hbs2⟩
    · simp only [List.cons.injEq] at hp
      rw [← hp.1] at hye
      simp only [hye, not_true_eq_false, decide_False, Bool.not_false, if_true, hset,
        Option.some_bind, hers, hbs]
    · cases hp
    · have hye : y.hash ≠ e.hash := by
        rcases hlast with hp | ⟨y2, rest2, hp, hye⟩
        · cases hp
        · simp only [List.cons.injEq] at hp
          rw [← hp.1] at hye
          exact hye
      simp only [List.head?_cons] at hbs2
      simp only [hye, not_false_eq_true, decide_True, Bool.not_true, Bool.false_eq_true,
        if_false, hbs1, Option.some_bind, hbs2, hset, hers]

end Erase2

/-! ## Entries kept, key uniqueness, and the remaining operations -/

section Steps

variable {K V : Type} (hash_ : K → Nat) (equal_ : K → K → Bool)

theorem SameEntries.refl (es : List (Entry K V)) : SameEntries es es := List.Perm.refl _

theorem SameEntries.trans {es1 es2 es3 : List (Entry K V)} (h12 : SameEntries es1 es2)
    (h23 : SameEntries es2 es3) : SameEntries es1 es3 :=
  List.Perm.trans h23 h12

theorem SameEntries.of_perm {es es2 : List (Entry K V)} (hp : es2.Perm es) :
    SameEntries es es2 := hp.map _

theorem rebucket_core (cap : Nat) (e : Entry K V) : (e.rebucket hash_ cap).core = e.core := rfl

theorem sameEntries_relinked (cap : Nat) (es : List (Entry K V)) :
    SameEntries es (relinked hash_ cap es) := by
  unfold SameEntries
  refine ((relinked_perm hash_ cap es).map _).trans ?_
  rw [List.map_map]
  exact List.Perm.of_eq (List.map_congr_left (fun e _ => rfl))

theorem SameEntries.length_eq {es es2 : List (Entry K V)} (hs : SameEntries es es2) :
    es2.length = es.length := by
  simpa using List.Perm.length_eq hs

theorem SameEntries.mem {es es2 : List (Entry K V)} (hs : SameEntries es es2)
    {e : Entry K V} (he : e ∈ es) :
    ∃ e2 ∈ es2, e2.addr = e.addr ∧ e2.key = e.key ∧ e2.value = e.value := by
  have h1 : e.core ∈ es.map Entry.core := List.mem_map_of_mem _ he
  rw [← hs.mem_iff] at h1
  obtain ⟨e2, he2, hc⟩ := List.mem_map.1 h1
  simp only [Entry.core, Prod.mk.injEq] at hc
  exact ⟨e2, he2, hc.1, hc.2.1, hc.2.2⟩

theorem SameEntries.mem_rev {es es2 : List (Entry K V)} (hs : SameEntries es es2)
    {e2 : Entry K V} (he : e2 ∈ es2) :
    ∃ e ∈ es, e2.addr = e.addr ∧ e2.key = e.key ∧ e2.value = e.value := by
  have h1 : e2.core ∈ es2.map Entry.core := List.mem_map_of_mem _ he
  rw [hs.mem_iff] at h1
  obtain ⟨e, he1, hc⟩ := List.mem_map.1 h1
  simp only [Entry.core, Prod.mk.injEq] at hc
  exact ⟨e, he1, hc.1.symm, hc.2.1.symm, hc.2.2.symm⟩

theorem SameEntries.addrs_perm {es es2 : List (Entry K V)} (hs : SameEntries es es2) :
    (addrs es2).Perm (addrs es) := by
  have := hs.map (fun c : Nat × K × V => c.1)
  simpa [addrs, List.map_map, Function.comp, Entry.core] using this

/-- Key uniqueness only depends on the entries, not on their order or bucket
ids. -/
theorem Uniq.sameEntries {es es2 : List (Entry K V)} (hu : Uniq equal_ es)
    (hs : SameEntries es es2) : Uniq equal_ es2 := by
  unfold Uniq at hu ⊢
  have h1 : (es.map Entry.core).Pairwise
      (fun x y => equal_ x.2.1 y.2.1 = false ∧ equal_ y.2.1 x.2.1 = false) := by
    rw [List.pairwise_map]
    exact hu
  have h2 := (hs.pairwise_iff (fun {x y} hxy => ⟨hxy.2, hxy.1⟩)).2 h1
  rw [List.pairwise_map] at h2
  exact h2

theorem Uniq.of_sub {es es2 : List (Entry K V)} (hu : Uniq equal_ es)
    (hs : List.Sublist es2 es) : Uniq equal_ es2 :=
  List.Pairwise.sublist hs hu

theorem Uniq.cons {es : List (Entry K V)} (hu : Uniq equal_ es) {e0 : Entry K V}
    (hnew : ∀ x ∈ es, equal_ e0.key x.key = false ∧ equal_ x.key e0.key = false) :
    Uniq equal_ (e0 :: es) :=
  List.Pairwise.cons hnew hu

theorem TableInv.with_mlf {h : Heap K V} {t : UnorderedMap} {es : List (Entry K V)}
    (hi : TableInv hash_ h t es) (x : ℚ) :
    TableInv hash_ h { t with max_load_factor_ := x } es :=
  { list := hi.list
    sz := hi.sz
    cap_pos := hi.cap_pos
    bs_len := hi.bs_len
    hash_ok := hi.hash_ok
    grouped := hi.grouped
    anchors := hi.anchors
    consistent := hi.consistent }

/-- Whatever its argument, `rehash` returns, keeps the table well formed and
keeps every entry; it never shrinks the capacity. -/
theorem rehash_any {h : Heap K V} {t : UnorderedMap} {es : List (Entry K V)}
    (hi : TableInv hash_ h t es) (c : Nat) :
    ∃ h2 t2 es2, UnorderedMap.rehash hash_ h t c = some (h2, t2) ∧
      TableInv hash_ h2 t2 es2 ∧ SameEntries es es2 ∧
      t2.max_load_factor_ = t.max_load_factor_ ∧
      t2.nodes_list_.fake_node = t.nodes_list_.fake_node ∧
      t.capacity_ ≤ t2.capacity_ ∧ c ≤ t2.capacity_ ∧
      h2.fresh = h.fresh ∧ (∀ j, j ≠ t.nodes_list_.fake_node → h2.fake j = h.fake j) ∧
      (∀ x, x ∉ addrs es → h2.nodes x = h.nodes x) := by
  by_cases hle : c ≤ t.capacity_
  · exact ⟨h, t, es, rehash_noop hash_ h t hle, hi, SameEntries.refl es, rfl, rfl, le_refl _,
      hle, rfl, fun _ _ => rfl, fun _ _ => rfl⟩
  · obtain ⟨h2, t2, hr, hinv, hcap, hmlf, hfn, hfr, hfk, hnodes⟩ :=
      rehash_spec hash_ hi (Nat.lt_of_not_le hle)
    exact ⟨h2, t2, _, hr, hinv, sameEntries_relinked hash_ _ es, hmlf, hfn,
      by rw [hcap]; omega, by rw [hcap]; omega, hfr, hfk, hnodes⟩

/-- The loop of `erase(first, last)`: the entries `mid` between the fixed
predecessor and `last` are erased one by one. -/
theorem erase_range_loop_spec (mid : List (Entry K V)) :
    ∀ {h : Heap K V} {t : UnorderedMap} {l1 l3 : List (Entry K V)} (fuel : Nat),
    TableInv hash_ h t (l1 ++ mid ++ l3) → mid.length < fuel →
    ∃ h2 t2, UnorderedMap.erase_range_loop (predFrom (Ptr.fake t.nodes_list_.fake_node) l1)
        (headD l3 Ptr.null) fuel h t = some (h2, t2) ∧
      TableInv hash_ h2 t2 (l1 ++ l3) ∧
      t2.capacity_ = t.capacity_ ∧ t2.max_load_factor_ = t.max_load_factor_ ∧
      t2.nodes_list_.fake_node = t.nodes_list_.fake_node ∧
      h2.fresh = h.fresh ∧ (∀ j, j ≠ t.nodes_list_.fake_node → h2.fake j = h.fake j) ∧
      (∀ x, x ∉ addrs (l1 ++ mid ++ l3) → h2.nodes x = h.nodes x) := by
  induction mid with
  | nil =>
    intro h t l1 l3 fuel hi hf
    cases fuel with
    | zero => simp at hf
    | succ fuel =>
      simp only [List.append_nil] at hi
      refine ⟨h, t, ?_, hi, rfl, rfl, rfl, rfl, fun _ _ => rfl, fun _ _ => rfl⟩
      simp only [UnorderedMap.erase_range_loop, hi.list.next_pred, Option.bind_eq_bind,
        Option.some_bind, if_true]
  | cons m mid ih =>
    intro h t l1 l3 fuel hi hf
    cases fuel with
    | zero => simp at hf
    | succ fuel =>
      have hi2 : TableInv hash_ h t (l1 ++ m :: (mid ++ l3)) := by simpa using hi
      have hnx := hi2.list.next_pred
      have hne : Ptr.node m.addr ≠ headD l3 Ptr.null := by
        cases l3 with
        | nil => simp
        | cons y l3 =>
          have hnd := hi2.list.2.2
          simp only [addrs_append, addrs_cons] at hnd
          have h2 := (List.nodup_append.1 hnd).2.1
          simp only [List.nodup_cons, List.mem_append, List.mem_cons, not_or] at h2
          simpa using h2.1.2.1
      obtain ⟨h1, t1, her, hinv1, hcap1, hmlf1, hfn1, hfr1, hfk1, hnodes1, _⟩ :=
        erase_spec hash_ hi2
      have hinv1b : TableInv hash_ h1 t1 (l1 ++ mid ++ l3) := by simpa using hinv1
      obtain ⟨h2, t2, hloop, hinv2, hcap2, hmlf2, hfn2, hfr2, hfk2, hnodes2⟩ :=
        ih fuel hinv1b (by simpa using hf)
      refine ⟨h2, t2, ?_, hinv2, hcap2.trans hcap1, hmlf2.trans hmlf1, hfn2.trans hfn1,
        hfr2.trans hfr1, ?_, ?_⟩
      · simp only [UnorderedMap.erase_range_loop, hnx, headD_cons, Option.bind_eq_bind,
          Option.some_bind, if_neg hne, her]
        rw [← hfn1]
        exact hloop
      · intro j hj
        rw [hfk2 j (hfn1 ▸ hj), hfk1 j hj]
      · intro x hx
        simp only [addrs_append, addrs_cons, List.mem_append, List.mem_cons, not_or] at hx
        rw [hnodes2 x (by simp [hx.1.1, hx.1.2.2, hx.2]), hnodes1 x hx.1.2.1 hx.1.1]

theorem erase_range_spec {h : Heap K V} {t : UnorderedMap} {l1 l2 l3 : List (Entry K V)}
    (hi : TableInv hash_ h t (l1 ++ l2 ++ l3)) (hne : headD (l2 ++ l3) Ptr.null ≠ Ptr.null) :
    ∃ h2 t2, UnorderedMap.erase_range h t (headD (l2 ++ l3) Ptr.null) (headD l3 Ptr.null)
        = some (h2, t2) ∧
      TableInv hash_ h2 t2 (l1 ++ l3) ∧
      t2.capacity_ = t.capacity_ ∧ t2.max_load_factor_ = t.max_load_factor_ ∧
      t2.nodes_list_.fake_node = t.nodes_list_.fake_node ∧
      h2.fresh = h.fresh ∧ (∀ j, j ≠ t.nodes_list_.fake_node → h2.fake j = h.fake j) ∧
      (∀ x, x ∉ addrs (l1 ++ l2 ++ l3) → h2.nodes x = h.nodes x) := by
  have hlen := hi.list.length_le hi.consistent
  obtain ⟨e, rest, hsplit⟩ : ∃ e rest, l2 ++ l3 = e :: rest := by
    cases hl : l2 ++ l3 with
    | nil => rw [hl] at hne; exact absurd rfl hne
    | cons e rest => exact ⟨e, rest, rfl⟩
  have hi2 : TableInv hash_ h t (l1 ++ e :: rest) := by
    rw [← hsplit, ← List.append_assoc]; exact hi
  have hprev := find_previous_node_spec hash_ hi2
  obtain ⟨h2, t2, hloop, hrest⟩ := erase_range_loop_spec hash_ l2 h.fuel hi
    (by simp only [Heap.fuel, List.length_append] at hlen ⊢; omega)
  refine ⟨h2, t2, ?_, hrest⟩
  rw [hsplit]
  simp only [UnorderedMap.erase_range, headD_cons, hprev, Option.bind_eq_bind,
    Option.some_bind]
  exact hloop

end Steps

/-! ## The public operations keep the table well formed -/

section Invariance

variable {K V : Type} (hash_ : K → Nat) (equal_ : K → K → Bool)

theorem Seg_unique {h : Heap K V} (es1 : List (Entry K V)) :
    ∀ {es2 : List (Entry K V)}, Seg h es1 Ptr.null → Seg h es2 Ptr.null →
    headD es1 Ptr.null = headD es2 Ptr.null → es1 = es2 := by
  induction es1 with
  | nil =>
    intro es2 _ _ hh
    cases es2 with
    | nil => rfl
    | cons e2 r2 => simp at hh
  | cons e r ih =>
    intro es2 h1 h2 hh
    cases es2 with
    | nil => simp at hh
    | cons e2 r2 =>
      rw [Seg_cons] at h1 h2
      have ha : e.addr = e2.addr := by simpa using hh
      have hn := h1.1
      rw [ha, h2.1] at hn
      simp only [Option.some.injEq, Node.mk.injEq] at hn
      have he : e = e2 := by
        cases e; cases e2
        simp only [Entry.mk.injEq]
        simp only at ha hn
        exact ⟨ha, hn.2.1.symm, hn.2.2.1.symm, hn.2.2.2.symm⟩
      rw [he, ih h1.2 h2.2 hn.1.symm]

/-- The iteration sequence of a list is determined by the memory. -/
theorem IsList.unique {h : Heap K V} {f : Nat} {es1 es2 : List (Entry K V)}
    (h1 : IsList h f es1) (h2 : IsList h f es2) : es1 = es2 :=
  Seg_unique es1 h1.2.1 h2.2.1 (h1.1.symm.trans h2.1)

/-- Under the functor contract the scan of the bucket run sees what a scan
of the whole list sees. -/
theorem bucketRun_find_eq (hheq : ∀ a b, equal_ a b = true → hash_ a = hash_ b)
    {h : Heap K V} {t : UnorderedMap} {es : List (Entry K V)} (hi : TableInv hash_ h t es)
    (k : K) :
    (bucketRun es (hash_ k % t.capacity_)).find? (fun e => equal_ e.key k)
      = es.find? (fun e => equal_ e.key k) := by
  apply find?_bucketRun hi.grouped
  intro e he hk
  rw [hi.hash_ok e he, hheq _ _ hk]

/-- The outcome of `emplace` for a key that the scan of its bucket does not
find: a new entry at the allocator's next address, linked in, all old entries
kept. -/
theorem emplace_absent {h : Heap K V} {t : UnorderedMap} {es : List (Entry K V)}
    (hi : TableInv hash_ h t es) (k : K) (v : V)
    (hfind : (bucketRun es (hash_ k % t.capacity_)).find? (fun e => equal_ e.key k) = none) :
    ∃ h2 t2 es2, UnorderedMap.emplace hash_ equal_ h t k v
        = some (h2, t2, Ptr.node h.fresh, true) ∧
      TableInv hash_ h2 t2 es2 ∧
      SameEntries ({ addr := h.fresh, key := k, value := v, hash := hash_ k % t.capacity_ } :: es)
        es2 ∧
      t2.max_load_factor_ = t.max_load_factor_ ∧
      t2.nodes_list_.fake_node = t.nodes_list_.fake_node ∧
      t.capacity_ ≤ t2.capacity_ ∧
      h2.fresh = h.fresh + 1 ∧ (∀ j, j ≠ t.nodes_list_.fake_node → h2.fake j = h.fake j) ∧
      (∀ x, x ≠ h.fresh → x ∉ addrs es → h2.nodes x = h.nodes x) := by
  obtain ⟨h1, t1, hinv1, hcap1, hmlf1, hfn1, hfr1, hfk1, hnodes1, heq⟩ :=
    emplace_link hash_ equal_ hi k v hfind
  have hsame1 : SameEntries
      ({ addr := h.fresh, key := k, value := v, hash := hash_ k % t.capacity_ } :: es)
      (linkList es { addr := h.fresh, key := k, value := v, hash := hash_ k % t.capacity_ }) :=
    SameEntries.of_perm (linkList_perm _ _)
  by_cases hov : t1.load_factor > t1.max_load_factor_
  · obtain ⟨h2, t2, es2, hr, hinv2, hsame2, hmlf2, hfn2, hcap2, _, hfr2, hfk2, hnodes2⟩ :=
      rehash_any hash_ hinv1 (t1.capacity_ * 2 + 1)
    refine ⟨h2, t2, es2, ?_, hinv2, hsame1.trans hsame2, hmlf2.trans hmlf1, hfn2.trans hfn1,
      hcap1 ▸ hcap2, hfr2.trans hfr1, ?_, ?_⟩
    · rw [heq, if_pos hov, hr]
      rfl
    · intro j hj
      rw [hfk2 j (hfn1 ▸ hj), hfk1 j hj]
    · intro x hx1 hx2
      rw [hnodes2 x (by rw [mem_addrs_linkList]; simp [hx1, hx2]), hnodes1 x hx1 hx2]
  · refine ⟨h1, t1, _, ?_, hinv1, hsame1, hmlf1, hfn1, hcap1 ▸ le_refl _, hfr1, hfk1, hnodes1⟩
    rw [heq, if_neg hov]

/-- Every call of `emplace` on a well-formed table returns and leaves a
well-formed table. -/
theorem emplace_inv {h : Heap K V} {t : UnorderedMap} {es : List (Entry K V)}
    (hi : TableInv hash_ h t es) (k : K) (v : V) :
    ∃ h2 t2 p b es2, UnorderedMap.emplace hash_ equal_ h t k v = some (h2, t2, p, b) ∧
      TableInv hash_ h2 t2 es2 ∧ (FunctorsOK hash_ equal_ → Uniq equal_ es → Uniq equal_ es2) := by
  cases hfind : (bucketRun es (hash_ k % t.capacity_)).find? (fun e => equal_ e.key k) with
  | none =>
    obtain ⟨h2, t2, es2, hem, hinv, hsame, _⟩ := emplace_absent hash_ equal_ hi k v hfind
    refine ⟨h2, t2, _, _, es2, hem, hinv, ?_⟩
    intro hok hu
    refine Uniq.sameEntries equal_ (Uniq.cons equal_ hu ?_) hsame
    intro x hx
    rw [bucketRun_find_eq hash_ equal_ hok.hash_eq hi k, List.find?_eq_none] at hfind
    have h1 : equal_ x.key k = false := by simpa using hfind x hx
    refine ⟨?_, h1⟩
    by_contra h2
    have := hok.symm k x.key (by simpa using h2)
    rw [h1] at this
    cases this
  | some e =>
    obtain ⟨h2, hem, hinv, _⟩ := emplace_present hash_ equal_ hi k v hfind
    exact ⟨h2, t, _, _, es, hem, hinv, fun _ hu => hu⟩

theorem erase_inv {h : Heap K V} {t : UnorderedMap} {es : List (Entry K V)}
    (hi : TableInv hash_ h t es) {p : Ptr} (hlive : Live h t p) :
    ∃ h2 t2 es2, UnorderedMap.erase h t p = some (h2, t2) ∧
      TableInv hash_ h2 t2 es2 ∧ (Uniq equal_ es → Uniq equal_ es2) := by
  obtain ⟨es1, hl1, e, he, rfl⟩ := hlive
  have hes : es1 = es := IsList.unique hl1 hi.list
  subst hes
  obtain ⟨pre, post, rfl⟩ := List.append_of_mem he
  obtain ⟨h2, t2, her, hinv, _⟩ := erase_spec hash_ hi
  exact ⟨h2, t2, _, her, hinv, fun hu => Uniq.of_sub equal_ hu (by simp)⟩

end Invariance

section Invariance2

variable {K V : Type} (hash_ : K → Nat) (equal_ : K → K → Bool)

theorem new_inv (h : Heap K V) (this_ : Nat) (hc : h.Consistent) :
    TableInv hash_ (UnorderedMap.new h this_).1 (UnorderedMap.new h this_).2
      ([] : List (Entry K V)) :=
  tableInv_empty hash_ (h := (UnorderedMap.new h this_).1) (f := this_)
    (by simp [UnorderedMap.new]) hc kStartCapacity (by decide) 1

theorem index_inv {h : Heap K V} {t : UnorderedMap} {es : List (Entry K V)}
    (hi : TableInv hash_ h t es) (k : K) (dflt : V) :
    ∃ h2 t2 p es2, UnorderedMap.index hash_ equal_ h t k dflt = some (h2, t2, p) ∧
      TableInv hash_ h2 t2 es2 ∧ (FunctorsOK hash_ equal_ → Uniq equal_ es → Uniq equal_ es2) := by
  have hc : t.capacity_ ≠ 0 := Nat.pos_iff_ne_zero.1 hi.cap_pos
  have hfind : UnorderedMap.find hash_ equal_ h t k = some (cursorOf
      ((bucketRun es (hash_ k % t.capacity_)).find? (fun e => equal_ e.key k))) := by
    unfold UnorderedMap.find
    rw [if_neg hc, find_with_hash_run equal_ hash_ hi k (Nat.mod_lt _ hi.cap_pos)]
  by_cases hnull : cursorOf
      ((bucketRun es (hash_ k % t.capacity_)).find? (fun e => equal_ e.key k)) = Ptr.null
  · obtain ⟨h2, t2, p, b, es2, hem, hinv, hu⟩ := emplace_inv hash_ equal_ hi k dflt
    refine ⟨h2, t2, p, es2, ?_, hinv, hu⟩
    simp only [UnorderedMap.index, hfind, Option.bind_eq_bind, Option.some_bind, hnull, ne_eq,
      not_true_eq_false, if_false, hem, Option.pure_def]
  · refine ⟨h, t, cursorOf
      ((bucketRun es (hash_ k % t.capacity_)).find? (fun e => equal_ e.key k)), es, ?_, hi,
      fun _ hu => hu⟩
    simp only [UnorderedMap.index, hfind, Option.bind_eq_bind, Option.some_bind, ne_eq, hnull,
      not_false_eq_true, if_true]

theorem reserve_inv {h h2 : Heap K V} {t t2 : UnorderedMap} {es : List (Entry K V)}
    (hi : TableInv hash_ h t es) {count : Nat}
    (hr : UnorderedMap.reserve hash_ h t count = some (h2, t2)) :
    ∃ es2, TableInv hash_ h2 t2 es2 ∧ SameEntries es es2 := by
  unfold UnorderedMap.reserve at hr
  cases hloop : UnorderedMap.reserve_loop t.max_load_factor_ count
      (⌈(2 * (count : ℚ) + 2) / t.max_load_factor_⌉₊ + 1) t.capacity_ with
  | none => rw [hloop] at hr; cases hr
  | some c =>
    rw [hloop] at hr
    simp only [Option.bind_eq_bind, Option.some_bind] at hr
    obtain ⟨h3, t3, es3, hr3, hinv, hsame, _⟩ := rehash_any hash_ hi c
    rw [hr3] at hr
    cases hr
    exact ⟨es3, hinv, hsame⟩

theorem set_max_load_factor_inv {h h2 : Heap K V} {t t2 : UnorderedMap}
    {es : List (Entry K V)} (hi : TableInv hash_ h t es) {x : ℚ}
    (hr : UnorderedMap.set_max_load_factor hash_ h t x = some (h2, t2)) :
    ∃ es2, TableInv hash_ h2 t2 es2 ∧ SameEntries es es2 := by
  unfold UnorderedMap.set_max_load_factor at hr
  simp only at hr
  split at hr
  · split at hr
    · cases hr
    · obtain ⟨h3, t3, es3, hr3, hinv, hsame, _⟩ :=
        rehash_any hash_ (hi.with_mlf hash_ x) ⌈to_float (to_float (t.size : ℚ) / x)⌉₊
      simp only [UnorderedMap.size] at hr hr3
      rw [hr3] at hr
      cases hr
      exact ⟨es3, hinv, hsame⟩
  · cases hr
    exact ⟨es, hi.with_mlf hash_ x, SameEntries.refl es⟩

theorem erase_range_inv {h : Heap K V} {t : UnorderedMap} {es : List (Entry K V)}
    (hi : TableInv hash_ h t es) {first last : Ptr} (hv : ValidRange h t first last) :
    ∃ h2 t2 es2, UnorderedMap.erase_range h t first last = some (h2, t2) ∧
      TableInv hash_ h2 t2 es2 ∧ (Uniq equal_ es → Uniq equal_ es2) := by
  obtain ⟨l1, l2, l3, hl, rfl, rfl, hne⟩ := hv
  have hes : l1 ++ l2 ++ l3 = es := IsList.unique hl hi.list
  subst hes
  obtain ⟨h2, t2, her, hinv, _⟩ := erase_range_spec hash_ hi hne
  refine ⟨h2, t2, _, her, hinv, fun hu => Uniq.of_sub equal_ hu ?_⟩
  exact (List.sublist_append_left l1 l2).append (List.Sublist.refl l3)

/-- Every reachable state is well formed; under the functor contract its
keys are pairwise different. -/
theorem reachable_inv {h : Heap K V} {t : UnorderedMap} (hr : Reachable hash_ equal_ h t) :
    ∃ es, TableInv hash_ h t es ∧ (FunctorsOK hash_ equal_ → Uniq equal_ es) := by
  induction hr with
  | init h this_ hc => exact ⟨[], new_inv hash_ h this_ hc, fun _ => List.Pairwise.nil⟩
  | emplace k v p b _ hstep ih =>
    obtain ⟨es, hi, hu⟩ := ih
    obtain ⟨h3, t3, p3, b3, es3, hem, hinv, hu3⟩ := emplace_inv hash_ equal_ hi k v
    rw [hem] at hstep
    cases hstep
    exact ⟨es3, hinv, fun hok => hu3 hok (hu hok)⟩
  | insert kv p b _ hstep ih =>
    obtain ⟨es, hi, hu⟩ := ih
    obtain ⟨h3, t3, p3, b3, es3, hem, hinv, hu3⟩ := emplace_inv hash_ equal_ hi kv.1 kv.2
    unfold UnorderedMap.insert at hstep
    rw [hem] at hstep
    cases hstep
    exact ⟨es3, hinv, fun hok => hu3 hok (hu hok)⟩
  | index k dflt p _ hstep ih =>
    obtain ⟨es, hi, hu⟩ := ih
    obtain ⟨h3, t3, p3, es3, hem, hinv, hu3⟩ := index_inv hash_ equal_ hi k dflt
    rw [hem] at hstep
    cases hstep
    exact ⟨es3, hinv, fun hok => hu3 hok (hu hok)⟩
  | erase p _ hlive hstep ih =>
    obtain ⟨es, hi, hu⟩ := ih
    obtain ⟨h3, t3, es3, hem, hinv, hu3⟩ := erase_inv hash_ equal_ hi hlive
    rw [hem] at hstep
    cases hstep
    exact ⟨es3, hinv, fun hok => hu3 (hu hok)⟩
  | erase_range first last _ hv hstep ih =>
    obtain ⟨es, hi, hu⟩ := ih
    obtain ⟨h3, t3, es3, hem, hinv, hu3⟩ := erase_range_inv hash_ equal_ hi hv
    rw [hem] at hstep
    cases hstep
    exact ⟨es3, hinv, fun hok => hu3 (hu hok)⟩
  | reserve count _ hstep ih =>
    obtain ⟨es, hi, hu⟩ := ih
    obtain ⟨es3, hinv, hsame⟩ := reserve_inv hash_ hi hstep
    exact ⟨es3, hinv, fun hok => Uniq.sameEntries equal_ (hu hok) hsame⟩
  | max_load_factor x _ hstep ih =>
    obtain ⟨es, hi, hu⟩ := ih
    obtain ⟨es3, hinv, hsame⟩ := set_max_load_factor_inv hash_ hi hstep
    exact ⟨es3, hinv, fun hok => Uniq.sameEntries equal_ (hu hok) hsame⟩

end Invariance2

/-! ## Lookup results under key uniqueness -/

section Results

variable {K V : Type} (hash_ : K → Nat) (equal_ : K → K → Bool)

theorem EqOK.functorsOK {hash_ : K → Nat} {equal_ : K → K → Bool} (hok : EqOK hash_ equal_) :
    FunctorsOK hash_ equal_ :=
  ⟨hok.symm, hok.hash_eq⟩

theorem equal_false_symm (hsymm : ∀ a b, equal_ a b = true → equal_ b a = true) {a b : K}
    (h : equal_ a b = false) : equal_ b a = false := by
  by_contra h2
  have := hsymm b a (by simpa using h2)
  rw [h] at this
  cases this

/-- With unique keys the scan finds the one entry whose key compares equal. -/
theorem find?_of_uniq (hsymm : ∀ a b, equal_ a b = true → equal_ b a = true)
    (htrans : ∀ a b c, equal_ a b = true → equal_ b c = true → equal_ a c = true)
    {es : List (Entry K V)} (hu : Uniq equal_ es) {e : Entry K V} (he : e ∈ es) {k : K}
    (hk : equal_ e.key k = true) : es.find? (fun x => equal_ x.key k) = some e := by
  cases hf : es.find? (fun x => equal_ x.key k) with
  | none =>
    rw [List.find?_eq_none] at hf
    exact absurd hk (by simpa using hf e he)
  | some e2 =>
    have hm : e2 ∈ es := List.mem_of_find?_eq_some hf
    have hk2 : equal_ e2.key k = true := by simpa using List.find?_some hf
    by_cases hee : e2 = e
    · rw [hee]
    · exfalso
      have hsym : Symmetric (fun x y : Entry K V =>
          equal_ x.key y.key = false ∧ equal_ y.key x.key = false) :=
        fun x y hxy => ⟨hxy.2, hxy.1⟩
      have := (List.Pairwise.forall hsym hu hm he hee).1
      rw [htrans _ _ _ hk2 (hsymm _ _ hk)] at this
      cases this

/-- With unique keys the cursor returned by a scan does not depend on the
order or the bucket ids of the entries. -/
theorem cursor_sameEntries (hsymm : ∀ a b, equal_ a b = true → equal_ b a = true)
    (htrans : ∀ a b c, equal_ a b = true → equal_ b c = true → equal_ a c = true)
    {es es2 : List (Entry K V)} (hu : Uniq equal_ es) (hs : SameEntries es es2) (k : K) :
    cursorOf (es2.find? (fun x => equal_ x.key k)) = cursorOf (es.find? (fun x => equal_ x.key k)) := by
  have hu2 := Uniq.sameEntries equal_ hu hs
  cases hf : es.find? (fun x => equal_ x.key k) with
  | none =>
    rw [List.find?_eq_none] at hf
    have : es2.find? (fun x => equal_ x.key k) = none := by
      rw [List.find?_eq_none]
      intro e2 he2
      obtain ⟨e, he, _, hkey, _⟩ := hs.mem_rev he2
      rw [hkey]
      exact hf e he
    rw [this]
  | some e =>
    have hm : e ∈ es := List.mem_of_find?_eq_some hf
    have hk : equal_ e.key k = true := by simpa using List.find?_some hf
    obtain ⟨e2, he2, haddr, hkey, _⟩ := hs.mem hm
    rw [find?_of_uniq equal_ hsymm htrans hu2 he2 (hkey ▸ hk)]
    simp [cursorOf, haddr]

theorem cursorOf_find_cases (es : List (Entry K V)) (P : Entry K V → Bool) :
    (cursorOf (es.find? P) = Ptr.null ∧ ∀ e ∈ es, P e = false) ∨
    (∃ e ∈ es, cursorOf (es.find? P) = Ptr.node e.addr ∧ P e = true) := by
  cases hf : es.find? P with
  | none =>
    left
    rw [List.find?_eq_none] at hf
    exact ⟨rfl, fun e he => by simpa using hf e he⟩
  | some e =>
    right
    exact ⟨e, List.mem_of_find?_eq_some hf, rfl, List.find?_some hf⟩

/-- The anchors of a well-formed table, spelled out. -/
theorem TableInv.anchor_facts {h : Heap K V} {t : UnorderedMap} {es : List (Entry K V)}
    (hi : TableInv hash_ h t es) (b : Nat) (hb : b < t.capacity_) :
    ((∀ e ∈ es, e.hash ≠ b) → t.block_start_[b]? = some Ptr.null) ∧
    (∀ pre e post, es = pre ++ e :: post → e.hash = b → (∀ x ∈ pre, x.hash ≠ b) →
      t.block_start_[b]? = some (predFrom (Ptr.fake t.nodes_list_.fake_node) pre) ∧
      h.next (predFrom (Ptr.fake t.nodes_list_.fake_node) pre) = some (Ptr.node e.addr)) := by
  refine ⟨fun habs => ?_, fun pre e post hes he hpre => ?_⟩
  · rw [hi.anchors b hb, anchorOf_absent _ habs]
  · subst hes
    refine ⟨by rw [hi.anchors b hb, anchorOf_split _ he hpre], ?_⟩
    have := hi.list.next_pred
    simpa using this

theorem TableInv.bs_ext {h h2 : Heap K V} {t t2 : UnorderedMap} {es es2 : List (Entry K V)}
    (hi : TableInv hash_ h t es) (hi2 : TableInv hash_ h2 t2 es2)
    (hcap : t2.capacity_ = t.capacity_)
    (hfn : t2.nodes_list_.fake_node = t.nodes_list_.fake_node)
    (hanch : ∀ b, anchorOf (Ptr.fake t.nodes_list_.fake_node) es2 b
      = anchorOf (Ptr.fake t.nodes_list_.fake_node) es b) :
    t2.block_start_ = t.block_start_ := by
  apply List.ext_getElem?
  intro b
  by_cases hb : b < t.capacity_
  · rw [hi.anchors b hb, hi2.anchors b (hcap ▸ hb), hfn, hanch]
  · have h1 : t.block_start_.length ≤ b := by rw [hi.bs_len]; omega
    have h2 : t2.block_start_.length ≤ b := by rw [hi2.bs_len, hcap]; omega
    rw [List.getElem?_eq_none h1, List.getElem?_eq_none h2]

end Results

/-! ## The example tables -/

section Demo

theorem natEqOK : EqOK natHash natEqual :=
  { refl := by intro a; simp [natEqual]
    symm := by intro a b h; simp only [natEqual, beq_iff_eq] at h ⊢; exact h.symm
    trans := by intro a b c h1 h2; simp only [natEqual, beq_iff_eq] at h1 h2 ⊢; exact h1.trans h2
    hash_eq := by intro a b h; simp only [natEqual, beq_iff_eq] at h; rw [h] }

theorem demo0_reachable : Reachable natHash natEqual demo0.1 demo0.2 :=
  Reachable.init Heap.empty 0 (fun _ _ => rfl)

theorem demoStep_reachable {s : DemoState} (hr : Reachable natHash natEqual s.1 s.2)
    (k v : Nat) : Reachable natHash natEqual (demoStep s k v).1 (demoStep s k v).2 := by
  obtain ⟨es, hi, _⟩ := reachable_inv natHash natEqual hr
  obtain ⟨h2, t2, p, b, es2, hem, _⟩ := emplace_inv natHash natEqual hi k v
  have : demoStep s k v = (h2, t2) := by simp [demoStep, hem]
  rw [this]
  exact Reachable.emplace k v p b hr hem

theorem demo3_reachable : Reachable natHash natEqual demo3.1 demo3.2 :=
  demoStep_reachable (demoStep_reachable (demoStep_reachable demo0_reachable 1 10) 16 20) 3 30

theorem demo3_entries : Entries demo3.1 demo3.2 demo3Entries := by
  refine ⟨by decide!, ⟨by decide!, by decide!, by decide!, trivial⟩, by decide⟩

theorem demo3_inv : TableInv natHash demo3.1 demo3.2 demo3Entries := by
  obtain ⟨es, hi, _⟩ := reachable_inv natHash natEqual demo3_reachable
  rw [IsList.unique demo3_entries hi.list]
  exact hi

theorem demo3_uniq : Uniq natEqual demo3Entries := by
  obtain ⟨es, hi, hu⟩ := reachable_inv natHash natEqual demo3_reachable
  rw [IsList.unique demo3_entries hi.list]
  exact hu natEqOK.functorsOK

end Demo

/-! ## Lookup, insertion and removal -/

section Claims

variable {K V : Type} (hash_ : K → Nat) (equal_ : K → K → Bool)

/-- C1: in every state reachable from a default-constructed table (by
emplace, insert, operator[], erase, range erase, reserve and
max_load_factor), for functors under which equal keys have equal hashes,
`find(k)` returns what a naive scan of the whole entry list returns, and so
does the bucket-local scan `find_with_hash`: the cursor designates a live
entry whose key compares equal to `k` whenever the list holds such an entry,
it is `end()` when there is none, and it never designates an entry whose key
does not compare equal to `k`. -/
theorem find_agrees_with_naive_scan
    (hheq : ∀ a b, equal_ a b = true → hash_ a = hash_ b)
    {h : Heap K V} {t : UnorderedMap} (hr : Reachable hash_ equal_ h t) (k : K) :
    ∃ es p, Entries h t es ∧
      UnorderedMap.find hash_ equal_ h t k = some p ∧
      naive_find equal_ h t k = some p ∧
      UnorderedMap.find_with_hash equal_ h t k (hash_ k % t.capacity_) = some p ∧
      ((∃ e ∈ es, equal_ e.key k = true) →
        ∃ e ∈ es, p = Ptr.node e.addr ∧ equal_ e.key k = true) ∧
      ((∀ e ∈ es, equal_ e.key k = false) → p = Ptr.null) ∧
      (∀ e ∈ es, p = Ptr.node e.addr → equal_ e.key k = true) := by
  obtain ⟨es, hi, _⟩ := reachable_inv hash_ equal_ hr
  have hfind := find_spec equal_ hash_ hheq hi k
  have hnaive := naive_find_spec equal_ hash_ hi k
  have hrun := find_with_hash_run equal_ hash_ hi k (Nat.mod_lt (hash_ k) hi.cap_pos)
  rw [bucketRun_find_eq hash_ equal_ hheq hi k] at hrun
  refine ⟨es, _, hi.list, hfind, hnaive, hrun, ?_, ?_, ?_⟩
  · rintro ⟨e, he, hk⟩
    rcases cursorOf_find_cases es (fun x => equal_ x.key k) with ⟨_, hnone⟩ | hsome
    · have := hnone e he
      simp only at this
      rw [hk] at this
      cases this
    · exact hsome
  · intro hnone
    rcases cursorOf_find_cases es (fun x => equal_ x.key k) with ⟨hp, _⟩ | ⟨e, he, _, hk⟩
    · exact hp
    · have := hnone e he
      rw [hk] at this
      cases this
  · intro e he hp
    rcases cursorOf_find_cases es (fun x => equal_ x.key k) with ⟨hnull, _⟩ | ⟨e2, he2, hp2, hk⟩
    · rw [hnull] at hp
      cases hp
    · rw [hp2] at hp
      have haddr : e2.addr = e.addr := by simpa using hp
      rw [← Seg_entry_eq hi.list.2.1 he2 he haddr]
      exact hk

/-- C1, at the table holding the keys 1, 16 and 3 and the key 16, which
shares its bucket with the key 1. -/
theorem find_agrees_with_naive_scan_witness :
    ∃ es p, Entries demo3.1 demo3.2 es ∧
      UnorderedMap.find natHash natEqual demo3.1 demo3.2 16 = some p ∧
      naive_find natEqual demo3.1 demo3.2 16 = some p ∧
      UnorderedMap.find_with_hash natEqual demo3.1 demo3.2 16 (natHash 16 % demo3.2.capacity_)
        = some p ∧
      ((∃ e ∈ es, natEqual e.key 16 = true) →
        ∃ e ∈ es, p = Ptr.node e.addr ∧ natEqual e.key 16 = true) ∧
      ((∀ e ∈ es, natEqual e.key 16 = false) → p = Ptr.null) ∧
      (∀ e ∈ es, p = Ptr.node e.addr → natEqual e.key 16 = true) :=
  find_agrees_with_naive_scan natHash natEqual natEqOK.hash_eq demo3_reachable 16

/-- C2: on a well-formed table that holds no key equal to `k`, `emplace(k, v)`
and `insert((k, v))` return `(cursor, true)`, the cursor designating an entry
that holds exactly `(k, v)`; the size grows by one, `find(k)` then returns
that cursor, every entry that was live before is still live with the same
address, key and value, `find` is unchanged for every key not equal to `k`,
and the table is well formed again, whether or not the call rehashed. -/
theorem emplace_new_key (hok : EqOK hash_ equal_)
    {h : Heap K V} {t : UnorderedMap} {es : List (Entry K V)}
    (hi : TableInv hash_ h t es) (hu : Uniq equal_ es) (k : K) (v : V)
    (habs : ∀ e ∈ es, equal_ e.key k = false) :
    ∃ h2 t2 es2 e0,
      UnorderedMap.emplace hash_ equal_ h t k v = some (h2, t2, Ptr.node e0.addr, true) ∧
      UnorderedMap.insert hash_ equal_ h t (k, v) = some (h2, t2, Ptr.node e0.addr, true) ∧
      TableInv hash_ h2 t2 es2 ∧ Uniq equal_ es2 ∧
      e0 ∈ es2 ∧ e0.key = k ∧ e0.value = v ∧
      t2.size = t.size + 1 ∧ es2.length = es.length + 1 ∧
      UnorderedMap.find hash_ equal_ h2 t2 k = some (Ptr.node e0.addr) ∧
      (∀ e ∈ es, ∃ e2 ∈ es2, e2.addr = e.addr ∧ e2.key = e.key ∧ e2.value = e.value) ∧
      (∀ k2, equal_ k k2 = false →
        UnorderedMap.find hash_ equal_ h2 t2 k2 = UnorderedMap.find hash_ equal_ h t k2) ∧
      (t2.capacity_ = t.capacity_ ∨ t2.capacity_ = t.capacity_ * 2 + 1) := by
  have hfind : (bucketRun es (hash_ k % t.capacity_)).find? (fun e => equal_ e.key k) = none := by
    rw [bucketRun_find_eq hash_ equal_ hok.hash_eq hi k, List.find?_eq_none]
    intro e he
    simpa using habs e he
  obtain ⟨h2, t2, es2, hem, hinv, hsame, _, _, _, _, _, _⟩ :=
    emplace_absent hash_ equal_ hi k v hfind
  have hu0 : Uniq equal_
      ({ addr := h.fresh, key := k, value := v, hash := hash_ k % t.capacity_ } :: es) :=
    Uniq.cons equal_ hu (fun x hx => ⟨equal_false_symm equal_ hok.symm (habs x hx), habs x hx⟩)
  obtain ⟨e0, he0, haddr, hkey, hval⟩ := hsame.mem (List.mem_cons_self _ es)
  simp only at haddr hkey hval
  have hcur : ∀ k2, UnorderedMap.find hash_ equal_ h2 t2 k2 = some (cursorOf
      (({ addr := h.fresh, key := k, value := v, hash := hash_ k % t.capacity_ } :: es).find?
        (fun x => equal_ x.key k2))) := by
    intro k2
    rw [find_spec equal_ hash_ hok.hash_eq hinv k2,
      cursor_sameEntries equal_ hok.symm hok.trans hu0 hsame k2]
  have hcap : t2.capacity_ = t.capacity_ ∨ t2.capacity_ = t.capacity_ * 2 + 1 := by
    obtain ⟨h1, t1, hinv1, hcap1, _, _, _, _, _, heq⟩ := emplace_link hash_ equal_ hi k v hfind
    rw [heq] at hem
    by_cases hov : t1.load_factor > t1.max_load_factor_
    · rw [if_pos hov] at hem
      obtain ⟨h3, t3, hr3, _, hcap3, _⟩ :=
        rehash_spec hash_ hinv1 (show t1.capacity_ < t1.capacity_ * 2 + 1 by omega)
      rw [hr3] at hem
      simp only [Option.some_bind, Option.some.injEq, Prod.mk.injEq] at hem
      right
      rw [← hem.2.1, hcap3, hcap1]
      simp
    · rw [if_neg hov] at hem
      simp only [Option.some.injEq, Prod.mk.injEq] at hem
      left
      rw [← hem.2.1, hcap1]
  refine ⟨h2, t2, es2, e0, by rw [hem, haddr], by unfold UnorderedMap.insert; rw [hem, haddr],
    hinv, Uniq.sameEntries equal_ hu0 hsame, he0, hkey, hval, ?_, ?_, ?_, ?_, ?_, hcap⟩
  · rw [hinv.sz, hi.sz, hsame.length_eq]
    simp
  · rw [hsame.length_eq]
    simp
  · rw [hcur k, List.find?_cons_of_pos _ (by simpa using hok.refl k)]
    simp [cursorOf, haddr]
  · intro e he
    exact hsame.mem (List.mem_cons_of_mem _ he)
  · intro k2 hk2
    rw [hcur k2, List.find?_cons_of_neg _ (by simpa using hk2),
      find_spec equal_ hash_ hok.hash_eq hi k2]

/-- C2, at the table holding the keys 1, 16 and 3, for the new key 31 in the
bucket of 1 and 16. -/
theorem emplace_new_key_witness :
    ∃ h2 t2 es2 e0,
      UnorderedMap.emplace natHash natEqual demo3.1 demo3.2 31 7
        = some (h2, t2, Ptr.node e0.addr, true) ∧
      UnorderedMap.insert natHash natEqual demo3.1 demo3.2 (31, 7)
        = some (h2, t2, Ptr.node e0.addr, true) ∧
      TableInv natHash h2 t2 es2 ∧ Uniq natEqual es2 ∧
      e0 ∈ es2 ∧ e0.key = 31 ∧ e0.value = 7 ∧
      t2.size = demo3.2.size + 1 ∧ es2.length = demo3Entries.length + 1 ∧
      UnorderedMap.find natHash natEqual h2 t2 31 = some (Ptr.node e0.addr) ∧
      (∀ e ∈ demo3Entries, ∃ e2 ∈ es2, e2.addr = e.addr ∧ e2.key = e.key ∧ e2.value = e.value) ∧
      (∀ k2, natEqual 31 k2 = false →
        UnorderedMap.find natHash natEqual h2 t2 k2
          = UnorderedMap.find natHash natEqual demo3.1 demo3.2 k2) ∧
      (t2.capacity_ = demo3.2.capacity_ ∨ t2.capacity_ = demo3.2.capacity_ * 2 + 1) :=
  emplace_new_key natHash natEqual natEqOK demo3_inv demo3_uniq 31 7 (by decide)

/-- C3: on a well-formed table that holds an entry `e` whose key compares
equal to `k`, `emplace(k, v)` and `insert((k, v))` return `(cursor, false)`
with the cursor on `e`, and nothing of the table is changed: the table record
(size, capacity, maximum load factor and every slot of the bucket index) is
returned as it was and the iteration sequence, with the stored keys and
values, is the same; in particular the stored value is not overwritten. -/
theorem emplace_existing_key (hok : EqOK hash_ equal_)
    {h : Heap K V} {t : UnorderedMap} {es : List (Entry K V)}
    (hi : TableInv hash_ h t es) (hu : Uniq equal_ es) (k : K) (v : V)
    {e : Entry K V} (he : e ∈ es) (hk : equal_ e.key k = true) :
    ∃ h2,
      UnorderedMap.emplace hash_ equal_ h t k v = some (h2, t, Ptr.node e.addr, false) ∧
      UnorderedMap.insert hash_ equal_ h t (k, v) = some (h2, t, Ptr.node e.addr, false) ∧
      Entries h2 t es ∧ TableInv hash_ h2 t es ∧
      h2.node? (Ptr.node e.addr) = h.node? (Ptr.node e.addr) ∧
      (∀ k2, UnorderedMap.find hash_ equal_ h2 t k2 = UnorderedMap.find hash_ equal_ h t k2) := by
  have hfind : (bucketRun es (hash_ k % t.capacity_)).find? (fun e => equal_ e.key k) = some e := by
    rw [bucketRun_find_eq hash_ equal_ hok.hash_eq hi k]
    exact find?_of_uniq equal_ hok.symm hok.trans hu he hk
  obtain ⟨h2, hem, hinv, _, _, hnodes, _⟩ := emplace_present hash_ equal_ hi k v hfind
  refine ⟨h2, hem, by unfold UnorderedMap.insert; exact hem, hinv.list, hinv, ?_, ?_⟩
  · have hlt := hi.addr_lt hash_ e.addr (mem_addrs he)
    simp only [Heap.node?]
    exact hnodes e.addr (by omega)
  · intro k2
    rw [find_spec equal_ hash_ hok.hash_eq hinv k2, find_spec equal_ hash_ hok.hash_eq hi k2]

/-- C3, at the table holding the keys 1, 16 and 3, for the stored key 16. -/
theorem emplace_existing_key_witness :
    ∃ h2,
      UnorderedMap.emplace natHash natEqual demo3.1 demo3.2 16 99
        = some (h2, demo3.2, Ptr.node 1, false) ∧
      UnorderedMap.insert natHash natEqual demo3.1 demo3.2 (16, 99)
        = some (h2, demo3.2, Ptr.node 1, false) ∧
      Entries h2 demo3.2 demo3Entries ∧ TableInv natHash h2 demo3.2 demo3Entries ∧
      h2.node? (Ptr.node 1) = demo3.1.node? (Ptr.node 1) ∧
      (∀ k2, UnorderedMap.find natHash natEqual h2 demo3.2 k2
        = UnorderedMap.find natHash natEqual demo3.1 demo3.2 k2) :=
  emplace_existing_key natHash natEqual natEqOK demo3_inv demo3_uniq 16 99
    (e := { addr := 1, key := 16, value := 20, hash := 1 }) (by decide) (by decide)

end Claims

section Claims2

variable {K V : Type} (hash_ : K → Nat) (equal_ : K → K → Bool)

/-- C4: on a well-formed table, `erase` of the cursor on a live entry `e`
returns, and afterwards the iteration sequence is the old one without `e`
(every other entry with the same address, key, value and relative order), the
size has decreased by exactly one, the node of `e` is released, `find` of the
key of `e` returns `end()`, `find` is unchanged for every key that does not
compare equal to the key of `e`, and the slot of the bucket of `e` is empty if
no other entry has that bucket id. -/
theorem erase_live_entry (hheq : ∀ a b, equal_ a b = true → hash_ a = hash_ b)
    {h : Heap K V} {t : UnorderedMap} (pre : List (Entry K V)) (e : Entry K V)
    (post : List (Entry K V))
    (hi : TableInv hash_ h t (pre ++ e :: post)) (hu : Uniq equal_ (pre ++ e :: post)) :
    ∃ h2 t2, UnorderedMap.erase h t (Ptr.node e.addr) = some (h2, t2) ∧
      Entries h2 t2 (pre ++ post) ∧ TableInv hash_ h2 t2 (pre ++ post) ∧
      Uniq equal_ (pre ++ post) ∧
      t2.size + 1 = t.size ∧ h2.nodes e.addr = none ∧
      UnorderedMap.find hash_ equal_ h2 t2 e.key = some Ptr.null ∧
      (∀ k2, equal_ e.key k2 = false →
        UnorderedMap.find hash_ equal_ h2 t2 k2 = UnorderedMap.find hash_ equal_ h t k2) ∧
      ((∀ x ∈ pre ++ post, x.hash ≠ e.hash) → t2.block_start_[e.hash]? = some Ptr.null) := by
  obtain ⟨h2, t2, her, hinv, hcap, _, _, _, _, _, hfree⟩ := erase_spec hash_ hi
  have heh : e.hash < t2.capacity_ := by
    rw [hcap, hi.hash_ok e (by simp)]
    exact Nat.mod_lt _ hi.cap_pos
  have hpw := List.pairwise_append.1 hu
  have hpw2 := List.pairwise_cons.1 hpw.2.1
  refine ⟨h2, t2, her, hinv.list, hinv, Uniq.of_sub equal_ hu (by simp), ?_, hfree, ?_, ?_, ?_⟩
  · rw [hinv.sz, hi.sz]
    simp only [List.length_append, List.length_cons]
    omega
  · rw [find_spec equal_ hash_ hheq hinv e.key]
    have : (pre ++ post).find? (fun x => equal_ x.key e.key) = none := by
      rw [List.find?_eq_none]
      intro x hx
      rcases List.mem_append.1 hx with hx | hx
      · simpa using (hpw.2.2 x hx e (by simp)).1
      · simpa using (hpw2.1 x hx).2
    rw [this]
    rfl
  · intro k2 hk2
    rw [find_spec equal_ hash_ hheq hinv k2, find_spec equal_ hash_ hheq hi k2,
      List.find?_append, List.find?_append, List.find?_cons_of_neg _ (by simpa using hk2)]
  · intro habs
    rw [hinv.anchors _ heh, anchorOf_absent _ habs]

/-- C4, at the table holding the keys 1, 16 and 3: erasing the entry of key
16, the first entry of the run of bucket 1. -/
theorem erase_live_entry_witness :
    ∃ h2 t2, UnorderedMap.erase demo3.1 demo3.2 (Ptr.node 1) = some (h2, t2) ∧
      Entries h2 t2 ([{ addr := 2, key := 3, value := 30, hash := 3 }]
        ++ [{ addr := 0, key := 1, value := 10, hash := 1 }]) ∧
      TableInv natHash h2 t2 ([{ addr := 2, key := 3, value := 30, hash := 3 }]
        ++ [{ addr := 0, key := 1, value := 10, hash := 1 }]) ∧
      Uniq natEqual ([{ addr := 2, key := 3, value := 30, hash := 3 }]
        ++ [{ addr := 0, key := 1, value := 10, hash := 1 }]) ∧
      t2.size + 1 = demo3.2.size ∧ h2.nodes 1 = none ∧
      UnorderedMap.find natHash natEqual h2 t2 16 = some Ptr.null ∧
      (∀ k2, natEqual 16 k2 = false →
        UnorderedMap.find natHash natEqual h2 t2 k2
          = UnorderedMap.find natHash natEqual demo3.1 demo3.2 k2) ∧
      ((∀ x ∈ [{ addr := 2, key := 3, value := 30, hash := 3 }]
          ++ [({ addr := 0, key := 1, value := 10, hash := 1 } : Entry Nat Nat)], x.hash ≠ 1) →
        t2.block_start_[1]? = some Ptr.null) :=
  erase_live_entry natHash natEqual natEqOK.hash_eq
    [{ addr := 2, key := 3, value := 30, hash := 3 }]
    { addr := 1, key := 16, value := 20, hash := 1 }
    [{ addr := 0, key := 1, value := 10, hash := 1 }] demo3_inv demo3_uniq

/-- C5: in every state reachable from a default-constructed table by emplace,
insert, operator[], erase, range erase, reserve and max_load_factor,
iterating from `begin()` to `end()` visits exactly `size()` entries, and, for
a symmetric equality under which equal keys have equal hashes, no two
distinct live entries have keys that compare equal. -/
theorem reachable_size_and_uniqueness (hok : FunctorsOK hash_ equal_)
    {h : Heap K V} {t : UnorderedMap} (hr : Reachable hash_ equal_ h t) :
    ∃ es, Entries h t es ∧ t.size = es.length ∧
      es.Pairwise (fun x y => equal_ x.key y.key = false ∧ equal_ y.key x.key = false) ∧
      (∀ x ∈ es, ∀ y ∈ es, x.addr ≠ y.addr → equal_ x.key y.key = false) := by
  obtain ⟨es, hi, hu⟩ := reachable_inv hash_ equal_ hr
  refine ⟨es, hi.list, hi.sz, hu hok, ?_⟩
  intro x hx y hy hne
  have hsym : Symmetric (fun x y : Entry K V =>
      equal_ x.key y.key = false ∧ equal_ y.key x.key = false) :=
    fun x y hxy => ⟨hxy.2, hxy.1⟩
  exact (List.Pairwise.forall hsym (hu hok) hx hy (fun hxy => hne (by rw [hxy]))).1

/-- C5, at the table holding the keys 1, 16 and 3. -/
theorem reachable_size_and_uniqueness_witness :
    ∃ es, Entries demo3.1 demo3.2 es ∧ demo3.2.size = es.length ∧
      es.Pairwise (fun x y => natEqual x.key y.key = false ∧ natEqual y.key x.key = false) ∧
      (∀ x ∈ es, ∀ y ∈ es, x.addr ≠ y.addr → natEqual x.key y.key = false) :=
  reachable_size_and_uniqueness natHash natEqual natEqOK.functorsOK demo3_reachable

/-- C6: in every state reachable from a default-constructed table by emplace,
insert, operator[], erase, range erase, reserve and max_load_factor (with the
rehashes they trigger), every entry's stored bucket id is the hash of its key
modulo the capacity, and the entries of one bucket are contiguous in
iteration order: whenever three entries occur in this order and the outer two
have the same bucket id, the middle one has it too, so no bucket id shows up
again once another one has been seen. -/
theorem reachable_grouping {h : Heap K V} {t : UnorderedMap}
    (hr : Reachable hash_ equal_ h t) :
    ∃ es, Entries h t es ∧
      (∀ e ∈ es, e.hash = hash_ e.key % t.capacity_ ∧ e.hash < t.capacity_) ∧
      (∀ x y z, List.Sublist [x, y, z] es → x.hash = z.hash → y.hash = x.hash) ∧
      (∀ l1 x l2 y l3, es = l1 ++ x :: l2 ++ y :: l3 → x.hash = y.hash →
        ∀ z ∈ l2, z.hash = x.hash) := by
  obtain ⟨es, hi, _⟩ := reachable_inv hash_ equal_ hr
  refine ⟨es, hi.list, ?_, hi.grouped.triple, ?_⟩
  · intro e he
    refine ⟨hi.hash_ok e he, ?_⟩
    rw [hi.hash_ok e he]
    exact Nat.mod_lt _ hi.cap_pos
  · intro l1 x l2 y l3 hes hxy z hz
    apply hi.grouped.triple x z y _ hxy
    rw [hes]
    obtain ⟨a, b, rfl⟩ := List.append_of_mem hz
    have h1 : List.Sublist [x, z, y] (x :: (a ++ z :: b) ++ y :: l3) := by
      have h2 : List.Sublist [z] (a ++ z :: b) := List.singleton_sublist.2 (by simp)
      have h3 : List.Sublist [y] (y :: l3) := by simp
      exact (List.Sublist.cons₂ x h2).append h3
    exact h1.trans (by simp)

/-- C6, at the table holding the keys 1, 16 and 3. -/
theorem reachable_grouping_witness :
    ∃ es, Entries demo3.1 demo3.2 es ∧
      (∀ e ∈ es, e.hash = natHash e.key % demo3.2.capacity_ ∧ e.hash < demo3.2.capacity_) ∧
      (∀ x y z, List.Sublist [x, y, z] es → x.hash = z.hash → y.hash = x.hash) ∧
      (∀ l1 x l2 y l3, es = l1 ++ x :: l2 ++ y :: l3 → x.hash = y.hash →
        ∀ z ∈ l2, z.hash = x.hash) :=
  reachable_grouping natHash natEqual demo3_reachable

/-- C7: in every state reachable from a default-constructed table by emplace,
insert, operator[], erase, range erase, reserve and max_load_factor, the
bucket index has one slot per bucket, and for every bucket `b` below the
capacity: if no live entry has bucket id `b` the slot is empty, and otherwise
the slot holds the node (the sentinel or a list node) that precedes the first
entry of the run of `b`, whose successor is that entry.  Moreover `erase` of
an entry that is not the last of its run leaves the whole bucket index as it
was, and `erase` of the last entry of a run that is followed by another run
makes the predecessor of the erased entry the anchor of that following run. -/
theorem reachable_anchor_correctness {h : Heap K V} {t : UnorderedMap}
    (hr : Reachable hash_ equal_ h t) :
    ∃ es, Entries h t es ∧ t.block_start_.length = t.capacity_ ∧
      (∀ b, b < t.capacity_ →
        ((∀ e ∈ es, e.hash ≠ b) → t.block_start_[b]? = some Ptr.null) ∧
        (∀ pre e post, es = pre ++ e :: post → e.hash = b → (∀ x ∈ pre, x.hash ≠ b) →
          t.block_start_[b]? = some (predFrom (Ptr.fake t.nodes_list_.fake_node) pre) ∧
          h.next (predFrom (Ptr.fake t.nodes_list_.fake_node) pre) = some (Ptr.node e.addr))) ∧
      (∀ pre e post, es = pre ++ e :: post →
        ∃ h2 t2, UnorderedMap.erase h t (Ptr.node e.addr) = some (h2, t2) ∧
          (∀ y rest, post = y :: rest → y.hash = e.hash →
            t2.block_start_ = t.block_start_) ∧
          (∀ y rest, post = y :: rest → y.hash ≠ e.hash →
            t2.block_start_[y.hash]?
              = some (predFrom (Ptr.fake t.nodes_list_.fake_node) pre))) := by
  obtain ⟨es, hi, _⟩ := reachable_inv hash_ equal_ hr
  refine ⟨es, hi.list, hi.bs_len, fun b hb => hi.anchor_facts hash_ b hb, ?_⟩
  intro pre e post hes
  subst hes
  obtain ⟨h2, t2, her, hinv, hcap, _, hfn, _⟩ := erase_spec hash_ hi
  refine ⟨h2, t2, her, ?_, ?_⟩
  · intro y rest hpost hye
    subst hpost
    exact TableInv.bs_ext hash_ hi hinv hcap hfn
      (fun b => (anchorOf_insert_run _ hye b).symm)
  · intro y rest hpost hye
    subst hpost
    have hyh : y.hash < t2.capacity_ := by
      rw [hcap, hi.hash_ok y (by simp)]
      exact Nat.mod_lt _ hi.cap_pos
    have hypre : ∀ x ∈ pre, x.hash ≠ y.hash := by
      intro x hx hxy
      have hsub : List.Sublist [x, e, y] (pre ++ e :: y :: rest) := by
        have h1 : List.Sublist [x] pre := List.singleton_sublist.2 hx
        have h2 : List.Sublist [e, y] (e :: y :: rest) := by simp
        simpa using h1.append h2
      exact hye ((hi.grouped.triple x e y hsub hxy).trans hxy).symm
    rw [hinv.anchors _ hyh, hfn, anchorOf_split _ rfl hypre]

/-- C7, at the table holding the keys 1, 16 and 3. -/
theorem reachable_anchor_correctness_witness :
    ∃ es, Entries demo3.1 demo3.2 es ∧ demo3.2.block_start_.length = demo3.2.capacity_ ∧
      (∀ b, b < demo3.2.capacity_ →
        ((∀ e ∈ es, e.hash ≠ b) → demo3.2.block_start_[b]? = some Ptr.null) ∧
        (∀ pre e post, es = pre ++ e :: post → e.hash = b → (∀ x ∈ pre, x.hash ≠ b) →
          demo3.2.block_start_[b]?
            = some (predFrom (Ptr.fake demo3.2.nodes_list_.fake_node) pre) ∧
          demo3.1.next (predFrom (Ptr.fake demo3.2.nodes_list_.fake_node) pre)
            = some (Ptr.node e.addr))) ∧
      (∀ pre e post, es = pre ++ e :: post →
        ∃ h2 t2, UnorderedMap.erase demo3.1 demo3.2 (Ptr.node e.addr) = some (h2, t2) ∧
          (∀ y rest, post = y :: rest → y.hash = e.hash →
            t2.block_start_ = demo3.2.block_start_) ∧
          (∀ y rest, post = y :: rest → y.hash ≠ e.hash →
            t2.block_start_[y.hash]?
              = some (predFrom (Ptr.fake demo3.2.nodes_list_.fake_node) pre))) :=
  reachable_anchor_correctness natHash natEqual demo3_reachable

end Claims2

/-! ## Copy assignment and swap -/

section Claims3

/-- A second default-constructed table in the memory of a well-formed table:
both are well formed. -/
theorem pair_wellFormed {s : DemoState} (hr : Reachable natHash natEqual s.1 s.2)
    (hne : s.2.nodes_list_.fake_node ≠ 1) :
    WellFormed natHash natEqual (UnorderedMap.new s.1 1).1 s.2 ∧
    WellFormed natHash natEqual (UnorderedMap.new s.1 1).1 (UnorderedMap.new s.1 1).2 := by
  obtain ⟨es, hi, hu⟩ := reachable_inv natHash natEqual hr
  refine ⟨⟨es, ?_, hu natEqOK.functorsOK⟩, ⟨[], new_inv natHash s.1 1 hi.consistent,
    List.Pairwise.nil⟩⟩
  refine hi.frame natHash (fun _ _ => rfl) ?_ hi.consistent
  simp [UnorderedMap.new, Function.update_noteq hne]

/-- C8 (code bug): copy assignment keeps the old anchors of the assigned-to
table.  With `a` holding the keys 1 and 2 and `b` empty, both well formed,
`a = b` returns a table `a` with no entry whose slot of bucket 1 still holds
the address of a node that has been released, so that `a.find(1)` has no
result (it reads the released node), while `b.find(1)` is `end()`; `b` is
unchanged. -/
theorem copy_assign_keeps_stale_anchor :
    WellFormed natHash natEqual assignInput.1 assignInput.2.1 ∧
    WellFormed natHash natEqual assignInput.1 assignInput.2.2 ∧
    assignResult.isSome = true ∧
    Entries assignOutput.1 assignOutput.2 [] ∧
    assignOutput.2.size = 0 ∧
    assignOutput.2.capacity_ = assignInput.2.2.capacity_ ∧
    assignOutput.2.block_start_[1]? = some (Ptr.node 1) ∧
    assignOutput.1.nodes 1 = none ∧
    UnorderedMap.find natHash natEqual assignOutput.1 assignOutput.2 1 = none ∧
    UnorderedMap.find natHash natEqual assignOutput.1 assignInput.2.2 1 = some Ptr.null ∧
    Entries assignOutput.1 assignInput.2.2 [] := by
  have hw := pair_wellFormed
    (demoStep_reachable (demoStep_reachable demo0_reachable 1 10) 2 20) (by decide!)
  refine ⟨hw.1, hw.2, by decide!, ⟨by decide!, trivial, by decide⟩, by decide!, by decide!,
    by decide!, by decide!, by decide!, by decide!, ⟨by decide!, trivial, by decide⟩⟩

/-- C9 (code bug): `swap` exchanges the bucket indexes without patching the
anchor that references the other table's sentinel.  With `a` holding the key
1 and `b` empty, both well formed, after `a.swap(b)` table `b` iterates the
entry of key 1, but the slot of bucket 1 holds the address of the sentinel of
`a` instead of the one of `b`, and `b.find(1)` returns `end()` although
`a.find(1)` returned the cursor on that entry before the swap. -/
theorem swap_keeps_foreign_sentinel :
    WellFormed natHash natEqual swapInput.1 swapInput.2.1 ∧
    WellFormed natHash natEqual swapInput.1 swapInput.2.2 ∧
    UnorderedMap.find natHash natEqual swapInput.1 swapInput.2.1 1 = some (Ptr.node 0) ∧
    Entries swapOutput.1 swapOutput.2.2 [{ addr := 0, key := 1, value := 10, hash := 1 }] ∧
    swapOutput.2.2.nodes_list_.fake_node = 1 ∧
    swapOutput.2.2.block_start_[1]? = some (Ptr.fake 0) ∧
    UnorderedMap.find natHash natEqual swapOutput.1 swapOutput.2.2 1 = some Ptr.null := by
  have hw := pair_wellFormed (demoStep_reachable demo0_reachable 1 10) (by decide!)
  refine ⟨hw.1, hw.2, by decide!, ⟨by decide!, ⟨by decide!, trivial⟩, by decide⟩, by decide!,
    by decide!, by decide!⟩

end Claims3

/-! ## Copying a list -/

section CopyList

variable {K V : Type}

theorem collect_n_spec {h : Heap K V} {es : List (Entry K V)} (hs : Seg h es Ptr.null) :
    ForwardList.collect_n h es.length (headD es Ptr.null)
      = some (es.map (fun e => Ptr.node e.addr)) := by
  induction es with
  | nil => rfl
  | cons e es ih =>
    rw [Seg_cons] at hs
    simp only [List.length_cons, headD_cons, ForwardList.collect_n, Heap.next, hs.1,
      Option.map_some', Option.bind_eq_bind, Option.some_bind, Option.pure_def, List.map_cons]
    rw [ih hs.2]
    rfl

theorem insert_copy_spec {h : Heap K V} {l : ForwardList} {cur : List (Entry K V)}
    (hl : IsList h l.fake_node cur) (hc : h.Consistent) (src : Node K V) :
    ∃ h2, l.insert_copy h l.fake_iterator src = some (h2, { l with sz := l.sz + 1 }) ∧
      IsList h2 l.fake_node
        ({ addr := h.fresh, key := src.key, value := src.value, hash := src.hash } :: cur) ∧
      h2.Consistent ∧ h2.fresh = h.fresh + 1 ∧
      (∀ j, j ≠ l.fake_node → h2.fake j = h.fake j) ∧
      (∀ x, x < h.fresh → h2.nodes x = h.nodes x) := by
  have hfresh : h.fresh ∉ addrs cur := fun hm => lt_irrefl _ (Seg_addr_lt hl.2.1 hc _ hm)
  have hex : ∃ h1 : Heap K V, h1 = (h.allocate src).1 := ⟨_, rfl⟩
  obtain ⟨h1, hh1⟩ := hex
  have hn1 : h1.nodes h.fresh = some src := by rw [hh1]; simp [Heap.allocate]
  have hother : ∀ x, x ≠ h.fresh → h1.nodes x = h.nodes x := by
    intro x hx; rw [hh1]; simp [Heap.allocate, Function.update_noteq hx]
  have hl1 : IsList h1 l.fake_node cur :=
    ⟨by rw [hh1]; exact hl.1,
      Seg_congr hl.2.1 (fun a ha => hother a (fun e => hfresh (e ▸ ha))), hl.2.2⟩
  obtain ⟨h2, hins, hl2, hfr, hfk, hnodes⟩ :=
    ForwardList.insert_spec (l := l) [] cur hl1 hn1 hfresh
  simp only [predFrom_nil, List.nil_append] at hins hl2
  refine ⟨h2, ?_, hl2, ?_, ?_, ?_, ?_⟩
  · simp only [ForwardList.insert_copy, ForwardList.fake_iterator]
    rw [← hh1]
    exact hins
  · intro x hx
    rw [hfr, hh1] at hx
    have hx2 : h.fresh + 1 ≤ x := hx
    rw [hnodes x (by omega) (by simp), hother x (by omega)]
    exact hc x (by omega)
  · rw [hfr, hh1]; rfl
  · intro j hj
    rw [hfk j hj, hh1]; rfl
  · intro x hx
    rw [hnodes x (by omega) (by simp), hother x (by omega)]

theorem copy_all_spec (rs : List (Entry K V)) :
    ∀ {h : Heap K V} {l : ForwardList} {cur : List (Entry K V)},
    IsList h l.fake_node cur → h.Consistent →
    (∀ r ∈ rs, ∃ nx, h.nodes r.addr
      = some { next := nx, key := r.key, value := r.value, hash := r.hash }) →
    ∃ h2 new, ForwardList.copy_all l h (rs.map (fun e => Ptr.node e.addr))
        = some (h2, { l with sz := l.sz + rs.length }) ∧
      IsList h2 l.fake_node (new ++ cur) ∧
      new.map Entry.content = rs.reverse.map Entry.content ∧
      (∀ a ∈ addrs new, h.fresh ≤ a) ∧
      h2.Consistent ∧ h.fresh ≤ h2.fresh ∧
      (∀ j, j ≠ l.fake_node → h2.fake j = h.fake j) ∧
      (∀ x, x < h.fresh → h2.nodes x = h.nodes x) := by
  induction rs with
  | nil =>
    intro h l cur hl hc _
    exact ⟨h, [], rfl, by simpa using hl, rfl, by simp, hc, le_refl _, fun _ _ => rfl,
      fun _ _ => rfl⟩
  | cons r rs ih =>
    intro h l cur hl hc hall
    obtain ⟨nx, hr⟩ := hall r (by simp)
    obtain ⟨h1, hins, hl1, hc1, hfr1, hfk1, hnodes1⟩ :=
      insert_copy_spec hl hc { next := nx, key := r.key, value := r.value, hash := r.hash }
    have hall1 : ∀ r2 ∈ rs, ∃ nx, h1.nodes r2.addr
        = some { next := nx, key := r2.key, value := r2.value, hash := r2.hash } := by
      intro r2 hr2
      obtain ⟨nx2, hn2⟩ := hall r2 (by simp [hr2])
      have hlt : r2.addr < h.fresh := by
        by_contra hge
        rw [hc _ (Nat.le_of_not_lt hge)] at hn2
        cases hn2
      exact ⟨nx2, by rw [hnodes1 _ hlt]; exact hn2⟩
    obtain ⟨h2, new, hcopy, hl2, hcont, haddr, hc2, hfr2, hfk2, hnodes2⟩ :=
      ih (l := { l with sz := l.sz + 1 }) hl1 hc1 hall1
    refine ⟨h2, new ++ [{ addr := h.fresh, key := r.key, value := r.value, hash := r.hash }],
      ?_, ?_, ?_, ?_, hc2, by omega, ?_, ?_⟩
    · simp only [List.map_cons, ForwardList.copy_all, Heap.node?, hr, Option.bind_eq_bind,
        Option.some_bind, hins, List.length_cons]
      rw [hcopy]
      simp only [Option.some.injEq, Prod.mk.injEq, true_and]
      simp only [Nat.add_assoc, Nat.add_comm 1]
    · simpa using hl2
    · simp [hcont, Entry.content]
    · intro a ha
      simp only [addrs_append, addrs_cons, addrs_nil, List.mem_append, List.mem_singleton] at ha
      rcases ha with ha | rfl
      · have := haddr a ha
        omega
      · exact le_refl _
    · intro j hj
      rw [hfk2 j hj, hfk1 j hj]
    · intro x hx
      rw [hnodes2 x (by omega), hnodes1 x hx]

/-- The copy constructor of the list builds, at fresh addresses, a list with
the same keys, values and bucket ids in the same order, and leaves the source
as it was. -/
theorem ForwardList.copy_list_spec {h : Heap K V} {other : ForwardList}
    {es : List (Entry K V)} (hl : IsList h other.fake_node es) (hsz : other.sz = es.length)
    (hc : h.Consistent) {this_ : Nat} (hne : this_ ≠ other.fake_node) :
    ∃ h2 new, ForwardList.copy_construct h other this_
        = some (h2, { fake_node := this_, sz := es.length }) ∧
      IsList h2 this_ new ∧ new.map Entry.content = es.map Entry.content ∧
      IsList h2 other.fake_node es ∧
      (∀ a ∈ addrs new, h.fresh ≤ a) ∧
      h2.Consistent ∧ h.fresh ≤ h2.fresh ∧
      (∀ j, j ≠ this_ → h2.fake j = h.fake j) ∧
      (∀ x, x < h.fresh → h2.nodes x = h.nodes x) := by
  have hex : ∃ h0 : Heap K V, h0 = { h with fake := Function.update h.fake this_ Ptr.null } :=
    ⟨_, rfl⟩
  obtain ⟨h0, hh0⟩ := hex
  have hl0 : IsList h0 other.fake_node es := by
    refine ⟨?_, Seg_congr hl.2.1 (fun _ _ => by rw [hh0]), hl.2.2⟩
    rw [hh0]
    simp only [Function.update_noteq hne.symm]
    exact hl.1
  have hc0 : h0.Consistent := by rw [hh0]; exact hc
  have hnew0 : IsList h0 this_ ([] : List (Entry K V)) :=
    ⟨by rw [hh0]; simp, trivial, List.nodup_nil⟩
  have hcoll := collect_n_spec hl0.2.1
  rw [← hl0.1] at hcoll
  have hall : ∀ r ∈ es.reverse, ∃ nx, h0.nodes r.addr
      = some { next := nx, key := r.key, value := r.value, hash := r.hash } := by
    intro r hr
    exact Seg_node hl0.2.1 (List.mem_reverse.1 hr)
  obtain ⟨h2, new, hcopy, hl2, hcont, haddr, hc2, hfr2, hfk2, hnodes2⟩ :=
    copy_all_spec es.reverse (l := { fake_node := this_, sz := 0 }) hnew0 hc0 hall
  have hfr0 : h0.fresh = h.fresh := by rw [hh0]
  refine ⟨h2, new, ?_, by simpa using hl2, by simpa using hcont, ?_, ?_, hc2, by omega, ?_, ?_⟩
  · simp only [ForwardList.copy_construct, ForwardList.fake_iterator, Heap.setNext_fake, ← hh0,
      Option.bind_eq_bind, Option.some_bind, ForwardList.begin, hsz, hcoll, ← List.map_reverse]
    rw [hcopy]
    simp
  · refine ⟨?_, Seg_congr hl0.2.1 ?_, hl.2.2⟩
    · rw [hfk2 _ hne.symm]
      exact hl0.1
    · intro a ha
      exact hnodes2 a (Seg_addr_lt hl0.2.1 hc0 a ha)
  · intro a ha
    have := haddr a ha
    omega
  · intro j hj
    rw [hfk2 j hj, hh0]
    simp [Function.update_noteq hj]
  · intro x hx
    rw [hnodes2 x (by omega), hh0]

end CopyList

/-! ## Copying a table -/

section CopyTable

variable {K V : Type} (hash_ : K → Nat) (equal_ : K → K → Bool)

theorem content_mem {es es2 : List (Entry K V)}
    (hc : es2.map Entry.content = es.map Entry.content) {e2 : Entry K V} (he : e2 ∈ es2) :
    ∃ e ∈ es, e2.key = e.key ∧ e2.value = e.value ∧ e2.hash = e.hash := by
  have h1 : e2.content ∈ es2.map Entry.content := List.mem_map_of_mem _ he
  rw [hc] at h1
  obtain ⟨e, he1, hce⟩ := List.mem_map.1 h1
  simp only [Entry.content, Prod.mk.injEq] at hce
  exact ⟨e, he1, hce.1.symm, hce.2.1.symm, hce.2.2.symm⟩

/-- Grouping only depends on the sequence of bucket ids. -/
theorem Grouped.of_hashes {es es2 : List (Entry K V)} (hg : Grouped es)
    (hc : es2.map (fun e => e.hash) = es.map (fun e => e.hash)) : Grouped es2 := by
  apply Grouped.of_triple
  intro x y z hs hxz
  have h1 : List.Sublist ([x, y, z].map (fun e => e.hash)) (es.map (fun e => e.hash)) := by
    rw [← hc]
    exact hs.map _
  obtain ⟨l, hl, hlm⟩ := List.sublist_map_iff.1 h1
  match l, hl, hlm with
  | [x1, y1, z1], hl, hlm =>
    simp only [List.map_cons, List.map_nil, List.cons.injEq, and_true] at hlm
    have := hg.triple x1 y1 z1 hl (by rw [← hlm.1, ← hlm.2.2, hxz])
    rw [hlm.2.1, hlm.1, this]
  | [], _, hlm => simp at hlm
  | [_], _, hlm => simp at hlm
  | [_, _], _, hlm => simp at hlm
  | _ :: _ :: _ :: _ :: _, _, hlm => simp at hlm

theorem Grouped.of_content {es es2 : List (Entry K V)} (hg : Grouped es)
    (hc : es2.map Entry.content = es.map Entry.content) : Grouped es2 := by
  apply hg.of_hashes
  have := congrArg (List.map (fun c : K × V × Nat => c.2.2)) hc
  simpa [List.map_map, Function.comp, Entry.content] using this

theorem Uniq.of_same_content {es es2 : List (Entry K V)} (hu : Uniq equal_ es)
    (hc : es2.map Entry.content = es.map Entry.content) : Uniq equal_ es2 := by
  unfold Uniq at hu ⊢
  have h1 : (es.map Entry.content).Pairwise
      (fun x y => equal_ x.1 y.1 = false ∧ equal_ y.1 x.1 = false) := by
    rw [List.pairwise_map]
    exact hu
  rw [← hc, List.pairwise_map] at h1
  exact h1

/-- Scans of two lists with the same content find entries with the same
content. -/
theorem find?_of_content (P : K → Bool) (es : List (Entry K V)) :
    ∀ {es2 : List (Entry K V)}, es2.map Entry.content = es.map Entry.content →
    (es2.find? (fun x => P x.key)).map Entry.content
      = (es.find? (fun x => P x.key)).map Entry.content := by
  induction es with
  | nil =>
    intro es2 hc
    have : es2 = [] := by simpa using hc
    rw [this]
  | cons e es ih =>
    intro es2 hc
    cases es2 with
    | nil => simp at hc
    | cons e2 es2 =>
      simp only [List.map_cons, List.cons.injEq] at hc
      have hk : e2.key = e.key := by
        have := hc.1
        simp only [Entry.content, Prod.mk.injEq] at this
        exact this.1
      by_cases hp : P e.key = true
      · rw [List.find?_cons_of_pos _ (by simpa [hk] using hp),
          List.find?_cons_of_pos _ (by simpa using hp)]
        simp [hc.1]
      · rw [List.find?_cons_of_neg _ (by simpa [hk] using hp),
          List.find?_cons_of_neg _ (by simpa using hp)]
        exact ih hc.2

theorem anchor_loop_spec {h : Heap K V} {f cap : Nat} (rest : List (Entry K V)) :
    ∀ (done : List (Entry K V)) (bs : List Ptr) (ph : Nat),
    IsList h f (done ++ rest) → Grouped (done ++ rest) →
    (∀ e ∈ done ++ rest, e.hash < cap) → bs.length = cap →
    (∀ b, b < cap → bs[b]? = some (anchorOf (Ptr.fake f) done b)) →
    (∀ d0 x, done = d0 ++ [x] → ph = x.hash) →
    ∃ bs2, UnorderedMap.anchor_loop h (headD (done ++ rest) Ptr.null) rest.length bs
        (predFrom (Ptr.fake f) done) (headD rest Ptr.null) ph = some bs2 ∧
      bs2.length = cap ∧
      ∀ b, b < cap → bs2[b]? = some (anchorOf (Ptr.fake f) (done ++ rest) b) := by
  induction rest with
  | nil =>
    intro done bs ph _ _ _ hlen hanch _
    exact ⟨bs, rfl, hlen, by simpa using hanch⟩
  | cons e rest ih =>
    intro done bs ph hl hg hlt hlen hanch hph
    have hen := Seg_split hl.2.1
    have hgh : h.get_hash (Ptr.node e.addr) = some e.hash := by
      simp [Heap.get_hash, Heap.node?, hen]
    have hnx : h.next (Ptr.node e.addr) = some (headD rest Ptr.null) := by
      simp [Heap.next, hen]
    have hpn := hl.next_pred
    simp only [headD_cons] at hpn
    have heh : e.hash < bs.length := by rw [hlen]; exact hlt e (by simp)
    -- the test of the loop body holds exactly for the first entry of a run
    have hcond : (Ptr.node e.addr = headD (done ++ e :: rest) Ptr.null ∨ ph ≠ e.hash) ↔
        ∀ x ∈ done, x.hash ≠ e.hash := by
      rcases List.eq_nil_or_concat done with hd | ⟨d0, x, hd⟩
      · subst hd
        simp
      · have hd2 : done = d0 ++ [x] := by simpa using hd
        subst hd2
        have hphx := hph d0 x rfl
        have hbeg : Ptr.node e.addr ≠ headD (d0 ++ [x] ++ e :: rest) Ptr.null := by
          have hnd := hl.2.2
          cases d0 with
          | nil =>
            simp only [List.nil_append, List.singleton_append, addrs_cons, List.nodup_cons,
              List.mem_cons, not_or] at hnd
            simpa using Ne.symm hnd.1.1
          | cons y d1 =>
            simp only [List.cons_append, addrs_cons, addrs_append, List.nodup_cons,
              List.mem_append, List.mem_cons, addrs_nil, not_or] at hnd
            simpa using Ne.symm hnd.1.2.1
        constructor
        · intro hc y hy hye
          have hxe : x.hash ≠ e.hash := by
            rcases hc with hc | hc
            · exact absurd hc hbeg
            · rw [hphx] at hc; exact hc
          rcases List.mem_append.1 hy with hy | hy
          · have hsub : List.Sublist [y, x, e] (d0 ++ [x] ++ e :: rest) := by
              have h1 : List.Sublist [y] d0 := List.singleton_sublist.2 hy
              have h2 : List.Sublist [x, e] ([x] ++ e :: rest) := by simp
              simpa using h1.append h2
            exact hxe ((hg.triple y x e hsub hye).trans hye)
          · simp only [List.mem_singleton] at hy
            exact hxe (hy ▸ hye)
        · intro hfirst
          right
          rw [hphx]
          exact hfirst x (by simp)
    obtain ⟨bs1, hbs1, hlen1, hanch1⟩ : ∃ bs1,
        (if Ptr.node e.addr = headD (done ++ e :: rest) Ptr.null ∨ ph ≠ e.hash then
          setSlot bs e.hash (predFrom (Ptr.fake f) done) else some bs) = some bs1 ∧
        bs1.length = cap ∧
        ∀ b, b < cap → bs1[b]? = some (anchorOf (Ptr.fake f) (done ++ [e]) b) := by
      by_cases hfirst : ∀ x ∈ done, x.hash ≠ e.hash
      · refine ⟨bs.set e.hash (predFrom (Ptr.fake f) done), ?_, by simpa using hlen, ?_⟩
        · rw [if_pos (hcond.2 hfirst), setSlot_eq heh]
        · intro b hb
          by_cases hbe : e.hash = b
          · subst hbe
            rw [List.getElem?_set_self heh, anchorOf_split _ rfl hfirst]
          · rw [List.getElem?_set_ne hbe, hanch b hb]
            have h3 : anchorOf (Ptr.fake f) (done ++ e :: []) b
                = anchorOf (Ptr.fake f) (done ++ []) b :=
              anchorOf_remove (Ptr.fake f) hbe (by simp)
            simpa using h3.symm
      · refine ⟨bs, ?_, hlen, ?_⟩
        · rw [if_neg (fun hc => hfirst (hcond.1 hc))]
        · intro b hb
          rw [hanch b hb]
          by_cases hbe : e.hash = b
          · subst hbe
            have := anchorOf_append_of_present (Ptr.fake f) [] [e]
              (show ∃ x ∈ done, x.hash = e.hash by simpa using hfirst)
            simpa using this
          · have h3 : anchorOf (Ptr.fake f) (done ++ e :: []) b
                = anchorOf (Ptr.fake f) (done ++ []) b :=
              anchorOf_remove (Ptr.fake f) hbe (by simp)
            simpa using h3.symm
    obtain ⟨bs2, hloop, hlen2, hanch2⟩ := ih (done ++ [e]) bs1 e.hash
      (by simpa using hl) (by simpa using hg) (by simpa using hlt) hlen1 hanch1
      (by
        intro d0 x hdx
        have := List.append_inj_right' hdx rfl
        simp only [List.cons.injEq, and_true] at this
        rw [this])
    refine ⟨bs2, ?_, hlen2, by simpa using hanch2⟩
    simp only [List.length_cons, UnorderedMap.anchor_loop, headD_cons, hgh, Option.bind_eq_bind,
      Option.some_bind, hbs1, hpn, hnx]
    rw [predFrom_concat] at hloop
    simpa using hloop

end CopyTable

section CopyTable2

variable {K V : Type} (hash_ : K → Nat) (equal_ : K → K → Bool)

/-- The copy constructor builds a well-formed table with its own entries and
anchors and leaves the source as it was. -/
theorem UnorderedMap.copy_construct_spec {h : Heap K V} {s : UnorderedMap}
    {es : List (Entry K V)} (hi : TableInv hash_ h s es) {this_ : Nat}
    (hne : this_ ≠ s.nodes_list_.fake_node) :
    ∃ h2 d es2, UnorderedMap.copy_construct h s this_ = some (h2, d) ∧
      TableInv hash_ h2 d es2 ∧ TableInv hash_ h2 s es ∧
      es2.map Entry.content = es.map Entry.content ∧
      d.capacity_ = s.capacity_ ∧ d.max_load_factor_ = s.max_load_factor_ ∧
      d.nodes_list_.fake_node = this_ ∧ (∀ a ∈ addrs es2, h.fresh ≤ a) := by
  obtain ⟨h2, new, hcopy, hl2, hcont, hls, haddr, hc2, _, _, _⟩ :=
    ForwardList.copy_list_spec hi.list hi.sz hi.consistent hne
  have hlen : new.length = es.length := by
    have := congrArg List.length hcont
    simpa using this
  have hhash : ∀ e ∈ new, e.hash = hash_ e.key % s.capacity_ := by
    intro e he
    obtain ⟨e1, he1, hk, _, hh⟩ := content_mem hcont he
    rw [hh, hk]
    exact hi.hash_ok e1 he1
  have hg : Grouped new := hi.grouped.of_content hcont
  obtain ⟨bs2, hloop, hlen2, hanch2⟩ := @anchor_loop_spec K V h2 this_
    s.capacity_ new [] (List.replicate s.capacity_ Ptr.null) 0
    (by simpa using hl2) (by simpa using hg)
    (by
      intro e he
      rw [hhash e (by simpa using he)]
      exact Nat.mod_lt _ hi.cap_pos)
    (by simp)
    (by
      intro b hb
      simp [anchorOf, List.getElem?_replicate, hb])
    (by
      intro d0 x hdx
      simp at hdx)
  simp only [List.nil_append, predFrom_nil] at hloop hanch2
  have hex : ∃ d : UnorderedMap, d =
      { capacity_ := s.capacity_
        max_load_factor_ := s.max_load_factor_
        nodes_list_ := { fake_node := this_, sz := es.length }
        block_start_ := bs2 } := ⟨_, rfl⟩
  obtain ⟨d, hd⟩ := hex
  refine ⟨h2, d, new, ?_, ?_, ?_, hcont, by rw [hd], by rw [hd], by rw [hd], haddr⟩
  · simp only [UnorderedMap.copy_construct, hcopy, Option.bind_eq_bind, Option.some_bind,
      UnorderedMap.begin, ForwardList.begin, UnorderedMap.size, ForwardList.fake_iterator,
      hl2.1, ← hlen, hloop, Option.pure_def, hd]
  · rw [hd]
    exact
      { list := hl2
        sz := hlen.symm
        cap_pos := hi.cap_pos
        bs_len := hlen2
        hash_ok := hhash
        grouped := hg
        anchors := hanch2
        consistent := hc2 }
  · exact
      { list := hls
        sz := hi.sz
        cap_pos := hi.cap_pos
        bs_len := hi.bs_len
        hash_ok := hi.hash_ok
        grouped := hi.grouped
        anchors := hi.anchors
        consistent := hc2 }

theorem anchorOf_set_value (prev : Ptr) (pre post : List (Entry K V)) (e : Entry K V) (v : V)
    (b : Nat) :
    anchorOf prev (pre ++ { e with value := v } :: post) b
      = anchorOf prev (pre ++ e :: post) b := by
  induction pre generalizing prev with
  | nil => simp [anchorOf]
  | cons p pre ih => simp only [List.cons_append, anchorOf, List.append_eq, ih]

/-- Assigning to the value of a live entry through a cursor changes that
value and nothing else. -/
theorem setValue_spec {h : Heap K V} {t : UnorderedMap} {pre post : List (Entry K V)}
    {e : Entry K V} (hi : TableInv hash_ h t (pre ++ e :: post)) (v : V) :
    ∃ h2, h.setValue (Ptr.node e.addr) v = some h2 ∧
      TableInv hash_ h2 t (pre ++ { e with value := v } :: post) ∧
      h2.fake = h.fake ∧ h2.fresh = h.fresh ∧ (∀ x, x ≠ e.addr → h2.nodes x = h.nodes x) := by
  have hl := hi.list
  have hen := Seg_split hl.2.1
  have hnd := hl.2.2
  have hseg := hl.2.1
  rw [Seg_append, Seg_cons] at hseg
  rw [addrs_append, List.nodup_append] at hnd
  have hepre : e.addr ∉ addrs pre := fun hm => hnd.2.2 hm (by simp)
  have hepost : e.addr ∉ addrs post := by
    have := hnd.2.1
    simp only [addrs_cons, List.nodup_cons] at this
    exact this.1
  have hex : ∃ h2 : Heap K V, h2 = { h with
      nodes := Function.update h.nodes e.addr (some
        { next := headD post Ptr.null, key := e.key, value := v, hash := e.hash }) } :=
    ⟨_, rfl⟩
  obtain ⟨h2, hh2⟩ := hex
  have hother : ∀ x, x ≠ e.addr → h2.nodes x = h.nodes x := by
    intro x hx; rw [hh2]; simp [Function.update_noteq hx]
  refine ⟨h2, ?_, ?_, by rw [hh2], by rw [hh2], hother⟩
  · simp only [Heap.setValue, hen]
    rw [hh2]
  · exact
      { list := by
          refine ⟨?_, ?_, ?_⟩
          · rw [hh2]
            simpa [headD_append] using hl.1
          · rw [Seg_append, Seg_cons]
            refine ⟨Seg_congr hseg.1 (fun a ha => hother a (fun e1 => hepre (e1 ▸ ha))), ?_,
              Seg_congr hseg.2.2 (fun a ha => hother a (fun e1 => hepost (e1 ▸ ha)))⟩
            rw [hh2]
            simp
          · simpa using hl.2.2
        sz := by
          have := hi.sz
          simpa using this
        cap_pos := hi.cap_pos
        bs_len := hi.bs_len
        hash_ok := by
          intro x hx
          simp only [List.mem_append, List.mem_cons] at hx
          rcases hx with hx | rfl | hx
          · exact hi.hash_ok x (by simp [hx])
          · exact hi.hash_ok e (by simp)
          · exact hi.hash_ok x (by simp [hx])
        grouped := hi.grouped.of_hashes (by simp)
        anchors := by
          intro b hb
          rw [anchorOf_set_value]
          exact hi.anchors b hb
        consistent := by
          intro x hx
          have hx2 : h.fresh ≤ x := by rw [hh2] at hx; exact hx
          have hlt := hi.addr_lt hash_ e.addr (by simp)
          rw [hother x (by omega)]
          exact hi.consistent x hx2 }

/-- What `emplace` touches: its own list, its own sentinel and the node it
allocates. -/
theorem emplace_frame {h : Heap K V} {t : UnorderedMap} {es : List (Entry K V)}
    (hi : TableInv hash_ h t es) (k : K) (v : V) :
    ∃ h2 t2 p b es2, UnorderedMap.emplace hash_ equal_ h t k v = some (h2, t2, p, b) ∧
      TableInv hash_ h2 t2 es2 ∧ t2.nodes_list_.fake_node = t.nodes_list_.fake_node ∧
      (∀ a ∈ addrs es2, a ∈ addrs es ∨ a = h.fresh) ∧
      (∀ j, j ≠ t.nodes_list_.fake_node → h2.fake j = h.fake j) ∧
      (∀ x, x < h.fresh → x ∉ addrs es → h2.nodes x = h.nodes x) := by
  cases hfind : (bucketRun es (hash_ k % t.capacity_)).find? (fun e => equal_ e.key k) with
  | none =>
    obtain ⟨h2, t2, es2, hem, hinv, hsame, _, hfn, _, _, hfk, hnodes⟩ :=
      emplace_absent hash_ equal_ hi k v hfind
    refine ⟨h2, t2, _, _, es2, hem, hinv, hfn, ?_, hfk, fun x hx hx2 => hnodes x (by omega) hx2⟩
    intro a ha
    have := (hsame.addrs_perm.mem_iff).1 ha
    simp only [addrs_cons, List.mem_cons] at this
    tauto
  | some e =>
    obtain ⟨h2, hem, hinv, _, hfk, hnodes, _⟩ := emplace_present hash_ equal_ hi k v hfind
    exact ⟨h2, t, _, _, es, hem, hinv, rfl, fun a ha => Or.inl ha, fun j _ => by rw [hfk],
      fun x hx _ => hnodes x (by omega)⟩

/-- Operations on one table leave another table of the same memory, with a
disjoint set of nodes, exactly as it was. -/
theorem steps_frame {h : Heap K V} {x y : UnorderedMap} {ex ey : List (Entry K V)}
    (hx : TableInv hash_ h x ex) (hy : TableInv hash_ h y ey)
    (hne : x.nodes_list_.fake_node ≠ y.nodes_list_.fake_node)
    (hdis : ∀ a ∈ addrs ex, a ∉ addrs ey)
    {h3 : Heap K V} {x3 : UnorderedMap} (hs : TableSteps hash_ equal_ h x h3 x3) :
    ∃ ex3, TableInv hash_ h3 x3 ex3 ∧ TableInv hash_ h3 y ey ∧
      x3.nodes_list_.fake_node = x.nodes_list_.fake_node ∧
      (∀ a ∈ addrs ex3, a ∉ addrs ey) := by
  induction hs with
  | refl => exact ⟨ex, hx, hy, rfl, hdis⟩
  | emplace k v p b _ hstep ih =>
    obtain ⟨ex1, hx1, hy1, hfn1, hdis1⟩ := ih
    obtain ⟨h2, t2, p2, b2, es2, hem, hinv, hfn, haddr, hfk, hnodes⟩ :=
      emplace_frame hash_ equal_ hx1 k v
    rw [hem] at hstep
    cases hstep
    refine ⟨es2, hinv, ?_, hfn.trans hfn1, ?_⟩
    · refine hy1.frame hash_ ?_ (hfk _ (by rw [hfn1]; exact hne.symm)) hinv.consistent
      intro a ha
      exact hnodes a (hy1.addr_lt hash_ a ha) (fun hm => hdis1 a hm ha)
    · intro a ha hm
      rcases haddr a ha with h1 | h1
      · exact hdis1 a h1 hm
      · have := hy1.addr_lt hash_ a hm
        omega
  | erase p _ hlive hstep ih =>
    obtain ⟨ex1, hx1, hy1, hfn1, hdis1⟩ := ih
    obtain ⟨es1, hl1, e, he, rfl⟩ := hlive
    have hes : es1 = ex1 := IsList.unique hl1 hx1.list
    subst hes
    obtain ⟨pre, post, rfl⟩ := List.append_of_mem he
    obtain ⟨h2, t2, her, hinv, _, _, hfn, _, hfk, hnodes, _⟩ := erase_spec hash_ hx1
    rw [her] at hstep
    cases hstep
    refine ⟨pre ++ post, hinv, ?_, hfn.trans hfn1, ?_⟩
    · refine hy1.frame hash_ ?_ (hfk _ (by rw [hfn1]; exact hne.symm)) hinv.consistent
      intro a ha
      refine hnodes a ?_ ?_
      · rintro rfl
        exact hdis1 e.addr (by simp) ha
      · intro hm
        exact hdis1 a (by simp [hm]) ha
    · intro a ha
      apply hdis1
      simp only [addrs_append, addrs_cons, List.mem_append, List.mem_cons] at ha ⊢
      tauto
  | set_value p v _ hlive hstep ih =>
    obtain ⟨ex1, hx1, hy1, hfn1, hdis1⟩ := ih
    obtain ⟨es1, hl1, e, he, rfl⟩ := hlive
    have hes : es1 = ex1 := IsList.unique hl1 hx1.list
    subst hes
    obtain ⟨pre, post, rfl⟩ := List.append_of_mem he
    obtain ⟨h2, hsv, hinv, hfk, _, hnodes⟩ := setValue_spec hash_ hx1 v
    rw [hsv] at hstep
    cases hstep
    refine ⟨_, hinv, ?_, hfn1, ?_⟩
    · refine hy1.frame hash_ ?_ (by rw [hfk]) hinv.consistent
      intro a ha
      refine hnodes a ?_
      rintro rfl
      exact hdis1 e.addr (by simp) ha
    · intro a ha
      apply hdis1
      simpa using ha

/-- The result of `find` on a well-formed table, without any assumption on
the functors: the first entry of the run of the key's bucket that compares
equal. -/
theorem find_run {h : Heap K V} {t : UnorderedMap} {es : List (Entry K V)}
    (hi : TableInv hash_ h t es) (k : K) :
    UnorderedMap.find hash_ equal_ h t k = some (cursorOf
      ((bucketRun es (hash_ k % t.capacity_)).find? (fun e => equal_ e.key k))) := by
  unfold UnorderedMap.find
  rw [if_neg (Nat.pos_iff_ne_zero.1 hi.cap_pos),
    find_with_hash_run equal_ hash_ hi k (Nat.mod_lt _ hi.cap_pos)]

end CopyTable2

/-! ## Copy construction -/

section Claims4

variable {K V : Type} (hash_ : K → Nat) (equal_ : K → K → Bool)

theorem bucketRun_content {es es2 : List (Entry K V)}
    (hc : es2.map Entry.content = es.map Entry.content) (b : Nat) :
    (bucketRun es2 b).map Entry.content = (bucketRun es b).map Entry.content := by
  have hoff : (Entry.offBucket b : Entry K V → Bool)
      = (fun c : K × V × Nat => !decide (c.2.2 = b)) ∘ Entry.content := rfl
  have hin : (Entry.inBucket b : Entry K V → Bool)
      = (fun c : K × V × Nat => decide (c.2.2 = b)) ∘ Entry.content := rfl
  have key : ∀ l : List (Entry K V), (bucketRun l b).map Entry.content
      = ((l.map Entry.content).dropWhile (fun c : K × V × Nat => !decide (c.2.2 = b))).takeWhile
          (fun c : K × V × Nat => decide (c.2.2 = b)) := by
    intro l
    unfold bucketRun
    rw [hoff, hin, List.dropWhile_map, List.takeWhile_map]
  rw [key, key, hc]

theorem find_content {h : Heap K V} {s d : UnorderedMap} {es es2 : List (Entry K V)}
    (hs : TableInv hash_ h s es) (hd : TableInv hash_ h d es2)
    (hcap : d.capacity_ = s.capacity_)
    (hc : es2.map Entry.content = es.map Entry.content) (k : K) :
    ∃ r2 r, UnorderedMap.find hash_ equal_ h d k = some (cursorOf r2) ∧
      UnorderedMap.find hash_ equal_ h s k = some (cursorOf r) ∧
      r2.map Entry.content = r.map Entry.content ∧
      (∀ e, r2 = some e → e ∈ es2) ∧ (∀ e, r = some e → e ∈ es) := by
  have hsub : ∀ (l : List (Entry K V)) (b : Nat) (e : Entry K V),
      (bucketRun l b).find? (fun x => equal_ x.key k) = some e → e ∈ l := by
    intro l b e he
    have h1 := List.mem_of_find?_eq_some he
    exact (List.dropWhile_sublist _).subset ((List.takeWhile_sublist _).subset h1)
  refine ⟨_, _, find_run hash_ equal_ hd k, find_run hash_ equal_ hs k, ?_,
    hsub _ _, hsub _ _⟩
  rw [hcap]
  exact find?_of_content (fun x => equal_ x k) _ (bucketRun_content hc _)

theorem find_stable {h h3 : Heap K V} {t : UnorderedMap} {es : List (Entry K V)}
    (h1 : TableInv hash_ h t es) (h2 : TableInv hash_ h3 t es) (k : K) :
    UnorderedMap.find hash_ equal_ h3 t k = UnorderedMap.find hash_ equal_ h t k := by
  rw [find_run hash_ equal_ h1 k, find_run hash_ equal_ h2 k]

/-- C10: for every well-formed table `s` and every address `this_` of a new
table object, the copy constructor returns a table `d` with the capacity and
the max load factor of `s`; `d` has its own sentinel and an iteration sequence
`es2` of newly allocated nodes, none of them a node of `s`, that carries the
keys, values and bucket ids of the sequence `es` of `s` in the same order; `d`
satisfies the structural invariants (size, grouping, anchor correctness over
its own list and sentinel) and key uniqueness; `s` still has the sequence `es`;
for every key `d.find` and `s.find` both return a cursor, on entries with the
same key, value and bucket id or both `end()`.  After any sequence of
`emplace` (hence `insert`), `erase` and value assignments through a cursor on
`d`, table `s` still satisfies its invariants with the same sequence `es` and
every `s.find` returns what it returned before; and the same holds for `d`
after any such sequence on `s`. -/
theorem copy_construct_independent {h : Heap K V} {s : UnorderedMap}
    (hw : WellFormed hash_ equal_ h s) (this_ : Nat)
    (hne : this_ ≠ s.nodes_list_.fake_node) :
    ∃ h2 d es es2, UnorderedMap.copy_construct h s this_ = some (h2, d) ∧
      Entries h s es ∧
      d.capacity_ = s.capacity_ ∧ d.max_load_factor_ = s.max_load_factor_ ∧
      d.nodes_list_.fake_node = this_ ∧
      TableInv hash_ h2 d es2 ∧ Uniq equal_ es2 ∧ TableInv hash_ h2 s es ∧
      es2.map Entry.content = es.map Entry.content ∧
      (∀ a ∈ addrs es2, a ∉ addrs es) ∧
      (∀ k, ∃ r2 r, UnorderedMap.find hash_ equal_ h2 d k = some (cursorOf r2) ∧
        UnorderedMap.find hash_ equal_ h2 s k = some (cursorOf r) ∧
        r2.map Entry.content = r.map Entry.content ∧
        (∀ e, r2 = some e → e ∈ es2) ∧ (∀ e, r = some e → e ∈ es)) ∧
      (∀ h3 d3, TableSteps hash_ equal_ h2 d h3 d3 →
        TableInv hash_ h3 s es ∧
        ∀ k, UnorderedMap.find hash_ equal_ h3 s k = UnorderedMap.find hash_ equal_ h2 s k) ∧
      (∀ h3 s3, TableSteps hash_ equal_ h2 s h3 s3 →
        TableInv hash_ h3 d es2 ∧
        ∀ k, UnorderedMap.find hash_ equal_ h3 d k
          = UnorderedMap.find hash_ equal_ h2 d k) := by
  obtain ⟨es, hi, hu⟩ := hw
  obtain ⟨h2, d, es2, hcopy, hd, hs, hc, hcap, hmlf, hfn, hfresh⟩ :=
    UnorderedMap.copy_construct_spec hash_ hi hne
  have hdis : ∀ a ∈ addrs es2, a ∉ addrs es := by
    intro a ha hm
    have h1 := hfresh a ha
    have h2 := hi.addr_lt hash_ a hm
    omega
  refine ⟨h2, d, es, es2, hcopy, hi.list, hcap, hmlf, hfn, hd, hu.of_same_content equal_ hc, hs, hc,
    hdis, fun k => find_content hash_ equal_ hs hd hcap hc k, ?_, ?_⟩
  · intro h3 d3 hst
    obtain ⟨_, _, hs3, _, _⟩ :=
      steps_frame hash_ equal_ hd hs (by rw [hfn]; exact hne) hdis hst
    exact ⟨hs3, fun k => find_stable hash_ equal_ hs hs3 k⟩
  · intro h3 s3 hst
    obtain ⟨_, _, hd3, _, _⟩ :=
      steps_frame hash_ equal_ hs hd (by rw [hfn]; exact hne.symm)
        (fun a ha hm => hdis a hm ha) hst
    exact ⟨hd3, fun k => find_stable hash_ equal_ hd hd3 k⟩

/-- C10, at the copy, with its table object at address 1, of the table holding
the keys 1, 16 and 3. -/
theorem copy_construct_independent_witness :
    WellFormed natHash natEqual demo3.1 demo3.2 ∧ 1 ≠ demo3.2.nodes_list_.fake_node ∧
    ∃ h2 d es es2, UnorderedMap.copy_construct demo3.1 demo3.2 1 = some (h2, d) ∧
      Entries demo3.1 demo3.2 es ∧
      d.capacity_ = demo3.2.capacity_ ∧ d.max_load_factor_ = demo3.2.max_load_factor_ ∧
      d.nodes_list_.fake_node = 1 ∧
      TableInv natHash h2 d es2 ∧ Uniq natEqual es2 ∧ TableInv natHash h2 demo3.2 es ∧
      es2.map Entry.content = es.map Entry.content ∧
      (∀ a ∈ addrs es2, a ∉ addrs es) ∧
      (∀ k, ∃ r2 r, UnorderedMap.find natHash natEqual h2 d k = some (cursorOf r2) ∧
        UnorderedMap.find natHash natEqual h2 demo3.2 k = some (cursorOf r) ∧
        r2.map Entry.content = r.map Entry.content ∧
        (∀ e, r2 = some e → e ∈ es2) ∧ (∀ e, r = some e → e ∈ es)) ∧
      (∀ h3 d3, TableSteps natHash natEqual h2 d h3 d3 →
        TableInv natHash h3 demo3.2 es ∧
        ∀ k, UnorderedMap.find natHash natEqual h3 demo3.2 k
          = UnorderedMap.find natHash natEqual h2 demo3.2 k) ∧
      (∀ h3 s3, TableSteps natHash natEqual h2 demo3.2 h3 s3 →
        TableInv natHash h3 d es2 ∧
        ∀ k, UnorderedMap.find natHash natEqual h3 d k
          = UnorderedMap.find natHash natEqual h2 d k) :=
  ⟨⟨demo3Entries, demo3_inv, demo3_uniq⟩, by decide!,
    copy_construct_independent natHash natEqual ⟨demo3Entries, demo3_inv, demo3_uniq⟩ 1
      (by decide!)⟩

end Claims4

/-! ## emplace with and without a rehash -/

section EmplaceCases

variable {K V : Type} (hash_ : K → Nat) (equal_ : K → K → Bool)

theorem bucketRun_find_none {es : List (Entry K V)} {k : K}
    (habs : ∀ e ∈ es, equal_ e.key k = false) (b : Nat) :
    (bucketRun es b).find? (fun e => equal_ e.key k) = none := by
  rw [List.find?_eq_none]
  intro e he
  have hm : e ∈ es := (List.dropWhile_sublist _).subset ((List.takeWhile_sublist _).subset he)
  simpa using habs e hm

/-- The load factor after one more entry has been linked. -/
theorem load_factor_linked {h : Heap K V} {t t2 : UnorderedMap} {es es2 : List (Entry K V)}
    (hi : TableInv hash_ h t es) {h2 : Heap K V} (hi2 : TableInv hash_ h2 t2 es2)
    (hlen : es2.length = es.length + 1) (hcap : t2.capacity_ = t.capacity_) :
    t2.load_factor
      = to_float (to_float ((t.size + 1 : ℕ) : ℚ) / to_float (t.capacity_ : ℚ)) := by
  unfold UnorderedMap.load_factor
  rw [if_neg (Nat.pos_iff_ne_zero.1 hi2.cap_pos), hi2.sz, hlen, hi.sz, hcap]

/-- The call `emplace(k, v)` for an absent key when the load factor after
linking does not exceed the maximum: the new entry is linked and nothing
else happens. -/
theorem emplace_no_rehash {h : Heap K V} {t : UnorderedMap} {es : List (Entry K V)}
    (hi : TableInv hash_ h t es) (k : K) (v : V)
    (hfind : (bucketRun es (hash_ k % t.capacity_)).find? (fun e => equal_ e.key k) = none)
    (hload : ¬ (to_float (to_float ((t.size + 1 : ℕ) : ℚ) / to_float (t.capacity_ : ℚ))
      > t.max_load_factor_)) :
    ∃ h2 t2, UnorderedMap.emplace hash_ equal_ h t k v = some (h2, t2, Ptr.node h.fresh, true) ∧
      TableInv hash_ h2 t2 (linkList es
        { addr := h.fresh, key := k, value := v, hash := hash_ k % t.capacity_ }) ∧
      t2.capacity_ = t.capacity_ ∧ t2.max_load_factor_ = t.max_load_factor_ ∧
      t2.nodes_list_.fake_node = t.nodes_list_.fake_node ∧
      h2.fresh = h.fresh + 1 ∧ (∀ j, j ≠ t.nodes_list_.fake_node → h2.fake j = h.fake j) ∧
      (∀ x, x ≠ h.fresh → x ∉ addrs es → h2.nodes x = h.nodes x) := by
  obtain ⟨h1, t1, hinv1, hcap1, hmlf1, hfn1, hfr1, hfk1, hnodes1, heq⟩ :=
    emplace_link hash_ equal_ hi k v hfind
  have hlf := load_factor_linked hash_ hi hinv1
    (by rw [(linkList_perm _ _).length_eq]; simp) hcap1
  refine ⟨h1, t1, ?_, hinv1, hcap1, hmlf1, hfn1, hfr1, hfk1, hnodes1⟩
  rw [heq, if_neg (by rw [hlf, hmlf1]; exact hload)]

/-- The call `emplace(k, v)` for an absent key when the load factor after
linking exceeds the maximum: one rehash to `capacity * 2 + 1` follows. -/
theorem emplace_with_rehash {h : Heap K V} {t : UnorderedMap} {es : List (Entry K V)}
    (hi : TableInv hash_ h t es) (k : K) (v : V)
    (hfind : (bucketRun es (hash_ k % t.capacity_)).find? (fun e => equal_ e.key k) = none)
    (hload : to_float (to_float ((t.size + 1 : ℕ) : ℚ) / to_float (t.capacity_ : ℚ))
      > t.max_load_factor_) :
    ∃ h2 t2, UnorderedMap.emplace hash_ equal_ h t k v = some (h2, t2, Ptr.node h.fresh, true) ∧
      TableInv hash_ h2 t2 (relinked hash_ (t.capacity_ * 2 + 1) (linkList es
        { addr := h.fresh, key := k, value := v, hash := hash_ k % t.capacity_ })) ∧
      t2.capacity_ = t.capacity_ * 2 + 1 ∧ t2.max_load_factor_ = t.max_load_factor_ ∧
      t2.nodes_list_.fake_node = t.nodes_list_.fake_node ∧ h2.fresh = h.fresh + 1 := by
  obtain ⟨h1, t1, hinv1, hcap1, hmlf1, hfn1, hfr1, hfk1, hnodes1, heq⟩ :=
    emplace_link hash_ equal_ hi k v hfind
  have hlf := load_factor_linked hash_ hi hinv1
    (by rw [(linkList_perm _ _).length_eq]; simp) hcap1
  obtain ⟨h2, t2, hr, hinv2, hcap2, hmlf2, hfn2, hfr2, _, _⟩ :=
    rehash_spec hash_ hinv1 (show t1.capacity_ < t1.capacity_ * 2 + 1 by omega)
  rw [max_self, hcap1] at hinv2 hcap2
  refine ⟨h2, t2, ?_, hinv2, hcap2, hmlf2.trans hmlf1, hfn2.trans hfn1, hfr2.trans hfr1⟩
  rw [heq, if_pos (by rw [hlf, hmlf1]; exact hload), hr]
  rfl

/-- Where `linkList` puts the new entry: the old sequence is split in two
parts, the first without an entry of the new bucket, and the second either
empty with the first part empty too, or starting with an entry of another
bucket when the bucket is new, or starting with the first entry of the
bucket's run. -/
theorem linkList_split (es : List (Entry K V)) (e0 : Entry K V) :
    ∃ pre post, es = pre ++ post ∧ linkList es e0 = pre ++ e0 :: post ∧
      (∀ y ∈ pre, y.hash ≠ e0.hash) ∧
      (((∀ y ∈ es, y.hash ≠ e0.hash) ∧ pre = []) ∨
        ∃ x0 rest, post = x0 :: rest ∧ x0.hash = e0.hash) := by
  by_cases hpres : ∃ x ∈ es, x.hash = e0.hash
  · obtain ⟨pre, x0, post, hes, hx0, hpre, hlink⟩ := linkList_of_present e0 hpres
    exact ⟨pre, x0 :: post, hes, hlink, hpre, Or.inr ⟨x0, post, rfl, hx0⟩⟩
  · have habs : ∀ x ∈ es, x.hash ≠ e0.hash := by simpa using hpres
    exact ⟨[], es, rfl, linkList_of_absent habs, by simp, Or.inl ⟨habs, rfl⟩⟩

/-- Two well-formed states of one table record with the same iteration
sequence hold the same nodes at the addresses of the sequence. -/
theorem Seg_nodes_eq {h h2 : Heap K V} {es : List (Entry K V)} {q : Ptr}
    (h1 : Seg h es q) (hs2 : Seg h2 es q) : ∀ a ∈ addrs es, h2.nodes a = h.nodes a := by
  induction es with
  | nil => simp
  | cons e es ih =>
    intro a ha
    simp only [addrs_cons, List.mem_cons] at ha
    rcases ha with rfl | ha
    · rw [h1.1, hs2.1]
    · exact ih h1.2 hs2.2 a ha

theorem UnorderedMap.ext_fields {t t2 : UnorderedMap} (hcap : t2.capacity_ = t.capacity_)
    (hmlf : t2.max_load_factor_ = t.max_load_factor_)
    (hfn : t2.nodes_list_.fake_node = t.nodes_list_.fake_node)
    (hsz : t2.nodes_list_.sz = t.nodes_list_.sz)
    (hbs : t2.block_start_ = t.block_start_) : t2 = t := by
  cases t with
  | mk c m nl bs =>
    cases t2 with
    | mk c2 m2 nl2 bs2 =>
      cases nl
      cases nl2
      simp only at hcap hmlf hfn hsz hbs
      subst hcap hmlf hfn hsz hbs
      rfl

end EmplaceCases

/-! ## Growth at the default maximum load factor -/

section Growth

variable {K V : Type} (hash_ : K → Nat) (equal_ : K → K → Bool)

/-- One call of `emplace` with an absent key at maximum load factor 1: the
capacity becomes `capacity * 2 + 1` when the quotient of the new size and the
capacity, computed in `float`, exceeds 1, and stays otherwise. -/
theorem emplace_growth_float {h : Heap K V} {t : UnorderedMap} {es : List (Entry K V)}
    (hi : TableInv hash_ h t es) (hmlf : t.max_load_factor_ = 1) (k : K) (v : V)
    (habs : ∀ e ∈ es, equal_ e.key k = false) :
    ∃ h2 t2 es2, UnorderedMap.emplace hash_ equal_ h t k v
        = some (h2, t2, Ptr.node h.fresh, true) ∧
      TableInv hash_ h2 t2 es2 ∧
      SameEntries ({ addr := h.fresh, key := k, value := v, hash := hash_ k % t.capacity_ } :: es)
        es2 ∧
      t2.max_load_factor_ = 1 ∧ t2.size = t.size + 1 ∧
      t2.capacity_ = (if to_float (to_float ((t.size + 1 : ℕ) : ℚ) / to_float (t.capacity_ : ℚ))
        > 1 then t.capacity_ * 2 + 1 else t.capacity_) := by
  have hfind := bucketRun_find_none equal_ habs (hash_ k % t.capacity_)
  have hsame1 : SameEntries
      ({ addr := h.fresh, key := k, value := v, hash := hash_ k % t.capacity_ } :: es)
      (linkList es { addr := h.fresh, key := k, value := v, hash := hash_ k % t.capacity_ }) :=
    SameEntries.of_perm (linkList_perm _ _)
  by_cases htest : to_float (to_float ((t.size + 1 : ℕ) : ℚ) / to_float (t.capacity_ : ℚ)) > 1
  · have hload : to_float (to_float ((t.size + 1 : ℕ) : ℚ) / to_float (t.capacity_ : ℚ))
        > t.max_load_factor_ := by
      rw [hmlf]
      exact htest
    obtain ⟨h2, t2, hem, hinv, hcap, hmlf2, _⟩ :=
      emplace_with_rehash hash_ equal_ hi k v hfind hload
    have hsame2 := hsame1.trans (sameEntries_relinked hash_ (t.capacity_ * 2 + 1) _)
    refine ⟨h2, t2, _, hem, hinv, hsame2, hmlf2.trans hmlf, ?_, ?_⟩
    · rw [hinv.sz, hsame2.length_eq, hi.sz]
      simp
    · rw [if_pos htest, hcap]
  · have hload : ¬ (to_float (to_float ((t.size + 1 : ℕ) : ℚ) / to_float (t.capacity_ : ℚ))
        > t.max_load_factor_) := by
      rw [hmlf]
      exact htest
    obtain ⟨h2, t2, hem, hinv, hcap, hmlf2, _⟩ := emplace_no_rehash hash_ equal_ hi k v hfind hload
    refine ⟨h2, t2, _, hem, hinv, hsame1, hmlf2.trans hmlf, ?_, ?_⟩
    · rw [hinv.sz, hsame1.length_eq, hi.sz]
      simp
    · rw [if_neg htest, hcap]

/-- One call of `emplace` with an absent key at maximum load factor 1 and a
capacity below `2 ^ 24`: the capacity stays when the new size fits and
becomes `capacity * 2 + 1` otherwise. -/
theorem emplace_growth {h : Heap K V} {t : UnorderedMap} {es : List (Entry K V)}
    (hi : TableInv hash_ h t es) (hmlf : t.max_load_factor_ = 1)
    (hc24 : t.capacity_ < 16777216) (k : K) (v : V)
    (habs : ∀ e ∈ es, equal_ e.key k = false) :
    ∃ h2 t2 es2, UnorderedMap.emplace hash_ equal_ h t k v
        = some (h2, t2, Ptr.node h.fresh, true) ∧
      TableInv hash_ h2 t2 es2 ∧
      SameEntries ({ addr := h.fresh, key := k, value := v, hash := hash_ k % t.capacity_ } :: es)
        es2 ∧
      t2.max_load_factor_ = 1 ∧ t2.size = t.size + 1 ∧
      t2.capacity_ = (if t.size + 1 ≤ t.capacity_ then t.capacity_ else t.capacity_ * 2 + 1) := by
  obtain ⟨h2, t2, es2, hem, hinv, hsame, hmlf2, hsz, hcap⟩ :=
    emplace_growth_float hash_ equal_ hi hmlf k v habs
  refine ⟨h2, t2, es2, hem, hinv, hsame, hmlf2, hsz, ?_⟩
  rw [hcap]
  by_cases hfit : t.size + 1 ≤ t.capacity_
  · rw [if_pos hfit, if_neg]
    rw [gt_iff_lt, float_ratio_gt_one_iff _ _ hi.cap_pos hc24]
    omega
  · rw [if_neg hfit, if_pos]
    rw [gt_iff_lt, float_ratio_gt_one_iff _ _ hi.cap_pos hc24]
    omega

/-- Inserting pairwise distinct keys, none of them in the table, at maximum
load factor 1 and a capacity below `2 ^ 24`, as long as the size exceeds the capacity by at most one at the
end: every call inserts, and the capacity stays unless the last call makes
the size exceed it, in which case it becomes `capacity * 2 + 1`. -/
theorem insert_range_growth (kvs : List (K × V)) :
    ∀ {h : Heap K V} {t : UnorderedMap} {es : List (Entry K V)},
    TableInv hash_ h t es → t.max_load_factor_ = 1 → t.capacity_ < 16777216 →
    kvs.Pairwise (fun a b => equal_ a.1 b.1 = false) →
    (∀ e ∈ es, ∀ kv ∈ kvs, equal_ e.key kv.1 = false) →
    t.size ≤ t.capacity_ → t.size + kvs.length ≤ t.capacity_ + 1 →
    ∃ h2 t2 es2, UnorderedMap.insert_range hash_ equal_ h t kvs = some (h2, t2) ∧
      TableInv hash_ h2 t2 es2 ∧ t2.max_load_factor_ = 1 ∧
      t2.size = t.size + kvs.length ∧
      t2.capacity_ = (if t.size + kvs.length ≤ t.capacity_ then t.capacity_
        else t.capacity_ * 2 + 1) := by
  induction kvs with
  | nil =>
    intro h t es hi hmlf _ _ _ hle _
    refine ⟨h, t, es, rfl, hi, hmlf, by simp, ?_⟩
    rw [if_pos (by simpa using hle)]
  | cons kv rest ih =>
    intro h t es hi hmlf hc24 hpw hfresh hle hlen
    rw [List.pairwise_cons] at hpw
    obtain ⟨h1, t1, es1, hem, hinv1, hsame1, hmlf1, hsz1, hcap1⟩ :=
      emplace_growth hash_ equal_ hi hmlf hc24 kv.1 kv.2
        (fun e he => hfresh e he kv (List.mem_cons_self _ _))
    have hfresh1 : ∀ e ∈ es1, ∀ kv2 ∈ rest, equal_ e.key kv2.1 = false := by
      intro e he kv2 hkv2
      obtain ⟨e0, he0, _, hkey, _⟩ := hsame1.mem_rev he
      rw [hkey]
      rcases List.mem_cons.1 he0 with rfl | he0
      · exact hpw.1 kv2 hkv2
      · exact hfresh e0 he0 kv2 (List.mem_cons_of_mem _ hkv2)
    simp only [List.length_cons] at hlen ⊢
    have hstep : UnorderedMap.insert_range hash_ equal_ h t (kv :: rest)
        = UnorderedMap.insert_range hash_ equal_ h1 t1 rest := by
      simp only [UnorderedMap.insert_range, UnorderedMap.insert, hem, Option.bind_eq_bind,
        Option.some_bind]
    by_cases hfit : t.size + 1 ≤ t.capacity_
    · rw [if_pos hfit] at hcap1
      obtain ⟨h2, t2, es2, hr, hinv2, hmlf2, hsz2, hcap2⟩ :=
        ih hinv1 hmlf1 (by rw [hcap1]; exact hc24) hpw.2 hfresh1 (by rw [hsz1, hcap1]; omega)
          (by rw [hsz1, hcap1]; omega)
      refine ⟨h2, t2, es2, hstep.trans hr, hinv2, hmlf2, by rw [hsz2, hsz1]; omega, ?_⟩
      rw [hcap2, hsz1, hcap1]
      congr 1
      apply propext
      constructor <;> intro hx <;> omega
    · rw [if_neg hfit] at hcap1
      have hrest : rest = [] := List.eq_nil_of_length_eq_zero (by omega)
      subst hrest
      refine ⟨h1, t1, es1, by rw [hstep]; rfl, hinv1, hmlf1, by rw [hsz1]; simp, ?_⟩
      rw [hcap1, if_neg (by simp only [List.length_nil]; omega)]

/-- The call `emplace(k, v)` for a key that no entry holds, under the functor
contract: the outcome as the caller sees it. -/
theorem emplace_fresh (hok : EqOK hash_ equal_)
    {h : Heap K V} {t : UnorderedMap} {es : List (Entry K V)}
    (hi : TableInv hash_ h t es) (hu : Uniq equal_ es) (k : K) (v : V)
    (habs : ∀ e ∈ es, equal_ e.key k = false) :
    ∃ h2 t2 es2 e0,
      UnorderedMap.emplace hash_ equal_ h t k v = some (h2, t2, Ptr.node e0.addr, true) ∧
      TableInv hash_ h2 t2 es2 ∧ Uniq equal_ es2 ∧
      e0 ∈ es2 ∧ e0.addr = h.fresh ∧ e0.key = k ∧ e0.value = v ∧
      SameEntries ({ addr := h.fresh, key := k, value := v, hash := hash_ k % t.capacity_ } :: es)
        es2 ∧
      t2.size = t.size + 1 ∧
      UnorderedMap.find hash_ equal_ h2 t2 k = some (Ptr.node e0.addr) ∧
      (∀ k2, equal_ k k2 = false →
        UnorderedMap.find hash_ equal_ h2 t2 k2 = UnorderedMap.find hash_ equal_ h t k2) := by
  have hfind := bucketRun_find_none equal_ habs (hash_ k % t.capacity_)
  obtain ⟨h2, t2, es2, hem, hinv, hsame, _⟩ := emplace_absent hash_ equal_ hi k v hfind
  have hu0 : Uniq equal_
      ({ addr := h.fresh, key := k, value := v, hash := hash_ k % t.capacity_ } :: es) :=
    Uniq.cons equal_ hu (fun x hx => ⟨equal_false_symm equal_ hok.symm (habs x hx), habs x hx⟩)
  obtain ⟨e0, he0, haddr, hkey, hval⟩ := hsame.mem (List.mem_cons_self _ es)
  simp only at haddr hkey hval
  have hcur : ∀ k2, UnorderedMap.find hash_ equal_ h2 t2 k2 = some (cursorOf
      (({ addr := h.fresh, key := k, value := v, hash := hash_ k % t.capacity_ } :: es).find?
        (fun x => equal_ x.key k2))) := by
    intro k2
    rw [find_spec equal_ hash_ hok.hash_eq hinv k2,
      cursor_sameEntries equal_ hok.symm hok.trans hu0 hsame k2]
  refine ⟨h2, t2, es2, e0, by rw [hem, haddr], hinv, Uniq.sameEntries equal_ hu0 hsame, he0,
    haddr, hkey, hval, hsame, ?_, ?_, ?_⟩
  · rw [hinv.sz, hi.sz, hsame.length_eq]
    simp
  · rw [hcur k, List.find?_cons_of_pos _ (by simpa using hok.refl k)]
    simp [cursorOf, haddr]
  · intro k2 hk2
    rw [hcur k2, List.find?_cons_of_neg _ (by simpa using hk2),
      find_spec equal_ hash_ hok.hash_eq hi k2]

end Growth

/-! ## Load bound, growth, `at` and `operator[]` -/

section Claims5

variable {K V : Type} (hash_ : K → Nat) (equal_ : K → K → Bool)

theorem loadInput_reachable : Reachable natHash natEqual loadInput.1 loadInput.2 := by
  have hs : (UnorderedMap.set_max_load_factor natHash demo0.1 demo0.2 (1 / 32)).isSome = true := by
    decide!
  obtain ⟨r, hr⟩ := Option.isSome_iff_exists.1 hs
  have hl : loadInput = r := by
    unfold loadInput
    rw [hr]
  rw [hl]
  exact Reachable.max_load_factor (1 / 32) demo0_reachable hr

/-- C12 (code bug): the single rehash to `capacity * 2 + 1` inside `emplace`
does not restore the load bound when the maximum load factor is small.  On
the default-constructed table after `max_load_factor(1/32)`, a reachable
state, `emplace(1, 10)` returns with capacity 31 and size 1, so that
size / capacity = 1/31 exceeds the maximum load factor 1/32 in exact
arithmetic, and so does the `float` nearest to 1/31, which `load_factor()`
returns. -/
theorem emplace_exceeds_load_bound :
    Reachable natHash natEqual loadInput.1 loadInput.2 ∧
    loadInput.2.max_load_factor_ = 1 / 32 ∧ loadInput.2.capacity_ = 15 ∧
    loadInput.2.size = 0 ∧
    (UnorderedMap.emplace natHash natEqual loadInput.1 loadInput.2 1 10).isSome = true ∧
    loadOutput.2.capacity_ = 31 ∧ loadOutput.2.size = 1 ∧
    loadOutput.2.max_load_factor_ = 1 / 32 ∧
    loadOutput.2.load_factor = to_float (1 / 31) ∧
    loadOutput.2.max_load_factor_ < loadOutput.2.load_factor ∧
    ¬ ((loadOutput.2.size : ℚ) / (loadOutput.2.capacity_ : ℚ)
        ≤ loadOutput.2.max_load_factor_) :=
  ⟨loadInput_reachable, by decide!, by decide!, by decide!, by decide!, by decide!, by decide!,
    by decide!, by decide!, by decide!, by decide!⟩

/-- C13 (amended): a default-constructed table has capacity 15 and maximum
load factor 1.  At maximum load factor 1, on a well-formed table, `emplace`
of a key that no entry holds inserts; it leaves the capacity unchanged when
the new size is at most the capacity; it makes the capacity
`2 * capacity + 1` exactly when the quotient `(float)size / (float)capacity`
of the new size, computed in `float`, exceeds 1, which for every capacity
below `2 ^ 24` (where `float` holds the capacity and the sizes up to it
exactly) is exactly when the new size exceeds the capacity.  `emplace` of a
key that some entry holds returns the table record, hence the capacity, as it
was.  So inserting at most 15 pairwise distinct keys into a
default-constructed table leaves the capacity 15, and inserting 16 leaves the
capacity 31: the one rehash happens in the 16th insertion. -/
theorem growth_rule_default_load (hok : EqOK hash_ equal_) :
    (∀ (h : Heap K V) (this_ : Nat),
      (UnorderedMap.new h this_).2.capacity_ = 15 ∧
      (UnorderedMap.new h this_).2.max_load_factor_ = 1) ∧
    (∀ (h : Heap K V) (t : UnorderedMap) (es : List (Entry K V)) (k : K) (v : V),
      TableInv hash_ h t es → t.max_load_factor_ = 1 →
      (∀ e ∈ es, equal_ e.key k = false) →
      ∃ h2 t2 p, UnorderedMap.emplace hash_ equal_ h t k v = some (h2, t2, p, true) ∧
        t2.size = t.size + 1 ∧ t2.max_load_factor_ = 1 ∧
        (t.size + 1 ≤ t.capacity_ → t2.capacity_ = t.capacity_) ∧
        (t.capacity_ < 16777216 → t.capacity_ < t.size + 1 →
          t2.capacity_ = 2 * t.capacity_ + 1) ∧
        (to_float (to_float ((t.size + 1 : ℕ) : ℚ) / to_float (t.capacity_ : ℚ)) > 1 →
          t2.capacity_ = 2 * t.capacity_ + 1) ∧
        (¬ (to_float (to_float ((t.size + 1 : ℕ) : ℚ) / to_float (t.capacity_ : ℚ)) > 1) →
          t2.capacity_ = t.capacity_)) ∧
    (∀ (h : Heap K V) (t : UnorderedMap) (es : List (Entry K V)) (k : K) (v : V),
      TableInv hash_ h t es → (∃ e ∈ es, equal_ e.key k = true) →
      ∃ h2 p, UnorderedMap.emplace hash_ equal_ h t k v = some (h2, t, p, false)) ∧
    (∀ (h : Heap K V) (this_ : Nat) (kvs : List (K × V)), h.Consistent →
      kvs.Pairwise (fun a b => equal_ a.1 b.1 = false) → kvs.length ≤ 16 →
      ∃ h2 t2, UnorderedMap.insert_range hash_ equal_ (UnorderedMap.new h this_).1
          (UnorderedMap.new h this_).2 kvs = some (h2, t2) ∧
        t2.size = kvs.length ∧
        (kvs.length ≤ 15 → t2.capacity_ = 15) ∧ (kvs.length = 16 → t2.capacity_ = 31)) := by
  refine ⟨fun h this_ => ⟨rfl, rfl⟩, ?_, ?_, ?_⟩
  · intro h t es k v hi hmlf habs
    obtain ⟨h2, t2, es2, hem, _, _, hmlf2, hsz, hcap⟩ :=
      emplace_growth_float hash_ equal_ hi hmlf k v habs
    refine ⟨h2, t2, _, hem, hsz, hmlf2, ?_, ?_, ?_, ?_⟩
    · intro hfit
      rw [hcap, if_neg (float_ratio_le_one_of_le _ _ hi.cap_pos hfit)]
    · intro hc24 hgt
      rw [hcap, if_pos ((float_ratio_gt_one_iff _ _ hi.cap_pos hc24).2 hgt)]
      omega
    · intro htest
      rw [hcap, if_pos htest]
      omega
    · intro htest
      rw [hcap, if_neg htest]
  · rintro h t es k v hi ⟨e, he, hk⟩
    cases hfind : es.find? (fun x => equal_ x.key k) with
    | none =>
      rw [List.find?_eq_none] at hfind
      have := hfind e he
      simp only [hk, not_true_eq_false] at this
    | some e2 =>
      rw [← bucketRun_find_eq hash_ equal_ hok.hash_eq hi k] at hfind
      obtain ⟨h2, hem, _⟩ := emplace_present hash_ equal_ hi k v hfind
      exact ⟨h2, _, hem⟩
  · intro h this_ kvs hc hpw hlen
    have hi := new_inv hash_ h this_ hc
    obtain ⟨h2, t2, es2, hr, _, _, hsz, hcap⟩ :=
      insert_range_growth hash_ equal_ kvs hi rfl
        (by simp only [UnorderedMap.new, kStartCapacity]; omega) hpw (by simp)
        (by simp [UnorderedMap.new, UnorderedMap.size])
        (by simp only [UnorderedMap.new, UnorderedMap.size, kStartCapacity]; omega)
    have hsz0 : (UnorderedMap.new h this_).2.size = 0 := rfl
    have hcap0 : (UnorderedMap.new h this_).2.capacity_ = 15 := rfl
    rw [hsz0, hcap0] at hcap
    refine ⟨h2, t2, hr, by rw [hsz, hsz0]; simp, ?_, ?_⟩
    · intro h15
      rw [hcap, if_pos (by omega)]
    · intro h16
      rw [hcap, if_neg (by omega)]

/-- C13 (amended), for the identity hash on numbers: the 16 keys 0, 7, 14, ..., 105
inserted into a default-constructed table leave capacity 31. -/
theorem growth_rule_default_load_witness :
    ∃ h2 t2, UnorderedMap.insert_range natHash natEqual demo0.1 demo0.2
        ((List.range 16).map (fun i => (7 * i, i))) = some (h2, t2) ∧
      t2.size = ((List.range 16).map (fun i => (7 * i, i))).length ∧
      (((List.range 16).map (fun i => (7 * i, i))).length ≤ 15 → t2.capacity_ = 15) ∧
      (((List.range 16).map (fun i => (7 * i, i))).length = 16 → t2.capacity_ = 31) :=
  (growth_rule_default_load natHash natEqual natEqOK).2.2.2 Heap.empty 0
    ((List.range 16).map (fun i => (7 * i, i))) (fun _ _ => rfl) (by decide) (by decide)

end Claims5

section Claims6

variable {K V : Type} (hash_ : K → Nat) (equal_ : K → K → Bool)

/-- The member `at` in terms of the result of `find`. -/
theorem at_eq_of_find {h : Heap K V} {t : UnorderedMap} {k : K} {p : Ptr}
    (hf : UnorderedMap.find hash_ equal_ h t k = some p) :
    UnorderedMap.at_ hash_ equal_ h t k
      = some (if p = Ptr.null then Except.error "Bad key" else Except.ok p) := by
  unfold UnorderedMap.find at hf
  unfold UnorderedMap.at_
  by_cases hc : t.capacity_ = 0
  · rw [if_pos hc] at hf
    cases hf
  · rw [if_neg hc] at hf
    rw [if_neg hc, hf]
    by_cases hp : p = Ptr.null
    · simp [hp]
    · simp [hp]

theorem index_of_found {h : Heap K V} {t : UnorderedMap} {k : K} {p : Ptr}
    (hf : UnorderedMap.find hash_ equal_ h t k = some p) (hp : p ≠ Ptr.null) (dflt : V) :
    UnorderedMap.index hash_ equal_ h t k dflt = some (h, t, p) := by
  unfold UnorderedMap.index
  rw [hf]
  simp [hp]

theorem value_of_entry {h : Heap K V} {f : Nat} {es : List (Entry K V)} (hl : IsList h f es)
    {e : Entry K V} (he : e ∈ es) :
    (h.node? (Ptr.node e.addr)).map (fun n => n.value) = some e.value := by
  obtain ⟨nx, hn⟩ := Seg_node hl.2.1 he
  simp [Heap.node?, hn]

/-- C14: in every reachable state, for functors under which equal keys have
equal hashes, `at(k)` throws the error "Bad key" exactly when `find(k)`
returns `end()`, and otherwise returns the cursor that `find(k)` returns,
which designates a live entry whose key compares equal to `k` and whose
stored value is the one the caller reads.  The body of `at` writes neither
to the memory nor to the table members, so the function of the model has no
state result: entries, order, size, capacity and bucket index are the ones
before the call. -/
theorem at_agrees_with_find (hheq : ∀ a b, equal_ a b = true → hash_ a = hash_ b)
    {h : Heap K V} {t : UnorderedMap} (hr : Reachable hash_ equal_ h t) (k : K) :
    ∃ es p, Entries h t es ∧ UnorderedMap.find hash_ equal_ h t k = some p ∧
      (UnorderedMap.at_ hash_ equal_ h t k = some (Except.error "Bad key") ↔ p = Ptr.null) ∧
      (p ≠ Ptr.null →
        UnorderedMap.at_ hash_ equal_ h t k = some (Except.ok p) ∧
        ∃ e ∈ es, p = Ptr.node e.addr ∧ equal_ e.key k = true ∧
          (h.node? p).map (fun n => n.value) = some e.value) := by
  obtain ⟨es, hi, _⟩ := reachable_inv hash_ equal_ hr
  have hfind := find_spec equal_ hash_ hheq hi k
  have hat := at_eq_of_find hash_ equal_ hfind
  refine ⟨es, _, hi.list, hfind, ?_, ?_⟩
  · rw [hat]
    constructor
    · intro heq
      by_contra hne
      rw [if_neg hne] at heq
      cases heq
    · intro hp
      rw [if_pos hp]
  · intro hne
    rw [hat, if_neg hne]
    refine ⟨rfl, ?_⟩
    rcases cursorOf_find_cases es (fun x => equal_ x.key k) with ⟨hnull, _⟩ | ⟨e, he, hp, hk⟩
    · exact absurd hnull hne
    · refine ⟨e, he, hp, hk, ?_⟩
      rw [hp]
      exact value_of_entry hi.list he

/-- C14, at the table holding the keys 1, 16 and 3 and the key 16. -/
theorem at_agrees_with_find_witness :
    ∃ es p, Entries demo3.1 demo3.2 es ∧
      UnorderedMap.find natHash natEqual demo3.1 demo3.2 16 = some p ∧
      (UnorderedMap.at_ natHash natEqual demo3.1 demo3.2 16 = some (Except.error "Bad key")
        ↔ p = Ptr.null) ∧
      (p ≠ Ptr.null →
        UnorderedMap.at_ natHash natEqual demo3.1 demo3.2 16 = some (Except.ok p) ∧
        ∃ e ∈ es, p = Ptr.node e.addr ∧ natEqual e.key 16 = true ∧
          (demo3.1.node? p).map (fun n => n.value) = some e.value) :=
  at_agrees_with_find natHash natEqual natEqOK.hash_eq demo3_reachable 16

/-- C15: on a well-formed table, under the functor contract, `operator[](k)`
with `Value()` being `dflt`: if an entry `e` holds a key equal to `k`, the
call returns the cursor on `e`, whose stored value the caller reads, and
leaves memory and table as they were (so a second call does the same); if no
entry holds such a key, the call inserts exactly one entry `(k, dflt)`: the
size grows by one, every old entry is kept, the returned cursor designates
the new entry, whose value is `dflt`, a following `find(k)` returns that
cursor, and a second call of `operator[](k)` returns the same cursor and
changes nothing. -/
theorem index_get_or_insert_default (hok : EqOK hash_ equal_)
    {h : Heap K V} {t : UnorderedMap} {es : List (Entry K V)}
    (hi : TableInv hash_ h t es) (hu : Uniq equal_ es) (k : K) (dflt : V) :
    (∀ e ∈ es, equal_ e.key k = true →
      UnorderedMap.index hash_ equal_ h t k dflt = some (h, t, Ptr.node e.addr) ∧
      (h.node? (Ptr.node e.addr)).map (fun n => n.value) = some e.value) ∧
    ((∀ e ∈ es, equal_ e.key k = false) →
      ∃ h2 t2 es2 e0,
        UnorderedMap.index hash_ equal_ h t k dflt = some (h2, t2, Ptr.node e0.addr) ∧
        TableInv hash_ h2 t2 es2 ∧ Uniq equal_ es2 ∧
        e0 ∈ es2 ∧ e0.key = k ∧ e0.value = dflt ∧
        (h2.node? (Ptr.node e0.addr)).map (fun n => n.value) = some dflt ∧
        t2.size = t.size + 1 ∧ es2.length = es.length + 1 ∧
        (∀ e ∈ es, ∃ e2 ∈ es2, e2.addr = e.addr ∧ e2.key = e.key ∧ e2.value = e.value) ∧
        UnorderedMap.find hash_ equal_ h2 t2 k = some (Ptr.node e0.addr) ∧
        (∀ dflt2, UnorderedMap.index hash_ equal_ h2 t2 k dflt2
          = some (h2, t2, Ptr.node e0.addr))) := by
  constructor
  · intro e he hk
    have hfind : UnorderedMap.find hash_ equal_ h t k = some (Ptr.node e.addr) := by
      rw [find_spec equal_ hash_ hok.hash_eq hi k,
        find?_of_uniq equal_ hok.symm hok.trans hu he hk]
      rfl
    exact ⟨index_of_found hash_ equal_ hfind (by simp) dflt, value_of_entry hi.list he⟩
  · intro habs
    have hfind : UnorderedMap.find hash_ equal_ h t k = some Ptr.null := by
      have hnone : es.find? (fun x => equal_ x.key k) = none := by
        rw [List.find?_eq_none]
        intro e he
        simpa using habs e he
      rw [find_spec equal_ hash_ hok.hash_eq hi k, hnone]
      rfl
    obtain ⟨h2, t2, es2, e0, hem, hinv, hu2, he0, _, hkey, hval, hsame, hsz, hfind2, _⟩ :=
      emplace_fresh hash_ equal_ hok hi hu k dflt habs
    refine ⟨h2, t2, es2, e0, ?_, hinv, hu2, he0, hkey, hval, ?_, hsz, ?_, ?_, hfind2, ?_⟩
    · unfold UnorderedMap.index
      rw [hfind]
      simp [hem]
    · rw [value_of_entry hinv.list he0, hval]
    · rw [hsame.length_eq]
      simp
    · intro e he
      exact hsame.mem (List.mem_cons_of_mem _ he)
    · intro dflt2
      exact index_of_found hash_ equal_ hfind2 (by simp) dflt2

/-- C15, at the table holding the keys 1, 16 and 3, for the stored key 16 and
the absent key 31. -/
theorem index_get_or_insert_default_witness :
    (∀ e ∈ demo3Entries, natEqual e.key 16 = true →
      UnorderedMap.index natHash natEqual demo3.1 demo3.2 16 0
        = some (demo3.1, demo3.2, Ptr.node e.addr) ∧
      (demo3.1.node? (Ptr.node e.addr)).map (fun n => n.value) = some e.value) ∧
    ∃ h2 t2 es2 e0,
      UnorderedMap.index natHash natEqual demo3.1 demo3.2 31 0
        = some (h2, t2, Ptr.node e0.addr) ∧
      TableInv natHash h2 t2 es2 ∧ Uniq natEqual es2 ∧
      e0 ∈ es2 ∧ e0.key = 31 ∧ e0.value = 0 ∧
      (h2.node? (Ptr.node e0.addr)).map (fun n => n.value) = some 0 ∧
      t2.size = demo3.2.size + 1 ∧ es2.length = demo3Entries.length + 1 ∧
      (∀ e ∈ demo3Entries, ∃ e2 ∈ es2, e2.addr = e.addr ∧ e2.key = e.key ∧ e2.value = e.value) ∧
      UnorderedMap.find natHash natEqual h2 t2 31 = some (Ptr.node e0.addr) ∧
      (∀ dflt2, UnorderedMap.index natHash natEqual h2 t2 31 dflt2
        = some (h2, t2, Ptr.node e0.addr)) :=
  ⟨(index_get_or_insert_default natHash natEqual natEqOK demo3_inv demo3_uniq 16 0).1,
    (index_get_or_insert_default natHash natEqual natEqOK demo3_inv demo3_uniq 31 0).2
      (by decide)⟩

end Claims6

/-! ## Range erase, reserve and rehash as the caller sees them -/

section Growth2

variable {K V : Type} (hash_ : K → Nat) (equal_ : K → K → Bool)

theorem find?_skip_middle (P : Entry K V → Bool) (l1 l2 l3 : List (Entry K V))
    (h2 : ∀ e ∈ l2, P e = false) : (l1 ++ l2 ++ l3).find? P = (l1 ++ l3).find? P := by
  have hnone : l2.find? P = none := by
    rw [List.find?_eq_none]
    intro e he
    simp [h2 e he]
  simp only [List.find?_append, hnone, Option.or_none]

theorem grow_iterate_ge (j c : Nat) : c + j ≤ (fun c => c * 2 + 1)^[j] c := by
  induction j generalizing c with
  | zero => simp
  | succ j ih =>
    rw [Function.iterate_succ_apply]
    have := ih (c * 2 + 1)
    omega

theorem grow_iterate_pos_ge (i c : Nat) (hi : 0 < i) :
    c * 2 + 1 ≤ (fun c => c * 2 + 1)^[i] c := by
  obtain ⟨j, rfl⟩ : ∃ j, i = j + 1 := ⟨i - 1, by omega⟩
  rw [Function.iterate_succ_apply]
  have := grow_iterate_ge j (c * 2 + 1)
  omega

theorem grow_iterate_eq (j c : Nat) : (fun c => c * 2 + 1)^[j] c + 1 = 2 ^ j * (c + 1) := by
  induction j generalizing c with
  | zero => simp
  | succ j ih =>
    rw [Function.iterate_succ_apply, ih (c * 2 + 1), Nat.pow_succ]
    ring

theorem pow_le_grow_iterate (j c : Nat) (hc : 0 < c) : 2 ^ j ≤ (fun c => c * 2 + 1)^[j] c := by
  have h1 := grow_iterate_eq j c
  have h2 : 2 ^ j * 2 ≤ 2 ^ j * (c + 1) := Nat.mul_le_mul_left _ (by omega)
  have h3 : 0 < 2 ^ j := Nat.pow_pos (by omega)
  omega

/-- The loop of `reserve` stops at the first member of the sequence
`c, c * 2 + 1, ...` at which its test fails, provided the fuel reaches it. -/
theorem reserve_loop_spec (m : ℚ) (n : Nat) :
    ∀ (fuel c : Nat),
    (∃ j, j < fuel ∧
      ¬ (to_float (to_float (((fun c => c * 2 + 1)^[j] c : ℕ) : ℚ) * m) < to_float (n : ℚ))) →
    ∃ i, UnorderedMap.reserve_loop m n fuel c = some ((fun c => c * 2 + 1)^[i] c) ∧
      ¬ (to_float (to_float (((fun c => c * 2 + 1)^[i] c : ℕ) : ℚ) * m) < to_float (n : ℚ)) ∧
      ∀ j, j < i →
        to_float (to_float (((fun c => c * 2 + 1)^[j] c : ℕ) : ℚ) * m) < to_float (n : ℚ) := by
  intro fuel
  induction fuel with
  | zero =>
    rintro c ⟨j, hj, _⟩
    omega
  | succ fuel ih =>
    rintro c ⟨j, hj, hjn⟩
    by_cases hlt : to_float (to_float (c : ℚ) * m) < to_float (n : ℚ)
    · cases j with
      | zero =>
        simp only [Function.iterate_zero, id_eq] at hjn
        exact absurd hlt hjn
      | succ j =>
        rw [Function.iterate_succ_apply] at hjn
        obtain ⟨i, hloop, hfit, hmin⟩ := ih (c * 2 + 1) ⟨j, by omega, hjn⟩
        refine ⟨i + 1, ?_, ?_, ?_⟩
        · rw [Function.iterate_succ_apply]
          simp only [UnorderedMap.reserve_loop, if_pos hlt]
          exact hloop
        · rw [Function.iterate_succ_apply]
          exact hfit
        · intro j2 hj2
          cases j2 with
          | zero => simpa using hlt
          | succ j2 =>
            rw [Function.iterate_succ_apply]
            exact hmin j2 (by omega)
    · refine ⟨0, ?_, ?_, ?_⟩
      · simp only [UnorderedMap.reserve_loop, if_neg hlt, Function.iterate_zero, id_eq]
      · simpa using hlt
      · intro j2 hj2
        omega

/-- A power of two between a number and its double plus two. -/
theorem pow2_above (n : Nat) : ∃ k : Nat, (n : ℚ) ≤ pow2 (k : Int) ∧
    pow2 (k : Int) ≤ 2 * (n : ℚ) + 2 := by
  rcases Nat.eq_zero_or_pos n with h0 | hpos
  · refine ⟨0, ?_, ?_⟩
    · rw [h0]
      simp [pow2_zero]
    · rw [h0]
      simp [pow2_zero]
  · obtain ⟨h1, h2⟩ := ilog2_spec hpos
    refine ⟨ilog2 n + 1, ?_, ?_⟩
    · rw [pow2_natCast]
      exact_mod_cast le_of_lt h2
    · rw [pow2_natCast, Nat.pow_succ]
      have : 2 ^ ilog2 n * 2 ≤ 2 * n + 2 := by omega
      exact_mod_cast this

/-- The fuel of `reserve` reaches a capacity at which the test of the loop
fails. -/
theorem reserve_fuel_enough (m : ℚ) (hm : 0 < m) (n c : Nat) (hc : 0 < c) :
    ∃ j, j < ⌈(2 * (n : ℚ) + 2) / m⌉₊ + 1 ∧
      ¬ (to_float (to_float (((fun c => c * 2 + 1)^[j] c : ℕ) : ℚ) * m)
        < to_float (n : ℚ)) := by
  refine ⟨⌈(2 * (n : ℚ) + 2) / m⌉₊, by omega, ?_⟩
  obtain ⟨k, hk1, hk2⟩ := pow2_above n
  have h1 : (2 * (n : ℚ) + 2) / m ≤ (⌈(2 * (n : ℚ) + 2) / m⌉₊ : ℚ) := Nat.le_ceil _
  have h2 : ((⌈(2 * (n : ℚ) + 2) / m⌉₊ : ℕ) : ℚ)
      ≤ pow2 ((⌈(2 * (n : ℚ) + 2) / m⌉₊ : ℕ) : Int) := by
    rw [pow2_natCast]
    exact_mod_cast le_of_lt (Nat.lt_two_pow _)
  have h3 : pow2 ((⌈(2 * (n : ℚ) + 2) / m⌉₊ : ℕ) : Int)
      ≤ (((fun c => c * 2 + 1)^[⌈(2 * (n : ℚ) + 2) / m⌉₊] c : ℕ) : ℚ) := by
    rw [pow2_natCast]
    exact_mod_cast pow_le_grow_iterate _ c hc
  have h4 := pow2_le_to_float h3
  have h5 : 2 * (n : ℚ) + 2
      ≤ to_float (((fun c => c * 2 + 1)^[⌈(2 * (n : ℚ) + 2) / m⌉₊] c : ℕ) : ℚ) * m := by
    have := (div_le_iff₀ hm).1 (h1.trans (h2.trans h4))
    exact this
  have h6 := pow2_le_to_float (hk2.trans h5)
  have h7 := to_float_le_pow2 (Nat.cast_nonneg n) hk1
  exact not_lt.2 (h7.trans h6)

/-- With maximum load factor 1 and a count of at most `2 ^ 24`, the test of
the loop of `reserve` decides whether the capacity is below the count. -/
theorem reserve_test_exact (n c : Nat) (hn : n ≤ 16777216) :
    to_float (to_float (c : ℚ) * 1) < to_float (n : ℚ) ↔ c < n := by
  have hn2 : to_float (n : ℚ) = (n : ℚ) := by
    rcases Nat.lt_or_ge n 16777216 with h | h
    · exact to_float_natCast h
    · have h24 : n = 16777216 := by omega
      rw [h24]
      have := to_float_pow2 24
      rw [pow2_24] at this
      exact_mod_cast this
  rw [mul_one, hn2]
  by_cases hc : c < 16777216
  · rw [to_float_natCast hc, to_float_natCast hc]
    exact_mod_cast Iff.rfl
  · have h24 : pow2 24 ≤ (c : ℚ) := by
      rw [pow2_24]
      exact_mod_cast (by omega : 16777216 ≤ c)
    have h1 := pow2_le_to_float (pow2_le_to_float h24)
    rw [pow2_24] at h1
    have hnq : (n : ℚ) ≤ 16777216 := by exact_mod_cast hn
    constructor
    · intro h
      linarith
    · intro h
      omega

/-- The lookups after a call that keeps the entries are the lookups before. -/
theorem find_sameEntries (hok : EqOK hash_ equal_) {h h2 : Heap K V} {t t2 : UnorderedMap}
    {es es2 : List (Entry K V)} (hi : TableInv hash_ h t es) (hi2 : TableInv hash_ h2 t2 es2)
    (hu : Uniq equal_ es) (hs : SameEntries es es2) (k : K) :
    UnorderedMap.find hash_ equal_ h2 t2 k = UnorderedMap.find hash_ equal_ h t k := by
  rw [find_spec equal_ hash_ hok.hash_eq hi2 k, find_spec equal_ hash_ hok.hash_eq hi k,
    cursor_sameEntries equal_ hok.symm hok.trans hu hs k]

end Growth2

section Claims7

variable {K V : Type} (hash_ : K → Nat) (equal_ : K → K → Bool)

/-- C16: on a well-formed table whose iteration sequence is `l1 ++ l2 ++ l3`,
with `first` the cursor on the head of `l2 ++ l3` (a live entry) and `last`
the cursor on the head of `l3` (`end()` when `l3` is empty),
`erase(first, last)` returns; afterwards the iteration sequence is
`l1 ++ l3` (exactly the entries of the range are gone, the others keep
identity, key, value and order), the size has decreased by the length of the
range, `find` returns `end()` for the key of every removed entry and is
unchanged for every key that equals no removed key, and the table is well
formed, in particular grouping and anchor correctness hold.  When the range
is empty (`first == last`) the table record is returned as it was. -/
theorem erase_range_removes_range (hok : EqOK hash_ equal_)
    {h : Heap K V} {t : UnorderedMap} (l1 l2 l3 : List (Entry K V))
    (hi : TableInv hash_ h t (l1 ++ l2 ++ l3)) (hu : Uniq equal_ (l1 ++ l2 ++ l3))
    (hne : headD (l2 ++ l3) Ptr.null ≠ Ptr.null) :
    ∃ h2 t2, UnorderedMap.erase_range h t (headD (l2 ++ l3) Ptr.null) (headD l3 Ptr.null)
        = some (h2, t2) ∧
      Entries h2 t2 (l1 ++ l3) ∧ TableInv hash_ h2 t2 (l1 ++ l3) ∧ Uniq equal_ (l1 ++ l3) ∧
      t2.size + l2.length = t.size ∧ t2.capacity_ = t.capacity_ ∧
      (∀ e ∈ l2, UnorderedMap.find hash_ equal_ h2 t2 e.key = some Ptr.null) ∧
      (∀ k, (∀ e ∈ l2, equal_ e.key k = false) →
        UnorderedMap.find hash_ equal_ h2 t2 k = UnorderedMap.find hash_ equal_ h t k) ∧
      Grouped (l1 ++ l3) ∧
      (∀ b, b < t2.capacity_ → t2.block_start_[b]?
        = some (anchorOf (Ptr.fake t2.nodes_list_.fake_node) (l1 ++ l3) b)) ∧
      (l2 = [] → t2 = t) := by
  obtain ⟨h2, t2, her, hinv, hcap, hmlf, hfn, _⟩ := erase_range_spec hash_ hi hne
  have hsub : List.Sublist (l1 ++ l3) (l1 ++ l2 ++ l3) := by
    rw [List.append_assoc]
    exact (List.Sublist.refl l1).append (List.sublist_append_right l2 l3)
  have hsz : t2.size + l2.length = t.size := by
    rw [hinv.sz, hi.sz]
    simp only [List.length_append]
    omega
  refine ⟨h2, t2, her, hinv.list, hinv, Uniq.of_sub equal_ hu hsub, hsz, hcap, ?_, ?_,
    hinv.grouped, hinv.anchors, ?_⟩
  · intro e he
    rw [find_spec equal_ hash_ hok.hash_eq hinv e.key]
    have hnone : (l1 ++ l3).find? (fun x => equal_ x.key e.key) = none := by
      rw [List.find?_eq_none]
      intro x hx
      have hpw := List.pairwise_append.1 hu
      have hpw1 := List.pairwise_append.1 hpw.1
      rcases List.mem_append.1 hx with hx | hx
      · simpa using (hpw1.2.2 x hx e he).1
      · simpa using (hpw.2.2 e (List.mem_append_right _ he) x hx).2
    rw [hnone]
    rfl
  · intro k hk
    rw [find_spec equal_ hash_ hok.hash_eq hinv k, find_spec equal_ hash_ hok.hash_eq hi k,
      find?_skip_middle _ l1 l2 l3 (fun e he => hk e he)]
  · intro hl2
    subst hl2
    simp only [List.append_nil] at hi hinv
    refine UnorderedMap.ext_fields hcap hmlf hfn ?_
      (TableInv.bs_ext hash_ hi hinv hcap hfn (fun _ => rfl))
    have h1 := hinv.sz
    have h2 := hi.sz
    simp only [UnorderedMap.size] at h1 h2
    rw [h1, h2]

/-- C16, at the table holding the keys 1, 16 and 3 (iterated as 3, 16, 1):
erasing the range from the entry of key 16 to `end()`. -/
theorem erase_range_removes_range_witness :
    ∃ h2 t2, UnorderedMap.erase_range demo3.1 demo3.2
        (headD ([{ addr := 1, key := 16, value := 20, hash := 1 },
          { addr := 0, key := 1, value := 10, hash := 1 }] ++ ([] : List (Entry Nat Nat)))
          Ptr.null)
        (headD ([] : List (Entry Nat Nat)) Ptr.null) = some (h2, t2) ∧
      Entries h2 t2 ([{ addr := 2, key := 3, value := 30, hash := 3 }] ++ []) ∧
      TableInv natHash h2 t2 ([{ addr := 2, key := 3, value := 30, hash := 3 }] ++ []) ∧
      Uniq natEqual ([{ addr := 2, key := 3, value := 30, hash := 3 }] ++ []) ∧
      t2.size + [({ addr := 1, key := 16, value := 20, hash := 1 } : Entry Nat Nat),
          { addr := 0, key := 1, value := 10, hash := 1 }].length = demo3.2.size ∧
      t2.capacity_ = demo3.2.capacity_ ∧
      (∀ e ∈ [({ addr := 1, key := 16, value := 20, hash := 1 } : Entry Nat Nat),
          { addr := 0, key := 1, value := 10, hash := 1 }],
        UnorderedMap.find natHash natEqual h2 t2 e.key = some Ptr.null) ∧
      (∀ k, (∀ e ∈ [({ addr := 1, key := 16, value := 20, hash := 1 } : Entry Nat Nat),
          { addr := 0, key := 1, value := 10, hash := 1 }], natEqual e.key k = false) →
        UnorderedMap.find natHash natEqual h2 t2 k
          = UnorderedMap.find natHash natEqual demo3.1 demo3.2 k) ∧
      Grouped ([({ addr := 2, key := 3, value := 30, hash := 3 } : Entry Nat Nat)] ++ []) ∧
      (∀ b, b < t2.capacity_ → t2.block_start_[b]?
        = some (anchorOf (Ptr.fake t2.nodes_list_.fake_node)
            ([({ addr := 2, key := 3, value := 30, hash := 3 } : Entry Nat Nat)] ++ []) b)) ∧
      (([({ addr := 1, key := 16, value := 20, hash := 1 } : Entry Nat Nat),
          { addr := 0, key := 1, value := 10, hash := 1 }] = []) → t2 = demo3.2) :=
  erase_range_removes_range natHash natEqual natEqOK
    [{ addr := 2, key := 3, value := 30, hash := 3 }]
    [{ addr := 1, key := 16, value := 20, hash := 1 },
      { addr := 0, key := 1, value := 10, hash := 1 }] [] demo3_inv demo3_uniq (by decide)

theorem reserve_eq_rehash (h : Heap K V) (t : UnorderedMap) (n : Nat) {c : Nat}
    (hloop : UnorderedMap.reserve_loop t.max_load_factor_ n
      (⌈(2 * (n : ℚ) + 2) / t.max_load_factor_⌉₊ + 1) t.capacity_ = some c) :
    UnorderedMap.reserve hash_ h t n = UnorderedMap.rehash hash_ h t c := by
  unfold UnorderedMap.reserve
  rw [hloop]
  rfl

/-- C17 (counterexample): `reserve(2 ^ 25)` on the default-constructed table
(capacity 15, maximum load factor 1) returns with capacity `2 ^ 25 - 1`, the
21st successor of 15 in the sequence, for which capacity * max load factor
is below the count: the conversion to `float` rounds `2 ^ 25 - 1` up to
`2 ^ 25`, so the test of the loop fails one step before the next member,
`2 ^ 26 - 1`, is reached. -/
theorem reserve_stops_below_count :
    ∃ h2 t2, UnorderedMap.reserve natHash demo0.1 demo0.2 33554432 = some (h2, t2) ∧
      demo0.2.capacity_ = 15 ∧ demo0.2.max_load_factor_ = 1 ∧
      t2.capacity_ = 33554431 ∧ t2.capacity_ = (fun c => c * 2 + 1)^[21] demo0.2.capacity_ ∧
      ¬ (((33554432 : ℕ) : ℚ) ≤ (t2.capacity_ : ℚ) * demo0.2.max_load_factor_) ∧
      to_float ((33554431 : ℕ) : ℚ) = 33554432 := by
  have hloop : UnorderedMap.reserve_loop demo0.2.max_load_factor_ 33554432
      (⌈(2 * ((33554432 : ℕ) : ℚ) + 2) / demo0.2.max_load_factor_⌉₊ + 1) demo0.2.capacity_
      = some 33554431 := by decide!
  have hi := new_inv natHash (Heap.empty : Heap Nat Nat) 0 (fun _ _ => rfl)
  obtain ⟨h2, t2, hr, _, hcap, _⟩ := rehash_spec natHash hi
    (show (UnorderedMap.new (Heap.empty : Heap Nat Nat) 0).2.capacity_ < 33554431 by decide)
  have hcap2 : t2.capacity_ = 33554431 := by
    rw [hcap]
    decide
  refine ⟨h2, t2, (reserve_eq_rehash natHash demo0.1 demo0.2 33554432 hloop).trans hr, rfl, rfl,
    hcap2, ?_, ?_, by decide!⟩
  · rw [hcap2]
    decide
  · rw [hcap2]
    have : demo0.2.max_load_factor_ = 1 := rfl
    rw [this]
    norm_num

/-- C17 (amended): on a well-formed table with a positive maximum load
factor `m`, under the functor contract, `reserve(n)` returns, and the
capacity afterwards is the first member `c'` of the sequence
`c, 2c+1, 2(2c+1)+1, ...` (`c` the capacity before) at which the test of the
loop, `(float)c' * m < n` evaluated in `float`, fails: it is a member, the
test fails at it, and the test holds at every earlier member.  With `m = 1`
and `n ≤ 2 ^ 24`, where `float` holds the numbers involved exactly, this is
the first member with `c' ≥ n`, and nothing changes when `c ≥ n`.  The call
is the one call `rehash(c')`; when
the test fails at `c` already it returns memory and table as they were; the
entries (identities, keys and values) are kept, and every `find` returns
what it returned before. -/
theorem reserve_grows_to_first_fit (hok : EqOK hash_ equal_)
    {h : Heap K V} {t : UnorderedMap} {es : List (Entry K V)}
    (hi : TableInv hash_ h t es) (hu : Uniq equal_ es) (hm : 0 < t.max_load_factor_)
    (n : Nat) :
    ∃ i h2 t2 es2, UnorderedMap.reserve hash_ h t n = some (h2, t2) ∧
      t2.capacity_ = (fun c => c * 2 + 1)^[i] t.capacity_ ∧
      ¬ (to_float (to_float (t2.capacity_ : ℚ) * t.max_load_factor_) < to_float (n : ℚ)) ∧
      (∀ j, j < i →
        to_float (to_float (((fun c => c * 2 + 1)^[j] t.capacity_ : ℕ) : ℚ)
          * t.max_load_factor_) < to_float (n : ℚ)) ∧
      (t.max_load_factor_ = 1 → n ≤ 16777216 →
        n ≤ t2.capacity_ ∧ (∀ j, j < i → (fun c => c * 2 + 1)^[j] t.capacity_ < n) ∧
        (n ≤ t.capacity_ → h2 = h ∧ t2 = t)) ∧
      UnorderedMap.reserve hash_ h t n = UnorderedMap.rehash hash_ h t t2.capacity_ ∧
      (¬ (to_float (to_float (t.capacity_ : ℚ) * t.max_load_factor_) < to_float (n : ℚ)) →
        h2 = h ∧ t2 = t) ∧
      TableInv hash_ h2 t2 es2 ∧ Uniq equal_ es2 ∧ SameEntries es es2 ∧
      t2.size = t.size ∧ t2.max_load_factor_ = t.max_load_factor_ ∧
      (∀ k, UnorderedMap.find hash_ equal_ h2 t2 k = UnorderedMap.find hash_ equal_ h t k) := by
  obtain ⟨i, hloop, hfit, hmin⟩ := reserve_loop_spec t.max_load_factor_ n _ t.capacity_
    (reserve_fuel_enough t.max_load_factor_ hm n t.capacity_ hi.cap_pos)
  have hres := reserve_eq_rehash hash_ h t n hloop
  obtain ⟨h2, t2, es2, hr, hinv, hsame, hmlf, _, _, _⟩ :=
    rehash_any hash_ hi ((fun c => c * 2 + 1)^[i] t.capacity_)
  have hcap : t2.capacity_ = (fun c => c * 2 + 1)^[i] t.capacity_ := by
    cases i with
    | zero =>
      rw [rehash_noop hash_ h t (by simp)] at hr
      cases hr
      rfl
    | succ i =>
      have hge := grow_iterate_pos_ge (i + 1) t.capacity_ (by omega)
      obtain ⟨h3, t3, hr3, _, hcap3, _⟩ := rehash_spec hash_ hi
        (show t.capacity_ < (fun c => c * 2 + 1)^[i + 1] t.capacity_ by omega)
      rw [hr] at hr3
      cases hr3
      rw [hcap3, max_eq_left hge]
  have hzero : ¬ (to_float (to_float (t.capacity_ : ℚ) * t.max_load_factor_)
      < to_float (n : ℚ)) → h2 = h ∧ t2 = t := by
    intro hle
    have hi0 : i = 0 := by
      by_contra hne
      have := hmin 0 (Nat.pos_of_ne_zero hne)
      simp only [Function.iterate_zero, id_eq] at this
      exact hle this
    subst hi0
    rw [rehash_noop hash_ h t (by simp)] at hr
    cases hr
    exact ⟨rfl, rfl⟩
  have hexact : t.max_load_factor_ = 1 → n ≤ 16777216 →
      n ≤ t2.capacity_ ∧ (∀ j, j < i → (fun c => c * 2 + 1)^[j] t.capacity_ < n) ∧
      (n ≤ t.capacity_ → h2 = h ∧ t2 = t) := by
    intro h1 hn
    refine ⟨?_, ?_, ?_⟩
    · rw [h1] at hfit
      rw [hcap]
      have := (reserve_test_exact n _ hn).not.1 hfit
      omega
    · intro j hj
      have := hmin j hj
      rw [h1] at this
      exact (reserve_test_exact n _ hn).1 this
    · intro hle
      apply hzero
      rw [h1, reserve_test_exact n _ hn]
      omega
  refine ⟨i, h2, t2, es2, hres.trans hr, hcap, by rw [hcap]; exact hfit, hmin, hexact,
    by rw [hcap]; exact hres, hzero, hinv, Uniq.sameEntries equal_ hu hsame, hsame, ?_, hmlf,
    fun k => find_sameEntries hash_ equal_ hok hi hinv hu hsame k⟩
  rw [hinv.sz, hi.sz, hsame.length_eq]

/-- C17 (amended), at the table holding the keys 1, 16 and 3: `reserve(40)`. -/
theorem reserve_grows_to_first_fit_witness :
    ∃ i h2 t2 es2, UnorderedMap.reserve natHash demo3.1 demo3.2 40 = some (h2, t2) ∧
      t2.capacity_ = (fun c => c * 2 + 1)^[i] demo3.2.capacity_ ∧
      ¬ (to_float (to_float (t2.capacity_ : ℚ) * demo3.2.max_load_factor_)
        < to_float ((40 : ℕ) : ℚ)) ∧
      (∀ j, j < i →
        to_float (to_float (((fun c => c * 2 + 1)^[j] demo3.2.capacity_ : ℕ) : ℚ)
          * demo3.2.max_load_factor_) < to_float ((40 : ℕ) : ℚ)) ∧
      (demo3.2.max_load_factor_ = 1 → 40 ≤ 16777216 →
        40 ≤ t2.capacity_ ∧ (∀ j, j < i → (fun c => c * 2 + 1)^[j] demo3.2.capacity_ < 40) ∧
        (40 ≤ demo3.2.capacity_ → h2 = demo3.1 ∧ t2 = demo3.2)) ∧
      UnorderedMap.reserve natHash demo3.1 demo3.2 40
        = UnorderedMap.rehash natHash demo3.1 demo3.2 t2.capacity_ ∧
      (¬ (to_float (to_float (demo3.2.capacity_ : ℚ) * demo3.2.max_load_factor_)
          < to_float ((40 : ℕ) : ℚ)) → h2 = demo3.1 ∧ t2 = demo3.2) ∧
      TableInv natHash h2 t2 es2 ∧ Uniq natEqual es2 ∧ SameEntries demo3Entries es2 ∧
      t2.size = demo3.2.size ∧ t2.max_load_factor_ = demo3.2.max_load_factor_ ∧
      (∀ k, UnorderedMap.find natHash natEqual h2 t2 k
        = UnorderedMap.find natHash natEqual demo3.1 demo3.2 k) :=
  reserve_grows_to_first_fit natHash natEqual natEqOK demo3_inv demo3_uniq (by decide!) 40

/-- C18: on a well-formed table with capacity `c`, under the functor
contract: `rehash(target)` with `target ≤ c` returns memory and table as they
were; with `target > c` it returns a well-formed table of capacity
`max(target, 2c+1)` whose bucket index has exactly that many slots, which
holds the same entries (same identities, keys and values, none duplicated or
lost, size unchanged), each with the bucket id `hash(key) mod` the new
capacity, grouped and with correct anchors; the node of every entry still
holds its key and value, and every `find` returns the cursor it returned
before. -/
theorem rehash_relinks_entries (hok : EqOK hash_ equal_)
    {h : Heap K V} {t : UnorderedMap} {es : List (Entry K V)}
    (hi : TableInv hash_ h t es) (hu : Uniq equal_ es) (target : Nat) :
    (target ≤ t.capacity_ → UnorderedMap.rehash hash_ h t target = some (h, t)) ∧
    (t.capacity_ < target →
      ∃ h2 t2 es2, UnorderedMap.rehash hash_ h t target = some (h2, t2) ∧
        t2.capacity_ = max target (2 * t.capacity_ + 1) ∧
        t2.block_start_.length = t2.capacity_ ∧
        Entries h2 t2 es2 ∧ SameEntries es es2 ∧ (addrs es2).Nodup ∧
        t2.size = t.size ∧ es2.length = es.length ∧
        (∀ e ∈ es2, e.hash = hash_ e.key % t2.capacity_) ∧ Grouped es2 ∧
        (∀ b, b < t2.capacity_ → t2.block_start_[b]?
          = some (anchorOf (Ptr.fake t2.nodes_list_.fake_node) es2 b)) ∧
        TableInv hash_ h2 t2 es2 ∧ Uniq equal_ es2 ∧
        (∀ e ∈ es, (h2.node? (Ptr.node e.addr)).map (fun n => (n.key, n.value))
          = some (e.key, e.value)) ∧
        (∀ k, UnorderedMap.find hash_ equal_ h2 t2 k
          = UnorderedMap.find hash_ equal_ h t k)) := by
  refine ⟨fun hle => rehash_noop hash_ h t hle, ?_⟩
  intro hlt
  obtain ⟨h2, t2, hr, hinv, hcap, _⟩ := rehash_spec hash_ hi hlt
  have hsame := sameEntries_relinked hash_ (max target (t.capacity_ * 2 + 1)) es
  refine ⟨h2, t2, _, hr, by rw [hcap, Nat.mul_comm], hinv.bs_len, hinv.list, hsame,
    hinv.list.2.2, ?_, hsame.length_eq, hinv.hash_ok, hinv.grouped, hinv.anchors, hinv,
    Uniq.sameEntries equal_ hu hsame, ?_,
    fun k => find_sameEntries hash_ equal_ hok hi hinv hu hsame k⟩
  · rw [hinv.sz, hi.sz, hsame.length_eq]
  · intro e he
    obtain ⟨e2, he2, haddr, hkey, hval⟩ := hsame.mem he
    obtain ⟨nx, hn⟩ := Seg_node hinv.list.2.1 he2
    simp [Heap.node?, ← haddr, hn, hkey, hval]

/-- C18, at the table holding the keys 1, 16 and 3: `rehash(20)` gives
capacity 31. -/
theorem rehash_relinks_entries_witness :
    (20 ≤ demo3.2.capacity_ →
      UnorderedMap.rehash natHash demo3.1 demo3.2 20 = some (demo3.1, demo3.2)) ∧
    (demo3.2.capacity_ < 20 →
      ∃ h2 t2 es2, UnorderedMap.rehash natHash demo3.1 demo3.2 20 = some (h2, t2) ∧
        t2.capacity_ = max 20 (2 * demo3.2.capacity_ + 1) ∧
        t2.block_start_.length = t2.capacity_ ∧
        Entries h2 t2 es2 ∧ SameEntries demo3Entries es2 ∧ (addrs es2).Nodup ∧
        t2.size = demo3.2.size ∧ es2.length = demo3Entries.length ∧
        (∀ e ∈ es2, e.hash = natHash e.key % t2.capacity_) ∧ Grouped es2 ∧
        (∀ b, b < t2.capacity_ → t2.block_start_[b]?
          = some (anchorOf (Ptr.fake t2.nodes_list_.fake_node) es2 b)) ∧
        TableInv natHash h2 t2 es2 ∧ Uniq natEqual es2 ∧
        (∀ e ∈ demo3Entries, (h2.node? (Ptr.node e.addr)).map (fun n => (n.key, n.value))
          = some (e.key, e.value)) ∧
        (∀ k, UnorderedMap.find natHash natEqual h2 t2 k
          = UnorderedMap.find natHash natEqual demo3.1 demo3.2 k)) :=
  rehash_relinks_entries natHash natEqual natEqOK demo3_inv demo3_uniq 20

end Claims7

/-! ## The position of a new entry -/

section Position

variable {K V : Type} (hash_ : K → Nat) (equal_ : K → K → Bool)

theorem takeWhile_split (q : Entry K V → Bool) (pre post : List (Entry K V)) (x : Entry K V)
    (hpre : ∀ y ∈ pre, q y = true) (hx : q x = false) :
    (pre ++ x :: post).takeWhile q = pre := by
  induction pre with
  | nil => rw [List.nil_append, List.takeWhile_cons_of_neg (by simp [hx])]
  | cons p pre ih =>
    rw [List.cons_append, List.takeWhile_cons_of_pos (hpre p (List.mem_cons_self _ _)),
      ih (fun y hy => hpre y (List.mem_cons_of_mem _ hy))]

theorem dropWhile_split (q : Entry K V → Bool) (pre post : List (Entry K V)) (x : Entry K V)
    (hpre : ∀ y ∈ pre, q y = true) (hx : q x = false) :
    (pre ++ x :: post).dropWhile q = x :: post := by
  induction pre with
  | nil => rw [List.nil_append, List.dropWhile_cons_of_neg (by simp [hx])]
  | cons p pre ih =>
    rw [List.cons_append, List.dropWhile_cons_of_pos (hpre p (List.mem_cons_self _ _)),
      ih (fun y hy => hpre y (List.mem_cons_of_mem _ hy))]

theorem linkList_at {pre post : List (Entry K V)} {x0 e0 : Entry K V}
    (hx : x0.hash = e0.hash) (hpre : ∀ y ∈ pre, y.hash ≠ e0.hash) :
    linkList (pre ++ x0 :: post) e0 = pre ++ e0 :: x0 :: post := by
  have hq : ∀ y ∈ pre, Entry.offBucket e0.hash y = true := by
    intro y hy
    simpa using hpre y hy
  have hq0 : Entry.offBucket e0.hash x0 = false := by simp [hx]
  have hall : (pre ++ x0 :: post).all (Entry.offBucket e0.hash) = false := by
    rw [List.all_eq_false]
    exact ⟨x0, by simp, by simp [hx]⟩
  unfold linkList
  rw [hall, takeWhile_split _ pre post x0 hq hq0, dropWhile_split _ pre post x0 hq hq0]
  simp

/-- Two states with the same iteration sequence of one table agree on every
node of the memory, given that they agree outside the sequence. -/
theorem nodes_restored {h h3 : Heap K V} {t : UnorderedMap} {es : List (Entry K V)}
    (hi : TableInv hash_ h t es) (hi3 : TableInv hash_ h3 t es)
    (hout : ∀ x, x ∉ addrs es → h3.nodes x = h.nodes x) : h3.nodes = h.nodes := by
  funext x
  by_cases hx : x ∈ addrs es
  · exact Seg_nodes_eq hi.list.2.1 hi3.list.2.1 x hx
  · exact hout x hx

end Position

section Claims8

variable {K V : Type} (hash_ : K → Nat) (equal_ : K → K → Bool)

/-- C19: on a well-formed table `t` that holds no key equal to `k`, when
`emplace(k, v)` does not rehash (the load factor after linking, computed in
`float` as `load_factor()` computes it, does not exceed the maximum),
`emplace(k, v)` followed by `erase` of the returned
cursor gives back the table record `t` itself (size, capacity, maximum load
factor and every slot of the bucket index; in particular the slot of the
bucket of `k` is empty again if no entry had that bucket, and the slot of the
bucket of the first entry holds the sentinel again), the same iteration
sequence, and the same memory except for the allocator's counter; a
following `emplace(k, v2)` inserts again. -/
theorem emplace_erase_round_trip
    {h : Heap K V} {t : UnorderedMap} {es : List (Entry K V)}
    (hi : TableInv hash_ h t es) (k : K) (v : V)
    (habs : ∀ e ∈ es, equal_ e.key k = false)
    (hload : ¬ (to_float (to_float ((t.size + 1 : ℕ) : ℚ) / to_float (t.capacity_ : ℚ))
      > t.max_load_factor_)) :
    ∃ h2 t2 p h3 t3, UnorderedMap.emplace hash_ equal_ h t k v = some (h2, t2, p, true) ∧
      UnorderedMap.erase h2 t2 p = some (h3, t3) ∧
      t3 = t ∧ Entries h3 t3 es ∧ TableInv hash_ h3 t3 es ∧ t3.size = t.size ∧
      h3.nodes = h.nodes ∧ h3.fake = h.fake ∧ h3.fresh = h.fresh + 1 ∧
      ((∀ e ∈ es, e.hash ≠ hash_ k % t.capacity_) →
        t3.block_start_[hash_ k % t.capacity_]? = some Ptr.null ∧
        ∀ x rest, es = x :: rest →
          t3.block_start_[x.hash]? = some (Ptr.fake t.nodes_list_.fake_node)) ∧
      (∀ v2, ∃ h4 t4 p4,
        UnorderedMap.emplace hash_ equal_ h3 t3 k v2 = some (h4, t4, p4, true)) := by
  have hfind := bucketRun_find_none equal_ habs (hash_ k % t.capacity_)
  obtain ⟨h2, t2, hem, hinv2, hcap2, hmlf2, hfn2, hfr2, hfk2, hnodes2⟩ :=
    emplace_no_rehash hash_ equal_ hi k v hfind hload
  obtain ⟨pre, post, hes, hlink, _, _⟩ := linkList_split es
    { addr := h.fresh, key := k, value := v, hash := hash_ k % t.capacity_ }
  rw [hlink] at hinv2
  obtain ⟨h3, t3, her, hinv3, hcap3, hmlf3, hfn3, hfr3, hfk3, hnodes3, hfree⟩ :=
    erase_spec hash_ hinv2
  rw [← hes] at hinv3
  have hsz : t3.nodes_list_.sz = t.nodes_list_.sz := by
    have h1 := hinv3.sz
    have h2 := hi.sz
    simp only [UnorderedMap.size] at h1 h2
    rw [h1, h2]
  have hbs : t3.block_start_ = t.block_start_ :=
    TableInv.bs_ext hash_ hi hinv3 (hcap3.trans hcap2) (hfn3.trans hfn2) (fun _ => rfl)
  have ht3 : t3 = t :=
    UnorderedMap.ext_fields (hcap3.trans hcap2) (hmlf3.trans hmlf2) (hfn3.trans hfn2) hsz hbs
  subst ht3
  have hfreshn : h.nodes h.fresh = none := hi.consistent _ (le_refl _)
  have hnodes : h3.nodes = h.nodes := by
    refine nodes_restored hash_ hi hinv3 ?_
    intro x hx
    by_cases hxf : x = h.fresh
    · rw [hxf, hfreshn]
      exact hfree
    · have hxpre : x ∉ addrs pre := by
        intro hm
        apply hx
        rw [hes, addrs_append]
        exact List.mem_append_left _ hm
      rw [hnodes3 x hxf hxpre, hnodes2 x hxf hx]
  have hfake : h3.fake = h.fake := by
    funext j
    by_cases hj : j = t3.nodes_list_.fake_node
    · rw [hj, hinv3.list.1, hi.list.1]
    · rw [hfk3 j (by rw [hfn2]; exact hj), hfk2 j hj]
  refine ⟨h2, t2, _, h3, t3, hem, her, rfl, hinv3.list, hinv3, rfl, hnodes, hfake,
    hfr3.trans hfr2, ?_, ?_⟩
  · intro hnew
    have hb : hash_ k % t3.capacity_ < t3.capacity_ := Nat.mod_lt _ hi.cap_pos
    refine ⟨by rw [hi.anchors _ hb, anchorOf_absent _ hnew], ?_⟩
    intro x rest hx
    have hxb : x.hash < t3.capacity_ := by
      rw [hi.hash_ok x (by rw [hx]; exact List.mem_cons_self _ _)]
      exact Nat.mod_lt _ hi.cap_pos
    rw [hi.anchors _ hxb, hx]
    simp [anchorOf]
  · intro v2
    obtain ⟨h4, t4, es4, hem4, _⟩ := emplace_absent hash_ equal_ hinv3 k v2 hfind
    exact ⟨h4, t4, _, hem4⟩

/-- C19, at the default-constructed table: inserting the key 1 and erasing it
gives back the empty table, with size 0 and the slot of bucket 1 empty. -/
theorem emplace_erase_round_trip_witness :
    ∃ h2 t2 p h3 t3, UnorderedMap.emplace natHash natEqual demo0.1 demo0.2 1 10
        = some (h2, t2, p, true) ∧
      UnorderedMap.erase h2 t2 p = some (h3, t3) ∧
      t3 = demo0.2 ∧ Entries h3 t3 [] ∧ TableInv natHash h3 t3 [] ∧ t3.size = demo0.2.size ∧
      h3.nodes = demo0.1.nodes ∧ h3.fake = demo0.1.fake ∧ h3.fresh = demo0.1.fresh + 1 ∧
      ((∀ e ∈ ([] : List (Entry Nat Nat)), e.hash ≠ natHash 1 % demo0.2.capacity_) →
        t3.block_start_[natHash 1 % demo0.2.capacity_]? = some Ptr.null ∧
        ∀ x rest, ([] : List (Entry Nat Nat)) = x :: rest →
          t3.block_start_[x.hash]? = some (Ptr.fake demo0.2.nodes_list_.fake_node)) ∧
      (∀ v2, ∃ h4 t4 p4,
        UnorderedMap.emplace natHash natEqual h3 t3 1 v2 = some (h4, t4, p4, true)) :=
  emplace_erase_round_trip natHash natEqual
    (new_inv natHash Heap.empty 0 (fun _ _ => rfl)) 1 10 (by simp) (by decide!)

/-- C20: on a well-formed table that holds no key equal to `k`, when
`emplace(k, v)` does not rehash (the load factor after linking, computed in
`float` as `load_factor()` computes it, does not exceed the maximum), the
new entry `e0` is placed as follows.
If no entry has the bucket id of `k`: the new sequence is `e0` followed by
the old sequence, `begin()` designates `e0`, the slot of the new bucket,
empty before, holds the sentinel, and the slot of the bucket of the
previously first entry, which held the sentinel, holds the node of `e0`.  If
`x0` is the first entry with the bucket id of `k`: `e0` is put directly
before `x0`, the slot of the bucket is unchanged and holds the predecessor of
`x0`, whose successor is now `e0`, whose successor is `x0`; no slot of the
bucket index changes.  In both cases the old sequence is the new one without
`e0`. -/
theorem emplace_position
    {h : Heap K V} {t : UnorderedMap} {es : List (Entry K V)}
    (hi : TableInv hash_ h t es) (k : K) (v : V)
    (habs : ∀ e ∈ es, equal_ e.key k = false)
    (hload : ¬ (to_float (to_float ((t.size + 1 : ℕ) : ℚ) / to_float (t.capacity_ : ℚ))
      > t.max_load_factor_)) :
    ∃ h2 t2 es2,
      UnorderedMap.emplace hash_ equal_ h t k v = some (h2, t2, Ptr.node h.fresh, true) ∧
      Entries h2 t2 es2 ∧ TableInv hash_ h2 t2 es2 ∧
      t2.capacity_ = t.capacity_ ∧ t2.nodes_list_.fake_node = t.nodes_list_.fake_node ∧
      ((∀ e ∈ es, e.hash ≠ hash_ k % t.capacity_) →
        es2 = { addr := h.fresh, key := k, value := v, hash := hash_ k % t.capacity_ } :: es ∧
        t2.begin h2 = Ptr.node h.fresh ∧
        t.block_start_[hash_ k % t.capacity_]? = some Ptr.null ∧
        t2.block_start_[hash_ k % t.capacity_]? = some (Ptr.fake t.nodes_list_.fake_node) ∧
        ∀ x rest, es = x :: rest →
          t.block_start_[x.hash]? = some (Ptr.fake t.nodes_list_.fake_node) ∧
          t2.block_start_[x.hash]? = some (Ptr.node h.fresh)) ∧
      (∀ pre x0 post, es = pre ++ x0 :: post → x0.hash = hash_ k % t.capacity_ →
        (∀ y ∈ pre, y.hash ≠ hash_ k % t.capacity_) →
        es2 = pre ++ { addr := h.fresh, key := k, value := v, hash := hash_ k % t.capacity_ }
          :: x0 :: post ∧
        t.block_start_[hash_ k % t.capacity_]?
          = some (predFrom (Ptr.fake t.nodes_list_.fake_node) pre) ∧
        t2.block_start_ = t.block_start_ ∧
        h2.next (predFrom (Ptr.fake t.nodes_list_.fake_node) pre) = some (Ptr.node h.fresh) ∧
        h2.next (Ptr.node h.fresh) = some (Ptr.node x0.addr)) ∧
      (∃ pre post, es = pre ++ post ∧
        es2 = pre ++ { addr := h.fresh, key := k, value := v, hash := hash_ k % t.capacity_ }
          :: post) := by
  have hfind := bucketRun_find_none equal_ habs (hash_ k % t.capacity_)
  obtain ⟨h2, t2, hem, hinv2, hcap2, _, hfn2, _, _, _⟩ :=
    emplace_no_rehash hash_ equal_ hi k v hfind hload
  have hb : hash_ k % t.capacity_ < t.capacity_ := Nat.mod_lt _ hi.cap_pos
  refine ⟨h2, t2, _, hem, hinv2.list, hinv2, hcap2, hfn2, ?_, ?_, ?_⟩
  · intro hnew
    have hl : linkList es
        { addr := h.fresh, key := k, value := v, hash := hash_ k % t.capacity_ }
        = { addr := h.fresh, key := k, value := v, hash := hash_ k % t.capacity_ } :: es :=
      linkList_of_absent hnew
    rw [hl] at hinv2 ⊢
    refine ⟨rfl, ?_, ?_, ?_, ?_⟩
    · simp only [UnorderedMap.begin, ForwardList.begin]
      rw [hinv2.list.1]
      rfl
    · rw [hi.anchors _ hb, anchorOf_absent _ hnew]
    · rw [hinv2.anchors _ (by rw [hcap2]; exact hb), hfn2]
      simp [anchorOf]
    · intro x rest hx
      have hxm : x ∈ es := by rw [hx]; exact List.mem_cons_self _ _
      have hxb : x.hash < t.capacity_ := by
        rw [hi.hash_ok x hxm]
        exact Nat.mod_lt _ hi.cap_pos
      have hxne : hash_ k % t.capacity_ ≠ x.hash := fun heq => hnew x hxm heq.symm
      constructor
      · rw [hi.anchors _ hxb, hx]
        simp [anchorOf]
      · rw [hinv2.anchors _ (by rw [hcap2]; exact hxb), hx]
        simp [anchorOf, hxne]
  · intro pre x0 post hes hx0 hpre
    have hl : linkList es
        { addr := h.fresh, key := k, value := v, hash := hash_ k % t.capacity_ }
        = pre ++ { addr := h.fresh, key := k, value := v, hash := hash_ k % t.capacity_ }
          :: x0 :: post := by
      rw [hes]
      exact linkList_at hx0 hpre
    rw [hl] at hinv2 ⊢
    refine ⟨rfl, ?_, ?_, ?_, ?_⟩
    · rw [hi.anchors _ hb, hes, anchorOf_split _ hx0 hpre]
    · subst hes
      exact TableInv.bs_ext hash_ hi hinv2 hcap2 hfn2
        (fun b => anchorOf_insert_run _ hx0 b)
    · have := IsList.next_pred hinv2.list
      rw [hfn2] at this
      exact this
    · have hn := Seg_split hinv2.list.2.1
      simp only [Heap.next, hn]
      rfl
  · obtain ⟨pre, post, hes, hlink, _, _⟩ := linkList_split es
      { addr := h.fresh, key := k, value := v, hash := hash_ k % t.capacity_ }
    exact ⟨pre, post, hes, hlink⟩

/-- C20, at the table holding the keys 1, 16 and 3 (iterated as 3, 16, 1),
for the new key 31 of bucket 1 and the value 7. -/
theorem emplace_position_witness :
    ∃ h2 t2 es2,
      UnorderedMap.emplace natHash natEqual demo3.1 demo3.2 31 7
        = some (h2, t2, Ptr.node demo3.1.fresh, true) ∧
      Entries h2 t2 es2 ∧ TableInv natHash h2 t2 es2 ∧
      t2.capacity_ = demo3.2.capacity_ ∧
      t2.nodes_list_.fake_node = demo3.2.nodes_list_.fake_node ∧
      ((∀ e ∈ demo3Entries, e.hash ≠ natHash 31 % demo3.2.capacity_) →
        es2 = { addr := demo3.1.fresh, key := 31, value := 7,
                hash := natHash 31 % demo3.2.capacity_ } :: demo3Entries ∧
        t2.begin h2 = Ptr.node demo3.1.fresh ∧
        demo3.2.block_start_[natHash 31 % demo3.2.capacity_]? = some Ptr.null ∧
        t2.block_start_[natHash 31 % demo3.2.capacity_]?
          = some (Ptr.fake demo3.2.nodes_list_.fake_node) ∧
        ∀ x rest, demo3Entries = x :: rest →
          demo3.2.block_start_[x.hash]? = some (Ptr.fake demo3.2.nodes_list_.fake_node) ∧
          t2.block_start_[x.hash]? = some (Ptr.node demo3.1.fresh)) ∧
      (∀ pre x0 post, demo3Entries = pre ++ x0 :: post →
        x0.hash = natHash 31 % demo3.2.capacity_ →
        (∀ y ∈ pre, y.hash ≠ natHash 31 % demo3.2.capacity_) →
        es2 = pre ++ { addr := demo3.1.fresh, key := 31, value := 7,
                       hash := natHash 31 % demo3.2.capacity_ } :: x0 :: post ∧
        demo3.2.block_start_[natHash 31 % demo3.2.capacity_]?
          = some (predFrom (Ptr.fake demo3.2.nodes_list_.fake_node) pre) ∧
        t2.block_start_ = demo3.2.block_start_ ∧
        h2.next (predFrom (Ptr.fake demo3.2.nodes_list_.fake_node) pre)
          = some (Ptr.node demo3.1.fresh) ∧
        h2.next (Ptr.node demo3.1.fresh) = some (Ptr.node x0.addr)) ∧
      (∃ pre post, demo3Entries = pre ++ post ∧
        es2 = pre ++ { addr := demo3.1.fresh, key := 31, value := 7,
                       hash := natHash 31 % demo3.2.capacity_ } :: post) :=
  emplace_position natHash natEqual demo3_inv 31 7 (by decide) (by decide!)

end Claims8

/-! ## Clearing a list and moving a table -/

section MoveList

variable {K V : Type}

/-- The loop of `clear_list` releases the nodes it is given, which are
allocated and pairwise distinct, and nothing else. -/
theorem erase_all_spec (rs : List (Entry K V)) :
    ∀ {h : Heap K V} {l : ForwardList},
    (∀ r ∈ rs, ∃ n, h.nodes r.addr = some n) → (addrs rs).Nodup →
    ∃ h2, ForwardList.erase_all l h (rs.map (fun e => Ptr.node e.addr))
        = some (h2, { l with sz := l.sz - rs.length }) ∧
      (∀ a ∈ addrs rs, h2.nodes a = none) ∧
      (∀ x, x ∉ addrs rs → h2.nodes x = h.nodes x) ∧ h2.fake = h.fake ∧ h2.fresh = h.fresh := by
  induction rs with
  | nil =>
    intro h l _ _
    exact ⟨h, rfl, by simp, fun _ _ => rfl, rfl, rfl⟩
  | cons r rs ih =>
    intro h l halloc hnd
    simp only [addrs_cons, List.nodup_cons] at hnd
    obtain ⟨n, hn⟩ := halloc r (List.mem_cons_self _ _)
    have hex : ∃ h1 : Heap K V, h1 = { h with nodes := Function.update h.nodes r.addr none } :=
      ⟨_, rfl⟩
    obtain ⟨h1, hh1⟩ := hex
    have hother : ∀ x, x ≠ r.addr → h1.nodes x = h.nodes x := by
      intro x hx
      rw [hh1]
      simp [Function.update_noteq hx]
    have halloc1 : ∀ r2 ∈ rs, ∃ n, h1.nodes r2.addr = some n := by
      intro r2 hr2
      obtain ⟨n2, hn2⟩ := halloc r2 (List.mem_cons_of_mem _ hr2)
      refine ⟨n2, ?_⟩
      rw [hother _ (fun heq => hnd.1 (heq ▸ mem_addrs hr2))]
      exact hn2
    obtain ⟨h2, her, hfree, hkeep, hfk, hfr⟩ :=
      @ih h1 { l with sz := l.sz - 1 } halloc1 hnd.2
    refine ⟨h2, ?_, ?_, ?_, ?_, ?_⟩
    · simp only [List.map_cons, ForwardList.erase_all, ForwardList.erase, Heap.deallocate, hn,
        Option.bind_eq_bind, Option.some_bind, Option.pure_def, ← hh1]
      rw [her]
      simp only [List.length_cons, Nat.sub_sub, Nat.add_comm 1]
    · intro a ha
      simp only [addrs_cons, List.mem_cons] at ha
      rcases ha with rfl | ha
      · rw [hkeep _ hnd.1, hh1]
        simp
      · exact hfree a ha
    · intro x hx
      simp only [addrs_cons, List.mem_cons, not_or] at hx
      rw [hkeep x hx.2, hother x hx.1]
    · rw [hfk, hh1]
    · rw [hfr, hh1]

theorem nodup_reverse_addrs {es : List (Entry K V)} (hnd : (addrs es).Nodup) :
    (addrs es.reverse).Nodup := by
  unfold addrs at hnd ⊢
  rw [List.map_reverse]
  exact List.nodup_reverse.2 hnd

theorem mem_addrs_reverse {es : List (Entry K V)} {a : Nat} :
    a ∈ addrs es.reverse ↔ a ∈ addrs es := by
  unfold addrs
  rw [List.map_reverse]
  exact List.mem_reverse

/-- The member `clear_list` releases every node of the list and leaves the
list empty; nothing else changes. -/
theorem clear_list_spec {h : Heap K V} {l : ForwardList} {es : List (Entry K V)}
    (hl : IsList h l.fake_node es) (hsz : l.sz = es.length) (hc : h.Consistent) :
    ∃ h2, l.clear_list h = some (h2, { l with sz := 0 }) ∧
      IsList h2 l.fake_node ([] : List (Entry K V)) ∧ h2.Consistent ∧
      (∀ a ∈ addrs es, h2.nodes a = none) ∧
      (∀ x, x ∉ addrs es → h2.nodes x = h.nodes x) ∧
      (∀ j, j ≠ l.fake_node → h2.fake j = h.fake j) ∧ h2.fresh = h.fresh := by
  have halloc : ∀ r ∈ es.reverse, ∃ n, h.nodes r.addr = some n := by
    intro r hr
    exact Seg_alloc hl.2.1 (mem_addrs (List.mem_reverse.1 hr))
  obtain ⟨h1, her, hfree, hkeep, hfk, hfr⟩ :=
    @erase_all_spec K V es.reverse h l halloc (nodup_reverse_addrs hl.2.2)
  have hex : ∃ h2 : Heap K V,
      h2 = { h1 with fake := Function.update h1.fake l.fake_node Ptr.null } := ⟨_, rfl⟩
  obtain ⟨h2, hh2⟩ := hex
  refine ⟨h2, ?_, ?_, ?_, ?_, ?_, ?_, ?_⟩
  · simp only [ForwardList.clear_list, ForwardList.begin, hsz, hl.1, collect_n_spec hl.2.1,
      Option.bind_eq_bind, Option.some_bind, ← List.map_reverse, her, List.length_reverse,
      Nat.sub_self, ForwardList.fake_iterator, Heap.setNext, Option.pure_def, ← hh2]
  · refine ⟨?_, trivial, List.nodup_nil⟩
    rw [hh2]
    simp [headD]
  · intro x hx
    have hx1 : h.fresh ≤ x := by
      rw [hh2] at hx
      exact hfr ▸ hx
    by_cases hm : x ∈ addrs es.reverse
    · rw [hh2]
      exact hfree x hm
    · rw [hh2]
      exact (hkeep x hm).trans (hc x hx1)
  · intro a ha
    rw [hh2]
    exact hfree a (mem_addrs_reverse.2 ha)
  · intro x hx
    rw [hh2]
    exact hkeep x (fun hm => hx (mem_addrs_reverse.1 hm))
  · intro j hj
    rw [hh2]
    simp only [Function.update_noteq hj]
    rw [hfk]
  · rw [hh2]
    exact hfr

end MoveList

section MoveTable

variable {K V : Type} (hash_ : K → Nat) (equal_ : K → K → Bool)

/-- Redirecting the anchor of the first entry's bucket makes a bucket index
that was correct for the sentinel at `old` correct for the table's own
sentinel. -/
theorem patch_first_spec {h : Heap K V} {t : UnorderedMap} {es : List (Entry K V)} {old : Nat}
    (hl : IsList h t.nodes_list_.fake_node es) (hsz : t.size = es.length)
    (hlen : t.block_start_.length = t.capacity_) (hh : ∀ e ∈ es, e.hash < t.capacity_)
    (hanch : ∀ b, b < t.capacity_ →
      t.block_start_[b]? = some (anchorOf (Ptr.fake old) es b)) :
    ∃ bs, UnorderedMap.patch_first h t = some { t with block_start_ := bs } ∧
      bs.length = t.capacity_ ∧
      (∀ b, b < t.capacity_ →
        bs[b]? = some (anchorOf (Ptr.fake t.nodes_list_.fake_node) es b)) ∧
      (∀ x rest, es = x :: rest →
        bs = t.block_start_.set x.hash (Ptr.fake t.nodes_list_.fake_node)) ∧
      (es = [] → bs = t.block_start_) := by
  cases es with
  | nil =>
    refine ⟨t.block_start_, ?_, hlen, ?_, ?_, fun _ => rfl⟩
    · unfold UnorderedMap.patch_first
      rw [if_neg (by simpa using hsz)]
    · intro b hb
      rw [hanch b hb]
      rfl
    · intro x rest hx
      cases hx
  | cons e rest =>
    have heh : e.hash < t.block_start_.length := by
      rw [hlen]
      exact hh e (List.mem_cons_self _ _)
    refine ⟨t.block_start_.set e.hash (Ptr.fake t.nodes_list_.fake_node), ?_, ?_, ?_, ?_, ?_⟩
    · unfold UnorderedMap.patch_first
      rw [if_pos (by rw [hsz]; simp)]
      have hb : t.begin h = Ptr.node e.addr := hl.1
      have hn := hl.2.1.1
      simp only [hb, Heap.get_hash, Heap.node?, hn, Option.map_some', Option.bind_eq_bind,
        Option.some_bind, setSlot_eq heh, ForwardList.fake_iterator, Option.pure_def]
    · rw [List.length_set, hlen]
    · intro b hb
      simp only [anchorOf]
      by_cases hbe : e.hash = b
      · subst hbe
        rw [if_pos rfl, List.getElem?_set_self heh]
      · rw [if_neg hbe, List.getElem?_set_ne hbe, hanch b hb]
        simp only [anchorOf, if_neg hbe]
    · intro x rest2 hx
      cases hx
      rfl
    · intro hx
      cases hx

/-- The move constructor hands the entries, with their nodes, over to the new
table, redirects the anchor of the first bucket to the new sentinel, and
leaves the source empty. -/
theorem UnorderedMap.move_construct_spec {h : Heap K V} {s : UnorderedMap}
    {es : List (Entry K V)} (hi : TableInv hash_ h s es) {this_ : Nat}
    (hne : this_ ≠ s.nodes_list_.fake_node) :
    ∃ h2 d s2, UnorderedMap.move_construct h s this_ = some (h2, d, s2) ∧
      TableInv hash_ h2 d es ∧
      d.capacity_ = s.capacity_ ∧ d.max_load_factor_ = s.max_load_factor_ ∧
      d.nodes_list_.fake_node = this_ ∧
      (∀ x rest, es = x :: rest →
        d.block_start_ = s.block_start_.set x.hash (Ptr.fake this_)) ∧
      (es = [] → d.block_start_ = s.block_start_) ∧
      s2.nodes_list_.fake_node = s.nodes_list_.fake_node ∧ s2.size = 0 ∧
      IsList h2 s.nodes_list_.fake_node ([] : List (Entry K V)) ∧
      h2.nodes = h.nodes ∧ h2.fresh = h.fresh := by
  have hex : ∃ h2 : Heap K V, h2 = { h with
      fake := Function.update (Function.update h.fake this_ (h.fake s.nodes_list_.fake_node))
        s.nodes_list_.fake_node Ptr.null } := ⟨_, rfl⟩
  obtain ⟨h2, hh2⟩ := hex
  have hex2 : ∃ t : UnorderedMap, t =
      { capacity_ := s.capacity_
        max_load_factor_ := s.max_load_factor_
        nodes_list_ := { fake_node := this_, sz := s.nodes_list_.sz }
        block_start_ := s.block_start_ } := ⟨_, rfl⟩
  obtain ⟨t, ht⟩ := hex2
  have hl : IsList h2 t.nodes_list_.fake_node es := by
    refine ⟨?_, Seg_congr hi.list.2.1 (fun a _ => by rw [hh2]), hi.list.2.2⟩
    rw [ht, hh2]
    simp only [Function.update_noteq hne, Function.update_same]
    exact hi.list.1
  have hhash : ∀ e ∈ es, e.hash < t.capacity_ := by
    intro e he
    rw [ht, hi.hash_ok e he]
    exact Nat.mod_lt _ hi.cap_pos
  obtain ⟨bs, hpatch, hlen, hanch, hfirst, hnil⟩ :=
    @patch_first_spec K V h2 t es s.nodes_list_.fake_node hl
      (by rw [ht]; exact hi.sz) (by rw [ht]; exact hi.bs_len) hhash
      (by rw [ht]; exact hi.anchors)
  refine ⟨h2, { t with block_start_ := bs },
    { s with nodes_list_ := { s.nodes_list_ with sz := 0 }, block_start_ := [], capacity_ := 0 },
    ?_, ?_, by rw [ht], by rw [ht], by rw [ht], ?_, ?_, rfl, rfl, ?_, by rw [hh2], by rw [hh2]⟩
  · simp only [UnorderedMap.move_construct, ForwardList.move_construct, ← hh2, ← ht, hpatch,
      Option.bind_eq_bind, Option.some_bind, Option.pure_def]
  · exact
      { list := hl
        sz := by rw [ht]; exact hi.sz
        cap_pos := by rw [ht]; exact hi.cap_pos
        bs_len := hlen
        hash_ok := by rw [ht]; exact hi.hash_ok
        grouped := hi.grouped
        anchors := hanch
        consistent := by
          intro x hx
          rw [hh2] at hx ⊢
          exact hi.consistent x hx }
  · intro x rest hx
    have := hfirst x rest hx
    rw [ht] at this
    exact this
  · intro hx
    have := hnil hx
    rw [ht] at this
    exact this
  · refine ⟨?_, trivial, List.nodup_nil⟩
    rw [hh2]
    simp [headD]

end MoveTable

section MoveAssign

variable {K V : Type} (hash_ : K → Nat) (equal_ : K → K → Bool)

/-- Move assignment for an allocator type that propagates on move assignment
or is always equal: the old entries of the assigned-to table are released,
the entries of the source, with their nodes, are handed over, the anchor of
the first bucket is redirected to the sentinel of the assigned-to table, and
the source is left empty. -/
theorem UnorderedMap.move_assign_spec {h : Heap K V} {d s : UnorderedMap}
    {ed es : List (Entry K V)} (hd : TableInv hash_ h d ed) (hs : TableInv hash_ h s es)
    (hne : d.nodes_list_.fake_node ≠ s.nodes_list_.fake_node)
    (hdis : ∀ a ∈ addrs ed, a ∉ addrs es) (tmp : Nat) :
    ∃ h2 d2 s2, UnorderedMap.move_assign true h d s tmp = some (h2, d2, s2) ∧
      TableInv hash_ h2 d2 es ∧
      d2.capacity_ = s.capacity_ ∧ d2.max_load_factor_ = s.max_load_factor_ ∧
      d2.nodes_list_.fake_node = d.nodes_list_.fake_node ∧
      (∀ x rest, es = x :: rest →
        d2.block_start_ = s.block_start_.set x.hash (Ptr.fake d.nodes_list_.fake_node)) ∧
      (es = [] → d2.block_start_ = s.block_start_) ∧
      s2.nodes_list_.fake_node = s.nodes_list_.fake_node ∧ s2.size = 0 ∧
      IsList h2 s.nodes_list_.fake_node ([] : List (Entry K V)) ∧
      (∀ a ∈ addrs es, h2.nodes a = h.nodes a) ∧ (∀ a ∈ addrs ed, h2.nodes a = none) ∧
      h2.fresh = h.fresh := by
  obtain ⟨h1, hclear1, hl1, hc1, hfree1, hkeep1, hfk1, hfr1⟩ :=
    clear_list_spec hd.list hd.sz hd.consistent
  obtain ⟨h1b, hclear2, _, hc1b, _, hkeep1b, hfk1b, hfr1b⟩ :=
    @clear_list_spec K V h1 { d.nodes_list_ with sz := 0 } [] hl1 rfl hc1
  simp only at hclear2 hfk1b
  have hex : ∃ h3 : Heap K V, h3 = { h1b with
      fake := Function.update (Function.update h1b.fake d.nodes_list_.fake_node
        (h1b.fake s.nodes_list_.fake_node)) s.nodes_list_.fake_node Ptr.null } := ⟨_, rfl⟩
  obtain ⟨h3, hh3⟩ := hex
  have hex2 : ∃ t : UnorderedMap, t =
      { capacity_ := s.capacity_
        max_load_factor_ := s.max_load_factor_
        nodes_list_ := { fake_node := d.nodes_list_.fake_node, sz := s.nodes_list_.sz }
        block_start_ := s.block_start_ } := ⟨_, rfl⟩
  obtain ⟨t, ht⟩ := hex2
  have hnodes3 : ∀ x, x ∉ addrs ed → h3.nodes x = h.nodes x := by
    intro x hx
    rw [hh3]
    simp only
    rw [hkeep1b x (by simp), hkeep1 x hx]
  have hsfake : h1b.fake s.nodes_list_.fake_node = headD es Ptr.null := by
    rw [hfk1b _ (Ne.symm hne), hfk1 _ (Ne.symm hne)]
    exact hs.list.1
  have hl : IsList h3 t.nodes_list_.fake_node es := by
    refine ⟨?_, Seg_congr hs.list.2.1
      (fun a ha => hnodes3 a (fun hm => hdis a hm ha)), hs.list.2.2⟩
    rw [ht, hh3]
    simp only [Function.update_noteq hne, Function.update_same]
    exact hsfake
  have hhash : ∀ e ∈ es, e.hash < t.capacity_ := by
    intro e he
    rw [ht, hs.hash_ok e he]
    exact Nat.mod_lt _ hs.cap_pos
  obtain ⟨bs, hpatch, hlen, hanch, hfirst, hnil⟩ :=
    @patch_first_spec K V h3 t es s.nodes_list_.fake_node hl
      (by rw [ht]; exact hs.sz) (by rw [ht]; exact hs.bs_len) hhash
      (by rw [ht]; exact hs.anchors)
  refine ⟨h3, { t with block_start_ := bs },
    { s with nodes_list_ := { s.nodes_list_ with sz := 0 }, block_start_ := [] },
    ?_, ?_, by rw [ht], by rw [ht], by rw [ht], ?_, ?_, rfl, rfl, ?_, ?_, ?_, ?_⟩
  · simp only [UnorderedMap.move_assign, if_neg hne, UnorderedMap.clear, hclear1,
      ForwardList.move_assign, hclear2, if_true, Option.bind_eq_bind, Option.some_bind,
      Option.pure_def, ← hh3, ← ht, hpatch]
  · exact
      { list := hl
        sz := by rw [ht]; exact hs.sz
        cap_pos := by rw [ht]; exact hs.cap_pos
        bs_len := hlen
        hash_ok := by rw [ht]; exact hs.hash_ok
        grouped := hs.grouped
        anchors := hanch
        consistent := by
          intro x hx
          have hx1 : h1b.fresh ≤ x := by rw [hh3] at hx; exact hx
          rw [hh3]
          exact hc1b x hx1 }
  · intro x rest hx
    have := hfirst x rest hx
    rw [ht] at this
    exact this
  · intro hx
    have := hnil hx
    rw [ht] at this
    exact this
  · refine ⟨?_, trivial, List.nodup_nil⟩
    rw [hh3]
    simp [headD]
  · intro a ha
    exact hnodes3 a (fun hm => hdis a hm ha)
  · intro a ha
    rw [hh3]
    simp only
    rw [hkeep1b a (by simp)]
    exact hfree1 a ha
  · rw [hh3]
    simp only
    rw [hfr1b, hfr1]

end MoveAssign

/-! ## Move construction and move assignment -/

section Claims9

variable {K V : Type} (hash_ : K → Nat) (equal_ : K → K → Bool)

/-- What a caller sees of a table `d` with sentinel `f` that has taken over
the sequence `es` of `s` with the bucket index of `s` patched at the first
bucket. -/
theorem moved_facts {h h2 : Heap K V} {s d : UnorderedMap} {es : List (Entry K V)} {f : Nat}
    (hs : TableInv hash_ h s es) (hd : TableInv hash_ h2 d es)
    (hcap : d.capacity_ = s.capacity_) (hfn : d.nodes_list_.fake_node = f)
    (hfirst : ∀ x rest, es = x :: rest → d.block_start_ = s.block_start_.set x.hash (Ptr.fake f))
    (hnodes : ∀ a ∈ addrs es, h2.nodes a = h.nodes a) :
    (∀ x rest, es = x :: rest →
      s.block_start_[x.hash]? = some (Ptr.fake s.nodes_list_.fake_node) ∧
      d.block_start_[x.hash]? = some (Ptr.fake f) ∧
      ∀ b, b ≠ x.hash → d.block_start_[b]? = s.block_start_[b]?) ∧
    (∀ b, b < d.capacity_ → d.block_start_[b]? = some (anchorOf (Ptr.fake f) es b)) ∧
    (∀ k, UnorderedMap.find hash_ equal_ h2 d k = UnorderedMap.find hash_ equal_ h s k) ∧
    (∀ e ∈ es, h2.node? (Ptr.node e.addr) = h.node? (Ptr.node e.addr)) := by
  refine ⟨?_, ?_, ?_, ?_⟩
  · intro x rest hx
    have hxb : x.hash < s.capacity_ := by
      rw [hs.hash_ok x (by rw [hx]; exact List.mem_cons_self _ _)]
      exact Nat.mod_lt _ hs.cap_pos
    refine ⟨?_, ?_, ?_⟩
    · rw [hs.anchors _ hxb, hx]
      simp [anchorOf]
    · rw [hd.anchors _ (by rw [hcap]; exact hxb), hfn, hx]
      simp [anchorOf]
    · intro b hb
      rw [hfirst x rest hx, List.getElem?_set_ne (Ne.symm hb)]
  · intro b hb
    rw [hd.anchors b hb, hfn]
  · intro k
    rw [find_run hash_ equal_ hd k, find_run hash_ equal_ hs k, hcap]
  · intro e he
    simp only [Heap.node?]
    exact hnodes e.addr (mem_addrs he)

/-- C11 (code bug): move assignment for an allocator type that neither
propagates on move assignment nor is always equal.  With `a` holding the keys
2 and 1 at the nodes 1 and 0 and `b` empty, both well formed, `b =
std::move(a)` leaves `b` iterating copies at the new nodes 3 and 2 instead of
the entries of `a`, leaves `a` with size 2 and its two entries, and leaves
the slot of bucket 1 of `b` pointing to node 1 of `a`, so that `b.find(1)`
returns the cursor on node 0, an entry of `a`. -/
theorem move_assign_element_wise_keeps_source :
    WellFormed natHash natEqual assignInput.1 assignInput.2.1 ∧
    WellFormed natHash natEqual assignInput.1 assignInput.2.2 ∧
    Entries assignInput.1 assignInput.2.1
      [{ addr := 1, key := 2, value := 20, hash := 2 },
       { addr := 0, key := 1, value := 10, hash := 1 }] ∧
    moveResult.isSome = true ∧
    Entries moveOutput.1 moveOutput.2.1
      [{ addr := 3, key := 2, value := 20, hash := 2 },
       { addr := 2, key := 1, value := 10, hash := 1 }] ∧
    moveOutput.2.2.size = 2 ∧
    Entries moveOutput.1 moveOutput.2.2
      [{ addr := 1, key := 2, value := 20, hash := 2 },
       { addr := 0, key := 1, value := 10, hash := 1 }] ∧
    moveOutput.2.1.block_start_[1]? = some (Ptr.node 1) ∧
    UnorderedMap.find natHash natEqual moveOutput.1 moveOutput.2.1 1 = some (Ptr.node 0) := by
  have hw := pair_wellFormed
    (demoStep_reachable (demoStep_reachable demo0_reachable 1 10) 2 20) (by decide!)
  refine ⟨hw.1, hw.2, ⟨by decide!, ⟨by decide!, by decide!, trivial⟩, by decide⟩, by decide!,
    ⟨by decide!, ⟨by decide!, by decide!, trivial⟩, by decide⟩, by decide!,
    ⟨by decide!, ⟨by decide!, by decide!, trivial⟩, by decide⟩, by decide!, by decide!⟩

/-- The move constructor and the swapping branch of move assignment: let `s`
be a well-formed table with iteration sequence `es`.  Move-constructing `d` from `s` at a new address and, for an allocator
type that propagates on move assignment or is always equal (as
`std::allocator` is), move-assigning `s` to another well-formed table `d`
with its own nodes, both return, and afterwards: `d` iterates exactly `es`
(the same nodes, untouched, in the same order) and is well formed with the
capacity and maximum load factor of `s`; the slot of the bucket of the first
entry, which held the sentinel of `s`, holds the sentinel of `d`, and every
other slot is the one of `s`, so that every slot holds the anchor of its
bucket with respect to the sentinel of `d`; `d.find(k)` returns what
`s.find(k)` returned before; and `s` has size 0 and an empty iteration
sequence. -/
theorem move_transfers_entries {h : Heap K V} {s : UnorderedMap} {es : List (Entry K V)}
    (hs : TableInv hash_ h s es) :
    (∀ this_, this_ ≠ s.nodes_list_.fake_node →
      ∃ h2 d s2, UnorderedMap.move_construct h s this_ = some (h2, d, s2) ∧
        Entries h2 d es ∧ TableInv hash_ h2 d es ∧
        d.capacity_ = s.capacity_ ∧ d.max_load_factor_ = s.max_load_factor_ ∧
        d.nodes_list_.fake_node = this_ ∧
        (∀ x rest, es = x :: rest →
          s.block_start_[x.hash]? = some (Ptr.fake s.nodes_list_.fake_node) ∧
          d.block_start_[x.hash]? = some (Ptr.fake this_) ∧
          ∀ b, b ≠ x.hash → d.block_start_[b]? = s.block_start_[b]?) ∧
        (∀ b, b < d.capacity_ → d.block_start_[b]? = some (anchorOf (Ptr.fake this_) es b)) ∧
        (∀ k, UnorderedMap.find hash_ equal_ h2 d k = UnorderedMap.find hash_ equal_ h s k) ∧
        (∀ e ∈ es, h2.node? (Ptr.node e.addr) = h.node? (Ptr.node e.addr)) ∧
        s2.nodes_list_.fake_node = s.nodes_list_.fake_node ∧ s2.size = 0 ∧
        Entries h2 s2 [] ∧ s2.begin h2 = Ptr.null) ∧
    (∀ (d : UnorderedMap) (ed : List (Entry K V)) (tmp : Nat), TableInv hash_ h d ed →
      d.nodes_list_.fake_node ≠ s.nodes_list_.fake_node → (∀ a ∈ addrs ed, a ∉ addrs es) →
      ∃ h2 d2 s2, UnorderedMap.move_assign true h d s tmp = some (h2, d2, s2) ∧
        Entries h2 d2 es ∧ TableInv hash_ h2 d2 es ∧
        d2.capacity_ = s.capacity_ ∧ d2.max_load_factor_ = s.max_load_factor_ ∧
        d2.nodes_list_.fake_node = d.nodes_list_.fake_node ∧
        (∀ x rest, es = x :: rest →
          s.block_start_[x.hash]? = some (Ptr.fake s.nodes_list_.fake_node) ∧
          d2.block_start_[x.hash]? = some (Ptr.fake d.nodes_list_.fake_node) ∧
          ∀ b, b ≠ x.hash → d2.block_start_[b]? = s.block_start_[b]?) ∧
        (∀ b, b < d2.capacity_ →
          d2.block_start_[b]? = some (anchorOf (Ptr.fake d.nodes_list_.fake_node) es b)) ∧
        (∀ k, UnorderedMap.find hash_ equal_ h2 d2 k = UnorderedMap.find hash_ equal_ h s k) ∧
        (∀ e ∈ es, h2.node? (Ptr.node e.addr) = h.node? (Ptr.node e.addr)) ∧
        s2.nodes_list_.fake_node = s.nodes_list_.fake_node ∧ s2.size = 0 ∧
        Entries h2 s2 [] ∧ s2.begin h2 = Ptr.null) := by
  constructor
  · intro this_ hne
    obtain ⟨h2, d, s2, hmv, hinv, hcap, hmlf, hfn, hfirst, _, hfn2, hsz2, hl2, hnodes, _⟩ :=
      UnorderedMap.move_construct_spec hash_ hs hne
    obtain ⟨f1, f2, f3, f4⟩ := moved_facts hash_ equal_ hs hinv hcap hfn hfirst
      (fun a _ => by rw [hnodes])
    refine ⟨h2, d, s2, hmv, hinv.list, hinv, hcap, hmlf, hfn, f1, f2, f3, f4, hfn2, hsz2, ?_, ?_⟩
    · unfold Entries
      rw [hfn2]
      exact hl2
    · simp only [UnorderedMap.begin, ForwardList.begin]
      rw [hfn2]
      exact hl2.1
  · intro d ed tmp hd hne hdis
    obtain ⟨h2, d2, s2, hmv, hinv, hcap, hmlf, hfn, hfirst, _, hfn2, hsz2, hl2, hnodes, _, _⟩ :=
      UnorderedMap.move_assign_spec hash_ hd hs hne hdis tmp
    obtain ⟨f1, f2, f3, f4⟩ := moved_facts hash_ equal_ hs hinv hcap hfn hfirst hnodes
    refine ⟨h2, d2, s2, hmv, hinv.list, hinv, hcap, hmlf, hfn, f1, f2, f3, f4, hfn2, hsz2, ?_, ?_⟩
    · unfold Entries
      rw [hfn2]
      exact hl2
    · simp only [UnorderedMap.begin, ForwardList.begin]
      rw [hfn2]
      exact hl2.1

theorem demo3_beside_new :
    TableInv natHash (UnorderedMap.new demo3.1 1).1 demo3.2 demo3Entries :=
  demo3_inv.frame natHash (fun _ _ => rfl)
    (by
      have hne : demo3.2.nodes_list_.fake_node ≠ 1 := by decide!
      simp [UnorderedMap.new, Function.update_noteq hne])
    demo3_inv.consistent

/-- The moves at the table holding the keys 1, 16 and 3, with a default-constructed
table at address 1 beside it: the table move-constructed at address 5, and
the table at address 1 after the move assignment. -/
theorem move_transfers_entries_witness :
    (∃ h2 d s2, UnorderedMap.move_construct (UnorderedMap.new demo3.1 1).1 demo3.2 5
        = some (h2, d, s2) ∧
      Entries h2 d demo3Entries ∧ TableInv natHash h2 d demo3Entries ∧
      d.capacity_ = demo3.2.capacity_ ∧ d.max_load_factor_ = demo3.2.max_load_factor_ ∧
      d.nodes_list_.fake_node = 5 ∧
      (∀ x rest, demo3Entries = x :: rest →
        demo3.2.block_start_[x.hash]? = some (Ptr.fake demo3.2.nodes_list_.fake_node) ∧
        d.block_start_[x.hash]? = some (Ptr.fake 5) ∧
        ∀ b, b ≠ x.hash → d.block_start_[b]? = demo3.2.block_start_[b]?) ∧
      (∀ b, b < d.capacity_ →
        d.block_start_[b]? = some (anchorOf (Ptr.fake 5) demo3Entries b)) ∧
      (∀ k, UnorderedMap.find natHash natEqual h2 d k
        = UnorderedMap.find natHash natEqual (UnorderedMap.new demo3.1 1).1 demo3.2 k) ∧
      (∀ e ∈ demo3Entries, h2.node? (Ptr.node e.addr)
        = (UnorderedMap.new demo3.1 1).1.node? (Ptr.node e.addr)) ∧
      s2.nodes_list_.fake_node = demo3.2.nodes_list_.fake_node ∧ s2.size = 0 ∧
      Entries h2 s2 [] ∧ s2.begin h2 = Ptr.null) ∧
    (∃ h2 d2 s2, UnorderedMap.move_assign true (UnorderedMap.new demo3.1 1).1
        (UnorderedMap.new demo3.1 1).2 demo3.2 7 = some (h2, d2, s2) ∧
      Entries h2 d2 demo3Entries ∧ TableInv natHash h2 d2 demo3Entries ∧
      d2.capacity_ = demo3.2.capacity_ ∧ d2.max_load_factor_ = demo3.2.max_load_factor_ ∧
      d2.nodes_list_.fake_node = (UnorderedMap.new demo3.1 1).2.nodes_list_.fake_node ∧
      (∀ x rest, demo3Entries = x :: rest →
        demo3.2.block_start_[x.hash]? = some (Ptr.fake demo3.2.nodes_list_.fake_node) ∧
        d2.block_start_[x.hash]?
          = some (Ptr.fake (UnorderedMap.new demo3.1 1).2.nodes_list_.fake_node) ∧
        ∀ b, b ≠ x.hash → d2.block_start_[b]? = demo3.2.block_start_[b]?) ∧
      (∀ b, b < d2.capacity_ → d2.block_start_[b]?
        = some (anchorOf (Ptr.fake (UnorderedMap.new demo3.1 1).2.nodes_list_.fake_node)
            demo3Entries b)) ∧
      (∀ k, UnorderedMap.find natHash natEqual h2 d2 k
        = UnorderedMap.find natHash natEqual (UnorderedMap.new demo3.1 1).1 demo3.2 k) ∧
      (∀ e ∈ demo3Entries, h2.node? (Ptr.node e.addr)
        = (UnorderedMap.new demo3.1 1).1.node? (Ptr.node e.addr)) ∧
      s2.nodes_list_.fake_node = demo3.2.nodes_list_.fake_node ∧ s2.size = 0 ∧
      Entries h2 s2 [] ∧ s2.begin h2 = Ptr.null) :=
  ⟨(move_transfers_entries natHash natEqual demo3_beside_new).1 5 (by decide!),
    (move_transfers_entries natHash natEqual demo3_beside_new).2 (UnorderedMap.new demo3.1 1).2
      [] 7 (new_inv natHash demo3.1 1 demo3_inv.consistent) (by decide!) (by simp)⟩

end Claims9

/-! ## `clear` -/

section Clear

variable {K V : Type} (hash_ : K → Nat) (equal_ : K → K → Bool)

/-- The member `clear()` on a well-formed table: every node is released, the
list is empty, the capacity is 0 and the bucket index is the old one; with
capacity 0, `find`, `at` and `emplace` have no result, whatever the key. -/
theorem clear_spec {h : Heap K V} {t : UnorderedMap} {es : List (Entry K V)}
    (hi : TableInv hash_ h t es) :
    ∃ h2 t2, UnorderedMap.clear h t = some (h2, t2) ∧
      t2.capacity_ = 0 ∧ t2.size = 0 ∧ t2.block_start_ = t.block_start_ ∧
      t2.nodes_list_.fake_node = t.nodes_list_.fake_node ∧
      Entries h2 t2 [] ∧ (∀ a ∈ addrs es, h2.nodes a = none) ∧
      (∀ k, UnorderedMap.find hash_ equal_ h2 t2 k = none) ∧
      (∀ k, UnorderedMap.at_ hash_ equal_ h2 t2 k = none) ∧
      (∀ k v, UnorderedMap.emplace hash_ equal_ h2 t2 k v = none) := by
  obtain ⟨h2, hclear, hl, _, hfree, _, _, _⟩ := clear_list_spec hi.list hi.sz hi.consistent
  refine ⟨h2, { t with nodes_list_ := { t.nodes_list_ with sz := 0 }, capacity_ := 0 }, ?_,
    rfl, rfl, rfl, rfl, hl, hfree, ?_, ?_, ?_⟩
  · simp only [UnorderedMap.clear, hclear, Option.bind_eq_bind, Option.some_bind,
      Option.pure_def]
  · intro k
    simp [UnorderedMap.find]
  · intro k
    simp [UnorderedMap.at_]
  · intro k v
    simp [UnorderedMap.emplace]

/-- In the states reachable without `clear` the capacity is positive, the
bucket index has one slot per bucket, all of them empty when the table has no
entry, and `find`, `at` and `emplace` return. -/
theorem reachable_usable {h : Heap K V} {t : UnorderedMap}
    (hr : Reachable hash_ equal_ h t) :
    0 < t.capacity_ ∧ t.block_start_.length = t.capacity_ ∧
      (t.size = 0 → ∀ b, b < t.capacity_ → t.block_start_[b]? = some Ptr.null) ∧
      (∀ k, hash_ k % t.capacity_ < t.block_start_.length) ∧
      (∀ k, (UnorderedMap.find hash_ equal_ h t k).isSome = true) ∧
      (∀ k, (UnorderedMap.at_ hash_ equal_ h t k).isSome = true) ∧
      (∀ k v, (UnorderedMap.emplace hash_ equal_ h t k v).isSome = true) := by
  obtain ⟨es, hi, _⟩ := reachable_inv hash_ equal_ hr
  refine ⟨hi.cap_pos, hi.bs_len, ?_, ?_, ?_, ?_, ?_⟩
  · intro hsz b hb
    have hes : es = [] := List.eq_nil_of_length_eq_zero (by rw [← hi.sz]; exact hsz)
    rw [hi.anchors b hb, hes]
    rfl
  · intro k
    rw [hi.bs_len]
    exact Nat.mod_lt _ hi.cap_pos
  · intro k
    rw [find_run hash_ equal_ hi k]
    rfl
  · intro k
    rw [at_eq_of_find hash_ equal_ (find_run hash_ equal_ hi k)]
    rfl
  · intro k v
    obtain ⟨h2, t2, p, b, es2, hem, _⟩ := emplace_inv hash_ equal_ hi k v
    rw [hem]
    rfl

end Clear

section Claims10

theorem clearOutput_capacity : clearOutput.2.capacity_ = 0 := by decide!

/-- C21 (code bug): `clear()` sets the capacity to 0 and leaves the bucket
index as it was.  On the reachable table holding the keys 1 and 2 (capacity
15), `clear()` returns a table with size 0 and an empty iteration sequence,
but with capacity 0 and a bucket index that still has 15 slots, of which slot
1 holds the address of a released node and slot 2 the sentinel; the load
factor reads 0 through the guard of `load_factor`, and `find(k)`, `at(k)` and
`emplace(k, v)`, which reduce the hash modulo the capacity, have no result
for any key. -/
theorem clear_leaves_zero_capacity :
    Reachable natHash natEqual clearInput.1 clearInput.2 ∧
    clearInput.2.capacity_ = 15 ∧ clearInput.2.size = 2 ∧
    clearResult.isSome = true ∧
    clearOutput.2.size = 0 ∧ Entries clearOutput.1 clearOutput.2 [] ∧
    clearOutput.2.capacity_ = 0 ∧ clearOutput.2.block_start_.length = 15 ∧
    clearOutput.2.block_start_[1]? = some (Ptr.node 1) ∧ clearOutput.1.nodes 1 = none ∧
    clearOutput.2.block_start_[2]? = some (Ptr.fake 0) ∧
    clearOutput.2.load_factor = 0 ∧
    (∀ k, UnorderedMap.find natHash natEqual clearOutput.1 clearOutput.2 k = none) ∧
    (∀ k, UnorderedMap.at_ natHash natEqual clearOutput.1 clearOutput.2 k = none) ∧
    (∀ k v, UnorderedMap.emplace natHash natEqual clearOutput.1 clearOutput.2 k v = none) := by
  refine ⟨demoStep_reachable (demoStep_reachable demo0_reachable 1 10) 2 20, by decide!,
    by decide!, by decide!, by decide!, ⟨by decide!, trivial, by decide⟩, clearOutput_capacity,
    by decide!, by decide!, by decide!, by decide!, by decide!, ?_, ?_, ?_⟩
  · intro k
    unfold UnorderedMap.find
    rw [if_pos clearOutput_capacity]
  · intro k
    unfold UnorderedMap.at_
    rw [if_pos clearOutput_capacity]
  · intro k v
    unfold UnorderedMap.emplace
    simp only [Heap.allocate]
    rw [if_pos clearOutput_capacity]

end Claims10

/-! ## Insertions that do not rehash -/

section NoRehash

variable {K V : Type} (hash_ : K → Nat) (equal_ : K → K → Bool)

/-- Inserting pairwise distinct keys, none of them in the table, while the
test `load_factor() > max_load_factor()` fails at every size passed: every
call inserts, the capacity stays, and the keys of the table afterwards are
the old ones and the inserted ones. -/
theorem insert_range_no_rehash (hok : EqOK hash_ equal_) (kvs : List (K × V)) :
    ∀ {h : Heap K V} {t : UnorderedMap} {es : List (Entry K V)},
    TableInv hash_ h t es → Uniq equal_ es → Reachable hash_ equal_ h t →
    kvs.Pairwise (fun a b => equal_ a.1 b.1 = false) →
    (∀ e ∈ es, ∀ kv ∈ kvs, equal_ e.key kv.1 = false) →
    (∀ s : Nat, t.size < s → s ≤ t.size + kvs.length →
      ¬ (to_float (to_float ((s : ℕ) : ℚ) / to_float (t.capacity_ : ℚ))
        > t.max_load_factor_)) →
    ∃ h2 t2 es2, UnorderedMap.insert_range hash_ equal_ h t kvs = some (h2, t2) ∧
      TableInv hash_ h2 t2 es2 ∧ Uniq equal_ es2 ∧ Reachable hash_ equal_ h2 t2 ∧
      t2.max_load_factor_ = t.max_load_factor_ ∧ t2.capacity_ = t.capacity_ ∧
      t2.size = t.size + kvs.length ∧
      (∀ e ∈ es2, (∃ e0 ∈ es, e.key = e0.key) ∨ ∃ kv ∈ kvs, e.key = kv.1) := by
  induction kvs with
  | nil =>
    intro h t es hi hu hr _ _ _
    exact ⟨h, t, es, rfl, hi, hu, hr, rfl, rfl, by simp, fun e he => Or.inl ⟨e, he, rfl⟩⟩
  | cons kv rest ih =>
    intro h t es hi hu hr hpw hfresh hload
    rw [List.pairwise_cons] at hpw
    have habs : ∀ e ∈ es, equal_ e.key kv.1 = false :=
      fun e he => hfresh e he kv (List.mem_cons_self _ _)
    have hfind := bucketRun_find_none equal_ habs (hash_ kv.1 % t.capacity_)
    obtain ⟨h1, t1, hem, hinv1, hcap1, hmlf1, _⟩ :=
      emplace_no_rehash hash_ equal_ hi kv.1 kv.2 hfind
        (hload (t.size + 1) (by omega) (by simp only [List.length_cons]; omega))
    have hsame1 : SameEntries
        ({ addr := h.fresh, key := kv.1, value := kv.2, hash := hash_ kv.1 % t.capacity_ } :: es)
        (linkList es
          { addr := h.fresh, key := kv.1, value := kv.2, hash := hash_ kv.1 % t.capacity_ }) :=
      SameEntries.of_perm (linkList_perm _ _)
    have hu0 : Uniq equal_
        ({ addr := h.fresh, key := kv.1, value := kv.2, hash := hash_ kv.1 % t.capacity_ }
          :: es) :=
      Uniq.cons equal_ hu
        (fun x hx => ⟨equal_false_symm equal_ hok.symm (habs x hx), habs x hx⟩)
    have hu1 := Uniq.sameEntries equal_ hu0 hsame1
    have hsz1 : t1.size = t.size + 1 := by
      rw [hinv1.sz, hsame1.length_eq, hi.sz]
      simp
    have hr1 := Reachable.emplace kv.1 kv.2 _ true hr hem
    have hkeys1 : ∀ e ∈ linkList es
        { addr := h.fresh, key := kv.1, value := kv.2, hash := hash_ kv.1 % t.capacity_ },
        e.key = kv.1 ∨ ∃ e0 ∈ es, e.key = e0.key := by
      intro e he
      obtain ⟨e0, he0, _, hkey, _⟩ := hsame1.mem_rev he
      rcases List.mem_cons.1 he0 with rfl | he0
      · exact Or.inl hkey
      · exact Or.inr ⟨e0, he0, hkey⟩
    have hfresh1 : ∀ e ∈ linkList es
        { addr := h.fresh, key := kv.1, value := kv.2, hash := hash_ kv.1 % t.capacity_ },
        ∀ kv2 ∈ rest, equal_ e.key kv2.1 = false := by
      intro e he kv2 hkv2
      rcases hkeys1 e he with hk | ⟨e0, he0, hk⟩
      · rw [hk]
        exact hpw.1 kv2 hkv2
      · rw [hk]
        exact hfresh e0 he0 kv2 (List.mem_cons_of_mem _ hkv2)
    have hstep : UnorderedMap.insert_range hash_ equal_ h t (kv :: rest)
        = UnorderedMap.insert_range hash_ equal_ h1 t1 rest := by
      simp only [UnorderedMap.insert_range, UnorderedMap.insert, hem, Option.bind_eq_bind,
        Option.some_bind]
    obtain ⟨h2, t2, es2, hr2, hinv2, hu2, hreach2, hmlf2, hcap2, hsz2, hkeys2⟩ :=
      ih hinv1 hu1 hr1 hpw.2 hfresh1 (by
        intro s hs1 hs2
        rw [hcap1, hmlf1]
        exact hload s (by omega) (by simp only [List.length_cons]; omega))
    refine ⟨h2, t2, es2, hstep.trans hr2, hinv2, hu2, hreach2, hmlf2.trans hmlf1,
      hcap2.trans hcap1, by rw [hsz2, hsz1]; simp only [List.length_cons]; omega, ?_⟩
    intro e he
    rcases hkeys2 e he with ⟨e1, he1, hk⟩ | ⟨kv2, hkv2, hk⟩
    · rcases hkeys1 e1 he1 with hk1 | ⟨e0, he0, hk1⟩
      · exact Or.inr ⟨kv, List.mem_cons_self _ _, hk.trans hk1⟩
      · exact Or.inl ⟨e0, he0, hk.trans hk1⟩
    · exact Or.inr ⟨kv2, List.mem_cons_of_mem _ hkv2, hk⟩

end NoRehash

section GrowthLimit

theorem range_keys_pairwise (n : Nat) :
    ((List.range n).map (fun i => (i, 0))).Pairwise
      (fun a b : Nat × Nat => natEqual a.1 b.1 = false) := by
  rw [List.pairwise_map]
  refine (List.pairwise_lt_range n).imp ?_
  intro a b hab
  simp only [natEqual, beq_eq_false_iff_ne, ne_eq]
  omega

theorem range_keys_lt (n : Nat) :
    ∀ kv ∈ (List.range n).map (fun i => ((i, 0) : Nat × Nat)), kv.1 < n := by
  intro kv hkv
  obtain ⟨i, hi, rfl⟩ := List.mem_map.1 hkv
  exact List.mem_range.1 hi

theorem growthKeys_length : growthKeys.length = 33554431 := by
  unfold growthKeys
  rw [List.length_map, List.length_range]

/-- The state after `reserve(2 ^ 25)` on the default-constructed table. -/
theorem reserve_growth_state :
    ∃ h t, UnorderedMap.reserve natHash demo0.1 demo0.2 33554432 = some (h, t) ∧
      TableInv natHash h t [] ∧ Reachable natHash natEqual h t ∧
      t.max_load_factor_ = 1 ∧ t.capacity_ = 33554431 ∧ t.size = 0 := by
  have hloop : UnorderedMap.reserve_loop demo0.2.max_load_factor_ 33554432
      (⌈(2 * ((33554432 : ℕ) : ℚ) + 2) / demo0.2.max_load_factor_⌉₊ + 1) demo0.2.capacity_
      = some 33554431 := by decide!
  have hi := new_inv natHash (Heap.empty : Heap Nat Nat) 0 (fun _ _ => rfl)
  obtain ⟨h2, t2, hr, hinv, hcap, hmlf, _⟩ := rehash_spec natHash hi
    (show (UnorderedMap.new (Heap.empty : Heap Nat Nat) 0).2.capacity_ < 33554431 by decide)
  have hres : UnorderedMap.reserve natHash demo0.1 demo0.2 33554432 = some (h2, t2) :=
    (reserve_eq_rehash natHash demo0.1 demo0.2 33554432 hloop).trans hr
  have hinv2 : TableInv natHash h2 t2 [] := hinv
  refine ⟨h2, t2, hres, hinv2, Reachable.reserve 33554432 demo0_reachable hres, hmlf.trans rfl,
    ?_, ?_⟩
  · rw [hcap]
    decide
  · rw [hinv2.sz]
    rfl

end GrowthLimit

section Claims11

/-- C13 (counterexample): the default-constructed table (maximum load factor
1) after `reserve(2 ^ 25)` and the insertion of the `2 ^ 25 - 1` keys
`0, ..., 2 ^ 25 - 2` is reachable and well formed with capacity and size
`2 ^ 25 - 1`.  `emplace` of the absent key `2 ^ 25 - 1` inserts, so that the
new size `2 ^ 25` exceeds the capacity, and leaves the capacity `2 ^ 25 - 1`
instead of making it `2 * capacity + 1`: converted to `float`, the new size
and the capacity are both `2 ^ 25`, so that the test
`load_factor() > max_load_factor()` compares 1 with 1. -/
theorem emplace_keeps_capacity_past_float_precision :
    ∃ h t es h2 t2 p, growthInput = some (h, t) ∧
      Reachable natHash natEqual h t ∧ TableInv natHash h t es ∧ Uniq natEqual es ∧
      t.max_load_factor_ = 1 ∧ t.capacity_ = 33554431 ∧ t.size = 33554431 ∧
      (∀ e ∈ es, natEqual e.key 33554431 = false) ∧
      UnorderedMap.emplace natHash natEqual h t 33554431 0 = some (h2, t2, p, true) ∧
      t2.size = 33554432 ∧ t.capacity_ < t2.size ∧ t2.capacity_ = 33554431 ∧
      t2.capacity_ ≠ 2 * t.capacity_ + 1 ∧
      to_float ((33554432 : ℕ) : ℚ) = 33554432 ∧ to_float ((33554431 : ℕ) : ℚ) = 33554432 := by
  have e1 : to_float ((33554431 : ℕ) : ℚ) = 33554432 := by decide!
  have e2 : to_float ((33554431 + 1 : ℕ) : ℚ) = 33554432 := by decide!
  obtain ⟨h1, t1, hres, hinv1, hreach1, hmlf1, hcap1, hsz1⟩ := reserve_growth_state
  obtain ⟨h, t, es, hins, hinv, hu, hreach, hmlf, hcap, hsz, hkeys⟩ :=
    insert_range_no_rehash natHash natEqual natEqOK growthKeys hinv1 List.Pairwise.nil hreach1
      (range_keys_pairwise 33554431) (fun e he => absurd he (List.not_mem_nil e))
      (by
        intro s _ hs2
        rw [hcap1, hmlf1]
        rw [hsz1, growthKeys_length] at hs2
        exact float_ratio_le_one_of_le s 33554431 (by norm_num) (by omega))
  have hsz3 : t.size = 33554431 := by rw [hsz, hsz1, growthKeys_length]
  have hcap3 : t.capacity_ = 33554431 := hcap.trans hcap1
  have hmlf3 : t.max_load_factor_ = 1 := hmlf.trans hmlf1
  have hin : growthInput = some (h, t) := by
    unfold growthInput
    rw [hres, Option.some_bind]
    exact hins
  have habs : ∀ e ∈ es, natEqual e.key 33554431 = false := by
    intro e he
    rcases hkeys e he with ⟨e0, he0, _⟩ | ⟨kv, hkv, hk⟩
    · exact absurd he0 (List.not_mem_nil e0)
    · have := range_keys_lt 33554431 kv hkv
      simp only [natEqual, beq_eq_false_iff_ne, ne_eq]
      omega
  have hload : ¬ (to_float (to_float ((t.size + 1 : ℕ) : ℚ) / to_float (t.capacity_ : ℚ))
      > t.max_load_factor_) := by
    rw [hsz3, hcap3, hmlf3]
    exact float_ratio_le_one (33554431 + 1) (by rw [e1]; norm_num) (by rw [e1, e2])
  obtain ⟨h2, t2, hem, hinv2, hcap2, _⟩ := emplace_no_rehash natHash natEqual hinv 33554431 0
    (bucketRun_find_none natEqual habs _) hload
  have hsz2 : t2.size = 33554432 := by
    rw [hinv2.sz, (SameEntries.of_perm (linkList_perm _ _)).length_eq, List.length_cons,
      ← hinv.sz, hsz3]
  refine ⟨h, t, es, h2, t2, _, hin, hreach, hinv, hu, hmlf3, hcap3, hsz3, habs, hem, hsz2,
    by rw [hcap3, hsz2]; decide, hcap2.trans hcap3, by rw [hcap2, hcap3]; decide, e2, e1⟩

end Claims11
